import Mathlib

/-!
# Discretize (ebm_native/Discretize.cpp)

A shallow embedding of the `Discretize` entry point of the EBM native library and the
properties of the bins it writes.

Conventions of the embedding

* `FloatEbmType` values are modelled by their order type: NaN, the two infinities and the
  finite values (rationals, a superset of the finite doubles).  Only comparisons and
  `std::isnan` are applied to them by `Discretize`.
* A pointer argument is `none` for `nullptr` and `some buf` for a pointer to the buffer `buf`.
  An access past the end of a buffer is undefined behaviour in C++; the embedding then
  yields `none`.
* The release build is modelled (`NDEBUG`): `EBM_ASSERT` and the debug-only monotonicity
  check are compiled out.  Logging is not modelled.
-/

namespace Ebm

/-! ## Floating point values -/

/-- The values of `FloatEbmType`, up to what comparisons can observe. -/
inductive FloatEbm where
  | nan : FloatEbm
  | negInf : FloatEbm
  | finite (x : ℚ) : FloatEbm
  | posInf : FloatEbm
deriving DecidableEq

namespace FloatEbm

/-- The function `std::isnan`. -/
def isnan : FloatEbm → Bool
  | nan => true
  | _ => false

/-- The function `std::isinf`. -/
def isinf : FloatEbm → Bool
  | negInf => true
  | posInf => true
  | _ => false

/-- IEEE-754 `a <= b`: false as soon as one operand is NaN. -/
def le : FloatEbm → FloatEbm → Bool
  | nan, _ => false
  | _, nan => false
  | negInf, _ => true
  | _, posInf => true
  | finite x, finite y => decide (x ≤ y)
  | finite _, negInf => false
  | posInf, finite _ => false
  | posInf, negInf => false

/-- IEEE-754 `a < b`: false as soon as one operand is NaN. -/
def lt : FloatEbm → FloatEbm → Bool
  | nan, _ => false
  | _, nan => false
  | posInf, _ => false
  | _, negInf => false
  | finite x, finite y => decide (x < y)
  | negInf, finite _ => true
  | negInf, posInf => true
  | finite _, posInf => true

end FloatEbm

open FloatEbm (nan negInf finite posInf)

/-! ## Platform constants and helpers of `EbmInternal.h` -/

/-- Modelled from the spec: the largest value of `size_t`, the platform's addressable-size
type (declared outside the sources at hand); a 64-bit platform is modelled. -/
def SIZE_MAX : Nat := 2 ^ 64 - 1

/-- Modelled from the spec: the largest value of `ptrdiff_t`, the signed index type used for
the search bounds; a 64-bit platform is modelled. -/
def PTRDIFF_MAX : Nat := 2 ^ 63 - 1

/-- Modelled from the spec: the largest value of `IntEbmType`, the signed 64-bit count and
bin type of `ebm_native.h` (not among the sources at hand). -/
def IntEbmType_max : Int := 2 ^ 63 - 1

/-- Modelled from the spec: `sizeof(FloatEbmType)`, a 64-bit floating point value. -/
def sizeofFloatEbmType : Nat := 8

/-- Modelled from the spec: `sizeof(IntEbmType)`, a 64-bit integer. -/
def sizeofIntEbmType : Nat := 8

/-- Modelled from the spec: `IsNumberConvertable<size_t>` of `EbmInternal.h` (not among the
sources at hand) applied to an `IntEbmType`: the count is representable in the
addressable-size type. -/
def IsNumberConvertable (count : Int) : Bool :=
  decide (0 ≤ count ∧ count ≤ (SIZE_MAX : Int))

/-- Modelled from the spec: `IsMultiplyError` of `EbmInternal.h` (not among the sources at
hand): the product of two `size_t` values overflows `size_t`. -/
def IsMultiplyError (num1 num2 : Nat) : Bool :=
  decide (SIZE_MAX < num1 * num2)

/-- The conversion `static_cast<size_t>` of a signed 64-bit value (wraps modulo `2^64`). -/
def toSizeT (x : Int) : Nat := (x % 2 ^ 64).toNat

/-- The conversion `static_cast<ptrdiff_t>` of a `size_t` value (two's complement). -/
def toPtrdiffT (n : Nat) : Int :=
  if n % 2 ^ 64 < 2 ^ 63 then ((n % 2 ^ 64 : Nat) : Int) else ((n % 2 ^ 64 : Nat) : Int) - 2 ^ 64

/-- The conversion `static_cast<IntEbmType>` of a `size_t` value (two's complement). -/
def toIntEbmType (n : Nat) : Int :=
  if n % 2 ^ 64 < 2 ^ 63 then ((n % 2 ^ 64 : Nat) : Int) else ((n % 2 ^ 64 : Nat) : Int) - 2 ^ 64

/-! ## The output buffer and the sample loop -/

/-- The buffer behind `discretizedOut` together with the writes made through `pDiscretized`,
oldest first, each as (index, value). -/
structure OutState where
  buf : List Int
  writes : List (Nat × Int)
deriving DecidableEq

/-- What a call leaves behind: the returned status, the buffer behind `discretizedOut`
(`none` for a null pointer) and the writes made to it, oldest first. -/
structure DiscretizeResult where
  ret : Int
  discretizedOut : Option (List Int)
  writes : List (Nat × Int)
deriving DecidableEq

/-- One pass through the body of a sample loop
`val = *pValue; *pDiscretized = result; ++pDiscretized; ++pValue;`
where `i` is the common offset of `pValue` and `pDiscretized` and `bin` computes `result`. -/
def sampleStep (bin : FloatEbm → Option Int) (featureValues : List FloatEbm) (i : Nat)
    (st : OutState) : Option OutState :=
  match featureValues[i]? with
  | none => none
  | some val =>
    match bin val with
    | none => none
    | some result =>
      if i < st.buf.length then some ⟨st.buf.set i result, st.writes ++ [(i, result)]⟩
      else none

/-- The loop `do { ... } while(pValueEnd != pValue)` over the samples: the body runs once and
then once more for each of the `remaining` samples. -/
def sampleLoop (bin : FloatEbm → Option Int) (featureValues : List FloatEbm) :
    Nat → Nat → OutState → Option OutState
  | 0, i, st => sampleStep bin featureValues i st
  | remaining + 1, i, st =>
    match sampleStep bin featureValues i st with
    | none => none
    | some st1 => sampleLoop bin featureValues remaining (i + 1) st1

/-- The exit of a regime: `ret = IntEbmType { 0 }` after its sample loop. -/
def finishLoop (bin : FloatEbm → Option Int) (featureValues : List FloatEbm) (cSamples : Nat)
    (out : List Int) : Option DiscretizeResult :=
  match sampleLoop bin featureValues (cSamples - 1) 0 ⟨out, []⟩ with
  | none => none
  | some st => some ⟨0, some st.buf, st.writes⟩

/-! ## The bin of one sample in each regime -/

/-- The loop body for `countCuts == 0`. -/
def bin0 (val : FloatEbm) : Int :=
  if val.isnan then 0 else 1

/-- The loop body for `countCuts == 1`. -/
def bin1 (cut0 val : FloatEbm) : Int :=
  let result : Int := if cut0.le val then 2 else 1
  let result : Int := if val.isnan then 0 else result
  result

/-- The loop body for `countCuts == 2`. -/
def bin2 (cut0 cut1 val : FloatEbm) : Int :=
  let result : Int := if cut0.le val then 2 else 1
  let result : Int := if cut1.le val then 3 else result
  let result : Int := if val.isnan then 0 else result
  result

/-- The loop body for `countCuts == 3`. -/
def bin3 (cut0 cut1 cut2 val : FloatEbm) : Int :=
  let result : Int := if cut0.le val then 2 else 1
  let result : Int := if cut1.le val then 3 else result
  let result : Int := if cut2.le val then 4 else result
  let result : Int := if val.isnan then 0 else result
  result

/-- The loop body for `countCuts == 4`. -/
def bin4 (cut0 cut1 cut2 cut3 val : FloatEbm) : Int :=
  let result : Int := if cut0.le val then 2 else 1
  let result : Int := if cut1.le val then 3 else result
  let result : Int := if cut2.le val then 4 else result
  let result : Int := if cut3.le val then 5 else result
  let result : Int := if val.isnan then 0 else result
  result

/-- The loop body for `countCuts == 5`. -/
def bin5 (cut0 cut1 cut2 cut3 cut4 val : FloatEbm) : Int :=
  let result : Int := if cut0.le val then 2 else 1
  let result : Int := if cut1.le val then 3 else result
  let result : Int := if cut2.le val then 4 else result
  let result : Int := if cut3.le val then 5 else result
  let result : Int := if cut4.le val then 6 else result
  let result : Int := if val.isnan then 0 else result
  result

/-- The loop body for `countCuts == 6`. -/
def bin6 (cut0 cut1 cut2 cut3 cut4 cut5 val : FloatEbm) : Int :=
  let result : Int := if cut0.le val then 2 else 1
  let result : Int := if cut1.le val then 3 else result
  let result : Int := if cut2.le val then 4 else result
  let result : Int := if cut3.le val then 5 else result
  let result : Int := if cut4.le val then 6 else result
  let result : Int := if cut5.le val then 7 else result
  let result : Int := if val.isnan then 0 else result
  result

/-- The selection of the padded table: the chain
`countCuts <= 14`, `<= 30`, `<= 62`, `<= 126`, `<= 254`, `<= 510`, `<= 1022` gives the
exponent `k` of `cPower = 2^k` (16, 32, 64, 128, 256, 512, 1024), or none of them applies. -/
def paddedLog (countCuts : Int) : Option Nat :=
  if countCuts ≤ 14 then some 4
  else if countCuts ≤ 30 then some 5
  else if countCuts ≤ 62 then some 6
  else if countCuts ≤ 126 then some 7
  else if countCuts ≤ 254 then some 8
  else if countCuts ≤ 510 then some 9
  else if countCuts ≤ 1022 then some 10
  else none

/-- The initialised part of `cutsLowerBoundInclusiveCopy` in a padded block: minus infinity at
index 0, the `cCuts` cuts copied by `memcpy` from index 1, and NaN from index `cCuts + 1` up
to index `cPower - 2` (the fill loop is skipped when `cCuts == cPower - 2`). -/
def paddedCopy (cPower : Nat) (cutsLowerBoundInclusive : List FloatEbm) (cCuts : Nat) :
    Option (List FloatEbm) :=
  if cCuts ≤ cutsLowerBoundInclusive.length then
    some (FloatEbm.negInf :: (cutsLowerBoundInclusive.take cCuts
      ++ List.replicate (cPower - 2 - cCuts) FloatEbm.nan))
  else none

/-- The unrolled comparisons of a padded block with `cPower = 2^k`, in elements rather than
bytes: `pResult += copy[pResult + (2^(k-1) - 1)] <= val ? 2^(k-1) : 0`, then the same with
`2^(k-2)`, and so on down to `pResult += copy[pResult] <= val ? 1 : 0`. -/
def paddedSearch (copy : List FloatEbm) (val : FloatEbm) : Nat → Nat → Option Nat
  | 0, pResult => some pResult
  | k + 1, pResult =>
    match copy[pResult + (2 ^ k - 1)]? with
    | none => none
    | some cut => paddedSearch copy val k (if cut.le val then pResult + 2 ^ k else pResult)

/-- The loop body of the padded block with `cPower = 2^k`. -/
def binPadded (copy : List FloatEbm) (k : Nat) (val : FloatEbm) : Option Int :=
  match paddedSearch copy val k 0 with
  | none => none
  | some result => some (toIntEbmType result)

/-- The inner loop `do { ... } while(low <= high)` of the general binary search and the
adjustment of `middle` that follows it.  `fuel` bounds the number of passes (the caller gives
`cCuts`, which the loop never uses up). -/
def searchLoop (cutsLowerBoundInclusive : List FloatEbm) (val : FloatEbm) :
    Nat → Int → Int → Option Nat
  | 0, _, _ => none
  | fuel + 1, low, high =>
    let middle : Nat := ((toSizeT low + toSizeT high) % 2 ^ 64) >>> 1
    match cutsLowerBoundInclusive[middle]? with
    | none => none
    | some midVal =>
      let low1 : Int := if midVal.le val then toPtrdiffT middle + 1 else low
      let high1 : Int := if midVal.le val then high else toPtrdiffT middle - 1
      if low1 ≤ high1 then searchLoop cutsLowerBoundInclusive val fuel low1 high1
      else some (if midVal.le val then middle + 2 else middle + 1)

/-- The loop body of the general binary search. -/
def binGeneral (cutsLowerBoundInclusive : List FloatEbm) (cCuts : Nat) (highStart : Int)
    (firstMidVal : FloatEbm) (firstMidLow firstMidHigh : Int) (val : FloatEbm) : Option Int :=
  if !val.isnan then
    let high : Int := if firstMidVal.le val then highStart else firstMidHigh
    let low : Int := if firstMidVal.le val then firstMidLow else 0
    match searchLoop cutsLowerBoundInclusive val cCuts low high with
    | none => none
    | some middle => some (toIntEbmType middle)
  else some (toIntEbmType 0)

/-! ## The entry point -/

/-- The failure exit `ret = IntEbmType { 1 }; goto exit_with_log;`: nothing was written. -/
def exitError (discretizedOut : Option (List Int)) : Option DiscretizeResult :=
  some ⟨1, discretizedOut, []⟩

/-- The end of `Discretize`, from the check `std::numeric_limits<IntEbmType>::max() ==
countCuts` on: the size checks of the cut count and the general binary search. -/
def DiscretizeGeneral (cSamples : Nat) (featureValues : List FloatEbm) (countCuts : Int)
    (cutsLowerBoundInclusive : List FloatEbm) (discretizedOut : List Int) :
    Option DiscretizeResult :=
  let cCuts : Nat := toSizeT countCuts
  if IntEbmType_max = countCuts then exitError (some discretizedOut)
  else if !IsNumberConvertable countCuts then exitError (some discretizedOut)
  else if IsMultiplyError sizeofFloatEbmType cCuts then exitError (some discretizedOut)
  else if SIZE_MAX = cCuts then exitError (some discretizedOut)
  else if PTRDIFF_MAX < cCuts then exitError (some discretizedOut)
  else if SIZE_MAX / 2 + 1 < cCuts then exitError (some discretizedOut)
  else
    let highStart : Int := toPtrdiffT (cCuts - 1)
    let firstMiddle : Nat := toSizeT highStart >>> 1
    match cutsLowerBoundInclusive[firstMiddle]? with
    | none => none
    | some firstMidVal =>
      let firstMidLow : Int := toPtrdiffT firstMiddle + 1
      let firstMidHigh : Int := toPtrdiffT firstMiddle - 1
      finishLoop
        (binGeneral cutsLowerBoundInclusive cCuts highStart firstMidVal firstMidLow firstMidHigh)
        featureValues cSamples discretizedOut

/-- The padded blocks of `Discretize` (`cPower` from 16 to 1024): a block is entered when
its bound on `countCuts` is the first to hold and is carried out when
`cPower * 4 <= cSamples`; otherwise control falls through to the general search. -/
def DiscretizePadded (cSamples : Nat) (featureValues : List FloatEbm) (countCuts : Int)
    (cutsLowerBoundInclusive : List FloatEbm) (discretizedOut : List Int) :
    Option DiscretizeResult :=
  let cCuts : Nat := toSizeT countCuts
  match paddedLog countCuts with
  | some k =>
    if 2 ^ k * 4 ≤ cSamples then
      match paddedCopy (2 ^ k) cutsLowerBoundInclusive cCuts with
      | none => none
      | some copy => finishLoop (binPadded copy k) featureValues cSamples discretizedOut
    else DiscretizeGeneral cSamples featureValues countCuts cutsLowerBoundInclusive discretizedOut
  | none => DiscretizeGeneral cSamples featureValues countCuts cutsLowerBoundInclusive discretizedOut

/-- The part of `Discretize` for `countCuts > 0` and a non-null cut pointer: the unrolled
blocks for one to six cuts, then the padded blocks and the general search. -/
def DiscretizeCuts (cSamples : Nat) (featureValues : List FloatEbm) (countCuts : Int)
    (cutsLowerBoundInclusive : List FloatEbm) (discretizedOut : List Int) :
    Option DiscretizeResult :=
  if countCuts = 1 then do
    let cut0 ← cutsLowerBoundInclusive[0]?
    finishLoop (fun val => some (bin1 cut0 val)) featureValues cSamples discretizedOut
  else if countCuts = 2 then do
    let cut0 ← cutsLowerBoundInclusive[0]?
    let cut1 ← cutsLowerBoundInclusive[1]?
    finishLoop (fun val => some (bin2 cut0 cut1 val)) featureValues cSamples discretizedOut
  else if countCuts = 3 then do
    let cut0 ← cutsLowerBoundInclusive[0]?
    let cut1 ← cutsLowerBoundInclusive[1]?
    let cut2 ← cutsLowerBoundInclusive[2]?
    finishLoop (fun val => some (bin3 cut0 cut1 cut2 val)) featureValues cSamples discretizedOut
  else if countCuts = 4 then do
    let cut0 ← cutsLowerBoundInclusive[0]?
    let cut1 ← cutsLowerBoundInclusive[1]?
    let cut2 ← cutsLowerBoundInclusive[2]?
    let cut3 ← cutsLowerBoundInclusive[3]?
    finishLoop (fun val => some (bin4 cut0 cut1 cut2 cut3 val)) featureValues cSamples
      discretizedOut
  else if countCuts = 5 then do
    let cut0 ← cutsLowerBoundInclusive[0]?
    let cut1 ← cutsLowerBoundInclusive[1]?
    let cut2 ← cutsLowerBoundInclusive[2]?
    let cut3 ← cutsLowerBoundInclusive[3]?
    let cut4 ← cutsLowerBoundInclusive[4]?
    finishLoop (fun val => some (bin5 cut0 cut1 cut2 cut3 cut4 val)) featureValues cSamples
      discretizedOut
  else if countCuts = 6 then do
    let cut0 ← cutsLowerBoundInclusive[0]?
    let cut1 ← cutsLowerBoundInclusive[1]?
    let cut2 ← cutsLowerBoundInclusive[2]?
    let cut3 ← cutsLowerBoundInclusive[3]?
    let cut4 ← cutsLowerBoundInclusive[4]?
    let cut5 ← cutsLowerBoundInclusive[5]?
    finishLoop (fun val => some (bin6 cut0 cut1 cut2 cut3 cut4 cut5 val)) featureValues cSamples
      discretizedOut
  else DiscretizePadded cSamples featureValues countCuts cutsLowerBoundInclusive discretizedOut

/-- The function `Discretize(countSamples, featureValues, countCuts, cutsLowerBoundInclusive,
discretizedOut)`.  The result is `none` when the call runs into undefined behaviour. -/
def Discretize (countSamples : Int) (featureValues : Option (List FloatEbm)) (countCuts : Int)
    (cutsLowerBoundInclusive : Option (List FloatEbm)) (discretizedOut : Option (List Int)) :
    Option DiscretizeResult :=
  if countSamples ≤ 0 then
    if countSamples < 0 then exitError discretizedOut
    else some ⟨0, discretizedOut, []⟩
  else if !IsNumberConvertable countSamples then exitError discretizedOut
  else
    let cSamples : Nat := toSizeT countSamples
    if IsMultiplyError sizeofFloatEbmType cSamples then exitError discretizedOut
    else if IsMultiplyError sizeofIntEbmType cSamples then exitError discretizedOut
    else
      match featureValues with
      | none => exitError discretizedOut
      | some values =>
        match discretizedOut with
        | none => exitError discretizedOut
        | some out =>
          if countCuts ≤ 0 then
            if countCuts < 0 then exitError (some out)
            else finishLoop (fun val => some (bin0 val)) values cSamples out
          else
            match cutsLowerBoundInclusive with
            | none => exitError (some out)
            | some cuts => DiscretizeCuts cSamples values countCuts cuts out

/-! ## Vocabulary of the properties -/

/-- The cut array is strictly increasing: each cut is below the next one, the comparison
`cutsLowerBoundInclusive[iDebug] < cutsLowerBoundInclusive[iDebugInc]` of the debug check. -/
def StrictlyIncreasing : List FloatEbm → Prop
  | a :: b :: rest => a.lt b = true ∧ StrictlyIncreasing (b :: rest)
  | _ => True

/-- Every cut is finite: neither NaN nor an infinity, as the debug check asserts. -/
def AllFinite (cuts : List FloatEbm) : Prop :=
  ∀ c ∈ cuts, c.isnan = false ∧ c.isinf = false

/-- The number of cuts `c` with `c <= v`. -/
def cutsAtOrBelow (cuts : List FloatEbm) (v : FloatEbm) : Nat :=
  cuts.countP (fun c => c.le v)

instance StrictlyIncreasing.decide : (cuts : List FloatEbm) → Decidable (StrictlyIncreasing cuts)
  | [] => isTrue trivial
  | [_] => isTrue trivial
  | a :: b :: rest =>
    match StrictlyIncreasing.decide (b :: rest) with
    | isTrue h =>
      if hab : a.lt b = true then isTrue ⟨hab, h⟩ else isFalse (fun hcon => hab hcon.1)
    | isFalse h => isFalse (fun hcon => h hcon.2)

instance (cuts : List FloatEbm) : Decidable (AllFinite cuts) :=
  inferInstanceAs (Decidable (∀ c ∈ cuts, c.isnan = false ∧ c.isinf = false))

/-- What holds of a loop body whatever the cuts are: the bin is 0 exactly for NaN and lies
between 0 and `countCuts + 1`. -/
def BinInRange (bin : FloatEbm → Option Int) (countCuts : Int) : Prop :=
  ∀ val result, bin val = some result →
    (result = 0 ↔ val.isnan = true) ∧ 0 ≤ result ∧ result ≤ countCuts + 1

/-- The loop body counts the cuts at or below a value that is not NaN. -/
def BinCounts (bin : FloatEbm → Option Int) (cuts : List FloatEbm) : Prop :=
  ∀ val result, bin val = some result → val.isnan = false →
    result = 1 + (cutsAtOrBelow cuts val : Int)

/-- The entries of `copy` at or below `val` are exactly the first `m` ones. -/
def IsThreshold (copy : List FloatEbm) (val : FloatEbm) (m : Nat) : Prop :=
  ∀ (i : Nat) (c : FloatEbm), copy[i]? = some c → (c.le val = true ↔ i < m)

/-- A successful call ran the sample loop of one regime; its loop body gives 0 exactly for
NaN and at most `countCuts + 1`, and counts the cuts at or below the value when the cut
buffer is a strictly increasing array of `countCuts` cuts. -/
def RanLoop (cSamples : Nat) (featureValues : List FloatEbm) (countCuts : Int)
    (cuts : List FloatEbm) (out : List Int) (r : DiscretizeResult) : Prop :=
  ∃ bin, finishLoop bin featureValues cSamples out = some r ∧ BinInRange bin countCuts ∧
    (cuts.Pairwise (fun a b => a.lt b = true) → (cuts.length : Int) = countCuts →
      BinCounts bin cuts)

/-- The checks on the sample count that a call with `0 < countSamples` passes before it
looks at the pointers. -/
def SamplesFit (countSamples : Int) : Prop :=
  IsNumberConvertable countSamples = true ∧
    IsMultiplyError sizeofFloatEbmType (toSizeT countSamples) = false ∧
    IsMultiplyError sizeofIntEbmType (toSizeT countSamples) = false

instance (countSamples : Int) : Decidable (SamplesFit countSamples) := by
  unfold SamplesFit; infer_instance

/-- The checks on the cut count that stand between the padded blocks and the general binary
search. -/
def CutsFit (countCuts : Int) : Prop :=
  IntEbmType_max ≠ countCuts ∧ IsNumberConvertable countCuts = true ∧
    IsMultiplyError sizeofFloatEbmType (toSizeT countCuts) = false ∧
    SIZE_MAX ≠ toSizeT countCuts ∧ ¬ PTRDIFF_MAX < toSizeT countCuts ∧
    ¬ SIZE_MAX / 2 + 1 < toSizeT countCuts

instance (countCuts : Int) : Decidable (CutsFit countCuts) := by
  unfold CutsFit; infer_instance

/-- The two sample counts select the same search for the cut count: with 7 cuts or more, both
are at least, or both are below, four times the size of the padded table chosen for the cut
count, when there is one. -/
def SameSearch (countCuts countSamples1 countSamples2 : Int) : Prop :=
  7 ≤ countCuts → ∀ k, paddedLog countCuts = some k →
    (((2 ^ k * 4 : Nat) : Int) ≤ countSamples1 ↔ ((2 ^ k * 4 : Nat) : Int) ≤ countSamples2)

/-! ## MseRegressionLoss::InjectedApplyUpdate -/

/-- Modelled from the spec: the number of bits of `StorageDataType`, the unsigned integer type
of a packed word (declared in `bridge_c.h`, outside the sources at hand); a 64-bit word is
modelled.  A right shift by this many bits or more is undefined behaviour. -/
def k_cBitsForStorageType : Nat := 64

/-- The declarations used by `InjectedApplyUpdate` that lie outside the sources at hand, taken
as parameters: the arithmetic of `FloatFast` (the literal `0`, `+`, `*` and the conversion
`static_cast<double>`), the two `EbmStats` helpers applied to a gradient, the constant
`k_cItemsPerBitPackNone`, the macro `GET_ITEMS_PER_BIT_PACK` and the helpers
`GetCountBits<StorageDataType>` and `MakeLowMask<StorageDataType>`. -/
structure External (F D : Type) where
  zero : F
  add : F → F → F
  mul : F → F → F
  toDouble : F → D
  ComputeGradientRegressionMSEFromOriginalGradient : F → F
  ComputeSingleSampleSquaredErrorRegressionFromGradient : F → F
  k_cItemsPerBitPackNone : Int
  GET_ITEMS_PER_BIT_PACK : Int → Int → Int
  GetCountBits : Nat → Nat
  MakeLowMask : Nat → Nat

/-- The fields of `ApplyUpdateBridge` that `InjectedApplyUpdate` uses.  A pointer field is the
buffer it points to. -/
structure ApplyUpdateBridge (F D : Type) where
  m_cPack : Int
  m_aUpdateTensorScores : List F
  m_cSamples : Nat
  m_aPacked : List Nat
  m_aWeights : List F
  m_aGradientsAndHessians : List F
  m_metricOut : D
deriving DecidableEq

/-- The variables that change while the loops of `InjectedApplyUpdate` run: the gradient
buffer, the offsets of the cursors `pGradient`, `pInputData` and `pWeight` into their
buffers, `cShift`, `updateScore` and `sumSquareError`, together with the indices of the
packed words read and of the gradients written so far, oldest first. -/
structure ApplyUpdateState (F : Type) where
  aGradients : List F
  pGradient : Nat
  pInputData : Nat
  pWeight : Nat
  cShift : Int
  updateScore : F
  sumSquareError : F
  packedReads : List Nat
  gradientWrites : List Nat
deriving DecidableEq

/-- What a call leaves behind: the bridge after the call, the final offset of `pGradient`, and
the indices of the packed words read and of the gradients written, oldest first. -/
structure ApplyUpdateResult (F D : Type) where
  pData : ApplyUpdateBridge F D
  pGradient : Nat
  packedReads : List Nat
  gradientWrites : List Nat
deriving DecidableEq

/-- The difference `a - b` of two `size_t` values (wraps modulo `2^64`). -/
def subSizeT (a b : Nat) : Nat := (a + (2 ^ 64 - b % 2 ^ 64)) % 2 ^ 64

/-- The update score of the sample at hand: `aUpdateTensorScores[iTensorBin]` with
`iTensorBin = static_cast<size_t>(iTensorBinCombined >> cShift) & maskBits`, and the score set
up before the loops when the tensor is zero-dimensional. -/
def sampleUpdateScore {F : Type} (bCompilerZeroDimensional : Bool)
    (aUpdateTensorScores : List F) (maskBits iTensorBinCombined : Nat)
    (st : ApplyUpdateState F) : Option F :=
  if !bCompilerZeroDimensional then
    if 0 ≤ st.cShift ∧ st.cShift < (k_cBitsForStorageType : Int) then
      aUpdateTensorScores[(iTensorBinCombined >>> st.cShift.toNat) &&& maskBits]?
    else none
  else some st.updateScore

/-- The body of the loop `while(true)` up to its exit tests: the update score of the sample,
the new gradient and its store through `pGradient`, and the metric term of the sample. -/
def applySample {F D : Type} (o : External F D)
    (bCompilerZeroDimensional bCalcMetric bWeight : Bool)
    (aUpdateTensorScores aWeights : List F) (maskBits iTensorBinCombined : Nat)
    (st : ApplyUpdateState F) : Option (ApplyUpdateState F) :=
  match sampleUpdateScore bCompilerZeroDimensional aUpdateTensorScores maskBits
      iTensorBinCombined st with
  | none => none
  | some updateScore =>
    match st.aGradients[st.pGradient]? with
    | none => none
    | some original =>
      let gradient : F :=
        o.add (o.ComputeGradientRegressionMSEFromOriginalGradient original) updateScore
      let st1 : ApplyUpdateState F :=
        { st with
          aGradients := st.aGradients.set st.pGradient gradient
          pGradient := st.pGradient + 1
          updateScore := updateScore
          gradientWrites := st.gradientWrites ++ [st.pGradient] }
      if bCalcMetric then
        let sampleSquaredError : F :=
          o.ComputeSingleSampleSquaredErrorRegressionFromGradient gradient
        if bWeight then
          match aWeights[st.pWeight]? with
          | none => none
          | some weight =>
            some { st1 with
              pWeight := st.pWeight + 1
              sumSquareError := o.add st.sumSquareError (o.mul sampleSquaredError weight) }
        else some { st1 with sumSquareError := o.add st.sumSquareError sampleSquaredError }
      else some st1

/-- The loop `while(true)` over the samples of one packed word (over all samples when the
tensor is zero-dimensional).  `fuel` bounds the number of passes. -/
def applyWord {F D : Type} (o : External F D)
    (bCompilerZeroDimensional bCalcMetric bWeight : Bool)
    (aUpdateTensorScores aWeights : List F) (cSamples cBitsPerItemMax maskBits : Nat)
    (iTensorBinCombined : Nat) : Nat → ApplyUpdateState F → Option (ApplyUpdateState F)
  | 0, _ => none
  | fuel + 1, st =>
    match applySample o bCompilerZeroDimensional bCalcMetric bWeight aUpdateTensorScores
        aWeights maskBits iTensorBinCombined st with
    | none => none
    | some st1 =>
      if bCompilerZeroDimensional then
        if cSamples = st1.pGradient then some st1
        else applyWord o bCompilerZeroDimensional bCalcMetric bWeight aUpdateTensorScores
          aWeights cSamples cBitsPerItemMax maskBits iTensorBinCombined fuel st1
      else
        let st2 : ApplyUpdateState F :=
          { st1 with cShift := toPtrdiffT (subSizeT (toSizeT st1.cShift) cBitsPerItemMax) }
        if st2.cShift < 0 then some st2
        else applyWord o bCompilerZeroDimensional bCalcMetric bWeight aUpdateTensorScores
          aWeights cSamples cBitsPerItemMax maskBits iTensorBinCombined fuel st2

/-- The loop `do { ... } while(pGradientsEnd != pGradient)` over the packed words.  `fuel`
bounds the number of passes; the inner loop is given `cSamples` passes. -/
def applyWords {F D : Type} (o : External F D)
    (bCompilerZeroDimensional bCalcMetric bWeight : Bool)
    (aUpdateTensorScores aWeights : List F) (aPacked : List Nat)
    (cSamples cBitsPerItemMax maskBits : Nat) (cShiftReset : Int) :
    Nat → ApplyUpdateState F → Option (ApplyUpdateState F)
  | 0, _ => none
  | fuel + 1, st =>
    let fetched : Option (Nat × ApplyUpdateState F) :=
      if !bCompilerZeroDimensional then
        match aPacked[st.pInputData]? with
        | none => none
        | some word =>
          some (word, { st with
            pInputData := st.pInputData + 1
            packedReads := st.packedReads ++ [st.pInputData] })
      else some (0, st)
    match fetched with
    | none => none
    | some (iTensorBinCombined, st0) =>
      match applyWord o bCompilerZeroDimensional bCalcMetric bWeight aUpdateTensorScores
          aWeights cSamples cBitsPerItemMax maskBits iTensorBinCombined cSamples st0 with
      | none => none
      | some st1 =>
        if bCompilerZeroDimensional then some st1
        else
          let st2 : ApplyUpdateState F := { st1 with cShift := cShiftReset }
          if cSamples ≠ st2.pGradient then
            applyWords o bCompilerZeroDimensional bCalcMetric bWeight aUpdateTensorScores
              aWeights aPacked cSamples cBitsPerItemMax maskBits cShiftReset fuel st2
          else some st2

/-- The values `InjectedApplyUpdate` sets up before its loops. -/
structure ApplyUpdateLocals (F : Type) where
  cBitsPerItemMax : Nat
  cShift : Int
  cShiftReset : Int
  maskBits : Nat
  updateScore : F

/-- The set-up of `InjectedApplyUpdate`: `updateScore = aUpdateTensorScores[0]` when the
tensor is zero-dimensional, and otherwise the bit width, the first shift, the shift at the
start of a later word and the mask.  Variables the source leaves uninitialised get `0`. -/
def applySetup {F D : Type} (o : External F D) (cCompilerPack : Int)
    (pData : ApplyUpdateBridge F D) : Option (ApplyUpdateLocals F) :=
  if o.k_cItemsPerBitPackNone = cCompilerPack then
    match pData.m_aUpdateTensorScores[0]? with
    | none => none
    | some updateScore => some ⟨0, 0, 0, 0, updateScore⟩
  else
    let cPack : Int := o.GET_ITEMS_PER_BIT_PACK cCompilerPack pData.m_cPack
    let cItemsPerBitPack : Nat := toSizeT cPack
    let cBitsPerItemMax : Nat := o.GetCountBits cItemsPerBitPack
    if cItemsPerBitPack = 0 then none
    else
      some ⟨cBitsPerItemMax,
        toPtrdiffT ((subSizeT pData.m_cSamples 1 % cItemsPerBitPack * cBitsPerItemMax) % 2 ^ 64),
        toPtrdiffT ((subSizeT cItemsPerBitPack 1 * cBitsPerItemMax) % 2 ^ 64),
        o.MakeLowMask cBitsPerItemMax, o.zero⟩

/-- The function `MseRegressionLoss::InjectedApplyUpdate<cCompilerScores, cCompilerPack,
bHessian, bKeepGradHess, bCalcMetric, bWeight>(pData)`.  The result is `none` when the call
runs into undefined behaviour. -/
def InjectedApplyUpdate {F D : Type} (o : External F D) (cCompilerPack : Int)
    (bCalcMetric bWeight : Bool) (pData : ApplyUpdateBridge F D) :
    Option (ApplyUpdateResult F D) :=
  let bCompilerZeroDimensional : Bool := decide (o.k_cItemsPerBitPackNone = cCompilerPack)
  match applySetup o cCompilerPack pData with
  | none => none
  | some locals =>
    match applyWords o bCompilerZeroDimensional bCalcMetric bWeight
        pData.m_aUpdateTensorScores pData.m_aWeights pData.m_aPacked pData.m_cSamples
        locals.cBitsPerItemMax locals.maskBits locals.cShiftReset pData.m_cSamples
        ⟨pData.m_aGradientsAndHessians, 0, 0, 0, locals.cShift, locals.updateScore, o.zero,
          [], []⟩ with
    | none => none
    | some st =>
      some
        { pData :=
            { pData with
              m_aGradientsAndHessians := st.aGradients
              m_metricOut :=
                if bCalcMetric then o.toDouble st.sumSquareError else pData.m_metricOut }
          pGradient := st.pGradient
          packedReads := st.packedReads
          gradientWrites := st.gradientWrites }

/-- An instance of the outside declarations over the integers, for evaluation: exact
arithmetic, the stored gradient taken as the raw one, the square as squared error, `-1` for
`k_cItemsPerBitPackNone`, a compile-time pack count that gives way to the run-time one when it
is `0`, `64 / cItemsPerBitPack` bits per item and the mask `2^cBits - 1`. -/
def exactExternal : External Int Int where
  zero := 0
  add := fun a b => a + b
  mul := fun a b => a * b
  toDouble := fun a => a
  ComputeGradientRegressionMSEFromOriginalGradient := fun g => g
  ComputeSingleSampleSquaredErrorRegressionFromGradient := fun g => g * g
  k_cItemsPerBitPackNone := -1
  GET_ITEMS_PER_BIT_PACK := fun cCompilerPack cRuntimePack =>
    if cCompilerPack = 0 then cRuntimePack else cCompilerPack
  GetCountBits := fun cItemsPerBitPack => 64 / cItemsPerBitPack
  MakeLowMask := fun cBits => 2 ^ cBits - 1

/-! ## Vocabulary of the properties of `InjectedApplyUpdate` -/

/-- The state with the variables of the metric (`pWeight`, `sumSquareError`) put back to their
initial values. -/
def eraseMetric {F : Type} (z : F) (st : ApplyUpdateState F) : ApplyUpdateState F :=
  { st with pWeight := 0, sumSquareError := z }

/-- The gradient of sample `i` after the update: the raw value of the gradient before the call
plus the update score `upd i` of the sample. -/
def updatedGradient {F D : Type} (o : External F D) (aGradients : List F) (upd : Nat → F)
    (i : Nat) : F :=
  o.add (o.ComputeGradientRegressionMSEFromOriginalGradient (aGradients.getD i o.zero)) (upd i)

/-- The metric term of sample `i`: the squared error derived from the gradient `g i`,
multiplied by the weight of the sample when weights are enabled. -/
def metricTerm {F D : Type} (o : External F D) (bWeight : Bool) (aWeights : List F)
    (g : Nat → F) (i : Nat) : F :=
  if bWeight then
    o.mul (o.ComputeSingleSampleSquaredErrorRegressionFromGradient (g i))
      (aWeights.getD i o.zero)
  else o.ComputeSingleSampleSquaredErrorRegressionFromGradient (g i)

/-- The sum of the metric terms of the samples `0` to `j - 1`, added up in index order
starting from `0`. -/
def metricSum {F D : Type} (o : External F D) (bWeight : Bool) (aWeights : List F)
    (g : Nat → F) (j : Nat) : F :=
  (List.range j).foldl (fun s i => o.add s (metricTerm o bWeight aWeights g i)) o.zero

/-- The samples `0` to `j - 1` have been dealt with, in this order, and no other. -/
def SamplesDone {F D : Type} (o : External F D) (bCalcMetric bWeight : Bool)
    (aGradients aWeights : List F) (upd : Nat → F) (j : Nat) (st : ApplyUpdateState F) : Prop :=
  st.pGradient = j ∧ st.aGradients.length = aGradients.length ∧
    (∀ i, i < j → st.aGradients[i]? = some (updatedGradient o aGradients upd i)) ∧
    (∀ i, j ≤ i → st.aGradients[i]? = aGradients[i]?) ∧
    st.gradientWrites = List.range j ∧
    st.pWeight = (if bCalcMetric && bWeight then j else 0) ∧
    st.sumSquareError =
      (if bCalcMetric then metricSum o bWeight aWeights (updatedGradient o aGradients upd) j
        else o.zero)

/-- The number of samples in the first packed word, `((n - 1) mod I) + 1`. -/
def firstWordSamples (n cItemsPerBitPack : Nat) : Nat := (n - 1) % cItemsPerBitPack + 1

/-- The index of the packed word that holds sample `j`, as the claim gives it: `0` for the
samples of the first word, `1 + (j - r) div I` after them. -/
def packedWordIndex (n cItemsPerBitPack j : Nat) : Nat :=
  if j < firstWordSamples n cItemsPerBitPack then 0
  else 1 + (j - firstWordSamples n cItemsPerBitPack) / cItemsPerBitPack

/-- The shift that brings sample `j` to the low bits of its word, as the claim gives it:
`(r - 1 - j) * b` in the first word, `(I - 1 - ((j - r) mod I)) * b` after it. -/
def packedShift (n cItemsPerBitPack cBitsPerItemMax j : Nat) : Nat :=
  if j < firstWordSamples n cItemsPerBitPack then
    (firstWordSamples n cItemsPerBitPack - 1 - j) * cBitsPerItemMax
  else
    (cItemsPerBitPack - 1 - (j - firstWordSamples n cItemsPerBitPack) % cItemsPerBitPack)
      * cBitsPerItemMax

/-- The tensor bin of sample `j`: its word shifted right by its shift and masked. -/
def packedTensorBin (aPacked : List Nat) (n cItemsPerBitPack cBitsPerItemMax maskBits j : Nat) :
    Nat :=
  (aPacked.getD (packedWordIndex n cItemsPerBitPack j) 0
    >>> packedShift n cItemsPerBitPack cBitsPerItemMax j) &&& maskBits

/-- The update score of sample `j`: the single score of a zero-dimensional tensor, and
otherwise the score at the tensor bin of the sample. -/
def updateScoreOf {F D : Type} (o : External F D) (cCompilerPack : Int)
    (pData : ApplyUpdateBridge F D) (j : Nat) : F :=
  if o.k_cItemsPerBitPackNone = cCompilerPack then pData.m_aUpdateTensorScores.getD 0 o.zero
  else
    pData.m_aUpdateTensorScores.getD
      (packedTensorBin pData.m_aPacked pData.m_cSamples
        (toSizeT (o.GET_ITEMS_PER_BIT_PACK cCompilerPack pData.m_cPack))
        (o.GetCountBits (toSizeT (o.GET_ITEMS_PER_BIT_PACK cCompilerPack pData.m_cPack)))
        (o.MakeLowMask
          (o.GetCountBits (toSizeT (o.GET_ITEMS_PER_BIT_PACK cCompilerPack pData.m_cPack))))
        j) o.zero

/-- The call is within the contract of `InjectedApplyUpdate`: at least one sample, a gradient
buffer of `m_cSamples` entries, as many weights when they are read and, for a zero-dimensional
tensor, one update score; otherwise at least one item per word and one bit per item, items
that fit in one word, and for every sample its packed word and the update score at its tensor
bin. -/
def ApplyUpdateReady {F D : Type} (o : External F D) (cCompilerPack : Int)
    (bCalcMetric bWeight : Bool) (pData : ApplyUpdateBridge F D) : Prop :=
  1 ≤ pData.m_cSamples ∧ pData.m_cSamples < 2 ^ 64 ∧
    pData.m_cSamples ≤ pData.m_aGradientsAndHessians.length ∧
    (bCalcMetric = true → bWeight = true → pData.m_cSamples ≤ pData.m_aWeights.length) ∧
    (if o.k_cItemsPerBitPackNone = cCompilerPack then 0 < pData.m_aUpdateTensorScores.length
      else
        1 ≤ toSizeT (o.GET_ITEMS_PER_BIT_PACK cCompilerPack pData.m_cPack) ∧
        1 ≤ o.GetCountBits (toSizeT (o.GET_ITEMS_PER_BIT_PACK cCompilerPack pData.m_cPack)) ∧
        toSizeT (o.GET_ITEMS_PER_BIT_PACK cCompilerPack pData.m_cPack)
          * o.GetCountBits (toSizeT (o.GET_ITEMS_PER_BIT_PACK cCompilerPack pData.m_cPack))
          ≤ k_cBitsForStorageType ∧
        ∀ j, j < pData.m_cSamples →
          packedWordIndex pData.m_cSamples
            (toSizeT (o.GET_ITEMS_PER_BIT_PACK cCompilerPack pData.m_cPack)) j
            < pData.m_aPacked.length ∧
          packedTensorBin pData.m_aPacked pData.m_cSamples
            (toSizeT (o.GET_ITEMS_PER_BIT_PACK cCompilerPack pData.m_cPack))
            (o.GetCountBits (toSizeT (o.GET_ITEMS_PER_BIT_PACK cCompilerPack pData.m_cPack)))
            (o.MakeLowMask
              (o.GetCountBits (toSizeT (o.GET_ITEMS_PER_BIT_PACK cCompilerPack pData.m_cPack))))
            j < pData.m_aUpdateTensorScores.length)

/-! ## Math primitives (libebm/compute/math.hpp) -/

/-- Modelled from the spec: the unary minus of `TFloat` (declared outside the sources at
hand), the IEEE-754 negation: it is exact, swaps the infinities and leaves NaN a NaN. -/
def FloatEbm.neg : FloatEbm → FloatEbm
  | nan => nan
  | negInf => posInf
  | finite x => finite (-x)
  | posInf => negInf

/-- IEEE-754 `a == b`: false as soon as one operand is NaN. -/
def FloatEbm.eq : FloatEbm → FloatEbm → Bool
  | nan, _ => false
  | _, nan => false
  | a, b => decide (a = b)

/-- The operations of the template parameter `TFloat` (and of its integer companion
`TFloat::TInt`) whose results the math primitives do not depend on for their edge cases,
taken as parameters: they are declared outside the sources at hand.  Values of `TFloat` are
modelled by their order type, values of `TFloat::TInt` by 32-bit words. -/
structure TFloatOps where
  add : FloatEbm → FloatEbm → FloatEbm
  sub : FloatEbm → FloatEbm → FloatEbm
  mul : FloatEbm → FloatEbm → FloatEbm
  div : FloatEbm → FloatEbm → FloatEbm
  Round : FloatEbm → FloatEbm
  FusedMultiplyAdd : FloatEbm → FloatEbm → FloatEbm → FloatEbm
  FusedNegateMultiplyAdd : FloatEbm → FloatEbm → FloatEbm → FloatEbm
  ReinterpretInt : FloatEbm → Nat
  ReinterpretFloat : Nat → FloatEbm
  ofInt : Nat → FloatEbm

/-- Modelled from the spec: the compare-select `IfLess(cmp1, cmp2, trueVal, falseVal)` of
`TFloat` (declared outside the sources at hand): `trueVal` when `cmp1 < cmp2`, else
`falseVal`. -/
def IfLess (cmp1 cmp2 trueVal falseVal : FloatEbm) : FloatEbm :=
  if cmp1.lt cmp2 then trueVal else falseVal

/-- Modelled from the spec: the compare-select `IfEqual(cmp1, cmp2, trueVal, falseVal)` of
`TFloat` (declared outside the sources at hand): `trueVal` when `cmp1 == cmp2`, else
`falseVal`. -/
def IfEqual (cmp1 cmp2 trueVal falseVal : FloatEbm) : FloatEbm :=
  if cmp1.eq cmp2 then trueVal else falseVal

/-- Modelled from the spec: the select `IfNaN(cmp, trueVal, falseVal)` of `TFloat` (declared
outside the sources at hand): `trueVal` when `cmp` is NaN, else `falseVal`. -/
def IfNaN (cmp trueVal falseVal : FloatEbm) : FloatEbm :=
  if cmp.isnan then trueVal else falseVal

/-- Modelled from the spec: the select `IfThenElse(cmp, trueVal, falseVal)` on the outcome of a
comparison (declared outside the sources at hand). -/
def IfThenElse {α : Type} (cmp : Bool) (trueVal falseVal : α) : α :=
  if cmp then trueVal else falseVal

/-- The function `Mantissa32(val)`:
`ReinterpretFloat((ReinterpretInt(val) & 0x007FFFFF) | 0x3F000000)`. -/
def Mantissa32 (o : TFloatOps) (val : FloatEbm) : FloatEbm :=
  o.ReinterpretFloat ((o.ReinterpretInt val &&& 0x007FFFFF) ||| 0x3F000000)

/-- The function `Exponent32(val)`: `((ReinterpretInt(val) << 1) >> 24) - 0x7F`, on 32-bit
words (the difference wraps modulo `2^32`). -/
def Exponent32 (o : TFloatOps) (val : FloatEbm) : Nat :=
  ((((o.ReinterpretInt val <<< 1) % 2 ^ 32) >>> 24) + (2 ^ 32 - 0x7F)) % 2 ^ 32

/-- The function `Power2(val)`:
`ReinterpretFloat(ReinterpretInt(val + TFloat{8388608 + 127}) << 23)`. -/
def Power2 (o : TFloatOps) (val : FloatEbm) : FloatEbm :=
  o.ReinterpretFloat ((o.ReinterpretInt (o.add val (finite 8388735)) <<< 23) % 2 ^ 32)

/-- The function `Polynomial(x, c0, ..., c5)`, over any type with the product and the fused
multiply-add it uses. -/
def Polynomial6 {T : Type} (mul : T → T → T) (FusedMultiplyAdd : T → T → T → T)
    (x c0 c1 c2 c3 c4 c5 : T) : T :=
  let x2 := mul x x
  let x4 := mul x2 x2
  FusedMultiplyAdd (FusedMultiplyAdd c3 x c2) x2
    (FusedMultiplyAdd (FusedMultiplyAdd c5 x c4) x4 (FusedMultiplyAdd c1 x c0))

/-- The function `Polynomial(x, c0, ..., c8)`, over any type with the sum, the product and the
fused multiply-add it uses. -/
def Polynomial9 {T : Type} (add mul : T → T → T) (FusedMultiplyAdd : T → T → T → T)
    (x c0 c1 c2 c3 c4 c5 c6 c7 c8 : T) : T :=
  let x2 := mul x x
  let x4 := mul x2 x2
  let x8 := mul x4 x4
  FusedMultiplyAdd
    (FusedMultiplyAdd (FusedMultiplyAdd c7 x c6) x2 (FusedMultiplyAdd c5 x c4)) x4
    (FusedMultiplyAdd (FusedMultiplyAdd c3 x c2) x2
      (add (FusedMultiplyAdd c1 x c0) (mul c8 x8)))

/-- The constant `k_expUnderflow = -87.25f` of `Exp32`. -/
def k_expUnderflow : ℚ := mkRat (-349) 4

/-- The constant `k_expOverflow = 87.25f` of `Exp32`. -/
def k_expOverflow : ℚ := mkRat 349 4

/-- The value computed by `Exp32` before its edge cases are selected: the range reduction,
the polynomial and the scaling by `Power2(rounded)`.  Float literals stand for the `float`
they denote. -/
def Exp32Core (o : TFloatOps) (bNegateInput : Bool) (val : FloatEbm) : FloatEbm :=
  let x : FloatEbm := if bNegateInput then val.neg else val
  let rounded : FloatEbm := o.Round (o.mul x (finite (mkRat 12102203 8388608)))
  let x : FloatEbm := o.FusedNegateMultiplyAdd rounded (finite (mkRat 355 512)) x
  let x : FloatEbm := o.FusedNegateMultiplyAdd rounded (finite (mkRat (-14581891) 68719476736)) x
  let x2 : FloatEbm := o.mul x x
  let ret : FloatEbm := Polynomial6 o.mul o.FusedMultiplyAdd x
    (o.div (finite 1) (finite 2)) (o.div (finite 1) (finite 6)) (o.div (finite 1) (finite 24))
    (o.div (finite 1) (finite 120)) (o.div (finite 1) (finite 720))
    (o.div (finite 1) (finite 5040))
  let ret : FloatEbm := o.FusedMultiplyAdd ret x2 x
  let rounded2 : FloatEbm := Power2 o rounded
  o.mul (o.add ret (finite 1)) rounded2

/-- The function `Exp32<TFloat, bNegateInput, bNaNPossible, bUnderflowPossible,
bOverflowPossible>(val)` in the release build. -/
def Exp32 (o : TFloatOps)
    (bNegateInput bNaNPossible bUnderflowPossible bOverflowPossible : Bool)
    (val : FloatEbm) : FloatEbm :=
  let ret : FloatEbm := Exp32Core o bNegateInput val
  let ret : FloatEbm :=
    if bOverflowPossible then
      if bNegateInput then IfLess val (finite (-k_expOverflow)) posInf ret
      else IfLess (finite k_expOverflow) val posInf ret
    else ret
  let ret : FloatEbm :=
    if bUnderflowPossible then
      if bNegateInput then IfLess (finite (-k_expUnderflow)) val (finite 0) ret
      else IfLess val (finite k_expUnderflow) (finite 0) ret
    else ret
  let ret : FloatEbm := if bNaNPossible then IfNaN val val ret else ret
  ret

/-- Modelled from the spec: `std::numeric_limits<float>::min()`, the smallest positive normal
32-bit float `2^-126` (the limits of `TFloat::T` are declared outside the sources at hand). -/
def floatMin : ℚ := mkRat 1 (2 ^ 126)

/-- The value computed by `Log32` before its edge cases are selected: the decomposition in
mantissa and exponent, the polynomial, the recombination and the negation of the output when
it is asked for.  Float literals stand for the `float` they denote. -/
def Log32Core (o : TFloatOps) (bNegateOutput : Bool) (val : FloatEbm) : FloatEbm :=
  let x : FloatEbm := Mantissa32 o val
  let exponent : Nat := Exponent32 o val
  let comparison : Bool := x.le (finite (mkRat 11863283 16777216))
  let x : FloatEbm := IfThenElse comparison (o.add x x) x
  let exponent : Nat := IfThenElse (!comparison) ((exponent + 1) % 2 ^ 32) exponent
  let exponentFloat : FloatEbm := o.ofInt exponent
  let x : FloatEbm := o.sub x (finite 1)
  let ret : FloatEbm := Polynomial9 o.add o.mul o.FusedMultiplyAdd x
    (finite (mkRat 5592405 16777216)) (finite (mkRat (-4194303) 16777216))
    (finite (mkRat 3355563 16777216)) (finite (mkRat (-699109) 4194304))
    (finite (mkRat 9562559 67108864)) (finite (mkRat (-16670031) 134217728))
    (finite (mkRat 7836301 67108864)) (finite (mkRat (-1931831) 16777216))
    (finite (mkRat 9445819 134217728))
  let x2 : FloatEbm := o.mul x x
  let ret : FloatEbm := o.mul ret (o.mul x2 x)
  let ret : FloatEbm :=
    o.FusedMultiplyAdd exponentFloat (finite (mkRat (-14581891) 68719476736)) ret
  let ret : FloatEbm := o.add ret (o.FusedNegateMultiplyAdd x2 (finite (mkRat 1 2)) x)
  let ret : FloatEbm := o.FusedMultiplyAdd exponentFloat (finite (mkRat 355 512)) ret
  if bNegateOutput then ret.neg else ret

/-- The function `Log32<TFloat, bNegateOutput, bNaNPossible, bNegativePossible, bZeroPossible,
bPositiveInfinityPossible>(val)` in the release build. -/
def Log32 (o : TFloatOps)
    (bNegateOutput bNaNPossible bNegativePossible bZeroPossible bPositiveInfinityPossible : Bool)
    (val : FloatEbm) : FloatEbm :=
  let ret : FloatEbm := Log32Core o bNegateOutput val
  let ret : FloatEbm :=
    if bZeroPossible then
      IfLess val (finite floatMin) (if bNegateOutput then posInf else negInf) ret
    else ret
  let ret : FloatEbm :=
    if bNegativePossible then IfLess val (finite 0) nan ret else ret
  let ret : FloatEbm :=
    if bNaNPossible then
      if bPositiveInfinityPossible then
        IfLess val posInf ret (if bNegateOutput then val.neg else val)
      else IfNaN val val ret
    else
      if bPositiveInfinityPossible then
        IfEqual posInf val (if bNegateOutput then negInf else posInf) ret
      else ret
  ret

/-- An instance of the operations of `TFloat` for evaluation: exact arithmetic on the finite
values, NaN as soon as an operand is not finite, and all words and conversions `0`. -/
def exactTFloatOps : TFloatOps where
  add := fun a b => match a, b with
    | finite x, finite y => finite (x + y)
    | _, _ => nan
  sub := fun a b => match a, b with
    | finite x, finite y => finite (x - y)
    | _, _ => nan
  mul := fun a b => match a, b with
    | finite x, finite y => finite (x * y)
    | _, _ => nan
  div := fun a b => match a, b with
    | finite x, finite y => finite (x / y)
    | _, _ => nan
  Round := fun a => match a with
    | finite x => finite (round x)
    | _ => nan
  FusedMultiplyAdd := fun a b c => match a, b, c with
    | finite x, finite y, finite z => finite (x * y + z)
    | _, _, _ => nan
  FusedNegateMultiplyAdd := fun a b c => match a, b, c with
    | finite x, finite y, finite z => finite (z - x * y)
    | _, _, _ => nan
  ReinterpretInt := fun _ => 0
  ReinterpretFloat := fun _ => finite 0
  ofInt := fun _ => finite 0

/-! ## Softmax (ebm_native/Discretize.cpp) -/

/-- The operations on `FloatEbmType` that `Softmax` uses, taken as parameters: `std::exp`,
`+` and `/` of the double precision arithmetic. -/
structure FloatEbmOps where
  exp : FloatEbm → FloatEbm
  add : FloatEbm → FloatEbm → FloatEbm
  div : FloatEbm → FloatEbm → FloatEbm

/-- The buffer behind `probabilitiesOut` (`none` for a null pointer) and the indices written
through it, oldest first. -/
structure SoftmaxState where
  probabilitiesOut : Option (List FloatEbm)
  writes : List Nat
deriving DecidableEq

/-- How a call of `Softmax` ends: the process is terminated by `exit(status)` and nothing is
returned, or the call returns `ret`.  Both come with the buffer behind `probabilitiesOut` and
the indices written to it, as they are at that point. -/
inductive SoftmaxOutcome where
  | exited (status : Int) (probabilitiesOut : Option (List FloatEbm)) (writes : List Nat)
  | returned (ret : Int) (probabilitiesOut : Option (List FloatEbm)) (writes : List Nat)
deriving DecidableEq

/-- The body of the loop of `Softmax`:
`odds = std::exp(logits[i]); probabilitiesOut[i] = odds / (FloatEbmType { 1 } + odds);`. -/
def softmaxStep (o : FloatEbmOps) (logits : Option (List FloatEbm)) (i : Nat)
    (st : SoftmaxState) : Option SoftmaxState :=
  match logits with
  | none => none
  | some aLogits =>
    match aLogits[i]? with
    | none => none
    | some logit =>
      let odds : FloatEbm := o.exp logit
      match st.probabilitiesOut with
      | none => none
      | some out =>
        if i < out.length then
          some ⟨some (out.set i (o.div odds (o.add (finite 1) odds))), st.writes ++ [i]⟩
        else none

/-- The loop `for(size_t i = 0; i < static_cast<size_t>(countSamples); ++i)` of `Softmax`, from
the test of `i` on.  `fuel` bounds the number of tests (the caller gives one more than the
number of samples). -/
def softmaxLoop (o : FloatEbmOps) (cSamples : Nat) (logits : Option (List FloatEbm)) :
    Nat → Nat → SoftmaxState → Option SoftmaxState
  | 0, _, _ => none
  | fuel + 1, i, st =>
    if i < cSamples then
      match softmaxStep o logits i st with
      | none => none
      | some st1 => softmaxLoop o cSamples logits fuel (i + 1) st1
    else some st

/-- The function `Softmax(countTargetClasses, countSamples, logits, probabilitiesOut)`.  The
result is `none` when the call runs into undefined behaviour. -/
def Softmax (o : FloatEbmOps) (countTargetClasses countSamples : Int)
    (logits probabilitiesOut : Option (List FloatEbm)) : Option SoftmaxOutcome :=
  if 2 ≠ countTargetClasses then some (SoftmaxOutcome.exited 1 probabilitiesOut [])
  else
    match softmaxLoop o (toSizeT countSamples) logits (toSizeT countSamples + 1) 0
        ⟨probabilitiesOut, []⟩ with
    | none => none
    | some st => some (SoftmaxOutcome.returned 0 st.probabilitiesOut st.writes)

/-- An instance of the operations of `Softmax` for evaluation: exact sum and quotient of
finite values, and `2^x` at the natural numbers `x` in place of `std::exp`. -/
def exactFloatEbmOps : FloatEbmOps where
  exp := fun a => match a with
    | finite x => finite (2 ^ x.floor.toNat)
    | negInf => finite 0
    | b => b
  add := fun a b => match a, b with
    | finite x, finite y => finite (x + y)
    | _, _ => nan
  div := fun a b => match a, b with
    | finite x, finite y => finite (x / y)
    | _, _ => nan

/-! ## The fill of the padded table, write by write -/

/-- The array `cutsLowerBoundInclusiveCopy[1023]` (`none` for an entry that is not
initialised) and the stores made to it, oldest first, each as (index, value). -/
structure CopyState where
  cutsLowerBoundInclusiveCopy : List (Option FloatEbm)
  writes : List (Nat × FloatEbm)
deriving DecidableEq

/-- A store `cutsLowerBoundInclusiveCopy[i] = v`; past the end of the array it is undefined
behaviour. -/
def copyStore (st : CopyState) (i : Nat) (v : FloatEbm) : Option CopyState :=
  if i < st.cutsLowerBoundInclusiveCopy.length then
    some ⟨st.cutsLowerBoundInclusiveCopy.set i (some v), st.writes ++ [(i, v)]⟩
  else none

/-- The call `memcpy(1 + cutsLowerBoundInclusiveCopy, cutsLowerBoundInclusive,
sizeof(*cutsLowerBoundInclusive) * cCuts)`, element by element: `remaining` elements are
still to be copied and `i` have been. -/
def copyCuts (cutsLowerBoundInclusive : List FloatEbm) :
    Nat → Nat → CopyState → Option CopyState
  | 0, _, st => some st
  | remaining + 1, i, st =>
    match cutsLowerBoundInclusive[i]? with
    | none => none
    | some cut =>
      match copyStore st (1 + i) cut with
      | none => none
      | some st1 => copyCuts cutsLowerBoundInclusive remaining (i + 1) st1

/-- The loop `do { *pFill = NaN; ++pFill; } while(pEndFill != pFill)`, with the pointers as
indices into the array.  `fuel` bounds the number of passes. -/
def fillLoop (pEndFill : Nat) : Nat → Nat → CopyState → Option CopyState
  | 0, _, _ => none
  | fuel + 1, pFill, st =>
    match copyStore st pFill nan with
    | none => none
    | some st1 =>
      if pEndFill ≠ pFill + 1 then fillLoop pEndFill fuel (pFill + 1) st1 else some st1

/-- The preparation of `cutsLowerBoundInclusiveCopy` in the padded block of `cPower`: minus
infinity at index 0, the `memcpy` of the cuts and, unless `cCuts == cPower - 2`, the fill
loop from `cCuts + 1` to `cPower - 1`. -/
def paddedFill (cPower : Nat) (cutsLowerBoundInclusive : List FloatEbm) (cCuts : Nat) :
    Option CopyState :=
  match copyStore ⟨List.replicate 1023 none, []⟩ 0 negInf with
  | none => none
  | some st0 =>
    match copyCuts cutsLowerBoundInclusive cCuts 0 st0 with
    | none => none
    | some st1 =>
      if cCuts ≠ cPower - 2 then fillLoop (cPower - 1) 1023 (cCuts + 1) st1 else some st1

/-- The indices of `cutsLowerBoundInclusiveCopy` read by the comparisons of `paddedSearch`, in
the order of the comparisons. -/
def paddedSearchReads (copy : List FloatEbm) (val : FloatEbm) : Nat → Nat → List Nat
  | 0, _ => []
  | k + 1, pResult =>
    (pResult + (2 ^ k - 1)) ::
      match copy[pResult + (2 ^ k - 1)]? with
      | none => []
      | some cut =>
        paddedSearchReads copy val k (if cut.le val then pResult + 2 ^ k else pResult)

/-- The entries are non-decreasing when a NaN counts as greater than everything: each entry is
at or below the next one, or the next one is NaN. -/
def NonDecreasingNanLast : List FloatEbm → Prop
  | a :: b :: rest => (b.isnan = true ∨ a.le b = true) ∧ NonDecreasingNanLast (b :: rest)
  | _ => True

instance NonDecreasingNanLast.decide :
    (copy : List FloatEbm) → Decidable (NonDecreasingNanLast copy)
  | [] => isTrue trivial
  | [_] => isTrue trivial
  | a :: b :: rest =>
    match NonDecreasingNanLast.decide (b :: rest) with
    | isTrue h =>
      if hab : b.isnan = true ∨ a.le b = true then isTrue ⟨hab, h⟩
      else isFalse (fun hcon => hab hcon.1)
    | isFalse h => isFalse (fun hcon => h hcon.2)

/-! ## The passes of the general binary search -/

/-- Modelled from the spec: `IsAddError` of `EbmInternal.h` (not among the sources at hand):
the sum of two `size_t` values overflows `size_t`. -/
def IsAddError (num1 num2 : Nat) : Bool :=
  decide (SIZE_MAX < num1 + num2)

/-- One pass of the inner loop of the general binary search: `low` and `high` on entry, the
index `middle` it reads, and `low` and `high` after the update. -/
structure SearchPass where
  low : Int
  high : Int
  middle : Nat
  lowNext : Int
  highNext : Int
deriving DecidableEq

/-- The passes of `searchLoop`, in order.  A pass whose read falls outside the cut buffer is
recorded with its bounds unchanged and is the last one. -/
def searchLoopTrace (cutsLowerBoundInclusive : List FloatEbm) (val : FloatEbm) :
    Nat → Int → Int → List SearchPass
  | 0, _, _ => []
  | fuel + 1, low, high =>
    let middle : Nat := ((toSizeT low + toSizeT high) % 2 ^ 64) >>> 1
    match cutsLowerBoundInclusive[middle]? with
    | none => [⟨low, high, middle, low, high⟩]
    | some midVal =>
      let low1 : Int := if midVal.le val then toPtrdiffT middle + 1 else low
      let high1 : Int := if midVal.le val then high else toPtrdiffT middle - 1
      ⟨low, high, middle, low1, high1⟩ ::
        (if low1 ≤ high1 then searchLoopTrace cutsLowerBoundInclusive val fuel low1 high1
        else [])

/-- The `EBM_ASSERT`s of one pass of the inner loop of the general binary search, in the order
of the source. -/
def SearchAsserts (cCuts : Nat) (highStart : Int) (pass : SearchPass) : Prop :=
  (0 ≤ pass.low ∧ toSizeT pass.low < cCuts) ∧
  (0 ≤ pass.high ∧ toSizeT pass.high < cCuts) ∧
  pass.low ≤ pass.high ∧
  IsAddError (toSizeT pass.low) (toSizeT pass.high) = false ∧
  pass.middle ≤ toSizeT pass.high ∧
  pass.middle < cCuts ∧
  pass.middle < PTRDIFF_MAX ∧
  (0 ≤ pass.lowNext ∧ toSizeT pass.lowNext ≤ cCuts) ∧
  (-1 ≤ pass.highNext ∧ pass.highNext ≤ highStart)

instance (cCuts : Nat) (highStart : Int) (pass : SearchPass) :
    Decidable (SearchAsserts cCuts highStart pass) := by
  unfold SearchAsserts; infer_instance

/-! ## The samples of each packed word -/

/-- The number of samples that each pass of the loop over the packed words deals with, pass by
pass: how far the inner loop of the pass moves `pGradient`.  The recursion is that of
`applyWords`. -/
def applyWordsSamples {F D : Type} (o : External F D)
    (bCompilerZeroDimensional bCalcMetric bWeight : Bool)
    (aUpdateTensorScores aWeights : List F) (aPacked : List Nat)
    (cSamples cBitsPerItemMax maskBits : Nat) (cShiftReset : Int) :
    Nat → ApplyUpdateState F → List Nat
  | 0, _ => []
  | fuel + 1, st =>
    let fetched : Option (Nat × ApplyUpdateState F) :=
      if !bCompilerZeroDimensional then
        match aPacked[st.pInputData]? with
        | none => none
        | some word =>
          some (word, { st with
            pInputData := st.pInputData + 1
            packedReads := st.packedReads ++ [st.pInputData] })
      else some (0, st)
    match fetched with
    | none => []
    | some (iTensorBinCombined, st0) =>
      match applyWord o bCompilerZeroDimensional bCalcMetric bWeight aUpdateTensorScores
          aWeights cSamples cBitsPerItemMax maskBits iTensorBinCombined cSamples st0 with
      | none => []
      | some st1 =>
        (st1.pGradient - st.pGradient) ::
          (if bCompilerZeroDimensional then []
          else
            let st2 : ApplyUpdateState F := { st1 with cShift := cShiftReset }
            if cSamples ≠ st2.pGradient then
              applyWordsSamples o bCompilerZeroDimensional bCalcMetric bWeight
                aUpdateTensorScores aWeights aPacked cSamples cBitsPerItemMax maskBits
                cShiftReset fuel st2
            else [])

/-- The number of samples that each pass of the outer loop of `InjectedApplyUpdate` deals
with, pass by pass. -/
def InjectedApplyUpdateSamples {F D : Type} (o : External F D) (cCompilerPack : Int)
    (bCalcMetric bWeight : Bool) (pData : ApplyUpdateBridge F D) : List Nat :=
  let bCompilerZeroDimensional : Bool := decide (o.k_cItemsPerBitPackNone = cCompilerPack)
  match applySetup o cCompilerPack pData with
  | none => []
  | some locals =>
    applyWordsSamples o bCompilerZeroDimensional bCalcMetric bWeight
      pData.m_aUpdateTensorScores pData.m_aWeights pData.m_aPacked pData.m_cSamples
      locals.cBitsPerItemMax locals.maskBits locals.cShiftReset pData.m_cSamples
      ⟨pData.m_aGradientsAndHessians, 0, 0, 0, locals.cShift, locals.updateScore, o.zero,
        [], []⟩

/-! ## The largest cut index at or below a value -/

/-- The largest index `i` with `cuts[i] <= v`, if there is one. -/
def lastAtOrBelow : List FloatEbm → FloatEbm → Option Nat
  | [], _ => none
  | c :: cs, v =>
    match lastAtOrBelow cs v with
    | some i => some (i + 1)
    | none => if c.le v then some 0 else none

/-- The bin `2 + i` for the largest index `i` with `cuts[i] <= v`, and `1` when no cut is at or
below `v`. -/
def binLast (cuts : List FloatEbm) (v : FloatEbm) : Int :=
  match lastAtOrBelow cuts v with
  | some i => 2 + (i : Int)
  | none => 1

/-! ## 32-bit patterns -/

/-- The value of a 32-bit word read as a signed integer (two's complement). -/
def toInt32 (w : Nat) : Int :=
  if w % 2 ^ 32 < 2 ^ 31 then ((w % 2 ^ 32 : Nat) : Int) else ((w % 2 ^ 32 : Nat) : Int) - 2 ^ 32

/-- Modelled from the spec: the value that a 32-bit pattern stands for as an IEEE-754 binary32
float (sign bit, 8-bit exponent field, 23-bit fraction field); `ReinterpretFloat` of `TFloat`
is declared outside the sources at hand. -/
def decode32 (w : Nat) : FloatEbm :=
  let s : Nat := (w / 2 ^ 31) % 2
  let e : Nat := (w / 2 ^ 23) % 2 ^ 8
  let f : Nat := w % 2 ^ 23
  if e = 255 then
    if f = 0 then (if s = 0 then posInf else negInf) else nan
  else if e = 0 then finite ((-1) ^ s * ((f : ℚ) / 2 ^ 149))
  else finite ((-1) ^ s * ((1 + (f : ℚ) / 2 ^ 23) * 2 ^ ((e : Int) - 127)))

/-- The largest biased exponent `E <= bound` with `2^(E - 127) <= a`, or `0` when there is
none. -/
def biasedExponent (a : ℚ) : Nat → Nat
  | 0 => 0
  | bound + 1 =>
    if (2 : ℚ) ^ (((bound + 1 : Nat) : Int) - 127) ≤ a then bound + 1
    else biasedExponent a bound

/-- Modelled from the spec: the 32-bit pattern of a value as an IEEE-754 binary32 float, for
evaluation (`ReinterpretInt` of `TFloat` is declared outside the sources at hand).  A value
that is no binary32 number is truncated towards zero; NaN gets the quiet pattern and zero the
positive one. -/
def encode32 : FloatEbm → Nat
  | nan => 0x7FC00000
  | posInf => 0x7F800000
  | negInf => 0xFF800000
  | finite x =>
    let s : Nat := if x < 0 then 1 else 0
    let a : ℚ := |x|
    if (2 : ℚ) ^ 128 ≤ a then s * 2 ^ 31 + 0x7F800000
    else
      let e : Nat := biasedExponent a 254
      if e = 0 then s * 2 ^ 31 + (a * 2 ^ 149).floor.toNat
      else s * 2 ^ 31 + e * 2 ^ 23 + ((a / 2 ^ ((e : Int) - 127) - 1) * 2 ^ 23).floor.toNat

/-- The variables `x` and `exponent` of `Log32` after the decomposition of `val` and the
normalisation of the mantissa (down to the update of `exponent`, before `x -= 1.0f`). -/
def Log32Normalized (o : TFloatOps) (val : FloatEbm) : FloatEbm × Nat :=
  let x : FloatEbm := Mantissa32 o val
  let exponent : Nat := Exponent32 o val
  let comparison : Bool := x.le (finite (mkRat 11863283 16777216))
  let x : FloatEbm := IfThenElse comparison (o.add x x) x
  let exponent : Nat := IfThenElse (!comparison) ((exponent + 1) % 2 ^ 32) exponent
  (x, exponent)

/-- The rest of the core computation of `Log32`, from `exponentFloat = TFloat(exponent)` on,
given `x` and `exponent` after the normalisation. -/
def Log32Polynomial (o : TFloatOps) (bNegateOutput : Bool) (x : FloatEbm) (exponent : Nat) :
    FloatEbm :=
  let exponentFloat : FloatEbm := o.ofInt exponent
  let x : FloatEbm := o.sub x (finite 1)
  let ret : FloatEbm := Polynomial9 o.add o.mul o.FusedMultiplyAdd x
    (finite (mkRat 5592405 16777216)) (finite (mkRat (-4194303) 16777216))
    (finite (mkRat 3355563 16777216)) (finite (mkRat (-699109) 4194304))
    (finite (mkRat 9562559 67108864)) (finite (mkRat (-16670031) 134217728))
    (finite (mkRat 7836301 67108864)) (finite (mkRat (-1931831) 16777216))
    (finite (mkRat 9445819 134217728))
  let x2 : FloatEbm := o.mul x x
  let ret : FloatEbm := o.mul ret (o.mul x2 x)
  let ret : FloatEbm :=
    o.FusedMultiplyAdd exponentFloat (finite (mkRat (-14581891) 68719476736)) ret
  let ret : FloatEbm := o.add ret (o.FusedNegateMultiplyAdd x2 (finite (mkRat 1 2)) x)
  let ret : FloatEbm := o.FusedMultiplyAdd exponentFloat (finite (mkRat 355 512)) ret
  if bNegateOutput then ret.neg else ret

/-- An instance of the operations of `TFloat` for evaluation on bit patterns: those of
`exactTFloatOps` with the binary32 encoding and decoding for the reinterpreting casts and the
signed reading of a word for the conversion of an integer. -/
def bitsTFloatOps : TFloatOps :=
  { exactTFloatOps with
    ReinterpretInt := encode32
    ReinterpretFloat := decode32
    ofInt := fun w => finite (toInt32 w) }

/-! ## PseudoHuberRegressionLoss (compute/loss_functions/PseudoHuberRegressionLoss.hpp) -/

/-- The operations of `TFloat` and of `double` that `PseudoHuberRegressionLoss` uses, taken as
parameters over any type of values (both are read in the same type): the literal `1.0`, the
arithmetic, `Sqrt`, the comparison with `0.0`, `std::isnan` and `std::isinf`. -/
structure LossOps (F : Type) where
  one : F
  sub : F → F → F
  add : F → F → F
  mul : F → F → F
  div : F → F → F
  Sqrt : F → F
  isZero : F → Bool
  isnan : F → Bool
  isinf : F → Bool

/-- The exceptions that the constructor of `PseudoHuberRegressionLoss` throws. -/
inductive LossException where
  | ParamMismatchWithConfigException : LossException
  | ParamValOutOfRangeException : LossException
deriving DecidableEq

/-- The data members of `PseudoHuberRegressionLoss<TFloat>`. -/
structure PseudoHuberRegressionLoss (F : Type) where
  m_deltaInverted : F
  m_deltaSquared : F

/-- The constructor `PseudoHuberRegressionLoss(config, delta)`, with `cOutputs` for
`config.cOutputs`. -/
def PseudoHuberRegressionLoss.create {F : Type} (o : LossOps F) (cOutputs : Int) (delta : F) :
    Except LossException (PseudoHuberRegressionLoss F) :=
  if 1 ≠ cOutputs then Except.error LossException.ParamMismatchWithConfigException
  else if o.isZero delta || o.isnan delta || o.isinf delta then
    Except.error LossException.ParamValOutOfRangeException
  else
    let deltaSquared : F := o.mul delta delta
    if o.isinf deltaSquared then Except.error LossException.ParamValOutOfRangeException
    else
      let deltaInverted : F := o.div o.one delta
      if o.isinf deltaInverted then Except.error LossException.ParamValOutOfRangeException
      else Except.ok ⟨deltaInverted, deltaSquared⟩

/-- The member function `CalcGrad(prediction, target, gradient)`; the result is `gradient`.
The local `calc` is named `calcValue` here and in the other three functions. -/
def PseudoHuberRegressionLoss.CalcGrad {F : Type} (o : LossOps F)
    (loss : PseudoHuberRegressionLoss F) (prediction target : F) : F :=
  let error : F := o.sub prediction target
  let errorFraction : F := o.mul error loss.m_deltaInverted
  let calcValue : F := o.add (o.mul errorFraction errorFraction) o.one
  let sqrtCalc : F := o.Sqrt calcValue
  o.div error sqrtCalc

/-- The member function `CalcGradMetric(prediction, target, gradient, metric)`; the result is
`(gradient, metric)`. -/
def PseudoHuberRegressionLoss.CalcGradMetric {F : Type} (o : LossOps F)
    (loss : PseudoHuberRegressionLoss F) (prediction target : F) : F × F :=
  let error : F := o.sub prediction target
  let errorFraction : F := o.mul error loss.m_deltaInverted
  let calcValue : F := o.add (o.mul errorFraction errorFraction) o.one
  let sqrtCalc : F := o.Sqrt calcValue
  let gradient : F := o.div error sqrtCalc
  let metric : F := o.mul loss.m_deltaSquared (o.sub sqrtCalc o.one)
  (gradient, metric)

/-- The member function `CalcGradHess(prediction, target, gradient, hessian)`; the result is
`(gradient, hessian)`. -/
def PseudoHuberRegressionLoss.CalcGradHess {F : Type} (o : LossOps F)
    (loss : PseudoHuberRegressionLoss F) (prediction target : F) : F × F :=
  let error : F := o.sub prediction target
  let errorFraction : F := o.mul error loss.m_deltaInverted
  let calcValue : F := o.add (o.mul errorFraction errorFraction) o.one
  let sqrtCalc : F := o.Sqrt calcValue
  let gradient : F := o.div error sqrtCalc
  let hessian : F := o.div o.one (o.mul calcValue sqrtCalc)
  (gradient, hessian)

/-- The member function `CalcGradHessMetric(prediction, target, gradient, hessian, metric)`;
the result is `(gradient, hessian, metric)`. -/
def PseudoHuberRegressionLoss.CalcGradHessMetric {F : Type} (o : LossOps F)
    (loss : PseudoHuberRegressionLoss F) (prediction target : F) : F × F × F :=
  let error : F := o.sub prediction target
  let errorFraction : F := o.mul error loss.m_deltaInverted
  let calcValue : F := o.add (o.mul errorFraction errorFraction) o.one
  let sqrtCalc : F := o.Sqrt calcValue
  let gradient : F := o.div error sqrtCalc
  let hessian : F := o.div o.one (o.mul calcValue sqrtCalc)
  let metric : F := o.mul loss.m_deltaSquared (o.sub sqrtCalc o.one)
  (gradient, hessian, metric)

/-- An instance of the operations of the loss over the integers, for evaluation: the integer
quotient for `/`, the identity in place of the square root, and no NaN or infinity. -/
def exactLossOps : LossOps Int where
  one := 1
  sub := fun a b => a - b
  add := fun a b => a + b
  mul := fun a b => a * b
  div := fun a b => a / b
  Sqrt := fun a => a
  isZero := fun a => decide (a = 0)
  isnan := fun _ => false
  isinf := fun _ => false

/-! ## Binary32 arithmetic -/

theorem FloatEbm.le_nan (a : FloatEbm) : a.le FloatEbm.nan = false := by
  cases a <;> rfl

theorem FloatEbm.le_of_isnan {a v : FloatEbm} (h : v.isnan = true) : a.le v = false := by
  cases v <;> simp [FloatEbm.isnan] at h
  exact FloatEbm.le_nan a

theorem FloatEbm.negInf_le {v : FloatEbm} (h : v.isnan = false) :
    FloatEbm.negInf.le v = true := by
  cases v <;> simp_all [FloatEbm.isnan, FloatEbm.le]

theorem FloatEbm.isnan_of_le_left {a v : FloatEbm} (h : a.le v = true) : a.isnan = false := by
  cases a <;> cases v <;> simp_all [FloatEbm.isnan, FloatEbm.le]

theorem FloatEbm.le_of_lt_of_le {a b v : FloatEbm} (hab : a.lt b = true) (hbv : b.le v = true) :
    a.le v = true := by
  cases a <;> cases b <;> cases v <;> simp_all [FloatEbm.lt, FloatEbm.le]
  exact le_trans (le_of_lt hab) hbv

theorem FloatEbm.le_chain {a b v : FloatEbm} (hab : a.le b = true) (hbv : b.le v = true) :
    a.le v = true := by
  cases a <;> cases b <;> cases v <;> simp_all [FloatEbm.le]
  exact le_trans hab hbv

theorem FloatEbm.le_refl {a : FloatEbm} (h : a.isnan = false) : a.le a = true := by
  cases a <;> simp_all [FloatEbm.isnan, FloatEbm.le]

theorem FloatEbm.lt_chain {a b c : FloatEbm} (hab : a.lt b = true) (hbc : b.lt c = true) :
    a.lt c = true := by
  cases a <;> cases b <;> cases c <;> simp_all [FloatEbm.lt]
  exact lt_trans hab hbc

theorem FloatEbm.not_le_of_lt {a b : FloatEbm} (hab : a.lt b = true) : b.le a = false := by
  cases a <;> cases b <;> simp_all [FloatEbm.lt, FloatEbm.le]

theorem StrictlyIncreasing.chain : ∀ {cuts : List FloatEbm}, StrictlyIncreasing cuts →
    List.Chain' (fun a b => a.lt b = true) cuts
  | [], _ => List.chain'_nil
  | [_], _ => List.chain'_singleton _
  | _ :: _ :: _, h => List.chain'_cons.mpr ⟨h.1, StrictlyIncreasing.chain h.2⟩

theorem StrictlyIncreasing.pairwise {cuts : List FloatEbm} (h : StrictlyIncreasing cuts) :
    cuts.Pairwise (fun a b => a.lt b = true) := by
  haveI : IsTrans FloatEbm (fun a b => a.lt b = true) := ⟨fun _ _ _ => FloatEbm.lt_chain⟩
  exact List.chain'_iff_pairwise.mp h.chain

/-- In a strictly increasing array the cuts at or below `val` are exactly the first
`cutsAtOrBelow cuts val` ones. -/
theorem le_iff_lt_cutsAtOrBelow {cuts : List FloatEbm}
    (h : cuts.Pairwise (fun a b => a.lt b = true)) (val : FloatEbm) :
    ∀ (i : Nat) (c : FloatEbm), cuts[i]? = some c →
      (c.le val = true ↔ i < cutsAtOrBelow cuts val) := by
  induction cuts with
  | nil => intro i c hc; simp at hc
  | cons a cs ih =>
    rw [List.pairwise_cons] at h
    intro i c hc
    by_cases ha : a.le val = true
    · have hcount : cutsAtOrBelow (a :: cs) val = cutsAtOrBelow cs val + 1 := by
        simp [cutsAtOrBelow, List.countP_cons, ha]
      cases i with
      | zero =>
        simp at hc
        subst hc
        simp [ha, hcount]
      | succ j =>
        simp at hc
        rw [hcount, ih h.2 j c hc]
        omega
    · have hall : ∀ c' ∈ cs, c'.le val = false := by
        intro c' hc'
        by_contra hcon
        exact ha (FloatEbm.le_of_lt_of_le (h.1 c' hc') (by simpa using hcon))
      have hcount : cutsAtOrBelow (a :: cs) val = 0 := by
        simp only [cutsAtOrBelow, List.countP_eq_zero]
        intro c' hc'
        rcases List.mem_cons.mp hc' with rfl | hmem
        · simpa using ha
        · simp [hall c' hmem]
      rw [hcount]
      have hmem : c ∈ a :: cs := List.getElem?_mem hc
      rcases List.mem_cons.mp hmem with rfl | hmem
      · simp [ha]
      · simp [hall c hmem]

theorem cutsAtOrBelow_le_length (cuts : List FloatEbm) (val : FloatEbm) :
    cutsAtOrBelow cuts val ≤ cuts.length :=
  List.countP_le_length _

/-! ## The sample loop -/

theorem sampleStep_eq_some {bin : FloatEbm → Option Int} {featureValues : List FloatEbm}
    {i : Nat} {st st1 : OutState} (h : sampleStep bin featureValues i st = some st1) :
    ∃ val result, featureValues[i]? = some val ∧ bin val = some result ∧ i < st.buf.length ∧
      st1 = ⟨st.buf.set i result, st.writes ++ [(i, result)]⟩ := by
  unfold sampleStep at h
  split at h
  · simp at h
  · rename_i val hval
    split at h
    · simp at h
    · rename_i result hres
      split at h
      · rename_i hlt
        exact ⟨val, result, hval, hres, hlt, by simpa using h.symm⟩
      · simp at h

/-- What a finished sample loop has done: it read the samples `i` to `i + remaining`, wrote
the bin of each at its own index, in increasing order of index, and touched nothing else. -/
theorem sampleLoop_eq_some (bin : FloatEbm → Option Int) (featureValues : List FloatEbm) :
    ∀ (remaining i : Nat) (st st1 : OutState),
      sampleLoop bin featureValues remaining i st = some st1 →
      st1.buf.length = st.buf.length ∧ i + remaining < st.buf.length ∧
      (∀ j, i ≤ j → j ≤ i + remaining → ∃ val result, featureValues[j]? = some val ∧
        bin val = some result ∧ st1.buf[j]? = some result ∧ (j, result) ∈ st1.writes) ∧
      (∀ j, j < i ∨ i + remaining < j → st1.buf[j]? = st.buf[j]?) ∧
      (∃ ws, st1.writes = st.writes ++ ws ∧ ws.map Prod.fst = List.range' i (remaining + 1) ∧
        ∀ w ∈ ws, ∃ val, featureValues[w.1]? = some val ∧ bin val = some w.2) := by
  intro remaining
  induction remaining with
  | zero =>
    intro i st st1 h
    simp only [sampleLoop] at h
    obtain ⟨val, result, hval, hres, hlt, rfl⟩ := sampleStep_eq_some h
    refine ⟨by simp, by simpa using hlt, ?_, ?_, ?_⟩
    · intro j h1 h2
      have hj : j = i := by omega
      subst hj
      exact ⟨val, result, hval, hres, by simp [List.getElem?_set, hlt], by simp⟩
    · intro j hj
      have hne : i ≠ j := by omega
      simp [List.getElem?_set, hne]
    · exact ⟨[(i, result)], rfl, by simp [List.range'], by
        intro w hw
        simp at hw
        subst hw
        exact ⟨val, hval, hres⟩⟩
  | succ r ih =>
    intro i st st1 h
    simp only [sampleLoop] at h
    split at h
    · simp at h
    · rename_i st0 hstep
      obtain ⟨val, result, hval, hres, hlt, rfl⟩ := sampleStep_eq_some hstep
      obtain ⟨hlen, hbound, hin, hout, ws, hws, hfst, hbin⟩ := ih (i + 1) _ st1 h
      simp only [List.length_set] at hlen hbound
      refine ⟨hlen, by omega, ?_, ?_, ?_⟩
      · intro j h1 h2
        by_cases hj : j = i
        · subst hj
          refine ⟨val, result, hval, hres, ?_, ?_⟩
          · rw [hout j (Or.inl (by omega))]
            simp [List.getElem?_set, hlt]
          · rw [hws]
            simp
        · exact hin j (by omega) (by omega)
      · intro j hj
        rw [hout j (by omega)]
        have hne : i ≠ j := by omega
        simp [List.getElem?_set, hne]
      · refine ⟨(i, result) :: ws, by simp [hws], by simp [List.range'_succ, hfst], ?_⟩
        intro w hw
        rcases List.mem_cons.mp hw with rfl | hmem
        · exact ⟨val, hval, hres⟩
        · exact hbin w hmem

/-- A sample loop finishes when the samples and the output positions it visits exist and the
loop body yields a bin for every value. -/
theorem sampleLoop_isSome (bin : FloatEbm → Option Int) (featureValues : List FloatEbm)
    (hbin : ∀ val, ∃ result, bin val = some result) :
    ∀ (remaining i : Nat) (st : OutState), i + remaining < featureValues.length →
      i + remaining < st.buf.length → ∃ st1, sampleLoop bin featureValues remaining i st = some st1 := by
  have hstep : ∀ (i : Nat) (st : OutState), i < featureValues.length → i < st.buf.length →
      ∃ st1, sampleStep bin featureValues i st = some st1 ∧ st1.buf.length = st.buf.length := by
    intro i st h1 h2
    obtain ⟨result, hres⟩ := hbin featureValues[i]
    refine ⟨⟨st.buf.set i result, st.writes ++ [(i, result)]⟩, ?_, by simp⟩
    simp [sampleStep, List.getElem?_eq_getElem h1, hres, h2]
  intro remaining
  induction remaining with
  | zero =>
    intro i st h1 h2
    obtain ⟨st1, hst1, _⟩ := hstep i st (by omega) (by omega)
    exact ⟨st1, by simpa [sampleLoop] using hst1⟩
  | succ r ih =>
    intro i st h1 h2
    obtain ⟨st0, hst0, hlen⟩ := hstep i st (by omega) (by omega)
    obtain ⟨st1, hst1⟩ := ih (i + 1) st0 (by omega) (by omega)
    exact ⟨st1, by simp [sampleLoop, hst0, hst1]⟩

/-! ## The loop bodies -/

theorem bin0_inRange : BinInRange (fun val => some (bin0 val)) 0 := by
  intro val result h
  simp only [Option.some.injEq] at h
  subst h
  unfold bin0
  cases hn : val.isnan <;> simp

theorem bin0_counts : BinCounts (fun val => some (bin0 val)) [] := by
  intro val result h hnan
  simp only [Option.some.injEq] at h
  subst h
  simp [bin0, hnan, cutsAtOrBelow]

theorem bin1_inRange (cut0 : FloatEbm) :
    BinInRange (fun val => some (bin1 cut0 val)) 1 := by
  intro val result h
  simp only [Option.some.injEq] at h
  subst h
  unfold bin1
  cases cut0.le val <;> cases hn : val.isnan <;> simp

theorem bin2_inRange (cut0 cut1 : FloatEbm) :
    BinInRange (fun val => some (bin2 cut0 cut1 val)) 2 := by
  intro val result h
  simp only [Option.some.injEq] at h
  subst h
  unfold bin2
  cases cut0.le val <;> cases cut1.le val <;> cases hn : val.isnan <;> simp

theorem bin3_inRange (cut0 cut1 cut2 : FloatEbm) :
    BinInRange (fun val => some (bin3 cut0 cut1 cut2 val)) 3 := by
  intro val result h
  simp only [Option.some.injEq] at h
  subst h
  unfold bin3
  cases cut0.le val <;> cases cut1.le val <;> cases cut2.le val <;> cases hn : val.isnan <;> simp

theorem bin4_inRange (cut0 cut1 cut2 cut3 : FloatEbm) :
    BinInRange (fun val => some (bin4 cut0 cut1 cut2 cut3 val)) 4 := by
  intro val result h
  simp only [Option.some.injEq] at h
  subst h
  unfold bin4
  cases cut0.le val <;> cases cut1.le val <;> cases cut2.le val <;> cases cut3.le val <;> cases hn : val.isnan <;> simp

theorem bin5_inRange (cut0 cut1 cut2 cut3 cut4 : FloatEbm) :
    BinInRange (fun val => some (bin5 cut0 cut1 cut2 cut3 cut4 val)) 5 := by
  intro val result h
  simp only [Option.some.injEq] at h
  subst h
  unfold bin5
  cases cut0.le val <;> cases cut1.le val <;> cases cut2.le val <;> cases cut3.le val <;> cases cut4.le val <;> cases hn : val.isnan <;> simp

theorem bin6_inRange (cut0 cut1 cut2 cut3 cut4 cut5 : FloatEbm) :
    BinInRange (fun val => some (bin6 cut0 cut1 cut2 cut3 cut4 cut5 val)) 6 := by
  intro val result h
  simp only [Option.some.injEq] at h
  subst h
  unfold bin6
  cases cut0.le val <;> cases cut1.le val <;> cases cut2.le val <;> cases cut3.le val <;> cases cut4.le val <;> cases cut5.le val <;> cases hn : val.isnan <;> simp

theorem bin1_counts (cut0 : FloatEbm)
    (hp : [cut0].Pairwise (fun a b => a.lt b = true)) :
    BinCounts (fun val => some (bin1 cut0 val)) [cut0] := by
  intro val result h hnan
  simp only [Option.some.injEq] at h
  subst h
  have h0 := le_iff_lt_cutsAtOrBelow hp val 0 cut0 (by simp)
  have hm := cutsAtOrBelow_le_length [cut0] val
  simp only [List.length_cons, List.length_nil] at hm
  generalize cutsAtOrBelow [cut0] val = m at *
  unfold bin1
  cases e0 : cut0.le val <;>
    simp only [e0, hnan, Bool.false_eq_true, false_iff, true_iff, if_true, if_false,
      ite_true, ite_false, not_lt] at h0 ⊢ <;> omega

theorem bin2_counts (cut0 cut1 : FloatEbm)
    (hp : [cut0, cut1].Pairwise (fun a b => a.lt b = true)) :
    BinCounts (fun val => some (bin2 cut0 cut1 val)) [cut0, cut1] := by
  intro val result h hnan
  simp only [Option.some.injEq] at h
  subst h
  have h0 := le_iff_lt_cutsAtOrBelow hp val 0 cut0 (by simp)
  have h1 := le_iff_lt_cutsAtOrBelow hp val 1 cut1 (by simp)
  have hm := cutsAtOrBelow_le_length [cut0, cut1] val
  simp only [List.length_cons, List.length_nil] at hm
  generalize cutsAtOrBelow [cut0, cut1] val = m at *
  unfold bin2
  cases e0 : cut0.le val <;> cases e1 : cut1.le val <;>
    simp only [e0, e1, hnan, Bool.false_eq_true, false_iff, true_iff, if_true, if_false,
      ite_true, ite_false, not_lt] at h0 h1 ⊢ <;> omega

theorem bin3_counts (cut0 cut1 cut2 : FloatEbm)
    (hp : [cut0, cut1, cut2].Pairwise (fun a b => a.lt b = true)) :
    BinCounts (fun val => some (bin3 cut0 cut1 cut2 val)) [cut0, cut1, cut2] := by
  intro val result h hnan
  simp only [Option.some.injEq] at h
  subst h
  have h0 := le_iff_lt_cutsAtOrBelow hp val 0 cut0 (by simp)
  have h1 := le_iff_lt_cutsAtOrBelow hp val 1 cut1 (by simp)
  have h2 := le_iff_lt_cutsAtOrBelow hp val 2 cut2 (by simp)
  have hm := cutsAtOrBelow_le_length [cut0, cut1, cut2] val
  simp only [List.length_cons, List.length_nil] at hm
  generalize cutsAtOrBelow [cut0, cut1, cut2] val = m at *
  unfold bin3
  cases e0 : cut0.le val <;> cases e1 : cut1.le val <;> cases e2 : cut2.le val <;>
    simp only [e0, e1, e2, hnan, Bool.false_eq_true, false_iff, true_iff, if_true, if_false,
      ite_true, ite_false, not_lt] at h0 h1 h2 ⊢ <;> omega

theorem bin4_counts (cut0 cut1 cut2 cut3 : FloatEbm)
    (hp : [cut0, cut1, cut2, cut3].Pairwise (fun a b => a.lt b = true)) :
    BinCounts (fun val => some (bin4 cut0 cut1 cut2 cut3 val)) [cut0, cut1, cut2, cut3] := by
  intro val result h hnan
  simp only [Option.some.injEq] at h
  subst h
  have h0 := le_iff_lt_cutsAtOrBelow hp val 0 cut0 (by simp)
  have h1 := le_iff_lt_cutsAtOrBelow hp val 1 cut1 (by simp)
  have h2 := le_iff_lt_cutsAtOrBelow hp val 2 cut2 (by simp)
  have h3 := le_iff_lt_cutsAtOrBelow hp val 3 cut3 (by simp)
  have hm := cutsAtOrBelow_le_length [cut0, cut1, cut2, cut3] val
  simp only [List.length_cons, List.length_nil] at hm
  generalize cutsAtOrBelow [cut0, cut1, cut2, cut3] val = m at *
  unfold bin4
  cases e0 : cut0.le val <;> cases e1 : cut1.le val <;> cases e2 : cut2.le val <;> cases e3 : cut3.le val <;>
    simp only [e0, e1, e2, e3, hnan, Bool.false_eq_true, false_iff, true_iff, if_true, if_false,
      ite_true, ite_false, not_lt] at h0 h1 h2 h3 ⊢ <;> omega

theorem bin5_counts (cut0 cut1 cut2 cut3 cut4 : FloatEbm)
    (hp : [cut0, cut1, cut2, cut3, cut4].Pairwise (fun a b => a.lt b = true)) :
    BinCounts (fun val => some (bin5 cut0 cut1 cut2 cut3 cut4 val)) [cut0, cut1, cut2, cut3, cut4] := by
  intro val result h hnan
  simp only [Option.some.injEq] at h
  subst h
  have h0 := le_iff_lt_cutsAtOrBelow hp val 0 cut0 (by simp)
  have h1 := le_iff_lt_cutsAtOrBelow hp val 1 cut1 (by simp)
  have h2 := le_iff_lt_cutsAtOrBelow hp val 2 cut2 (by simp)
  have h3 := le_iff_lt_cutsAtOrBelow hp val 3 cut3 (by simp)
  have h4 := le_iff_lt_cutsAtOrBelow hp val 4 cut4 (by simp)
  have hm := cutsAtOrBelow_le_length [cut0, cut1, cut2, cut3, cut4] val
  simp only [List.length_cons, List.length_nil] at hm
  generalize cutsAtOrBelow [cut0, cut1, cut2, cut3, cut4] val = m at *
  unfold bin5
  cases e0 : cut0.le val <;> cases e1 : cut1.le val <;> cases e2 : cut2.le val <;> cases e3 : cut3.le val <;> cases e4 : cut4.le val <;>
    simp only [e0, e1, e2, e3, e4, hnan, Bool.false_eq_true, false_iff, true_iff, if_true, if_false,
      ite_true, ite_false, not_lt] at h0 h1 h2 h3 h4 ⊢ <;> omega

theorem bin6_counts (cut0 cut1 cut2 cut3 cut4 cut5 : FloatEbm)
    (hp : [cut0, cut1, cut2, cut3, cut4, cut5].Pairwise (fun a b => a.lt b = true)) :
    BinCounts (fun val => some (bin6 cut0 cut1 cut2 cut3 cut4 cut5 val)) [cut0, cut1, cut2, cut3, cut4, cut5] := by
  intro val result h hnan
  simp only [Option.some.injEq] at h
  subst h
  have h0 := le_iff_lt_cutsAtOrBelow hp val 0 cut0 (by simp)
  have h1 := le_iff_lt_cutsAtOrBelow hp val 1 cut1 (by simp)
  have h2 := le_iff_lt_cutsAtOrBelow hp val 2 cut2 (by simp)
  have h3 := le_iff_lt_cutsAtOrBelow hp val 3 cut3 (by simp)
  have h4 := le_iff_lt_cutsAtOrBelow hp val 4 cut4 (by simp)
  have h5 := le_iff_lt_cutsAtOrBelow hp val 5 cut5 (by simp)
  have hm := cutsAtOrBelow_le_length [cut0, cut1, cut2, cut3, cut4, cut5] val
  simp only [List.length_cons, List.length_nil] at hm
  generalize cutsAtOrBelow [cut0, cut1, cut2, cut3, cut4, cut5] val = m at *
  unfold bin6
  cases e0 : cut0.le val <;> cases e1 : cut1.le val <;> cases e2 : cut2.le val <;> cases e3 : cut3.le val <;> cases e4 : cut4.le val <;> cases e5 : cut5.le val <;>
    simp only [e0, e1, e2, e3, e4, e5, hnan, Bool.false_eq_true, false_iff, true_iff, if_true, if_false,
      ite_true, ite_false, not_lt] at h0 h1 h2 h3 h4 h5 ⊢ <;> omega

/-! ## The padded tables -/

theorem toIntEbmType_of_lt {n : Nat} (h : n < 2 ^ 63) : toIntEbmType n = (n : Int) := by
  have h1 : n % 2 ^ 64 = n := Nat.mod_eq_of_lt (by omega)
  unfold toIntEbmType
  rw [h1, if_pos h]

/-- The unrolled comparisons find the threshold of a table whose entries at or below the
value form an initial segment. -/
theorem paddedSearch_threshold {copy : List FloatEbm} {val : FloatEbm} {m : Nat}
    (hT : IsThreshold copy val m) :
    ∀ (k pResult : Nat), pResult + (2 ^ k - 1) ≤ copy.length → pResult ≤ m →
      m ≤ pResult + (2 ^ k - 1) → paddedSearch copy val k pResult = some m := by
  intro k
  induction k with
  | zero =>
    intro p _ h2 h3
    have : p = m := by simpa using Nat.le_antisymm h2 (by simpa using h3)
    simp [paddedSearch, this]
  | succ k ih =>
    intro p h1 h2 h3
    have hpow : 2 ^ (k + 1) = 2 * 2 ^ k := by ring
    have hpos : 0 < 2 ^ k := pow_pos (by norm_num) k
    have hidx : p + (2 ^ k - 1) < copy.length := by omega
    simp only [paddedSearch, List.getElem?_eq_getElem hidx]
    have hiff := hT (p + (2 ^ k - 1)) _ (List.getElem?_eq_getElem hidx)
    by_cases hle : (copy[p + (2 ^ k - 1)]).le val = true
    · simp only [hle, if_true]
      have := hiff.mp hle
      exact ih (p + 2 ^ k) (by omega) (by omega) (by omega)
    · have hlt : ¬ p + (2 ^ k - 1) < m := fun h => hle (hiff.mpr h)
      simp only [hle, if_false, Bool.false_eq_true]
      exact ih p (by omega) h2 (by omega)

/-- Whatever the table holds, the unrolled comparisons never move down, end at 0 or just
above an entry at or below the value, and end above 0 when the first entry is at or below
the value. -/
theorem paddedSearch_eq_some (copy : List FloatEbm) (val : FloatEbm) :
    ∀ (k pResult result : Nat), paddedSearch copy val k pResult = some result →
      pResult ≤ result ∧
      ((pResult = 0 ∨ ∃ c, copy[pResult - 1]? = some c ∧ c.le val = true) →
        (result = 0 ∨ ∃ c, copy[result - 1]? = some c ∧ c.le val = true)) ∧
      (1 ≤ k → (∃ c0, copy[0]? = some c0 ∧ c0.le val = true) → 1 ≤ result) := by
  intro k
  induction k with
  | zero =>
    intro p result h
    simp only [paddedSearch, Option.some.injEq] at h
    subst h
    exact ⟨le_refl _, fun h => h, fun h => absurd h (by norm_num)⟩
  | succ k ih =>
    intro p result h
    have hpos : 0 < 2 ^ k := pow_pos (by norm_num) k
    simp only [paddedSearch] at h
    split at h
    · simp at h
    · rename_i cut hcut
      obtain ⟨hmono, hinv, hfirst⟩ := ih _ result h
      by_cases hle : cut.le val = true
      · simp only [hle, if_true] at hmono hinv
        refine ⟨by omega, fun _ => hinv (Or.inr ⟨cut, ?_, hle⟩), fun _ _ => by omega⟩
        have : p + 2 ^ k - 1 = p + (2 ^ k - 1) := by omega
        rw [this]
        exact hcut
      · simp only [hle, if_false, Bool.false_eq_true] at hmono hinv
        refine ⟨hmono, hinv, ?_⟩
        intro _ h0
        by_cases hk : 1 ≤ k
        · exact hfirst hk h0
        · have hk0 : k = 0 := by omega
          subst hk0
          by_cases hp : p = 0
          · subst hp
            obtain ⟨c0, hc0, hc0le⟩ := h0
            simp only [pow_zero, Nat.sub_self, Nat.add_zero] at hcut
            rw [hcut] at hc0
            simp only [Option.some.injEq] at hc0
            subst hc0
            exact absurd hc0le hle
          · omega

/-- The entries of a padded table past index `cCuts` are NaN. -/
theorem paddedCopy_getElem?_nan {cPower cCuts : Nat} {cuts copy : List FloatEbm}
    (h : paddedCopy cPower cuts cCuts = some copy) {j : Nat} {c : FloatEbm}
    (hj : cCuts < j) (hc : copy[j]? = some c) : c = FloatEbm.nan := by
  unfold paddedCopy at h
  split at h
  · rename_i hlen
    simp only [Option.some.injEq] at h
    subst h
    obtain ⟨j', rfl⟩ : ∃ j', j = j' + 1 := ⟨j - 1, by omega⟩
    rw [List.getElem?_cons_succ, List.getElem?_append_right (by simp; omega)] at hc
    rw [List.getElem?_replicate] at hc
    split at hc
    · simpa using hc.symm
    · simp at hc
  · simp at h

theorem paddedCopy_getElem?_zero {cPower cCuts : Nat} {cuts copy : List FloatEbm}
    (h : paddedCopy cPower cuts cCuts = some copy) : copy[0]? = some FloatEbm.negInf := by
  unfold paddedCopy at h
  split at h
  · simp only [Option.some.injEq] at h
    subst h
    exact List.getElem?_cons_zero
  · simp at h

/-- A padded loop body gives 0 exactly for NaN and at most `cCuts + 1`, whatever the cuts. -/
theorem binPadded_inRange {cPower cCuts k : Nat} {cuts copy : List FloatEbm}
    (h : paddedCopy cPower cuts cCuts = some copy) (hk : 1 ≤ k) (hc : cCuts < 2 ^ 62) :
    BinInRange (binPadded copy k) (cCuts : Int) := by
  intro val result hres
  unfold binPadded at hres
  split at hres
  · simp at hres
  · rename_i res hsearch
    simp only [Option.some.injEq] at hres
    obtain ⟨_, hinv, hfirst⟩ := paddedSearch_eq_some copy val k 0 res hsearch
    have hQ := hinv (Or.inl rfl)
    have hub : res ≤ cCuts + 1 := by
      rcases hQ with h0 | ⟨c, hc1, hc2⟩
      · omega
      · by_contra hcon
        have := paddedCopy_getElem?_nan h (j := res - 1) (by omega) hc1
        subst this
        simp [FloatEbm.le] at hc2
    rw [toIntEbmType_of_lt (by omega)] at hres
    subst hres
    refine ⟨?_, by omega, by omega⟩
    constructor
    · intro hzero
      by_contra hnan
      have hnan' : val.isnan = false := by simpa using hnan
      have := hfirst hk ⟨_, paddedCopy_getElem?_zero h, FloatEbm.negInf_le hnan'⟩
      omega
    · intro hnan
      rcases hQ with h0 | ⟨c, _, hc2⟩
      · simp [h0]
      · rw [FloatEbm.le_of_isnan hnan] at hc2
        simp at hc2

/-- The entries of the padded table of a strictly increasing cut array that are at or below
a value other than NaN are the first `1 + cutsAtOrBelow cuts val` ones. -/
theorem paddedCopy_threshold {cPower : Nat} {cuts copy : List FloatEbm}
    (hp : cuts.Pairwise (fun a b => a.lt b = true))
    (h : paddedCopy cPower cuts cuts.length = some copy) {val : FloatEbm}
    (hnan : val.isnan = false) : IsThreshold copy val (1 + cutsAtOrBelow cuts val) := by
  unfold paddedCopy at h
  simp only [le_refl, if_true, List.take_length, Option.some.injEq] at h
  subst h
  intro i c hc
  cases i with
  | zero =>
    simp only [List.getElem?_cons_zero, Option.some.injEq] at hc
    subst hc
    simp [FloatEbm.negInf_le hnan]
  | succ j =>
    rw [List.getElem?_cons_succ, List.getElem?_append] at hc
    split at hc
    · rw [le_iff_lt_cutsAtOrBelow hp val j c hc]
      omega
    · rename_i hge
      rw [List.getElem?_replicate] at hc
      split at hc
      · simp only [Option.some.injEq] at hc
        subst hc
        have := cutsAtOrBelow_le_length cuts val
        simp [FloatEbm.le]
        omega
      · simp at hc

/-- A padded loop body over a strictly increasing cut array counts the cuts at or below the
value. -/
theorem binPadded_counts {k : Nat} {cuts copy : List FloatEbm}
    (hp : cuts.Pairwise (fun a b => a.lt b = true))
    (h : paddedCopy (2 ^ k) cuts cuts.length = some copy) (hlen : cuts.length ≤ 2 ^ k - 2)
    (hk1 : 1 ≤ k) (hk : k ≤ 62) : BinCounts (binPadded copy k) cuts := by
  intro val result hres hnan
  have hT := paddedCopy_threshold hp h hnan
  have hpow : 2 ^ k ≤ 2 ^ 62 := Nat.pow_le_pow_right (by norm_num) hk
  have hpow2 : 2 ^ 1 ≤ 2 ^ k := Nat.pow_le_pow_right (by norm_num) hk1
  have hlen' : copy.length = 2 ^ k - 1 := by
    unfold paddedCopy at h
    simp only [le_refl, if_true, List.take_length, Option.some.injEq] at h
    subst h
    simp
    omega
  have hm := cutsAtOrBelow_le_length cuts val
  have hsearch := paddedSearch_threshold hT k 0 (by omega) (by omega) (by omega)
  simp only [binPadded, hsearch, Option.some.injEq] at hres
  rw [toIntEbmType_of_lt (by omega)] at hres
  subst hres
  push_cast
  ring

/-! ## The general binary search -/

theorem toSizeT_natCast {n : Nat} (h : n < 2 ^ 64) : toSizeT (n : Int) = n := by
  unfold toSizeT
  rw [Int.emod_eq_of_lt (by omega) (by exact_mod_cast h)]
  simp

theorem toPtrdiffT_of_lt {n : Nat} (h : n < 2 ^ 63) : toPtrdiffT n = (n : Int) := by
  have h1 : n % 2 ^ 64 = n := Nat.mod_eq_of_lt (by omega)
  unfold toPtrdiffT
  rw [h1, if_pos h]

/-- One pass of the inner loop, for bounds `low <= high` that are array indices. -/
theorem searchLoop_succ (cuts : List FloatEbm) (val : FloatEbm) (fuel l h : Nat)
    (hl : l ≤ h) (hh : h < 2 ^ 62) :
    searchLoop cuts val (fuel + 1) (l : Int) (h : Int) =
      match cuts[(l + h) / 2]? with
      | none => none
      | some midVal =>
        if midVal.le val = true then
          if (l + h) / 2 + 1 ≤ h then
            searchLoop cuts val fuel (((l + h) / 2 + 1 : Nat) : Int) (h : Int)
          else some ((l + h) / 2 + 2)
        else
          if l + 1 ≤ (l + h) / 2 then
            searchLoop cuts val fuel (l : Int) (((l + h) / 2 - 1 : Nat) : Int)
          else some ((l + h) / 2 + 1) := by
  have hmid : ((toSizeT (l : Int) + toSizeT (h : Int)) % 2 ^ 64) >>> 1 = (l + h) / 2 := by
    rw [toSizeT_natCast (by omega), toSizeT_natCast (by omega), Nat.mod_eq_of_lt (by omega),
      Nat.shiftRight_eq_div_pow]
  have hmlt : (l + h) / 2 < 2 ^ 63 := by omega
  simp only [searchLoop, hmid, toPtrdiffT_of_lt hmlt]
  cases hc : cuts[(l + h) / 2]? with
  | none => rfl
  | some midVal =>
    simp only
    by_cases hle : midVal.le val = true
    · simp only [hle, if_true]
      by_cases h1 : (l + h) / 2 + 1 ≤ h
      · have h1' : (((l + h) / 2 : Nat) : Int) + 1 ≤ (h : Int) := by exact_mod_cast h1
        simp only [h1, h1', if_true]
        push_cast
        rfl
      · have h1' : ¬ (((l + h) / 2 : Nat) : Int) + 1 ≤ (h : Int) := by
          intro hcon
          exact h1 (by exact_mod_cast hcon)
        simp only [h1, h1', if_false]
    · simp only [hle, if_false, Bool.false_eq_true]
      by_cases h1 : l + 1 ≤ (l + h) / 2
      · have h1' : (l : Int) ≤ (((l + h) / 2 : Nat) : Int) - 1 := by
          have : ((l + 1 : Nat) : Int) ≤ (((l + h) / 2 : Nat) : Int) := by exact_mod_cast h1
          push_cast at this
          omega
        have hcast : (((l + h) / 2 - 1 : Nat) : Int) = (((l + h) / 2 : Nat) : Int) - 1 := by
          rw [Nat.cast_sub (by omega)]
          simp
        simp only [h1, h1', if_true, hcast]
      · have h1' : ¬ (l : Int) ≤ (((l + h) / 2 : Nat) : Int) - 1 := by
          intro hcon
          apply h1
          have : ((l : Nat) : Int) + 1 ≤ (((l + h) / 2 : Nat) : Int) := by omega
          exact_mod_cast this
        simp only [h1, h1', if_false]

/-- Whatever the cuts are, the inner loop ends with `middle` adjusted to a value between
`low + 1` and `high + 2`. -/
theorem searchLoop_range (cuts : List FloatEbm) (val : FloatEbm) :
    ∀ (fuel l h result : Nat), l ≤ h → h < 2 ^ 62 →
      searchLoop cuts val fuel (l : Int) (h : Int) = some result →
      l + 1 ≤ result ∧ result ≤ h + 2 := by
  intro fuel
  induction fuel with
  | zero => intro l h result _ _ hs; simp [searchLoop] at hs
  | succ fuel ih =>
    intro l h result hl hh hs
    rw [searchLoop_succ cuts val fuel l h hl hh] at hs
    split at hs
    · simp at hs
    · split at hs
      · split at hs
        · have := ih _ _ _ (by omega) hh hs
          omega
        · simp only [Option.some.injEq] at hs
          omega
      · split at hs
        · have := ih _ _ _ (by omega) (by omega) hs
          omega
        · simp only [Option.some.injEq] at hs
          omega

/-- When the cuts at or below the value are the first `m` ones and `m` lies between `low`
and `high + 1`, the inner loop ends with `middle` adjusted to `m + 1`. -/
theorem searchLoop_threshold {cuts : List FloatEbm} {val : FloatEbm} {m : Nat}
    (hT : IsThreshold cuts val m) :
    ∀ (fuel l h result : Nat), l ≤ h → h < 2 ^ 62 → l ≤ m → m ≤ h + 1 →
      searchLoop cuts val fuel (l : Int) (h : Int) = some result → result = m + 1 := by
  intro fuel
  induction fuel with
  | zero => intro l h result _ _ _ _ hs; simp [searchLoop] at hs
  | succ fuel ih =>
    intro l h result hl hh hlm hmh hs
    rw [searchLoop_succ cuts val fuel l h hl hh] at hs
    split at hs
    · simp at hs
    · rename_i midVal hmid
      have hiff := hT _ _ hmid
      split at hs
      · rename_i hle
        have hlt := hiff.mp hle
        split at hs
        · exact ih _ _ _ (by omega) hh (by omega) hmh hs
        · simp only [Option.some.injEq] at hs
          omega
      · rename_i hle
        have hlt : ¬ (l + h) / 2 < m := fun hcon => hle (hiff.mpr hcon)
        split at hs
        · exact ih _ _ _ (by omega) (by omega) hlm (by omega) hs
        · simp only [Option.some.injEq] at hs
          omega

/-- The inner loop ends before its fuel does: each pass at least halves the distance between
its bounds. -/
theorem searchLoop_isSome (cuts : List FloatEbm) (val : FloatEbm) :
    ∀ (fuel l h : Nat), l ≤ h → h < 2 ^ 62 → h < cuts.length → h - l < fuel →
      ∃ result, searchLoop cuts val fuel (l : Int) (h : Int) = some result := by
  intro fuel
  induction fuel with
  | zero => intro l h _ _ _ hf; omega
  | succ fuel ih =>
    intro l h hl hh hlen hf
    rw [searchLoop_succ cuts val fuel l h hl hh]
    have hidx : (l + h) / 2 < cuts.length := by omega
    simp only [List.getElem?_eq_getElem hidx]
    split
    · split
      · exact ih _ _ (by omega) hh hlen (by omega)
      · exact ⟨_, rfl⟩
    · split
      · exact ih _ _ (by omega) (by omega) (by omega) (by omega)
      · exact ⟨_, rfl⟩

theorem toIntEbmType_zero : toIntEbmType 0 = 0 := by
  simp [toIntEbmType]

/-- The loop body of the general search gives 0 exactly for NaN and at most `cCuts + 1`,
whatever the cuts are. -/
theorem binGeneral_inRange (cuts : List FloatEbm) (cCuts : Nat) (firstMidVal : FloatEbm)
    (h3 : 3 ≤ cCuts) (hc : cCuts < 2 ^ 62) :
    BinInRange (binGeneral cuts cCuts ((cCuts - 1 : Nat) : Int) firstMidVal
      (((cCuts - 1) / 2 + 1 : Nat) : Int) (((cCuts - 1) / 2 - 1 : Nat) : Int)) (cCuts : Int) := by
  intro val result h
  unfold binGeneral at h
  cases hn : val.isnan with
  | true =>
    simp only [hn, Bool.not_true, Bool.false_eq_true, if_false, Option.some.injEq,
      toIntEbmType_zero] at h
    subst h
    refine ⟨by simp, le_refl _, by omega⟩
  | false =>
    simp only [hn, Bool.not_false, if_true] at h
    split at h
    · simp at h
    · rename_i middle hsearch
      simp only [Option.some.injEq] at h
      have hrange : 1 ≤ middle ∧ middle ≤ cCuts + 1 := by
        by_cases hle : firstMidVal.le val = true
        · simp only [hle, if_true] at hsearch
          have := searchLoop_range cuts val _ _ _ _ (by omega) (by omega) hsearch
          omega
        · simp only [hle, if_false, Bool.false_eq_true] at hsearch
          have := searchLoop_range cuts val _ 0 _ _ (by omega) (by omega) hsearch
          omega
      rw [toIntEbmType_of_lt (by omega)] at h
      subst h
      refine ⟨?_, by omega, by omega⟩
      simp
      omega

/-- The loop body of the general search over a strictly increasing cut array counts the cuts
at or below the value. -/
theorem binGeneral_counts {cuts : List FloatEbm} {firstMidVal : FloatEbm}
    (hp : cuts.Pairwise (fun a b => a.lt b = true)) (h3 : 3 ≤ cuts.length)
    (hc : cuts.length < 2 ^ 62) (hfirst : cuts[(cuts.length - 1) / 2]? = some firstMidVal) :
    BinCounts (binGeneral cuts cuts.length ((cuts.length - 1 : Nat) : Int) firstMidVal
      (((cuts.length - 1) / 2 + 1 : Nat) : Int) (((cuts.length - 1) / 2 - 1 : Nat) : Int))
      cuts := by
  intro val result h hn
  have hT : IsThreshold cuts val (cutsAtOrBelow cuts val) := le_iff_lt_cutsAtOrBelow hp val
  have hm := cutsAtOrBelow_le_length cuts val
  have hiff := hT _ _ hfirst
  unfold binGeneral at h
  simp only [hn, Bool.not_false, if_true] at h
  split at h
  · simp at h
  · rename_i middle hsearch
    simp only [Option.some.injEq] at h
    have hmid : middle = cutsAtOrBelow cuts val + 1 := by
      by_cases hle : firstMidVal.le val = true
      · simp only [hle, if_true] at hsearch
        have := hiff.mp hle
        exact searchLoop_threshold hT _ _ _ _ (by omega) (by omega) (by omega) (by omega) hsearch
      · simp only [hle, if_false, Bool.false_eq_true] at hsearch
        have : ¬ (cuts.length - 1) / 2 < cutsAtOrBelow cuts val := fun hcon => hle (hiff.mpr hcon)
        exact searchLoop_threshold hT _ 0 _ _ (by omega) (by omega) (by omega) (by omega) hsearch
    rw [toIntEbmType_of_lt (by omega)] at h
    subst h
    subst hmid
    push_cast
    ring

/-- The loop body of the general search yields a bin for every value when the cut buffer
holds `cCuts` cuts. -/
theorem binGeneral_isSome (cuts : List FloatEbm) (cCuts : Nat) (firstMidVal : FloatEbm)
    (h3 : 3 ≤ cCuts) (hc : cCuts < 2 ^ 62) (hlen : cCuts ≤ cuts.length) (val : FloatEbm) :
    ∃ result, binGeneral cuts cCuts ((cCuts - 1 : Nat) : Int) firstMidVal
      (((cCuts - 1) / 2 + 1 : Nat) : Int) (((cCuts - 1) / 2 - 1 : Nat) : Int) val
        = some result := by
  unfold binGeneral
  cases hn : val.isnan with
  | true => exact ⟨toIntEbmType 0, by simp⟩
  | false =>
    simp only [Bool.not_false, if_true]
    by_cases hle : firstMidVal.le val = true
    · simp only [hle, if_true]
      obtain ⟨res, hres⟩ := searchLoop_isSome cuts val cCuts ((cCuts - 1) / 2 + 1) (cCuts - 1)
        (by omega) (by omega) (by omega) (by omega)
      exact ⟨_, by rw [hres]⟩
    · simp only [hle, if_false, Bool.false_eq_true]
      obtain ⟨res, hres⟩ := searchLoop_isSome cuts val cCuts 0 ((cCuts - 1) / 2 - 1)
        (by omega) (by omega) (by omega) (by omega)
      simp only [Nat.cast_zero] at hres
      exact ⟨_, by rw [hres]⟩

/-! ## The regimes of `Discretize` -/

theorem exitError_ret {o : Option (List Int)} {r : DiscretizeResult}
    (h : exitError o = some r) : r.ret = 1 ∧ r.discretizedOut = o ∧ r.writes = [] := by
  simp only [exitError, Option.some.injEq] at h
  subst h
  exact ⟨rfl, rfl, rfl⟩

theorem DiscretizeGeneral_ranLoop {cSamples cCuts : Nat} {featureValues cuts : List FloatEbm}
    {out : List Int} {r : DiscretizeResult}
    (h : DiscretizeGeneral cSamples featureValues (cCuts : Int) cuts out = some r)
    (hret : r.ret = 0) (h3 : 3 ≤ cCuts) :
    RanLoop cSamples featureValues (cCuts : Int) cuts out r := by
  have hno : ∀ {o : Option (List Int)}, exitError o = some r → False := by
    intro o he
    have := (exitError_ret he).1
    omega
  simp only [DiscretizeGeneral] at h
  split at h
  · exact (hno h).elim
  split at h
  · exact (hno h).elim
  rename_i hconv
  split at h
  · exact (hno h).elim
  rename_i hmul
  split at h
  · exact (hno h).elim
  split at h
  · exact (hno h).elim
  split at h
  · exact (hno h).elim
  have hlt64 : cCuts < 2 ^ 64 := by
    simp only [IsNumberConvertable, SIZE_MAX, Bool.not_eq_true', decide_eq_false_iff_not,
      not_and, not_le, Classical.not_imp, not_lt] at hconv
    have := hconv.2
    push_cast at this
    omega
  rw [toSizeT_natCast hlt64] at hmul h
  have hlt61 : cCuts < 2 ^ 61 := by
    simp only [IsMultiplyError, SIZE_MAX, sizeofFloatEbmType, decide_eq_true_eq, not_lt] at hmul
    omega
  rw [toPtrdiffT_of_lt (by omega), toSizeT_natCast (by omega),
    Nat.shiftRight_eq_div_pow, pow_one, toPtrdiffT_of_lt (by omega)] at h
  have e1 : (((cCuts - 1) / 2 : Nat) : Int) + 1 = (((cCuts - 1) / 2 + 1 : Nat) : Int) := by
    push_cast; rfl
  have e2 : (((cCuts - 1) / 2 : Nat) : Int) - 1 = (((cCuts - 1) / 2 - 1 : Nat) : Int) := by
    rw [Nat.cast_sub (by omega)]; simp
  rw [e1, e2] at h
  split at h
  · simp at h
  · rename_i firstMidVal hfirst
    refine ⟨_, h, binGeneral_inRange cuts cCuts firstMidVal h3 (by omega), ?_⟩
    intro hp hlen
    have hlen' : cuts.length = cCuts := by exact_mod_cast hlen
    subst hlen'
    exact binGeneral_counts hp h3 (by omega) hfirst

theorem paddedLog_eq_some {countCuts : Int} {k : Nat} (h : paddedLog countCuts = some k) :
    4 ≤ k ∧ k ≤ 10 ∧ countCuts ≤ 2 ^ k - 2 := by
  unfold paddedLog at h
  split_ifs at h <;> simp only [Option.some.injEq] at h <;> subst h <;>
    exact ⟨by norm_num, by norm_num, by norm_num; omega⟩

theorem DiscretizePadded_ranLoop {cSamples cCuts : Nat} {featureValues cuts : List FloatEbm}
    {out : List Int} {r : DiscretizeResult}
    (h : DiscretizePadded cSamples featureValues (cCuts : Int) cuts out = some r)
    (hret : r.ret = 0) (h3 : 3 ≤ cCuts) :
    RanLoop cSamples featureValues (cCuts : Int) cuts out r := by
  simp only [DiscretizePadded] at h
  split at h
  · rename_i k hk
    obtain ⟨hk4, hk10, hle⟩ := paddedLog_eq_some hk
    split at h
    · have hpow : 2 ^ k ≤ 2 ^ 10 := Nat.pow_le_pow_right (by norm_num) hk10
      have hpow4 : 2 ^ 4 ≤ 2 ^ k := Nat.pow_le_pow_right (by norm_num) hk4
      have hle' : cCuts ≤ 2 ^ k - 2 := by
        have h1 : (cCuts : Int) + 2 ≤ ((2 ^ k : Nat) : Int) := by
          push_cast
          omega
        have h2 : cCuts + 2 ≤ 2 ^ k := by exact_mod_cast h1
        omega
      rw [toSizeT_natCast (by omega)] at h
      split at h
      · simp at h
      · rename_i copy hcopy
        refine ⟨_, h, binPadded_inRange hcopy (by omega) (by omega), ?_⟩
        intro hp hlen
        have hlen' : cuts.length = cCuts := by exact_mod_cast hlen
        subst hlen'
        exact binPadded_counts hp hcopy hle' (by omega) (by omega)
    · exact DiscretizeGeneral_ranLoop h hret h3
  · exact DiscretizeGeneral_ranLoop h hret h3

/-- What a finished regime leaves behind. -/
theorem finishLoop_eq_some {bin : FloatEbm → Option Int} {featureValues : List FloatEbm}
    {cSamples : Nat} {out : List Int} {r : DiscretizeResult}
    (h : finishLoop bin featureValues cSamples out = some r) :
    r.ret = 0 ∧ ∃ buf, r.discretizedOut = some buf ∧ buf.length = out.length ∧
      cSamples - 1 < out.length ∧
      (∀ j, j ≤ cSamples - 1 → ∃ val result, featureValues[j]? = some val ∧
        bin val = some result ∧ buf[j]? = some result ∧ (j, result) ∈ r.writes) ∧
      (∀ j, cSamples - 1 < j → buf[j]? = out[j]?) ∧
      r.writes.map Prod.fst = List.range' 0 (cSamples - 1 + 1) ∧
      (∀ w ∈ r.writes, ∃ val, featureValues[w.1]? = some val ∧ bin val = some w.2) := by
  unfold finishLoop at h
  split at h
  · simp at h
  · rename_i st hst
    simp only [Option.some.injEq] at h
    subst h
    obtain ⟨hlen, hbound, hin, hout, ws, hws, hfst, hbin⟩ :=
      sampleLoop_eq_some bin featureValues _ _ _ _ hst
    simp only [List.nil_append] at hws
    refine ⟨rfl, st.buf, rfl, hlen, by simpa using hbound, ?_, ?_, ?_, ?_⟩
    · intro j hj
      exact hin j (Nat.zero_le _) (by omega)
    · intro j hj
      exact hout j (Or.inr (by omega))
    · simp only [hws]
      exact hfst
    · simp only [hws]
      exact hbin

theorem DiscretizeCuts_ranLoop {cSamples cCuts : Nat} {featureValues cuts : List FloatEbm}
    {out : List Int} {r : DiscretizeResult}
    (h : DiscretizeCuts cSamples featureValues (cCuts : Int) cuts out = some r)
    (hret : r.ret = 0) (hpos : 1 ≤ cCuts) :
    RanLoop cSamples featureValues (cCuts : Int) cuts out r := by
  unfold DiscretizeCuts at h
  by_cases hc1 : (cCuts : Int) = 1
  · simp only [hc1, if_true] at h
    norm_num at h
    simp only [bind, Option.bind_eq_some] at h
    obtain ⟨cut0, h0, h⟩ := h
    have hcc : cCuts = 1 := by exact_mod_cast hc1
    subst hcc
    refine ⟨_, h, bin1_inRange cut0, ?_⟩
    intro hp hlen
    have hlen' : cuts.length = 1 := by exact_mod_cast hlen
    have hcuts : cuts = [cut0] := by
      apply List.ext_getElem?
      intro n
      rcases Nat.lt_or_ge n 1 with hn | hn
      · interval_cases n
        simp [h0]
      · rw [List.getElem?_eq_none (by omega), List.getElem?_eq_none (by simp; omega)]
    subst hcuts
    exact bin1_counts cut0 hp
  simp only [hc1, if_false] at h
  by_cases hc2 : (cCuts : Int) = 2
  · simp only [hc2, if_true] at h
    norm_num at h
    simp only [bind, Option.bind_eq_some] at h
    obtain ⟨cut0, h0, h⟩ := h
    obtain ⟨cut1, h1, h⟩ := h
    have hcc : cCuts = 2 := by exact_mod_cast hc2
    subst hcc
    refine ⟨_, h, bin2_inRange cut0 cut1, ?_⟩
    intro hp hlen
    have hlen' : cuts.length = 2 := by exact_mod_cast hlen
    have hcuts : cuts = [cut0, cut1] := by
      apply List.ext_getElem?
      intro n
      rcases Nat.lt_or_ge n 2 with hn | hn
      · interval_cases n <;> simp [h0, h1]
      · rw [List.getElem?_eq_none (by omega), List.getElem?_eq_none (by simp; omega)]
    subst hcuts
    exact bin2_counts cut0 cut1 hp
  simp only [hc2, if_false] at h
  by_cases hc3 : (cCuts : Int) = 3
  · simp only [hc3, if_true] at h
    norm_num at h
    simp only [bind, Option.bind_eq_some] at h
    obtain ⟨cut0, h0, h⟩ := h
    obtain ⟨cut1, h1, h⟩ := h
    obtain ⟨cut2, h2, h⟩ := h
    have hcc : cCuts = 3 := by exact_mod_cast hc3
    subst hcc
    refine ⟨_, h, bin3_inRange cut0 cut1 cut2, ?_⟩
    intro hp hlen
    have hlen' : cuts.length = 3 := by exact_mod_cast hlen
    have hcuts : cuts = [cut0, cut1, cut2] := by
      apply List.ext_getElem?
      intro n
      rcases Nat.lt_or_ge n 3 with hn | hn
      · interval_cases n <;> simp [h0, h1, h2]
      · rw [List.getElem?_eq_none (by omega), List.getElem?_eq_none (by simp; omega)]
    subst hcuts
    exact bin3_counts cut0 cut1 cut2 hp
  simp only [hc3, if_false] at h
  by_cases hc4 : (cCuts : Int) = 4
  · simp only [hc4, if_true] at h
    norm_num at h
    simp only [bind, Option.bind_eq_some] at h
    obtain ⟨cut0, h0, h⟩ := h
    obtain ⟨cut1, h1, h⟩ := h
    obtain ⟨cut2, h2, h⟩ := h
    obtain ⟨cut3, h3, h⟩ := h
    have hcc : cCuts = 4 := by exact_mod_cast hc4
    subst hcc
    refine ⟨_, h, bin4_inRange cut0 cut1 cut2 cut3, ?_⟩
    intro hp hlen
    have hlen' : cuts.length = 4 := by exact_mod_cast hlen
    have hcuts : cuts = [cut0, cut1, cut2, cut3] := by
      apply List.ext_getElem?
      intro n
      rcases Nat.lt_or_ge n 4 with hn | hn
      · interval_cases n <;> simp [h0, h1, h2, h3]
      · rw [List.getElem?_eq_none (by omega), List.getElem?_eq_none (by simp; omega)]
    subst hcuts
    exact bin4_counts cut0 cut1 cut2 cut3 hp
  simp only [hc4, if_false] at h
  by_cases hc5 : (cCuts : Int) = 5
  · simp only [hc5, if_true] at h
    norm_num at h
    simp only [bind, Option.bind_eq_some] at h
    obtain ⟨cut0, h0, h⟩ := h
    obtain ⟨cut1, h1, h⟩ := h
    obtain ⟨cut2, h2, h⟩ := h
    obtain ⟨cut3, h3, h⟩ := h
    obtain ⟨cut4, h4, h⟩ := h
    have hcc : cCuts = 5 := by exact_mod_cast hc5
    subst hcc
    refine ⟨_, h, bin5_inRange cut0 cut1 cut2 cut3 cut4, ?_⟩
    intro hp hlen
    have hlen' : cuts.length = 5 := by exact_mod_cast hlen
    have hcuts : cuts = [cut0, cut1, cut2, cut3, cut4] := by
      apply List.ext_getElem?
      intro n
      rcases Nat.lt_or_ge n 5 with hn | hn
      · interval_cases n <;> simp [h0, h1, h2, h3, h4]
      · rw [List.getElem?_eq_none (by omega), List.getElem?_eq_none (by simp; omega)]
    subst hcuts
    exact bin5_counts cut0 cut1 cut2 cut3 cut4 hp
  simp only [hc5, if_false] at h
  by_cases hc6 : (cCuts : Int) = 6
  · simp only [hc6, if_true] at h
    norm_num at h
    simp only [bind, Option.bind_eq_some] at h
    obtain ⟨cut0, h0, h⟩ := h
    obtain ⟨cut1, h1, h⟩ := h
    obtain ⟨cut2, h2, h⟩ := h
    obtain ⟨cut3, h3, h⟩ := h
    obtain ⟨cut4, h4, h⟩ := h
    obtain ⟨cut5, h5, h⟩ := h
    have hcc : cCuts = 6 := by exact_mod_cast hc6
    subst hcc
    refine ⟨_, h, bin6_inRange cut0 cut1 cut2 cut3 cut4 cut5, ?_⟩
    intro hp hlen
    have hlen' : cuts.length = 6 := by exact_mod_cast hlen
    have hcuts : cuts = [cut0, cut1, cut2, cut3, cut4, cut5] := by
      apply List.ext_getElem?
      intro n
      rcases Nat.lt_or_ge n 6 with hn | hn
      · interval_cases n <;> simp [h0, h1, h2, h3, h4, h5]
      · rw [List.getElem?_eq_none (by omega), List.getElem?_eq_none (by simp; omega)]
    subst hcuts
    exact bin6_counts cut0 cut1 cut2 cut3 cut4 cut5 hp
  simp only [hc6, if_false] at h
  refine DiscretizePadded_ranLoop h hret ?_
  have h1 : cCuts ≠ 1 := fun hcon => hc1 (by exact_mod_cast hcon)
  have h2 : cCuts ≠ 2 := fun hcon => hc2 (by exact_mod_cast hcon)
  omega

theorem samplesFit_iff {countSamples : Int} (hpos : 0 < countSamples) :
    SamplesFit countSamples ↔ countSamples < 2 ^ 61 := by
  obtain ⟨n, rfl⟩ := Int.eq_ofNat_of_zero_le (le_of_lt hpos)
  unfold SamplesFit IsNumberConvertable IsMultiplyError SIZE_MAX sizeofFloatEbmType
    sizeofIntEbmType
  constructor
  · rintro ⟨h1, h2, _⟩
    simp only [decide_eq_true_eq] at h1
    have hn : n < 2 ^ 64 := by
      have := h1.2
      push_cast at this
      omega
    rw [toSizeT_natCast hn] at h2
    simp only [decide_eq_false_iff_not, not_lt] at h2
    have : n < 2 ^ 61 := by omega
    exact_mod_cast this
  · intro h
    have hn : n < 2 ^ 61 := by exact_mod_cast h
    rw [toSizeT_natCast (by omega)]
    refine ⟨?_, ?_, ?_⟩
    · simp only [decide_eq_true_eq]
      refine ⟨by omega, ?_⟩
      push_cast
      omega
    · simp only [decide_eq_false_iff_not, not_lt]
      omega
    · simp only [decide_eq_false_iff_not, not_lt]
      omega

/-- A call with at least one sample that returns 0 was given non-null sample and output
pointers and a sample count that passes the size checks, and ran the sample loop of one
regime. -/
theorem Discretize_ranLoop {countSamples countCuts : Int}
    {featureValues cutsLowerBoundInclusive : Option (List FloatEbm)}
    {discretizedOut : Option (List Int)} {r : DiscretizeResult}
    (h : Discretize countSamples featureValues countCuts cutsLowerBoundInclusive discretizedOut
      = some r)
    (hret : r.ret = 0) (hpos : 0 < countSamples) :
    ∃ values out, featureValues = some values ∧ discretizedOut = some out ∧
      countSamples < 2 ^ 61 ∧ 0 ≤ countCuts ∧
      ∀ cuts, (cutsLowerBoundInclusive = some cuts ∨
          (cutsLowerBoundInclusive = none ∧ cuts = [])) →
        RanLoop countSamples.toNat values countCuts cuts out r := by
  have hno : ∀ {o : Option (List Int)}, exitError o = some r → False := by
    intro o he
    have := (exitError_ret he).1
    omega
  unfold Discretize at h
  rw [if_neg (by omega)] at h
  split at h
  · exact (hno h).elim
  rename_i hconv
  simp only at h
  split at h
  · exact (hno h).elim
  rename_i hm1
  split at h
  · exact (hno h).elim
  rename_i hm2
  have hfit : SamplesFit countSamples :=
    ⟨by simpa using hconv, by simpa using hm1, by simpa using hm2⟩
  have hlt := (samplesFit_iff hpos).mp hfit
  obtain ⟨n, rfl⟩ := Int.eq_ofNat_of_zero_le (le_of_lt hpos)
  have hn : n < 2 ^ 61 := by exact_mod_cast hlt
  rw [toSizeT_natCast (by omega)] at h
  split at h
  · exact (hno h).elim
  rename_i values
  split at h
  · exact (hno h).elim
  rename_i out
  refine ⟨values, out, rfl, rfl, hlt, ?_⟩
  simp only [Int.toNat_ofNat]
  split at h
  · rename_i hle
    split at h
    · exact (hno h).elim
    rename_i hlt0
    have hzero : countCuts = 0 := by omega
    subst hzero
    refine ⟨le_refl _, ?_⟩
    intro cuts _
    refine ⟨_, h, bin0_inRange, ?_⟩
    intro _ hlen
    have : cuts = [] := by
      apply List.eq_nil_of_length_eq_zero
      exact_mod_cast hlen
    subst this
    exact bin0_counts
  · rename_i hgt
    refine ⟨by omega, ?_⟩
    split at h
    · exact (hno h).elim
    rename_i cs
    obtain ⟨c, rfl⟩ := Int.eq_ofNat_of_zero_le (show 0 ≤ countCuts by omega)
    have hc : 1 ≤ c := by
      have : ¬ ((c : Int) ≤ 0) := hgt
      omega
    intro cuts hcuts
    rcases hcuts with hsome | ⟨hnone, _⟩
    · simp only [Option.some.injEq] at hsome
      subst hsome
      exact DiscretizeCuts_ranLoop h hret hc
    · simp at hnone

/-- The bin of one sample of a successful call: it is in the buffer at the sample's index,
it was written there, it is 0 exactly for NaN and at most `countCuts + 1`, and it counts the
cuts at or below the value when the cuts are strictly increasing. -/
theorem Discretize_sample {countSamples countCuts : Int} {values : List FloatEbm}
    {cutsPtr : Option (List FloatEbm)} {out : List Int} {r : DiscretizeResult}
    (cuts : List FloatEbm) (hptr : cutsPtr = some cuts ∨ (cutsPtr = none ∧ cuts = []))
    (hcall : Discretize countSamples (some values) countCuts cutsPtr (some out) = some r)
    (hret : r.ret = 0) {i : Nat} (hi : (i : Int) < countSamples) {v : FloatEbm}
    (hv : values[i]? = some v) :
    ∃ buf b, r.discretizedOut = some buf ∧ buf[i]? = some b ∧ (i, b) ∈ r.writes ∧
      ((b = 0 ↔ v.isnan = true) ∧ 0 ≤ b ∧ b ≤ countCuts + 1) ∧
      (StrictlyIncreasing cuts → (cuts.length : Int) = countCuts → v.isnan = false →
        b = 1 + (cutsAtOrBelow cuts v : Int)) := by
  obtain ⟨values', out', hvalues, hout, _, _, hran⟩ :=
    Discretize_ranLoop hcall hret (by omega)
  simp only [Option.some.injEq] at hvalues hout
  subst hvalues hout
  obtain ⟨bin, hloop, hrange, hcounts⟩ := hran cuts hptr
  obtain ⟨_, buf, hbuf, _, _, hin, _, _, _⟩ := finishLoop_eq_some hloop
  obtain ⟨val, b, hval, hb, hbufi, hw⟩ := hin i (by omega)
  rw [hv] at hval
  simp only [Option.some.injEq] at hval
  subst hval
  exact ⟨buf, b, hbuf, hbufi, hw, hrange v b hb,
    fun hinc hlen hnan => hcounts hinc.pairwise hlen v b hb hnan⟩

/-- The bins written by a successful call: each write stores, at the index of a sample, a bin
that is 0 exactly when that sample is NaN and that is at most `countCuts + 1`. -/
theorem Discretize_writes {countSamples countCuts : Int}
    {featureValues cutsPtr : Option (List FloatEbm)} {discretizedOut : Option (List Int)}
    {r : DiscretizeResult}
    (hcall : Discretize countSamples featureValues countCuts cutsPtr discretizedOut = some r)
    (hret : r.ret = 0) :
    ∀ w ∈ r.writes, ∃ values v, featureValues = some values ∧ values[w.1]? = some v ∧
      (w.2 = 0 ↔ v.isnan = true) ∧ 0 ≤ w.2 ∧ w.2 ≤ countCuts + 1 := by
  by_cases hpos : 0 < countSamples
  · obtain ⟨values, out, hvalues, hout, _, _, hran⟩ := Discretize_ranLoop hcall hret hpos
    have hptr : ∃ cuts, cutsPtr = some cuts ∨ (cutsPtr = none ∧ cuts = []) := by
      cases cutsPtr with
      | none => exact ⟨[], Or.inr ⟨rfl, rfl⟩⟩
      | some cs => exact ⟨cs, Or.inl rfl⟩
    obtain ⟨cuts, hcuts⟩ := hptr
    obtain ⟨bin, hloop, hrange, _⟩ := hran cuts hcuts
    obtain ⟨_, buf, _, _, _, _, _, _, hws⟩ := finishLoop_eq_some hloop
    intro w hw
    obtain ⟨val, hval, hb⟩ := hws w hw
    exact ⟨values, val, hvalues, hval, hrange val w.2 hb⟩
  · unfold Discretize at hcall
    rw [if_pos (by omega)] at hcall
    split at hcall
    · have := (exitError_ret hcall).1
      omega
    · simp only [Option.some.injEq] at hcall
      subst hcall
      intro w hw
      simp at hw

/-- Past the checks on the sample count and on the sample and output pointers, `Discretize`
is its dispatch on the cut count. -/
theorem Discretize_of_samplesFit {countSamples : Int} (hpos : 0 < countSamples)
    (hfit : SamplesFit countSamples) (values : List FloatEbm) (countCuts : Int)
    (cutsPtr : Option (List FloatEbm)) (out : List Int) :
    Discretize countSamples (some values) countCuts cutsPtr (some out) =
      if countCuts ≤ 0 then
        if countCuts < 0 then exitError (some out)
        else finishLoop (fun val => some (bin0 val)) values countSamples.toNat out
      else
        match cutsPtr with
        | none => exitError (some out)
        | some cuts => DiscretizeCuts countSamples.toNat values countCuts cuts out := by
  have hlt := (samplesFit_iff hpos).mp hfit
  obtain ⟨h1, h2, h3⟩ := hfit
  obtain ⟨n, rfl⟩ := Int.eq_ofNat_of_zero_le (le_of_lt hpos)
  have hn : n < 2 ^ 61 := by exact_mod_cast hlt
  unfold Discretize
  rw [if_neg (by omega)]
  simp only [h1, h2, h3, Bool.not_true, Bool.false_eq_true, if_false]
  rw [toSizeT_natCast (by omega)]
  simp only [Int.toNat_ofNat]

/-- A regime whose loop body yields a bin for every value finishes with status 0 when the
sample and output buffers hold `cSamples` elements. -/
theorem finishLoop_isSome {bin : FloatEbm → Option Int} {featureValues : List FloatEbm}
    {cSamples : Nat} {out : List Int} (hbin : ∀ val, ∃ result, bin val = some result)
    (hpos : 1 ≤ cSamples) (hvalues : cSamples ≤ featureValues.length)
    (hout : cSamples ≤ out.length) :
    ∃ r, finishLoop bin featureValues cSamples out = some r := by
  obtain ⟨st, hst⟩ := sampleLoop_isSome bin featureValues hbin (cSamples - 1) 0 ⟨out, []⟩
    (by omega) (by simp; omega)
  exact ⟨⟨0, some st.buf, st.writes⟩, by simp [finishLoop, hst]⟩

/-- In a strictly increasing array of cuts none of which is NaN, the cuts at or below the
cut of index `k` are the `k + 1` first ones. -/
theorem cutsAtOrBelow_cut {cuts : List FloatEbm}
    (hp : cuts.Pairwise (fun a b => a.lt b = true)) {k : Nat} {c : FloatEbm}
    (hc : cuts[k]? = some c) (hnan : c.isnan = false) : cutsAtOrBelow cuts c = k + 1 := by
  have hT := le_iff_lt_cutsAtOrBelow hp c
  have h1 : k < cutsAtOrBelow cuts c := (hT k c hc).mp (FloatEbm.le_refl hnan)
  have hlen := cutsAtOrBelow_le_length cuts c
  obtain ⟨hk, hck⟩ := List.getElem?_eq_some.mp hc
  by_cases hnext : k + 1 < cuts.length
  · have hlt : (cuts[k]).lt (cuts[k + 1]) = true :=
      List.pairwise_iff_getElem.mp hp k (k + 1) hk hnext (Nat.lt_succ_self k)
    rw [hck] at hlt
    have hnot : ¬ k + 1 < cutsAtOrBelow cuts c := by
      intro hcon
      have := (hT (k + 1) _ (List.getElem?_eq_getElem hnext)).mpr hcon
      rw [FloatEbm.not_le_of_lt hlt] at this
      exact Bool.false_ne_true this
    omega
  · omega

theorem cutsAtOrBelow_mono (cuts : List FloatEbm) {v1 v2 : FloatEbm} (h : v1.le v2 = true) :
    cutsAtOrBelow cuts v1 ≤ cutsAtOrBelow cuts v2 :=
  List.countP_mono_left (fun _ _ hc => FloatEbm.le_chain hc h)

/-! ## Calls that return 0 -/

/-- The unrolled comparisons of a padded block stay inside the initialised part of the
table. -/
theorem paddedSearch_isSome (copy : List FloatEbm) (val : FloatEbm) :
    ∀ (k pResult : Nat), pResult + (2 ^ k - 1) ≤ copy.length →
      ∃ result, paddedSearch copy val k pResult = some result := by
  intro k
  induction k with
  | zero => intro p _; exact ⟨p, rfl⟩
  | succ k ih =>
    intro p h1
    have hpow : 2 ^ (k + 1) = 2 * 2 ^ k := by ring
    have hpos : 0 < 2 ^ k := pow_pos (by norm_num) k
    have hidx : p + (2 ^ k - 1) < copy.length := by omega
    simp only [paddedSearch, List.getElem?_eq_getElem hidx]
    split
    · exact ih _ (by omega)
    · exact ih _ (by omega)

/-- Past its checks on the cut count, the end of `Discretize` is the general binary
search. -/
theorem DiscretizeGeneral_of_fit {cCuts : Nat} (h3 : 3 ≤ cCuts) (hc : cCuts < 2 ^ 61)
    (cSamples : Nat) (featureValues cuts : List FloatEbm) (out : List Int) :
    DiscretizeGeneral cSamples featureValues (cCuts : Int) cuts out =
      match cuts[(cCuts - 1) / 2]? with
      | none => none
      | some firstMidVal =>
        finishLoop (binGeneral cuts cCuts ((cCuts - 1 : Nat) : Int) firstMidVal
          (((cCuts - 1) / 2 + 1 : Nat) : Int) (((cCuts - 1) / 2 - 1 : Nat) : Int))
          featureValues cSamples out := by
  have e1 : (((cCuts - 1) / 2 : Nat) : Int) + 1 = (((cCuts - 1) / 2 + 1 : Nat) : Int) := by
    push_cast; rfl
  have e2 : (((cCuts - 1) / 2 : Nat) : Int) - 1 = (((cCuts - 1) / 2 - 1 : Nat) : Int) := by
    rw [Nat.cast_sub (by omega)]; simp
  have hmax : ¬ (IntEbmType_max = (cCuts : Int)) := by
    unfold IntEbmType_max
    intro hcon
    have : (cCuts : Int) < 2 ^ 61 := by exact_mod_cast hc
    omega
  have hconv : IsNumberConvertable (cCuts : Int) = true := by
    unfold IsNumberConvertable SIZE_MAX
    simp only [decide_eq_true_eq]
    refine ⟨by omega, ?_⟩
    push_cast
    omega
  have hmul : IsMultiplyError sizeofFloatEbmType cCuts = false := by
    unfold IsMultiplyError SIZE_MAX sizeofFloatEbmType
    simp only [decide_eq_false_iff_not, not_lt]
    omega
  have h4 : ¬ (SIZE_MAX = cCuts) := by unfold SIZE_MAX; omega
  have h5 : ¬ (PTRDIFF_MAX < cCuts) := by unfold PTRDIFF_MAX; omega
  have h6 : ¬ (SIZE_MAX / 2 + 1 < cCuts) := by unfold SIZE_MAX; omega
  simp only [DiscretizeGeneral]
  rw [toSizeT_natCast (by omega), if_neg hmax]
  simp only [hconv, hmul, Bool.not_true, Bool.false_eq_true, if_false]
  rw [if_neg h4, if_neg h5, if_neg h6, toPtrdiffT_of_lt (by omega),
    toSizeT_natCast (by omega), Nat.shiftRight_eq_div_pow, pow_one,
    toPtrdiffT_of_lt (by omega), e1, e2]

theorem DiscretizeGeneral_isSome {cSamples cCuts : Nat} {featureValues cuts : List FloatEbm}
    {out : List Int} (h3 : 3 ≤ cCuts) (hc : cCuts < 2 ^ 61) (hlen : cCuts ≤ cuts.length)
    (hpos : 1 ≤ cSamples) (hvalues : cSamples ≤ featureValues.length)
    (hout : cSamples ≤ out.length) :
    ∃ r, DiscretizeGeneral cSamples featureValues (cCuts : Int) cuts out = some r ∧
      r.ret = 0 := by
  rw [DiscretizeGeneral_of_fit h3 hc]
  have hidx : (cCuts - 1) / 2 < cuts.length := by omega
  simp only [List.getElem?_eq_getElem hidx]
  obtain ⟨r, hr⟩ := finishLoop_isSome
    (binGeneral_isSome cuts cCuts cuts[(cCuts - 1) / 2] h3 (by omega) hlen) hpos hvalues hout
  exact ⟨r, hr, (finishLoop_eq_some hr).1⟩

theorem DiscretizePadded_isSome {cSamples cCuts : Nat} {featureValues cuts : List FloatEbm}
    {out : List Int} (h3 : 3 ≤ cCuts) (hc : cCuts < 2 ^ 61) (hlen : cCuts ≤ cuts.length)
    (hpos : 1 ≤ cSamples) (hvalues : cSamples ≤ featureValues.length)
    (hout : cSamples ≤ out.length) :
    ∃ r, DiscretizePadded cSamples featureValues (cCuts : Int) cuts out = some r ∧
      r.ret = 0 := by
  simp only [DiscretizePadded]
  split
  · rename_i k hk
    obtain ⟨hk4, hk10, hle⟩ := paddedLog_eq_some hk
    split
    · have hpow : 2 ^ k ≤ 2 ^ 10 := Nat.pow_le_pow_right (by norm_num) hk10
      have hpow4 : 2 ^ 4 ≤ 2 ^ k := Nat.pow_le_pow_right (by norm_num) hk4
      have hle' : cCuts ≤ 2 ^ k - 2 := by
        have h1 : (cCuts : Int) + 2 ≤ ((2 ^ k : Nat) : Int) := by
          push_cast
          omega
        have h2 : cCuts + 2 ≤ 2 ^ k := by exact_mod_cast h1
        omega
      rw [toSizeT_natCast (by omega)]
      simp only [paddedCopy, hlen, if_true]
      have hbin : ∀ val, ∃ result, binPadded (negInf :: (List.take cCuts cuts
          ++ List.replicate (2 ^ k - 2 - cCuts) nan)) k val = some result := by
        intro val
        obtain ⟨res, hres⟩ := paddedSearch_isSome (negInf :: (List.take cCuts cuts
          ++ List.replicate (2 ^ k - 2 - cCuts) nan)) val k 0 (by
            simp only [List.length_cons, List.length_append, List.length_take,
              List.length_replicate]
            omega)
        exact ⟨toIntEbmType res, by simp [binPadded, hres]⟩
      obtain ⟨r, hr⟩ := finishLoop_isSome hbin hpos hvalues hout
      exact ⟨r, hr, (finishLoop_eq_some hr).1⟩
    · exact DiscretizeGeneral_isSome h3 hc hlen hpos hvalues hout
  · exact DiscretizeGeneral_isSome h3 hc hlen hpos hvalues hout

theorem DiscretizeCuts_isSome {cSamples cCuts : Nat} {featureValues cuts : List FloatEbm}
    {out : List Int} (h1 : 1 ≤ cCuts) (hc : cCuts < 2 ^ 61) (hlen : cCuts ≤ cuts.length)
    (hpos : 1 ≤ cSamples) (hvalues : cSamples ≤ featureValues.length)
    (hout : cSamples ≤ out.length) :
    ∃ r, DiscretizeCuts cSamples featureValues (cCuts : Int) cuts out = some r ∧
      r.ret = 0 := by
  unfold DiscretizeCuts
  by_cases hc1 : cCuts = 1
  · subst hc1
    obtain ⟨cut0, h0⟩ : ∃ c, cuts[0]? = some c := ⟨_, List.getElem?_eq_getElem (by omega)⟩
    obtain ⟨r, hr⟩ := @finishLoop_isSome (fun val => some (bin1 cut0 val)) featureValues
      cSamples out (fun val => ⟨_, rfl⟩) hpos hvalues hout
    refine ⟨r, ?_, (finishLoop_eq_some hr).1⟩
    norm_num [h0]
    exact hr
  have hi1 : ¬ ((cCuts : Int) = 1) := fun hcon => hc1 (by exact_mod_cast hcon)
  rw [if_neg hi1]
  by_cases hc2 : cCuts = 2
  · subst hc2
    obtain ⟨cut0, h0⟩ : ∃ c, cuts[0]? = some c := ⟨_, List.getElem?_eq_getElem (by omega)⟩
    obtain ⟨cut1, h1⟩ : ∃ c, cuts[1]? = some c := ⟨_, List.getElem?_eq_getElem (by omega)⟩
    obtain ⟨r, hr⟩ := @finishLoop_isSome (fun val => some (bin2 cut0 cut1 val)) featureValues
      cSamples out (fun val => ⟨_, rfl⟩) hpos hvalues hout
    refine ⟨r, ?_, (finishLoop_eq_some hr).1⟩
    norm_num [h0, h1]
    exact hr
  have hi2 : ¬ ((cCuts : Int) = 2) := fun hcon => hc2 (by exact_mod_cast hcon)
  rw [if_neg hi2]
  by_cases hc3 : cCuts = 3
  · subst hc3
    obtain ⟨cut0, h0⟩ : ∃ c, cuts[0]? = some c := ⟨_, List.getElem?_eq_getElem (by omega)⟩
    obtain ⟨cut1, h1⟩ : ∃ c, cuts[1]? = some c := ⟨_, List.getElem?_eq_getElem (by omega)⟩
    obtain ⟨cut2, h2⟩ : ∃ c, cuts[2]? = some c := ⟨_, List.getElem?_eq_getElem (by omega)⟩
    obtain ⟨r, hr⟩ := @finishLoop_isSome (fun val => some (bin3 cut0 cut1 cut2 val)) featureValues
      cSamples out (fun val => ⟨_, rfl⟩) hpos hvalues hout
    refine ⟨r, ?_, (finishLoop_eq_some hr).1⟩
    norm_num [h0, h1, h2]
    exact hr
  have hi3 : ¬ ((cCuts : Int) = 3) := fun hcon => hc3 (by exact_mod_cast hcon)
  rw [if_neg hi3]
  by_cases hc4 : cCuts = 4
  · subst hc4
    obtain ⟨cut0, h0⟩ : ∃ c, cuts[0]? = some c := ⟨_, List.getElem?_eq_getElem (by omega)⟩
    obtain ⟨cut1, h1⟩ : ∃ c, cuts[1]? = some c := ⟨_, List.getElem?_eq_getElem (by omega)⟩
    obtain ⟨cut2, h2⟩ : ∃ c, cuts[2]? = some c := ⟨_, List.getElem?_eq_getElem (by omega)⟩
    obtain ⟨cut3, h3⟩ : ∃ c, cuts[3]? = some c := ⟨_, List.getElem?_eq_getElem (by omega)⟩
    obtain ⟨r, hr⟩ := @finishLoop_isSome (fun val => some (bin4 cut0 cut1 cut2 cut3 val)) featureValues
      cSamples out (fun val => ⟨_, rfl⟩) hpos hvalues hout
    refine ⟨r, ?_, (finishLoop_eq_some hr).1⟩
    norm_num [h0, h1, h2, h3]
    exact hr
  have hi4 : ¬ ((cCuts : Int) = 4) := fun hcon => hc4 (by exact_mod_cast hcon)
  rw [if_neg hi4]
  by_cases hc5 : cCuts = 5
  · subst hc5
    obtain ⟨cut0, h0⟩ : ∃ c, cuts[0]? = some c := ⟨_, List.getElem?_eq_getElem (by omega)⟩
    obtain ⟨cut1, h1⟩ : ∃ c, cuts[1]? = some c := ⟨_, List.getElem?_eq_getElem (by omega)⟩
    obtain ⟨cut2, h2⟩ : ∃ c, cuts[2]? = some c := ⟨_, List.getElem?_eq_getElem (by omega)⟩
    obtain ⟨cut3, h3⟩ : ∃ c, cuts[3]? = some c := ⟨_, List.getElem?_eq_getElem (by omega)⟩
    obtain ⟨cut4, h4⟩ : ∃ c, cuts[4]? = some c := ⟨_, List.getElem?_eq_getElem (by omega)⟩
    obtain ⟨r, hr⟩ := @finishLoop_isSome (fun val => some (bin5 cut0 cut1 cut2 cut3 cut4 val)) featureValues
      cSamples out (fun val => ⟨_, rfl⟩) hpos hvalues hout
    refine ⟨r, ?_, (finishLoop_eq_some hr).1⟩
    norm_num [h0, h1, h2, h3, h4]
    exact hr
  have hi5 : ¬ ((cCuts : Int) = 5) := fun hcon => hc5 (by exact_mod_cast hcon)
  rw [if_neg hi5]
  by_cases hc6 : cCuts = 6
  · subst hc6
    obtain ⟨cut0, h0⟩ : ∃ c, cuts[0]? = some c := ⟨_, List.getElem?_eq_getElem (by omega)⟩
    obtain ⟨cut1, h1⟩ : ∃ c, cuts[1]? = some c := ⟨_, List.getElem?_eq_getElem (by omega)⟩
    obtain ⟨cut2, h2⟩ : ∃ c, cuts[2]? = some c := ⟨_, List.getElem?_eq_getElem (by omega)⟩
    obtain ⟨cut3, h3⟩ : ∃ c, cuts[3]? = some c := ⟨_, List.getElem?_eq_getElem (by omega)⟩
    obtain ⟨cut4, h4⟩ : ∃ c, cuts[4]? = some c := ⟨_, List.getElem?_eq_getElem (by omega)⟩
    obtain ⟨cut5, h5⟩ : ∃ c, cuts[5]? = some c := ⟨_, List.getElem?_eq_getElem (by omega)⟩
    obtain ⟨r, hr⟩ := @finishLoop_isSome (fun val => some (bin6 cut0 cut1 cut2 cut3 cut4 cut5 val)) featureValues
      cSamples out (fun val => ⟨_, rfl⟩) hpos hvalues hout
    refine ⟨r, ?_, (finishLoop_eq_some hr).1⟩
    norm_num [h0, h1, h2, h3, h4, h5]
    exact hr
  have hi6 : ¬ ((cCuts : Int) = 6) := fun hcon => hc6 (by exact_mod_cast hcon)
  rw [if_neg hi6]
  exact DiscretizePadded_isSome (by omega) hc hlen hpos hvalues hout

/-- A call returns 0 when it has at least one sample, its sample count passes the size
checks, its sample and output buffers hold `countSamples` elements, and its cut count is at
least 0, small enough for the size checks of the cuts (`countCuts < 2^61` on the platform
modelled) and, unless it is 0, comes with a cut buffer of `countCuts` elements.  In
particular the general binary search never runs out of the fuel of the embedding. -/
theorem Discretize_isSome {countSamples countCuts : Int} {values : List FloatEbm}
    {cutsPtr : Option (List FloatEbm)} {out : List Int}
    (hpos : 1 ≤ countSamples) (hfit : SamplesFit countSamples)
    (hvalues : countSamples ≤ values.length) (hout : countSamples ≤ out.length)
    (hcuts0 : 0 ≤ countCuts) (hcuts : countCuts < 2 ^ 61)
    (hptr : countCuts = 0 ∨ ∃ cuts, cutsPtr = some cuts ∧ countCuts ≤ cuts.length) :
    ∃ r, Discretize countSamples (some values) countCuts cutsPtr (some out) = some r ∧
      r.ret = 0 := by
  rw [Discretize_of_samplesFit (by omega) hfit]
  by_cases hzero : countCuts = 0
  · subst hzero
    simp only [le_refl, if_true, lt_irrefl, if_false]
    obtain ⟨r, hr⟩ := @finishLoop_isSome (fun val => some (bin0 val)) values
      countSamples.toNat out (fun val => ⟨_, rfl⟩) (by omega) (by omega) (by omega)
    exact ⟨r, hr, (finishLoop_eq_some hr).1⟩
  · rw [if_neg (by omega)]
    rcases hptr with h0 | ⟨cuts, rfl, hlen⟩
    · exact absurd h0 hzero
    · obtain ⟨c, rfl⟩ := Int.eq_ofNat_of_zero_le hcuts0
      simp only
      exact DiscretizeCuts_isSome (by omega) (by exact_mod_cast hcuts)
        (by exact_mod_cast hlen) (by omega) (by omega) (by omega)

/-! ## The properties of `Discretize` -/

/-- C1: for a strictly increasing array of finite cuts of any count (a null cut pointer is
allowed for the empty array), a call that returns 0 has written, at the position of every
sample whose value `v` is not NaN (the infinities included), the bin
`1 + (number of cuts c with c <= v)`, whichever regime handled the call. -/
theorem Discretize_bin_eq_one_add_count (countSamples : Int) (values cuts : List FloatEbm)
    (cutsPtr : Option (List FloatEbm)) (out : List Int) (r : DiscretizeResult)
    (hptr : cutsPtr = some cuts ∨ (cutsPtr = none ∧ cuts = []))
    (hinc : StrictlyIncreasing cuts) (_hfin : AllFinite cuts)
    (hcall : Discretize countSamples (some values) (cuts.length : Int) cutsPtr (some out)
      = some r)
    (hret : r.ret = 0) (i : Nat) (hi : (i : Int) < countSamples) (v : FloatEbm)
    (hv : values[i]? = some v) (hnan : v.isnan = false) :
    ∃ buf, r.discretizedOut = some buf ∧
      buf[i]? = some (1 + (cutsAtOrBelow cuts v : Int)) ∧
      (i, 1 + (cutsAtOrBelow cuts v : Int)) ∈ r.writes := by
  obtain ⟨buf, b, hbuf, hbi, hw, _, hcount⟩ := Discretize_sample cuts hptr hcall hret hi hv
  have hb := hcount hinc rfl hnan
  subst hb
  exact ⟨buf, hbuf, hbi, hw⟩

/-- The scenario `cuts = [1.0, 5.0, 9.0]`, `values = [0.5, 1.0, 5.0, 9.5, NaN]` gives the bins
`[1, 2, 3, 4, 0]`; the sample 9.5 at index 3 has three cuts at or below it. -/
theorem Discretize_bin_eq_one_add_count_witness :
    Discretize 5 (some [finite (mkRat 1 2), finite 1, finite 5, finite (mkRat 19 2), nan]) 3
        (some [finite 1, finite 5, finite 9]) (some [7, 7, 7, 7, 7])
      = some ⟨0, some [1, 2, 3, 4, 0], [(0, 1), (1, 2), (2, 3), (3, 4), (4, 0)]⟩ ∧
    ∃ buf, (some [1, 2, 3, 4, 0] : Option (List Int)) = some buf ∧
      buf[3]? = some (1 + (cutsAtOrBelow [finite 1, finite 5, finite 9]
        (finite (mkRat 19 2)) : Int)) ∧
      (3, 1 + (cutsAtOrBelow [finite 1, finite 5, finite 9] (finite (mkRat 19 2)) : Int)) ∈
        [((0 : Nat), (1 : Int)), (1, 2), (2, 3), (3, 4), (4, 0)] :=
  ⟨by decide,
    Discretize_bin_eq_one_add_count 5
      [finite (mkRat 1 2), finite 1, finite 5, finite (mkRat 19 2), nan]
      [finite 1, finite 5, finite 9] (some [finite 1, finite 5, finite 9]) [7, 7, 7, 7, 7]
      ⟨0, some [1, 2, 3, 4, 0], [(0, 1), (1, 2), (2, 3), (3, 4), (4, 0)]⟩
      (Or.inl rfl) (by decide) (by decide) (by decide) rfl 3 (by decide)
      (finite (mkRat 19 2)) rfl rfl⟩

/-- C2: in a call that returns 0, whatever the cut buffer holds and in whatever order, the bin
written for a sample is 0 if and only if the value of that sample is NaN. -/
theorem Discretize_bin_zero_iff_isnan (countSamples countCuts : Int)
    (values : List FloatEbm) (cutsPtr : Option (List FloatEbm)) (out : List Int)
    (r : DiscretizeResult)
    (hcall : Discretize countSamples (some values) countCuts cutsPtr (some out) = some r)
    (hret : r.ret = 0) (i : Nat) (hi : (i : Int) < countSamples) (v : FloatEbm)
    (hv : values[i]? = some v) :
    ∃ buf b, r.discretizedOut = some buf ∧ buf[i]? = some b ∧ (i, b) ∈ r.writes ∧
      (b = 0 ↔ v.isnan = true) := by
  have hptr : ∃ cuts, cutsPtr = some cuts ∨ (cutsPtr = none ∧ cuts = []) := by
    cases cutsPtr with
    | none => exact ⟨[], Or.inr ⟨rfl, rfl⟩⟩
    | some cs => exact ⟨cs, Or.inl rfl⟩
  obtain ⟨cuts, hcuts⟩ := hptr
  obtain ⟨buf, b, hbuf, hbi, hw, hrange, _⟩ := Discretize_sample cuts hcuts hcall hret hi hv
  exact ⟨buf, b, hbuf, hbi, hw, hrange.1⟩

/-- Eight cuts out of order, one of them NaN and one infinite, searched by the general binary
search: the NaN sample at index 1 is the one with bin 0. -/
theorem Discretize_bin_zero_iff_isnan_witness :
    Discretize 3 (some [finite 4, nan, negInf]) 8
        (some [finite 7, finite 3, nan, finite 5, posInf, finite 0, finite 2, finite 1])
        (some [9, 9, 9])
      = some ⟨0, some [3, 0, 1], [(0, 3), (1, 0), (2, 1)]⟩ ∧
    ∃ buf b, (some [3, 0, 1] : Option (List Int)) = some buf ∧ buf[1]? = some b ∧
      (1, b) ∈ [((0 : Nat), (3 : Int)), (1, 0), (2, 1)] ∧ (b = 0 ↔ nan.isnan = true) :=
  ⟨by decide,
    Discretize_bin_zero_iff_isnan 3 8 [finite 4, nan, negInf]
      (some [finite 7, finite 3, nan, finite 5, posInf, finite 0, finite 2, finite 1])
      [9, 9, 9] ⟨0, some [3, 0, 1], [(0, 3), (1, 0), (2, 1)]⟩ (by decide) rfl 1 (by decide)
      nan rfl⟩

/-- C3: against one strictly increasing array of finite cuts, two values `v1 <= v2`, neither
of them NaN, discretized by calls that return 0 (the same call or two calls, of any sample
counts), get bins `b1 <= b2`. -/
theorem Discretize_bin_monotone (cuts : List FloatEbm) (cutsPtr : Option (List FloatEbm))
    (hptr : cutsPtr = some cuts ∨ (cutsPtr = none ∧ cuts = []))
    (hinc : StrictlyIncreasing cuts) (_hfin : AllFinite cuts)
    (countSamples1 countSamples2 : Int) (values1 values2 : List FloatEbm)
    (out1 out2 : List Int) (r1 r2 : DiscretizeResult)
    (hcall1 : Discretize countSamples1 (some values1) (cuts.length : Int) cutsPtr (some out1)
      = some r1)
    (hret1 : r1.ret = 0)
    (hcall2 : Discretize countSamples2 (some values2) (cuts.length : Int) cutsPtr (some out2)
      = some r2)
    (hret2 : r2.ret = 0)
    (i1 i2 : Nat) (hi1 : (i1 : Int) < countSamples1) (hi2 : (i2 : Int) < countSamples2)
    (v1 v2 : FloatEbm) (hv1 : values1[i1]? = some v1) (hv2 : values2[i2]? = some v2)
    (hle : v1.le v2 = true) :
    ∃ buf1 buf2 b1 b2, r1.discretizedOut = some buf1 ∧ r2.discretizedOut = some buf2 ∧
      buf1[i1]? = some b1 ∧ buf2[i2]? = some b2 ∧ b1 ≤ b2 := by
  have hnan1 : v1.isnan = false := FloatEbm.isnan_of_le_left hle
  have hnan2 : v2.isnan = false := by
    cases v2 <;> simp_all [FloatEbm.isnan, FloatEbm.le_nan]
  obtain ⟨buf1, b1, hbuf1, hb1, _, _, hc1⟩ := Discretize_sample cuts hptr hcall1 hret1 hi1 hv1
  obtain ⟨buf2, b2, hbuf2, hb2, _, _, hc2⟩ := Discretize_sample cuts hptr hcall2 hret2 hi2 hv2
  refine ⟨buf1, buf2, b1, b2, hbuf1, hbuf2, hb1, hb2, ?_⟩
  rw [hc1 hinc rfl hnan1, hc2 hinc rfl hnan2]
  have := cutsAtOrBelow_mono cuts hle
  omega

/-- Seven cuts: the value 3 of a call of two samples (general binary search) and the value
plus infinity of a call of 64 samples (padded table of 16) get the bins 4 and 8. -/
theorem Discretize_bin_monotone_witness :
    Discretize 2 (some [finite 3, finite 20]) 7
        (some [finite 1, finite 2, finite 3, finite 5, finite 8, finite 13, finite 21])
        (some [9, 9])
      = some ⟨0, some [4, 7], [(0, 4), (1, 7)]⟩ ∧
    Discretize 64 (some (List.replicate 63 (finite 4) ++ [posInf])) 7
        (some [finite 1, finite 2, finite 3, finite 5, finite 8, finite 13, finite 21])
        (some (List.replicate 64 9))
      = some ⟨0, some (List.replicate 63 4 ++ [8]),
          (List.replicate 63 (4 : Int) ++ [8]).enum⟩ ∧
    ∃ buf1 buf2 b1 b2, (some [4, 7] : Option (List Int)) = some buf1 ∧
      some (List.replicate 63 (4 : Int) ++ [8]) = some buf2 ∧
      buf1[0]? = some b1 ∧ buf2[63]? = some b2 ∧ b1 ≤ b2 :=
  ⟨by decide, by decide,
    Discretize_bin_monotone
      [finite 1, finite 2, finite 3, finite 5, finite 8, finite 13, finite 21]
      (some [finite 1, finite 2, finite 3, finite 5, finite 8, finite 13, finite 21])
      (Or.inl rfl) (by decide) (by decide) 2 64 [finite 3, finite 20]
      (List.replicate 63 (finite 4) ++ [posInf]) [9, 9] (List.replicate 64 9)
      ⟨0, some [4, 7], [(0, 4), (1, 7)]⟩
      ⟨0, some (List.replicate 63 4 ++ [8]), (List.replicate 63 (4 : Int) ++ [8]).enum⟩
      (by decide) rfl (by decide) rfl 0 63 (by decide) (by decide) (finite 3) posInf
      (by decide) (by decide) (by decide)⟩

/-- C4: against a strictly increasing array of finite cuts, a sample whose value is the cut of
index `k` gets the bin `k + 2` in a call that returns 0, whichever regime handled the call. -/
theorem Discretize_bin_at_cut (countSamples : Int) (values cuts : List FloatEbm)
    (out : List Int) (r : DiscretizeResult)
    (hinc : StrictlyIncreasing cuts) (hfin : AllFinite cuts)
    (hcall : Discretize countSamples (some values) (cuts.length : Int) (some cuts) (some out)
      = some r)
    (hret : r.ret = 0) (i : Nat) (hi : (i : Int) < countSamples) (k : Nat) (c : FloatEbm)
    (hk : cuts[k]? = some c) (hv : values[i]? = some c) :
    ∃ buf, r.discretizedOut = some buf ∧ buf[i]? = some ((k : Int) + 2) ∧
      (i, (k : Int) + 2) ∈ r.writes := by
  have hnan : c.isnan = false := (hfin c (List.getElem?_mem hk)).1
  obtain ⟨buf, b, hbuf, hbi, hw, _, hcount⟩ :=
    Discretize_sample cuts (Or.inl rfl) hcall hret hi hv
  have hb := hcount hinc rfl hnan
  rw [cutsAtOrBelow_cut hinc.pairwise hk hnan] at hb
  have hb' : b = (k : Int) + 2 := by
    rw [hb]
    push_cast
    ring
  subst hb'
  exact ⟨buf, hbuf, hbi, hw⟩

/-- Six cuts (the last unrolled block): the sample 13 equals the cut of index 5 and gets the
bin 7. -/
theorem Discretize_bin_at_cut_witness :
    Discretize 2 (some [finite 13, finite 1]) 6
        (some [finite 1, finite 2, finite 3, finite 5, finite 8, finite 13]) (some [9, 9, 9])
      = some ⟨0, some [7, 2, 9], [(0, 7), (1, 2)]⟩ ∧
    ∃ buf, (some [7, 2, 9] : Option (List Int)) = some buf ∧ buf[0]? = some (((5 : Nat) : Int) + 2) ∧
      (0, ((5 : Nat) : Int) + 2) ∈ [((0 : Nat), (7 : Int)), (1, 2)] :=
  ⟨by decide,
    Discretize_bin_at_cut 2 [finite 13, finite 1]
      [finite 1, finite 2, finite 3, finite 5, finite 8, finite 13] [9, 9, 9]
      ⟨0, some [7, 2, 9], [(0, 7), (1, 2)]⟩ (by decide) (by decide) (by decide) rfl 0
      (by decide) 5 (finite 13) rfl rfl⟩

/-- C5, as stated, fails: with `countCuts = 0`, `2^61` samples and non-null sample and output
buffers of `2^61` elements each, `sizeof(*featureValues) * cSamples` overflows `size_t`, so
the call returns 1 and writes nothing. -/
theorem Discretize_no_cuts_overflow :
    (Discretize (2 ^ 61) (some (List.replicate (2 ^ 61) (finite 3))) 0 none
      (some (List.replicate (2 ^ 61) 7))).map (fun r => (r.ret, r.writes)) = some (1, []) := by
  decide

/-- C5, amended: with `countCuts = 0`, at least one sample, a sample count that passes the size
checks (`countSamples < 2^61` on the platform modelled, see `samplesFit_iff`) and sample and
output buffers of at least `countSamples` elements (the cut pointer may be null), the call
returns 0 and writes 1 for every sample that is not NaN and 0 for every NaN sample. -/
theorem Discretize_no_cuts (countSamples : Int) (values : List FloatEbm)
    (cutsPtr : Option (List FloatEbm)) (out : List Int)
    (hpos : 1 ≤ countSamples) (hfit : SamplesFit countSamples)
    (hvalues : countSamples ≤ values.length) (hout : countSamples ≤ out.length) :
    ∃ r buf, Discretize countSamples (some values) 0 cutsPtr (some out) = some r ∧
      r.ret = 0 ∧ r.discretizedOut = some buf ∧
      ∀ (i : Nat) (v : FloatEbm), (i : Int) < countSamples → values[i]? = some v →
        buf[i]? = some (if v.isnan = true then 0 else 1) ∧
        (i, if v.isnan = true then 0 else 1) ∈ r.writes := by
  have hcases := Discretize_of_samplesFit (by omega) hfit values 0 cutsPtr out
  simp only [le_refl, if_true, lt_irrefl, if_false] at hcases
  obtain ⟨r, hr⟩ := @finishLoop_isSome (fun val => some (bin0 val)) values
    countSamples.toNat out (fun val => ⟨_, rfl⟩) (by omega) (by omega) (by omega)
  obtain ⟨hret, buf, hbuf, _, _, hin, _, _, _⟩ := finishLoop_eq_some hr
  refine ⟨r, buf, by rw [hcases, hr], hret, hbuf, ?_⟩
  intro i v hi hv
  obtain ⟨val, b, hval, hb, hbi, hw⟩ := hin i (by omega)
  rw [hv] at hval
  simp only [Option.some.injEq] at hval hb
  subst hval
  have hb' : b = if v.isnan = true then 0 else 1 := by
    rw [← hb]
    rfl
  subst hb'
  exact ⟨hbi, hw⟩

/-- The scenario `cuts = []`, `values = [3.0, NaN]` gives the bins `[1, 0]`. -/
theorem Discretize_no_cuts_witness :
    ∃ r buf, Discretize 2 (some [finite 3, nan]) 0 none (some [7, 7]) = some r ∧
      r.ret = 0 ∧ r.discretizedOut = some buf ∧
      ∀ (i : Nat) (v : FloatEbm), (i : Int) < 2 → [finite 3, nan][i]? = some v →
        buf[i]? = some (if v.isnan = true then 0 else 1) ∧
        (i, if v.isnan = true then 0 else 1) ∈ r.writes :=
  Discretize_no_cuts 2 [finite 3, nan] none [7, 7] (by decide) (by decide) (by decide)
    (by decide)

/-- C6: in a call that returns 0, whatever the cut buffer holds and in whatever order, every
bin written is an integer `b` with `0 <= b <= countCuts + 1`. -/
theorem Discretize_bin_range (countSamples countCuts : Int)
    (featureValues cutsPtr : Option (List FloatEbm)) (discretizedOut : Option (List Int))
    (r : DiscretizeResult)
    (hcall : Discretize countSamples featureValues countCuts cutsPtr discretizedOut = some r)
    (hret : r.ret = 0) :
    ∀ w ∈ r.writes, 0 ≤ w.2 ∧ w.2 ≤ countCuts + 1 := by
  intro w hw
  obtain ⟨_, _, _, _, _, h0, h1⟩ := Discretize_writes hcall hret w hw
  exact ⟨h0, h1⟩

/-- Seven cuts out of order, searched through the padded table of 16 by a call of 64 samples:
every bin written is 8, which is `countCuts + 1`. -/
theorem Discretize_bin_range_witness :
    Discretize 64 (some (List.replicate 63 (finite 4) ++ [posInf])) 7
        (some [finite 7, finite 3, finite 9, finite 5, finite 8, finite 0, finite 2])
        (some (List.replicate 64 9))
      = some ⟨0, some (List.replicate 64 8), (List.replicate 64 (8 : Int)).enum⟩ ∧
    ∀ w ∈ (List.replicate 64 (8 : Int)).enum, 0 ≤ w.2 ∧ w.2 ≤ (7 : Int) + 1 :=
  ⟨by decide,
    Discretize_bin_range 64 7 (some (List.replicate 63 (finite 4) ++ [posInf]))
      (some [finite 7, finite 3, finite 9, finite 5, finite 8, finite 0, finite 2])
      (some (List.replicate 64 9))
      ⟨0, some (List.replicate 64 8), (List.replicate 64 (8 : Int)).enum⟩ (by decide) rfl⟩

/-- C7: a call with `countSamples = 0` returns 0 and writes nothing, whatever the other
arguments are. -/
theorem Discretize_zero_samples (featureValues : Option (List FloatEbm)) (countCuts : Int)
    (cutsPtr : Option (List FloatEbm)) (discretizedOut : Option (List Int)) :
    Discretize 0 featureValues countCuts cutsPtr discretizedOut
      = some ⟨0, discretizedOut, []⟩ := by
  simp [Discretize]

/-- C8: a call with `countSamples < 0` returns 1 and writes nothing. -/
theorem Discretize_negative_samples (countSamples : Int)
    (featureValues : Option (List FloatEbm)) (countCuts : Int)
    (cutsPtr : Option (List FloatEbm)) (discretizedOut : Option (List Int))
    (hneg : countSamples < 0) :
    Discretize countSamples featureValues countCuts cutsPtr discretizedOut
      = some ⟨1, discretizedOut, []⟩ := by
  unfold Discretize
  rw [if_pos (by omega), if_pos hneg]
  rfl

/-- A call with `countSamples = -1` returns 1 and leaves the output buffer as it was. -/
theorem Discretize_negative_samples_witness :
    Discretize (-1) (some [finite 3]) 1 (some [finite 2]) (some [7])
      = some ⟨1, some [7], []⟩ :=
  Discretize_negative_samples (-1) (some [finite 3]) 1 (some [finite 2]) (some [7])
    (by decide)

/-- C9, as stated, fails: a call with `countSamples = 0` and `countCuts = -1` returns 0, as
the sample count is looked at first. -/
theorem Discretize_negative_cuts_zero_samples :
    Discretize 0 (some [finite 3]) (-1) (some [finite 2]) (some [7])
      = some ⟨0, some [7], []⟩ := by
  decide

/-- C9, amended: a call with `countSamples ≠ 0` whose cut count is negative returns 1 (and
writes nothing). -/
theorem Discretize_negative_cuts (countSamples : Int)
    (featureValues : Option (List FloatEbm)) (countCuts : Int)
    (cutsPtr : Option (List FloatEbm)) (discretizedOut : Option (List Int))
    (hsamples : countSamples ≠ 0) (hneg : countCuts < 0) :
    Discretize countSamples featureValues countCuts cutsPtr discretizedOut
      = some ⟨1, discretizedOut, []⟩ := by
  unfold Discretize
  by_cases hs : countSamples < 0
  · rw [if_pos (by omega), if_pos hs]
    rfl
  · rw [if_neg (by omega)]
    cases featureValues <;> cases discretizedOut <;> simp only [exitError] <;> split_ifs <;>
      first | rfl | omega

/-- A call with one sample and `countCuts = -1` returns 1 and leaves the output buffer as it
was. -/
theorem Discretize_negative_cuts_witness :
    Discretize 1 (some [finite 3]) (-1) (some [finite 2]) (some [7])
      = some ⟨1, some [7], []⟩ :=
  Discretize_negative_cuts 1 (some [finite 3]) (-1) (some [finite 2]) (some [7])
    (by decide) (by decide)

/-- C10: a call with `countSamples >= 1` in which the feature-value pointer or the output
pointer is null returns 1 and writes nothing. -/
theorem Discretize_null_pointer (countSamples : Int)
    (featureValues : Option (List FloatEbm)) (countCuts : Int)
    (cutsPtr : Option (List FloatEbm)) (discretizedOut : Option (List Int))
    (hpos : 1 ≤ countSamples) (hnull : featureValues = none ∨ discretizedOut = none) :
    Discretize countSamples featureValues countCuts cutsPtr discretizedOut
      = some ⟨1, discretizedOut, []⟩ := by
  unfold Discretize
  rw [if_neg (by omega)]
  rcases hnull with rfl | rfl
  · simp only [exitError]
    split_ifs <;> rfl
  · cases featureValues <;> simp only [exitError] <;> split_ifs <;> rfl

/-- A call with two samples, a sample buffer and a null output pointer returns 1. -/
theorem Discretize_null_pointer_witness :
    Discretize 2 (some [finite 3, nan]) 1 (some [finite 2]) none = some ⟨1, none, []⟩ :=
  Discretize_null_pointer 2 (some [finite 3, nan]) 1 (some [finite 2]) none (by decide)
    (Or.inr rfl)

/-! ## Failure exits and write log of `Discretize` -/

theorem cutsFit_iff {countCuts : Int} (hpos : 0 ≤ countCuts) :
    CutsFit countCuts ↔ countCuts < 2 ^ 61 := by
  obtain ⟨c, rfl⟩ := Int.eq_ofNat_of_zero_le hpos
  unfold CutsFit IsNumberConvertable IsMultiplyError SIZE_MAX PTRDIFF_MAX IntEbmType_max
    sizeofFloatEbmType
  constructor
  · rintro ⟨_, h2, h3, _, _, _⟩
    simp only [decide_eq_true_eq] at h2
    have hc : c < 2 ^ 64 := by
      have := h2.2
      push_cast at this
      omega
    rw [toSizeT_natCast hc] at h3
    simp only [decide_eq_false_iff_not, not_lt] at h3
    have : c < 2 ^ 61 := by omega
    exact_mod_cast this
  · intro h
    have hc : c < 2 ^ 61 := by exact_mod_cast h
    rw [toSizeT_natCast (by omega)]
    refine ⟨by omega, ?_, ?_, by omega, by omega, by omega⟩
    · simp only [decide_eq_true_eq]
      refine ⟨by omega, ?_⟩
      push_cast
      omega
    · simp only [decide_eq_false_iff_not, not_lt]
      omega

/-- The end of `Discretize` either takes a failure exit or passes the checks on the cut count
and runs the general search to status 0. -/
theorem DiscretizeGeneral_eq_some {cSamples : Nat} {countCuts : Int}
    {featureValues cuts : List FloatEbm} {out : List Int} {r : DiscretizeResult}
    (h : DiscretizeGeneral cSamples featureValues countCuts cuts out = some r) :
    exitError (some out) = some r ∨ (r.ret = 0 ∧ CutsFit countCuts) := by
  simp only [DiscretizeGeneral] at h
  split at h
  · exact Or.inl h
  rename_i h1
  split at h
  · exact Or.inl h
  rename_i h2
  split at h
  · exact Or.inl h
  rename_i h3
  split at h
  · exact Or.inl h
  rename_i h4
  split at h
  · exact Or.inl h
  rename_i h5
  split at h
  · exact Or.inl h
  rename_i h6
  split at h
  · simp at h
  · exact Or.inr ⟨(finishLoop_eq_some h).1,
      h1, by simpa using h2, by simpa using h3, h4, h5, h6⟩

theorem DiscretizePadded_eq_some {cSamples : Nat} {countCuts : Int}
    {featureValues cuts : List FloatEbm} {out : List Int} {r : DiscretizeResult}
    (h : DiscretizePadded cSamples featureValues countCuts cuts out = some r)
    (hpos : 0 ≤ countCuts) :
    exitError (some out) = some r ∨ (r.ret = 0 ∧ countCuts < 2 ^ 61) := by
  have hgen : ∀ h' : DiscretizeGeneral cSamples featureValues countCuts cuts out = some r,
      exitError (some out) = some r ∨ (r.ret = 0 ∧ countCuts < 2 ^ 61) := by
    intro h'
    rcases DiscretizeGeneral_eq_some h' with he | ⟨h0, hfit⟩
    · exact Or.inl he
    · exact Or.inr ⟨h0, (cutsFit_iff hpos).mp hfit⟩
  simp only [DiscretizePadded] at h
  split at h
  · rename_i k hk
    obtain ⟨_, hk10, hle⟩ := paddedLog_eq_some hk
    split at h
    · split at h
      · simp at h
      · refine Or.inr ⟨(finishLoop_eq_some h).1, ?_⟩
        have hpow : (2 : Int) ^ k ≤ 2 ^ 10 := pow_le_pow_right₀ (by norm_num) hk10
        omega
    · exact hgen h
  · exact hgen h

theorem DiscretizeCuts_eq_some {cSamples : Nat} {countCuts : Int}
    {featureValues cuts : List FloatEbm} {out : List Int} {r : DiscretizeResult}
    (h : DiscretizeCuts cSamples featureValues countCuts cuts out = some r)
    (hpos : 0 ≤ countCuts) :
    exitError (some out) = some r ∨ (r.ret = 0 ∧ countCuts < 2 ^ 61) := by
  unfold DiscretizeCuts at h
  by_cases hc1 : countCuts = 1
  · subst hc1
    norm_num at h
    simp only [bind, Option.bind_eq_some] at h
    obtain ⟨cut0, h0, h⟩ := h
    exact Or.inr ⟨(finishLoop_eq_some h).1, by norm_num⟩
  rw [if_neg hc1] at h
  by_cases hc2 : countCuts = 2
  · subst hc2
    norm_num at h
    simp only [bind, Option.bind_eq_some] at h
    obtain ⟨cut0, h0, h⟩ := h
    obtain ⟨cut1, h1, h⟩ := h
    exact Or.inr ⟨(finishLoop_eq_some h).1, by norm_num⟩
  rw [if_neg hc2] at h
  by_cases hc3 : countCuts = 3
  · subst hc3
    norm_num at h
    simp only [bind, Option.bind_eq_some] at h
    obtain ⟨cut0, h0, h⟩ := h
    obtain ⟨cut1, h1, h⟩ := h
    obtain ⟨cut2, h2, h⟩ := h
    exact Or.inr ⟨(finishLoop_eq_some h).1, by norm_num⟩
  rw [if_neg hc3] at h
  by_cases hc4 : countCuts = 4
  · subst hc4
    norm_num at h
    simp only [bind, Option.bind_eq_some] at h
    obtain ⟨cut0, h0, h⟩ := h
    obtain ⟨cut1, h1, h⟩ := h
    obtain ⟨cut2, h2, h⟩ := h
    obtain ⟨cut3, h3, h⟩ := h
    exact Or.inr ⟨(finishLoop_eq_some h).1, by norm_num⟩
  rw [if_neg hc4] at h
  by_cases hc5 : countCuts = 5
  · subst hc5
    norm_num at h
    simp only [bind, Option.bind_eq_some] at h
    obtain ⟨cut0, h0, h⟩ := h
    obtain ⟨cut1, h1, h⟩ := h
    obtain ⟨cut2, h2, h⟩ := h
    obtain ⟨cut3, h3, h⟩ := h
    obtain ⟨cut4, h4, h⟩ := h
    exact Or.inr ⟨(finishLoop_eq_some h).1, by norm_num⟩
  rw [if_neg hc5] at h
  by_cases hc6 : countCuts = 6
  · subst hc6
    norm_num at h
    simp only [bind, Option.bind_eq_some] at h
    obtain ⟨cut0, h0, h⟩ := h
    obtain ⟨cut1, h1, h⟩ := h
    obtain ⟨cut2, h2, h⟩ := h
    obtain ⟨cut3, h3, h⟩ := h
    obtain ⟨cut4, h4, h⟩ := h
    obtain ⟨cut5, h5, h⟩ := h
    exact Or.inr ⟨(finishLoop_eq_some h).1, by norm_num⟩
  rw [if_neg hc6] at h
  exact DiscretizePadded_eq_some h hpos

/-- Every call that returns either took a failure exit, having written nothing, or returns 0
with a cut count that is at least 0 and, when there is a sample, below `2^61`. -/
theorem Discretize_eq_some {countSamples countCuts : Int}
    {featureValues cutsPtr : Option (List FloatEbm)} {discretizedOut : Option (List Int)}
    {r : DiscretizeResult}
    (h : Discretize countSamples featureValues countCuts cutsPtr discretizedOut = some r) :
    exitError discretizedOut = some r ∨
      (r.ret = 0 ∧ (0 < countSamples → 0 ≤ countCuts ∧ countCuts < 2 ^ 61)) := by
  unfold Discretize at h
  split at h
  · rename_i hle
    split at h
    · exact Or.inl h
    · simp only [Option.some.injEq] at h
      subst h
      exact Or.inr ⟨rfl, fun hcon => absurd hcon (by omega)⟩
  split at h
  · exact Or.inl h
  simp only at h
  split at h
  · exact Or.inl h
  split at h
  · exact Or.inl h
  split at h
  · exact Or.inl h
  split at h
  · exact Or.inl h
  split at h
  · split at h
    · exact Or.inl h
    · refine Or.inr ⟨(finishLoop_eq_some h).1, fun _ => ?_⟩
      have h61 : (0 : Int) < 2 ^ 61 := by norm_num
      omega
  · rename_i hgt
    split at h
    · exact Or.inl h
    · rcases DiscretizeCuts_eq_some h (by omega) with he | ⟨h0, hlt⟩
      · exact Or.inl he
      · exact Or.inr ⟨h0, fun _ => ⟨by omega, hlt⟩⟩

/-! ## The searches compared -/

/-- For seven or more cuts `DiscretizeCuts` is the padded blocks followed by the general
search. -/
theorem DiscretizeCuts_of_seven {cCuts : Nat} (h7 : 7 ≤ cCuts) (cSamples : Nat)
    (featureValues cuts : List FloatEbm) (out : List Int) :
    DiscretizeCuts cSamples featureValues (cCuts : Int) cuts out
      = DiscretizePadded cSamples featureValues (cCuts : Int) cuts out := by
  unfold DiscretizeCuts
  rw [if_neg (by omega), if_neg (by omega), if_neg (by omega), if_neg (by omega),
    if_neg (by omega), if_neg (by omega)]

/-- Both searches give the bin 0 for NaN and one more than the number of cuts at or below any
other value, for a strictly increasing cut array. -/
theorem binPadded_eq_binGeneral {k : Nat} {cuts copy : List FloatEbm} {firstMidVal : FloatEbm}
    (hp : cuts.Pairwise (fun a b => a.lt b = true))
    (hcopy : paddedCopy (2 ^ k) cuts cuts.length = some copy)
    (hlen : cuts.length ≤ 2 ^ k - 2) (hk1 : 1 ≤ k) (hk : k ≤ 62) (h3 : 3 ≤ cuts.length)
    (hfirst : cuts[(cuts.length - 1) / 2]? = some firstMidVal) (val : FloatEbm) :
    ∃ b, binPadded copy k val = some b ∧
      binGeneral cuts cuts.length ((cuts.length - 1 : Nat) : Int) firstMidVal
        (((cuts.length - 1) / 2 + 1 : Nat) : Int) (((cuts.length - 1) / 2 - 1 : Nat) : Int) val
        = some b := by
  have hpow : 2 ^ k ≤ 2 ^ 62 := Nat.pow_le_pow_right (by norm_num) hk
  have hpow2 : 2 ^ 1 ≤ 2 ^ k := Nat.pow_le_pow_right (by norm_num) hk1
  have hcopylen : copy.length = 2 ^ k - 1 := by
    unfold paddedCopy at hcopy
    simp only [le_refl, if_true, List.take_length, Option.some.injEq] at hcopy
    subst hcopy
    simp
    omega
  obtain ⟨res, hres⟩ := paddedSearch_isSome copy val k 0 (by omega)
  have hpad : binPadded copy k val = some (toIntEbmType res) := by
    simp [binPadded, hres]
  obtain ⟨g, hg⟩ := binGeneral_isSome cuts cuts.length firstMidVal h3 (by omega) (le_refl _) val
  refine ⟨toIntEbmType res, hpad, ?_⟩
  rw [hg]
  cases hn : val.isnan with
  | false =>
    rw [binPadded_counts hp hcopy hlen hk1 hk val _ hpad hn,
      binGeneral_counts hp h3 (by omega) hfirst val g hg hn]
  | true =>
    have hin := binPadded_inRange hcopy hk1 (by omega : cuts.length < 2 ^ 62) val _ hpad
    have hgen := binGeneral_inRange cuts cuts.length firstMidVal h3 (by omega) val g hg
    rw [hin.1.mpr hn, hgen.1.mpr hn]

theorem DiscretizeGeneral_same_bin {cSamples1 cSamples2 cCuts : Nat}
    {values1 values2 cuts : List FloatEbm} {out1 out2 : List Int} {r1 r2 : DiscretizeResult}
    (h1 : DiscretizeGeneral cSamples1 values1 (cCuts : Int) cuts out1 = some r1)
    (hr1 : r1.ret = 0)
    (h2 : DiscretizeGeneral cSamples2 values2 (cCuts : Int) cuts out2 = some r2)
    (h3 : 3 ≤ cCuts) :
    ∃ bin, finishLoop bin values1 cSamples1 out1 = some r1 ∧
      finishLoop bin values2 cSamples2 out2 = some r2 := by
  rcases DiscretizeGeneral_eq_some h1 with he | ⟨_, hfit⟩
  · have := (exitError_ret he).1
    omega
  · have hlt : cCuts < 2 ^ 61 := by
      have := (cutsFit_iff (by omega)).mp hfit
      exact_mod_cast this
    rw [DiscretizeGeneral_of_fit h3 hlt] at h1 h2
    split at h1
    · simp at h1
    · rename_i firstMidVal hfirst
      simp only [hfirst] at h2
      exact ⟨_, h1, h2⟩

theorem DiscretizePadded_same_bin {cSamples1 cSamples2 cCuts : Nat}
    {values1 values2 cuts : List FloatEbm} {out1 out2 : List Int} {r1 r2 : DiscretizeResult}
    (h1 : DiscretizePadded cSamples1 values1 (cCuts : Int) cuts out1 = some r1)
    (hr1 : r1.ret = 0)
    (h2 : DiscretizePadded cSamples2 values2 (cCuts : Int) cuts out2 = some r2)
    (h3 : 3 ≤ cCuts)
    (hsame : ∀ k, paddedLog (cCuts : Int) = some k →
      (2 ^ k * 4 ≤ cSamples1 ↔ 2 ^ k * 4 ≤ cSamples2)) :
    ∃ bin, finishLoop bin values1 cSamples1 out1 = some r1 ∧
      finishLoop bin values2 cSamples2 out2 = some r2 := by
  simp only [DiscretizePadded] at h1 h2
  cases hk : paddedLog (cCuts : Int) with
  | none =>
    simp only [hk] at h1 h2
    exact DiscretizeGeneral_same_bin h1 hr1 h2 h3
  | some k =>
    simp only [hk] at h1 h2
    by_cases hbig : 2 ^ k * 4 ≤ cSamples1
    · have hbig2 : 2 ^ k * 4 ≤ cSamples2 := (hsame k hk).mp hbig
      simp only [hbig, hbig2, if_true] at h1 h2
      split at h1
      · simp at h1
      · rename_i copy hcopy
        simp only [hcopy] at h2
        exact ⟨_, h1, h2⟩
    · have hbig2 : ¬ 2 ^ k * 4 ≤ cSamples2 := fun hcon => hbig ((hsame k hk).mpr hcon)
      simp only [hbig, hbig2, if_false] at h1 h2
      exact DiscretizeGeneral_same_bin h1 hr1 h2 h3

theorem DiscretizeCuts_same_bin {cSamples1 cSamples2 cCuts : Nat}
    {values1 values2 cuts : List FloatEbm} {out1 out2 : List Int} {r1 r2 : DiscretizeResult}
    (h1 : DiscretizeCuts cSamples1 values1 (cCuts : Int) cuts out1 = some r1)
    (hr1 : r1.ret = 0)
    (h2 : DiscretizeCuts cSamples2 values2 (cCuts : Int) cuts out2 = some r2)
    (hpos : 1 ≤ cCuts)
    (hsame : 7 ≤ cCuts → ∀ k, paddedLog (cCuts : Int) = some k →
      (2 ^ k * 4 ≤ cSamples1 ↔ 2 ^ k * 4 ≤ cSamples2)) :
    ∃ bin, finishLoop bin values1 cSamples1 out1 = some r1 ∧
      finishLoop bin values2 cSamples2 out2 = some r2 := by
  unfold DiscretizeCuts at h1 h2
  by_cases hc1 : (cCuts : Int) = 1
  · simp only [hc1, if_true] at h1 h2
    norm_num at h1 h2
    simp only [bind, Option.bind_eq_some] at h1 h2
    obtain ⟨cut0, ha0, h1⟩ := h1
    obtain ⟨cut0', hb0, h2⟩ := h2
    rw [ha0] at hb0
    obtain rfl : cut0 = cut0' := Option.some.inj hb0
    exact ⟨_, h1, h2⟩
  simp only [hc1, if_false] at h1 h2
  by_cases hc2 : (cCuts : Int) = 2
  · simp only [hc2, if_true] at h1 h2
    norm_num at h1 h2
    simp only [bind, Option.bind_eq_some] at h1 h2
    obtain ⟨cut0, ha0, h1⟩ := h1
    obtain ⟨cut1, ha1, h1⟩ := h1
    obtain ⟨cut0', hb0, h2⟩ := h2
    rw [ha0] at hb0
    obtain rfl : cut0 = cut0' := Option.some.inj hb0
    obtain ⟨cut1', hb1, h2⟩ := h2
    rw [ha1] at hb1
    obtain rfl : cut1 = cut1' := Option.some.inj hb1
    exact ⟨_, h1, h2⟩
  simp only [hc2, if_false] at h1 h2
  by_cases hc3 : (cCuts : Int) = 3
  · simp only [hc3, if_true] at h1 h2
    norm_num at h1 h2
    simp only [bind, Option.bind_eq_some] at h1 h2
    obtain ⟨cut0, ha0, h1⟩ := h1
    obtain ⟨cut1, ha1, h1⟩ := h1
    obtain ⟨cut2, ha2, h1⟩ := h1
    obtain ⟨cut0', hb0, h2⟩ := h2
    rw [ha0] at hb0
    obtain rfl : cut0 = cut0' := Option.some.inj hb0
    obtain ⟨cut1', hb1, h2⟩ := h2
    rw [ha1] at hb1
    obtain rfl : cut1 = cut1' := Option.some.inj hb1
    obtain ⟨cut2', hb2, h2⟩ := h2
    rw [ha2] at hb2
    obtain rfl : cut2 = cut2' := Option.some.inj hb2
    exact ⟨_, h1, h2⟩
  simp only [hc3, if_false] at h1 h2
  by_cases hc4 : (cCuts : Int) = 4
  · simp only [hc4, if_true] at h1 h2
    norm_num at h1 h2
    simp only [bind, Option.bind_eq_some] at h1 h2
    obtain ⟨cut0, ha0, h1⟩ := h1
    obtain ⟨cut1, ha1, h1⟩ := h1
    obtain ⟨cut2, ha2, h1⟩ := h1
    obtain ⟨cut3, ha3, h1⟩ := h1
    obtain ⟨cut0', hb0, h2⟩ := h2
    rw [ha0] at hb0
    obtain rfl : cut0 = cut0' := Option.some.inj hb0
    obtain ⟨cut1', hb1, h2⟩ := h2
    rw [ha1] at hb1
    obtain rfl : cut1 = cut1' := Option.some.inj hb1
    obtain ⟨cut2', hb2, h2⟩ := h2
    rw [ha2] at hb2
    obtain rfl : cut2 = cut2' := Option.some.inj hb2
    obtain ⟨cut3', hb3, h2⟩ := h2
    rw [ha3] at hb3
    obtain rfl : cut3 = cut3' := Option.some.inj hb3
    exact ⟨_, h1, h2⟩
  simp only [hc4, if_false] at h1 h2
  by_cases hc5 : (cCuts : Int) = 5
  · simp only [hc5, if_true] at h1 h2
    norm_num at h1 h2
    simp only [bind, Option.bind_eq_some] at h1 h2
    obtain ⟨cut0, ha0, h1⟩ := h1
    obtain ⟨cut1, ha1, h1⟩ := h1
    obtain ⟨cut2, ha2, h1⟩ := h1
    obtain ⟨cut3, ha3, h1⟩ := h1
    obtain ⟨cut4, ha4, h1⟩ := h1
    obtain ⟨cut0', hb0, h2⟩ := h2
    rw [ha0] at hb0
    obtain rfl : cut0 = cut0' := Option.some.inj hb0
    obtain ⟨cut1', hb1, h2⟩ := h2
    rw [ha1] at hb1
    obtain rfl : cut1 = cut1' := Option.some.inj hb1
    obtain ⟨cut2', hb2, h2⟩ := h2
    rw [ha2] at hb2
    obtain rfl : cut2 = cut2' := Option.some.inj hb2
    obtain ⟨cut3', hb3, h2⟩ := h2
    rw [ha3] at hb3
    obtain rfl : cut3 = cut3' := Option.some.inj hb3
    obtain ⟨cut4', hb4, h2⟩ := h2
    rw [ha4] at hb4
    obtain rfl : cut4 = cut4' := Option.some.inj hb4
    exact ⟨_, h1, h2⟩
  simp only [hc5, if_false] at h1 h2
  by_cases hc6 : (cCuts : Int) = 6
  · simp only [hc6, if_true] at h1 h2
    norm_num at h1 h2
    simp only [bind, Option.bind_eq_some] at h1 h2
    obtain ⟨cut0, ha0, h1⟩ := h1
    obtain ⟨cut1, ha1, h1⟩ := h1
    obtain ⟨cut2, ha2, h1⟩ := h1
    obtain ⟨cut3, ha3, h1⟩ := h1
    obtain ⟨cut4, ha4, h1⟩ := h1
    obtain ⟨cut5, ha5, h1⟩ := h1
    obtain ⟨cut0', hb0, h2⟩ := h2
    rw [ha0] at hb0
    obtain rfl : cut0 = cut0' := Option.some.inj hb0
    obtain ⟨cut1', hb1, h2⟩ := h2
    rw [ha1] at hb1
    obtain rfl : cut1 = cut1' := Option.some.inj hb1
    obtain ⟨cut2', hb2, h2⟩ := h2
    rw [ha2] at hb2
    obtain rfl : cut2 = cut2' := Option.some.inj hb2
    obtain ⟨cut3', hb3, h2⟩ := h2
    rw [ha3] at hb3
    obtain rfl : cut3 = cut3' := Option.some.inj hb3
    obtain ⟨cut4', hb4, h2⟩ := h2
    rw [ha4] at hb4
    obtain rfl : cut4 = cut4' := Option.some.inj hb4
    obtain ⟨cut5', hb5, h2⟩ := h2
    rw [ha5] at hb5
    obtain rfl : cut5 = cut5' := Option.some.inj hb5
    exact ⟨_, h1, h2⟩
  simp only [hc6, if_false] at h1 h2
  have h7 : 7 ≤ cCuts := by
    have e1 : cCuts ≠ 1 := fun hcon => hc1 (by exact_mod_cast hcon)
    have e2 : cCuts ≠ 2 := fun hcon => hc2 (by exact_mod_cast hcon)
    have e3 : cCuts ≠ 3 := fun hcon => hc3 (by exact_mod_cast hcon)
    have e4 : cCuts ≠ 4 := fun hcon => hc4 (by exact_mod_cast hcon)
    have e5 : cCuts ≠ 5 := fun hcon => hc5 (by exact_mod_cast hcon)
    have e6 : cCuts ≠ 6 := fun hcon => hc6 (by exact_mod_cast hcon)
    omega
  exact DiscretizePadded_same_bin h1 hr1 h2 (by omega) (hsame h7)

/-! ## More properties of `Discretize` -/

/-- C11: a call with `countSamples >= 1`, non-null sample and output buffers, `countCuts > 0`
and a null cut pointer returns 1 and writes nothing. -/
theorem Discretize_null_cuts (countSamples countCuts : Int) (values : List FloatEbm)
    (out : List Int) (hpos : 1 ≤ countSamples) (hcuts : 0 < countCuts) :
    Discretize countSamples (some values) countCuts none (some out)
      = some ⟨1, some out, []⟩ := by
  unfold Discretize
  rw [if_neg (by omega)]
  simp only [exitError]
  split_ifs <;> first | rfl | omega

/-- A call with one sample, two cuts announced and a null cut pointer returns 1 and leaves the
output buffer as it was. -/
theorem Discretize_null_cuts_witness :
    Discretize 1 (some [finite 3]) 2 none (some [7]) = some ⟨1, some [7], []⟩ :=
  Discretize_null_cuts 1 2 [finite 3] [7] (by decide) (by decide)

/-- C12: a call with `countSamples >= 1`, non-null sample and output buffers and `countCuts`
equal to the largest value of `IntEbmType` returns 1 and writes nothing, whatever the cut
pointer is; and every call with these samples that returns 0 has `countCuts + 1`
representable in `IntEbmType`. -/
theorem Discretize_max_cuts (countSamples : Int) (values : List FloatEbm)
    (cutsPtr : Option (List FloatEbm)) (out : List Int) (hpos : 1 ≤ countSamples) :
    Discretize countSamples (some values) IntEbmType_max cutsPtr (some out)
        = some ⟨1, some out, []⟩ ∧
      ∀ (countCuts : Int) (r : DiscretizeResult),
        Discretize countSamples (some values) countCuts cutsPtr (some out) = some r →
        r.ret = 0 → countCuts + 1 ≤ IntEbmType_max := by
  constructor
  · unfold Discretize
    rw [if_neg (by omega)]
    have hmax : ¬ (IntEbmType_max ≤ 0) := by unfold IntEbmType_max; norm_num
    have hlog : paddedLog IntEbmType_max = none := by
      unfold paddedLog IntEbmType_max
      norm_num
    have hcuts : ∀ cuts, DiscretizeCuts (toSizeT countSamples) values IntEbmType_max cuts out
        = some ⟨1, some out, []⟩ := by
      intro cuts
      unfold DiscretizeCuts
      rw [if_neg (by unfold IntEbmType_max; norm_num), if_neg (by unfold IntEbmType_max; norm_num),
        if_neg (by unfold IntEbmType_max; norm_num), if_neg (by unfold IntEbmType_max; norm_num),
        if_neg (by unfold IntEbmType_max; norm_num), if_neg (by unfold IntEbmType_max; norm_num)]
      simp only [DiscretizePadded, hlog, DiscretizeGeneral, if_true, exitError]
    simp only [exitError]
    split_ifs
    · rfl
    · rfl
    · rfl
    · cases cutsPtr with
      | none => rfl
      | some cuts => exact hcuts cuts
  · intro countCuts r hcall hret
    rcases Discretize_eq_some hcall with he | ⟨_, hlt⟩
    · have := (exitError_ret he).1
      omega
    · have := (hlt (by omega)).2
      unfold IntEbmType_max
      omega

/-- A call with one sample and `countCuts = 2^63 - 1` returns 1; the same samples with one cut
give status 0, and `1 + 1` is representable. -/
theorem Discretize_max_cuts_witness :
    Discretize 1 (some [finite 3]) IntEbmType_max (some [finite 2]) (some [7])
        = some ⟨1, some [7], []⟩ ∧
      ∀ (countCuts : Int) (r : DiscretizeResult),
        Discretize 1 (some [finite 3]) countCuts (some [finite 2]) (some [7]) = some r →
        r.ret = 0 → countCuts + 1 ≤ IntEbmType_max :=
  Discretize_max_cuts 1 [finite 3] (some [finite 2]) [7] (by decide)

/-- C13: a call that returns gives 0 or 1, and a call that returns 1 has written nothing: the
output buffer is as it was at every index. -/
theorem Discretize_ret_zero_or_one (countSamples countCuts : Int)
    (featureValues cutsPtr : Option (List FloatEbm)) (discretizedOut : Option (List Int))
    (r : DiscretizeResult)
    (hcall : Discretize countSamples featureValues countCuts cutsPtr discretizedOut = some r) :
    (r.ret = 0 ∨ r.ret = 1) ∧
      (r.ret = 1 → r.discretizedOut = discretizedOut ∧ r.writes = []) := by
  rcases Discretize_eq_some hcall with he | ⟨h0, _⟩
  · obtain ⟨h1, h2, h3⟩ := exitError_ret he
    exact ⟨Or.inr h1, fun _ => ⟨h2, h3⟩⟩
  · exact ⟨Or.inl h0, fun h1 => absurd h1 (by omega)⟩

/-- A call with `2^61` samples announced fails the size check: it returns 1 and leaves the
output buffer `[7, 8]` as it was. -/
theorem Discretize_ret_zero_or_one_witness :
    Discretize (2 ^ 61) (some [finite 3]) 1 (some [finite 2]) (some [7, 8])
        = some ⟨1, some [7, 8], []⟩ ∧
      ((1 : Int) = 0 ∨ (1 : Int) = 1) ∧
      ((1 : Int) = 1 → some [7, 8] = some [(7 : Int), 8] ∧ ([] : List (Nat × Int)) = []) :=
  ⟨by decide,
    Discretize_ret_zero_or_one (2 ^ 61) 1 (some [finite 3]) (some [finite 2]) (some [7, 8])
      ⟨1, some [7, 8], []⟩ (by decide)⟩

/-- C14: a call with at least one sample, a sample count that passes the size checks, sample
and output buffers of at least `countSamples` elements, a cut count that is at least 0 and
passes the size checks of the cuts and, unless it is 0, a cut buffer of at least `countCuts`
elements returns 0 and writes the output positions `0` to `countSamples - 1`, each exactly
once and in this order, and no other position. -/
theorem Discretize_writes_each_once (countSamples countCuts : Int) (values : List FloatEbm)
    (cutsPtr : Option (List FloatEbm)) (out : List Int)
    (hpos : 1 ≤ countSamples) (hfit : SamplesFit countSamples)
    (hvalues : countSamples ≤ values.length) (hout : countSamples ≤ out.length)
    (hcuts0 : 0 ≤ countCuts) (hcutsfit : CutsFit countCuts)
    (hptr : countCuts = 0 ∨ ∃ cuts, cutsPtr = some cuts ∧ countCuts ≤ cuts.length) :
    ∃ r buf, Discretize countSamples (some values) countCuts cutsPtr (some out) = some r ∧
      r.ret = 0 ∧ r.discretizedOut = some buf ∧ buf.length = out.length ∧
      r.writes.map Prod.fst = List.range countSamples.toNat ∧
      ∀ j, countSamples.toNat ≤ j → buf[j]? = out[j]? := by
  obtain ⟨r, hcall, hret⟩ := Discretize_isSome hpos hfit hvalues hout hcuts0
    ((cutsFit_iff hcuts0).mp hcutsfit) hptr
  obtain ⟨values', out', hvalues', hout', _, _, hran⟩ := Discretize_ranLoop hcall hret (by omega)
  simp only [Option.some.injEq] at hvalues' hout'
  subst hvalues' hout'
  have hcuts : ∃ cuts, cutsPtr = some cuts ∨ (cutsPtr = none ∧ cuts = []) := by
    cases cutsPtr with
    | none => exact ⟨[], Or.inr ⟨rfl, rfl⟩⟩
    | some cs => exact ⟨cs, Or.inl rfl⟩
  obtain ⟨cuts, hc⟩ := hcuts
  obtain ⟨bin, hloop, _, _⟩ := hran cuts hc
  obtain ⟨_, buf, hbuf, hlen, _, _, hrest, hfst, _⟩ := finishLoop_eq_some hloop
  refine ⟨r, buf, hcall, hret, hbuf, hlen, ?_, ?_⟩
  · rw [hfst, List.range_eq_range']
    congr 1
    omega
  · intro j hj
    exact hrest j (by omega)

/-- Three samples against eight cuts (general binary search): the writes go to the indices
0, 1, 2 and the fourth entry of the output buffer is untouched. -/
theorem Discretize_writes_each_once_witness :
    ∃ r buf, Discretize 3 (some [finite 4, nan, negInf]) 8
        (some [finite 0, finite 1, finite 2, finite 3, finite 4, finite 5, finite 6, finite 7])
        (some [9, 9, 9, 9]) = some r ∧
      r.ret = 0 ∧ r.discretizedOut = some buf ∧ buf.length = [(9 : Int), 9, 9, 9].length ∧
      r.writes.map Prod.fst = List.range (3 : Int).toNat ∧
      ∀ j, (3 : Int).toNat ≤ j → buf[j]? = [(9 : Int), 9, 9, 9][j]? :=
  Discretize_writes_each_once 3 8 [finite 4, nan, negInf]
    (some [finite 0, finite 1, finite 2, finite 3, finite 4, finite 5, finite 6, finite 7])
    [9, 9, 9, 9] (by decide) (by decide) (by decide) (by decide) (by decide) (by decide)
    (Or.inr ⟨_, rfl, by decide⟩)

/-- C15: for a strictly increasing array of finite cuts with `7 <= cCuts <= 1022`, a call
whose sample count is at least four times the table size runs the padded-table search, a call
with fewer samples runs the general binary search, and the two searches give the same bin
for every value, NaN included; 14 cuts go through the table of 16 and 15 cuts through the
table of 32. -/
theorem Discretize_padded_eq_general (cuts : List FloatEbm) (hinc : StrictlyIncreasing cuts)
    (_hfin : AllFinite cuts) (h7 : 7 ≤ cuts.length) (h1022 : cuts.length ≤ 1022) :
    ∃ k copy firstMidVal, paddedLog (cuts.length : Int) = some k ∧
      (cuts.length ≤ 14 → k = 4) ∧ (15 ≤ cuts.length → cuts.length ≤ 30 → k = 5) ∧
      paddedCopy (2 ^ k) cuts cuts.length = some copy ∧
      cuts[(cuts.length - 1) / 2]? = some firstMidVal ∧
      (∀ (countSamples : Int) (values : List FloatEbm) (out : List Int),
        SamplesFit countSamples → ((2 ^ k * 4 : Nat) : Int) ≤ countSamples →
        Discretize countSamples (some values) (cuts.length : Int) (some cuts) (some out)
          = finishLoop (binPadded copy k) values countSamples.toNat out) ∧
      (∀ (countSamples : Int) (values : List FloatEbm) (out : List Int),
        1 ≤ countSamples → countSamples < ((2 ^ k * 4 : Nat) : Int) →
        Discretize countSamples (some values) (cuts.length : Int) (some cuts) (some out)
          = finishLoop (binGeneral cuts cuts.length ((cuts.length - 1 : Nat) : Int)
              firstMidVal (((cuts.length - 1) / 2 + 1 : Nat) : Int)
              (((cuts.length - 1) / 2 - 1 : Nat) : Int)) values countSamples.toNat out) ∧
      ∀ val, ∃ b, binPadded copy k val = some b ∧
        binGeneral cuts cuts.length ((cuts.length - 1 : Nat) : Int) firstMidVal
          (((cuts.length - 1) / 2 + 1 : Nat) : Int) (((cuts.length - 1) / 2 - 1 : Nat) : Int)
          val = some b := by
  have hk : ∃ k, paddedLog (cuts.length : Int) = some k := by
    unfold paddedLog
    split_ifs <;> first | exact ⟨_, rfl⟩ | omega
  obtain ⟨k, hk⟩ := hk
  obtain ⟨hk4, hk10, hle⟩ := paddedLog_eq_some hk
  have hpow : 2 ^ k ≤ 2 ^ 10 := Nat.pow_le_pow_right (by norm_num) hk10
  have hpow4 : 2 ^ 4 ≤ 2 ^ k := Nat.pow_le_pow_right (by norm_num) hk4
  have hle' : cuts.length ≤ 2 ^ k - 2 := by
    have h1 : (cuts.length : Int) + 2 ≤ ((2 ^ k : Nat) : Int) := by
      push_cast
      omega
    have h2 : cuts.length + 2 ≤ 2 ^ k := by exact_mod_cast h1
    omega
  have hidx : (cuts.length - 1) / 2 < cuts.length := by omega
  have hcopy : paddedCopy (2 ^ k) cuts cuts.length
      = some (negInf :: (cuts.take cuts.length
          ++ List.replicate (2 ^ k - 2 - cuts.length) nan)) := by
    simp only [paddedCopy, le_refl, if_true]
  refine ⟨k, _, cuts[(cuts.length - 1) / 2], hk, ?_, ?_, hcopy,
    List.getElem?_eq_getElem hidx, ?_, ?_, ?_⟩
  · intro h14
    have h : paddedLog (cuts.length : Int) = some 4 := by
      unfold paddedLog
      rw [if_pos (by omega)]
    rw [hk] at h
    exact Option.some.inj h
  · intro h15 h30
    have h : paddedLog (cuts.length : Int) = some 5 := by
      unfold paddedLog
      rw [if_neg (by omega), if_pos (by omega)]
    rw [hk] at h
    exact Option.some.inj h
  · intro countSamples values out hfit hbig
    have hpos : 0 < countSamples := by
      have : (0 : Int) < ((2 ^ k * 4 : Nat) : Int) := by
        have : 0 < 2 ^ k * 4 := by omega
        exact_mod_cast this
      omega
    rw [Discretize_of_samplesFit hpos hfit, if_neg (by omega)]
    simp only
    rw [DiscretizeCuts_of_seven h7]
    have hbig' : 2 ^ k * 4 ≤ countSamples.toNat := by
      have h1 : ((2 ^ k * 4 : Nat) : Int) ≤ ((countSamples.toNat : Nat) : Int) := by
        rw [Int.toNat_of_nonneg (by omega)]
        exact hbig
      exact_mod_cast h1
    simp only [DiscretizePadded, hk, hbig', if_true]
    rw [toSizeT_natCast (by omega), hcopy]
  · intro countSamples values out hpos hsmall
    have hlt : countSamples < 2 ^ 61 := by
      have : ((2 ^ k * 4 : Nat) : Int) ≤ ((2 ^ 10 * 4 : Nat) : Int) := by
        have : 2 ^ k * 4 ≤ 2 ^ 10 * 4 := by omega
        exact_mod_cast this
      have h2 : ((2 ^ 10 * 4 : Nat) : Int) < 2 ^ 61 := by norm_num
      omega
    rw [Discretize_of_samplesFit (by omega) ((samplesFit_iff (by omega)).mpr hlt),
      if_neg (by omega)]
    simp only
    rw [DiscretizeCuts_of_seven h7]
    have hsmall' : ¬ 2 ^ k * 4 ≤ countSamples.toNat := by
      intro hcon
      have : ((2 ^ k * 4 : Nat) : Int) ≤ ((countSamples.toNat : Nat) : Int) := by
        exact_mod_cast hcon
      rw [Int.toNat_of_nonneg (by omega)] at this
      omega
    simp only [DiscretizePadded, hk, hsmall', if_false]
    rw [DiscretizeGeneral_of_fit (by omega) (by omega)]
    simp only [List.getElem?_eq_getElem hidx]
  · intro val
    exact binPadded_eq_binGeneral hinc.pairwise hcopy hle' (by omega) (by omega) (by omega)
      (List.getElem?_eq_getElem hidx) val

/-- Fourteen strictly increasing cuts go through the table of 16, and both searches give the
bin 6 for the value 5.5, which has five cuts at or below it. -/
theorem Discretize_padded_eq_general_witness :
    ∃ k copy firstMidVal b, paddedLog (14 : Int) = some k ∧ k = 4 ∧
      paddedCopy 16 [finite 1, finite 2, finite 3, finite 4, finite 5, finite 6, finite 7,
        finite 8, finite 9, finite 10, finite 11, finite 12, finite 13, finite 14] 14
        = some copy ∧
      binPadded copy k (finite (mkRat 11 2)) = some b ∧
      binGeneral [finite 1, finite 2, finite 3, finite 4, finite 5, finite 6, finite 7,
        finite 8, finite 9, finite 10, finite 11, finite 12, finite 13, finite 14] 14 13
        firstMidVal 7 5 (finite (mkRat 11 2)) = some b ∧ b = 6 := by
  obtain ⟨k, copy, firstMidVal, hk, h14, _, hcopy, _, _, _, hsame⟩ :=
    Discretize_padded_eq_general [finite 1, finite 2, finite 3, finite 4, finite 5, finite 6,
      finite 7, finite 8, finite 9, finite 10, finite 11, finite 12, finite 13, finite 14]
      (by decide) (by decide) (by decide) (by decide)
  obtain ⟨b, hb1, hb2⟩ := hsame (finite (mkRat 11 2))
  have hk4 : k = 4 := h14 (by decide)
  subst hk4
  have hc : copy = [negInf, finite 1, finite 2, finite 3, finite 4, finite 5, finite 6,
      finite 7, finite 8, finite 9, finite 10, finite 11, finite 12, finite 13, finite 14] := by
    have : paddedCopy (2 ^ 4) [finite 1, finite 2, finite 3, finite 4, finite 5, finite 6,
      finite 7, finite 8, finite 9, finite 10, finite 11, finite 12, finite 13, finite 14] 14
      = some [negInf, finite 1, finite 2, finite 3, finite 4, finite 5, finite 6,
      finite 7, finite 8, finite 9, finite 10, finite 11, finite 12, finite 13, finite 14] := by
      decide
    exact Option.some.inj (hcopy.symm.trans this)
  subst hc
  have hb : b = 6 := by
    have : binPadded [negInf, finite 1, finite 2, finite 3, finite 4, finite 5, finite 6,
      finite 7, finite 8, finite 9, finite 10, finite 11, finite 12, finite 13, finite 14] 4
      (finite (mkRat 11 2)) = some 6 := by decide
    exact Option.some.inj (hb1.symm.trans this)
  exact ⟨4, _, firstMidVal, b, hk, rfl, hcopy, hb1, hb2, hb⟩

/-- C16, as stated, fails: with the seven cuts `[7, 3, 9, 5, 8, 0, 2]`, which are out of
order, the sample 4 at index 0 gets the bin 8 in a call of 64 samples (padded table of 16)
and the bin 3 in a call of one sample (general binary search). -/
theorem Discretize_unsorted_searches_differ :
    Discretize 64 (some (List.replicate 64 (finite 4))) 7
        (some [finite 7, finite 3, finite 9, finite 5, finite 8, finite 0, finite 2])
        (some (List.replicate 64 9))
      = some ⟨0, some (List.replicate 64 8), (List.replicate 64 (8 : Int)).enum⟩ ∧
    Discretize 1 (some [finite 4]) 7
        (some [finite 7, finite 3, finite 9, finite 5, finite 8, finite 0, finite 2])
        (some [9])
      = some ⟨0, some [3], [(0, 3)]⟩ := by
  decide

/-- C16, amended: for two calls that return 0, use the same cut pointer and cut count and
hold the same value at index `i` of their sample arrays, the bin written at index `i` is the
same in both calls when the cuts are a strictly increasing array of `countCuts` elements, or
when the two sample counts select the same search for the cut count. -/
theorem Discretize_bin_depends_on_sample (countCuts : Int) (cutsPtr : Option (List FloatEbm))
    (countSamples1 countSamples2 : Int) (values1 values2 : List FloatEbm)
    (out1 out2 : List Int) (r1 r2 : DiscretizeResult)
    (hreg : (∃ cuts, (cutsPtr = some cuts ∨ (cutsPtr = none ∧ cuts = [])) ∧
        (cuts.length : Int) = countCuts ∧ StrictlyIncreasing cuts) ∨
      SameSearch countCuts countSamples1 countSamples2)
    (hcall1 : Discretize countSamples1 (some values1) countCuts cutsPtr (some out1) = some r1)
    (hret1 : r1.ret = 0)
    (hcall2 : Discretize countSamples2 (some values2) countCuts cutsPtr (some out2) = some r2)
    (hret2 : r2.ret = 0)
    (i : Nat) (hi1 : (i : Int) < countSamples1) (hi2 : (i : Int) < countSamples2)
    (v : FloatEbm) (hv1 : values1[i]? = some v) (hv2 : values2[i]? = some v) :
    ∃ buf1 buf2 b, r1.discretizedOut = some buf1 ∧ r2.discretizedOut = some buf2 ∧
      buf1[i]? = some b ∧ buf2[i]? = some b := by
  rcases hreg with ⟨cuts, hptr, hlen, hinc⟩ | hsame
  · obtain ⟨buf1, b1, hbuf1, hb1, _, hr1, hc1⟩ :=
      Discretize_sample cuts hptr hcall1 hret1 hi1 hv1
    obtain ⟨buf2, b2, hbuf2, hb2, _, hr2, hc2⟩ :=
      Discretize_sample cuts hptr hcall2 hret2 hi2 hv2
    refine ⟨buf1, buf2, b1, hbuf1, hbuf2, hb1, ?_⟩
    cases hn : v.isnan with
    | false => rw [hc1 hinc hlen hn, ← hc2 hinc hlen hn]; exact hb2
    | true => rw [hr1.1.mpr hn, ← hr2.1.mpr hn]; exact hb2
  · obtain ⟨_, _, _, _, hlt1, hc0, _⟩ := Discretize_ranLoop hcall1 hret1 (by omega)
    obtain ⟨_, _, _, _, hlt2, _, _⟩ := Discretize_ranLoop hcall2 hret2 (by omega)
    have hfit1 := (samplesFit_iff (by omega)).mpr hlt1
    have hfit2 := (samplesFit_iff (by omega)).mpr hlt2
    rw [Discretize_of_samplesFit (by omega) hfit1] at hcall1
    rw [Discretize_of_samplesFit (by omega) hfit2] at hcall2
    have hbin : ∃ bin, finishLoop bin values1 countSamples1.toNat out1 = some r1 ∧
        finishLoop bin values2 countSamples2.toNat out2 = some r2 := by
      by_cases hzero : countCuts = 0
      · subst hzero
        simp only [le_refl, if_true, lt_irrefl, if_false] at hcall1 hcall2
        exact ⟨_, hcall1, hcall2⟩
      · rw [if_neg (by omega)] at hcall1 hcall2
        cases cutsPtr with
        | none =>
          have := (exitError_ret hcall1).1
          omega
        | some cuts =>
          simp only at hcall1 hcall2
          obtain ⟨c, rfl⟩ := Int.eq_ofNat_of_zero_le hc0
          refine DiscretizeCuts_same_bin hcall1 hret1 hcall2 (by omega) ?_
          intro h7 k hk
          have := hsame (by exact_mod_cast h7) k hk
          constructor
          · intro h
            have h' : ((2 ^ k * 4 : Nat) : Int) ≤ countSamples1 := by
              have : ((2 ^ k * 4 : Nat) : Int) ≤ ((countSamples1.toNat : Nat) : Int) := by
                exact_mod_cast h
              rwa [Int.toNat_of_nonneg (by omega)] at this
            have h2 := this.mp h'
            have : ((2 ^ k * 4 : Nat) : Int) ≤ ((countSamples2.toNat : Nat) : Int) := by
              rwa [Int.toNat_of_nonneg (by omega)]
            exact_mod_cast this
          · intro h
            have h' : ((2 ^ k * 4 : Nat) : Int) ≤ countSamples2 := by
              have : ((2 ^ k * 4 : Nat) : Int) ≤ ((countSamples2.toNat : Nat) : Int) := by
                exact_mod_cast h
              rwa [Int.toNat_of_nonneg (by omega)] at this
            have h2 := this.mpr h'
            have : ((2 ^ k * 4 : Nat) : Int) ≤ ((countSamples1.toNat : Nat) : Int) := by
              rwa [Int.toNat_of_nonneg (by omega)]
            exact_mod_cast this
    obtain ⟨bin, hl1, hl2⟩ := hbin
    obtain ⟨_, buf1, hbuf1, _, _, hin1, _, _, _⟩ := finishLoop_eq_some hl1
    obtain ⟨_, buf2, hbuf2, _, _, hin2, _, _, _⟩ := finishLoop_eq_some hl2
    obtain ⟨val1, b1, hval1, hbin1, hb1, _⟩ := hin1 i (by omega)
    obtain ⟨val2, b2, hval2, hbin2, hb2, _⟩ := hin2 i (by omega)
    rw [hv1] at hval1
    rw [hv2] at hval2
    obtain rfl : v = val1 := Option.some.inj hval1
    obtain rfl : v = val2 := Option.some.inj hval2
    rw [hbin1] at hbin2
    obtain rfl : b1 = b2 := Option.some.inj hbin2
    exact ⟨buf1, buf2, b1, hbuf1, hbuf2, hb1, hb2⟩

/-- The cuts `[7, 3, 9, 5, 8, 0, 2]`, out of order, in calls of one and of two samples, which
both run the general binary search: the sample 4 at index 0 gets the bin 3 in both. -/
theorem Discretize_bin_depends_on_sample_witness :
    Discretize 1 (some [finite 4]) 7
        (some [finite 7, finite 3, finite 9, finite 5, finite 8, finite 0, finite 2])
        (some [9]) = some ⟨0, some [3], [(0, 3)]⟩ ∧
    Discretize 2 (some [finite 4, posInf]) 7
        (some [finite 7, finite 3, finite 9, finite 5, finite 8, finite 0, finite 2])
        (some [9, 9]) = some ⟨0, some [3, 8], [(0, 3), (1, 8)]⟩ ∧
    ∃ buf1 buf2 b, (some [3] : Option (List Int)) = some buf1 ∧
      (some [3, 8] : Option (List Int)) = some buf2 ∧ buf1[0]? = some b ∧ buf2[0]? = some b :=
  ⟨by decide, by decide,
    Discretize_bin_depends_on_sample 7
      (some [finite 7, finite 3, finite 9, finite 5, finite 8, finite 0, finite 2]) 1 2
      [finite 4] [finite 4, posInf] [9] [9, 9] ⟨0, some [3], [(0, 3)]⟩
      ⟨0, some [3, 8], [(0, 3), (1, 8)]⟩
      (Or.inr (fun _ k hk => by
        have h4 : k = 4 := by
          have : paddedLog 7 = some 4 := by decide
          exact Option.some.inj (hk.symm.trans this)
        subst h4
        decide))
      (by decide) rfl (by decide) rfl 0 (by decide) (by decide) (finite 4) rfl rfl⟩

/-! ## The loops of `InjectedApplyUpdate` -/

/-! ## One sample of `InjectedApplyUpdate` -/

theorem metricSum_succ {F D : Type} (o : External F D) (bWeight : Bool) (aWeights : List F)
    (g : Nat → F) (j : Nat) :
    metricSum o bWeight aWeights g (j + 1)
      = o.add (metricSum o bWeight aWeights g j) (metricTerm o bWeight aWeights g j) := by
  simp [metricSum, List.range_succ, List.foldl_append]

/-- The loop body deals with sample `j` when the samples before it have been dealt with, the
update score it finds is the one of sample `j`, and the gradient and weight of sample `j`
exist. -/
theorem applySample_done {F D : Type} (o : External F D)
    (bZero bCalcMetric bWeight : Bool) (aUpdateTensorScores aWeights aGradients : List F)
    (maskBits word : Nat) (upd : Nat → F) (j : Nat) (st : ApplyUpdateState F)
    (hdone : SamplesDone o bCalcMetric bWeight aGradients aWeights upd j st)
    (hj : j < aGradients.length)
    (hscore : if bZero = true then st.updateScore = upd j
      else 0 ≤ st.cShift ∧ st.cShift < (k_cBitsForStorageType : Int) ∧
        aUpdateTensorScores[(word >>> st.cShift.toNat) &&& maskBits]? = some (upd j))
    (hw : bCalcMetric = true → bWeight = true → j < aWeights.length) :
    ∃ st1, applySample o bZero bCalcMetric bWeight aUpdateTensorScores aWeights maskBits word st
        = some st1 ∧
      SamplesDone o bCalcMetric bWeight aGradients aWeights upd (j + 1) st1 ∧
      st1.cShift = st.cShift ∧ st1.pInputData = st.pInputData ∧
      st1.packedReads = st.packedReads ∧ st1.updateScore = upd j := by
  obtain ⟨hp, hlen, hlow, hhigh, hwrites, hpw, hsum⟩ := hdone
  have hscore' : sampleUpdateScore bZero aUpdateTensorScores maskBits word st
      = some (upd j) := by
    unfold sampleUpdateScore
    cases bZero with
    | true => simpa using hscore
    | false =>
      simp only [Bool.false_eq_true, if_false] at hscore
      simp [hscore.1, hscore.2.1, hscore.2.2]
  have hg : st.aGradients[st.pGradient]? = some (aGradients.getD j o.zero) := by
    rw [hp, hhigh j (le_refl _), List.getD_eq_getElem?_getD, List.getElem?_eq_getElem hj]
    rfl
  have hjlt : j < st.aGradients.length := by omega
  have hgrads : ∀ (sum : F) (pw : Nat),
      (∀ i, i < j + 1 → (st.aGradients.set j (updatedGradient o aGradients upd j))[i]?
        = some (updatedGradient o aGradients upd i)) ∧
      (∀ i, j + 1 ≤ i → (st.aGradients.set j (updatedGradient o aGradients upd j))[i]?
        = aGradients[i]?) := by
    intro _ _
    constructor
    · intro i hi
      by_cases hij : i = j
      · subst hij
        simp [List.getElem?_set, hjlt]
      · have : j ≠ i := fun h => hij h.symm
        simp only [List.getElem?_set, this, if_false]
        exact hlow i (by omega)
    · intro i hi
      have : j ≠ i := by omega
      simp only [List.getElem?_set, this, if_false]
      exact hhigh i (by omega)
  obtain ⟨hl, hh⟩ := hgrads o.zero 0
  unfold applySample
  simp only [hscore', hg]
  cases bCalcMetric with
  | false =>
    refine ⟨_, rfl, ⟨by simp [hp], by simp [hlen], ?_, ?_, ?_, ?_, ?_⟩, rfl, rfl, rfl, rfl⟩
    · simpa [hp, updatedGradient] using hl
    · simpa [hp, updatedGradient] using hh
    · simp [hwrites, hp, List.range_succ]
    · simpa using hpw
    · simpa using hsum
  | true =>
    simp only [if_true] at hsum ⊢
    cases bWeight with
    | false =>
      refine ⟨_, rfl, ⟨by simp [hp], by simp [hlen], ?_, ?_, ?_, ?_, ?_⟩, rfl, rfl, rfl, rfl⟩
      · simpa [hp, updatedGradient] using hl
      · simpa [hp, updatedGradient] using hh
      · simp [hwrites, hp, List.range_succ]
      · simpa using hpw
      · simp only [if_true, metricSum_succ, hsum]
        simp [metricTerm, updatedGradient]
    | true =>
      have hwj : j < aWeights.length := hw rfl rfl
      have hpw' : st.pWeight = j := by simpa using hpw
      have hwt : aWeights[st.pWeight]? = some (aWeights.getD j o.zero) := by
        rw [hpw', List.getD_eq_getElem?_getD, List.getElem?_eq_getElem hwj]
        rfl
      simp only [if_true, hwt]
      refine ⟨_, rfl, ⟨by simp [hp], by simp [hlen], ?_, ?_, ?_, ?_, ?_⟩, rfl, rfl, rfl, rfl⟩
      · simpa [hp, updatedGradient] using hl
      · simpa [hp, updatedGradient] using hh
      · simp [hwrites, hp, List.range_succ]
      · simp [hpw']
      · simp only [if_true, metricSum_succ, hsum]
        simp [metricTerm, updatedGradient]

/-- The loop body does the same to the gradients, the cursors and the shift whether or not the
metric is computed and whether or not weights are read. -/
theorem applySample_erase {F D : Type} (o : External F D)
    (bZero bCalcMetric bWeight : Bool) (aUpdateTensorScores aWeights aWeights0 : List F)
    (maskBits word : Nat) (z : F) (st st1 : ApplyUpdateState F)
    (h : applySample o bZero bCalcMetric bWeight aUpdateTensorScores aWeights maskBits word st
      = some st1) :
    applySample o bZero false false aUpdateTensorScores aWeights0 maskBits word
      (eraseMetric z st) = some (eraseMetric z st1) := by
  have hsame : sampleUpdateScore bZero aUpdateTensorScores maskBits word (eraseMetric z st)
      = sampleUpdateScore bZero aUpdateTensorScores maskBits word st := rfl
  unfold applySample at h
  cases hscore : sampleUpdateScore bZero aUpdateTensorScores maskBits word st with
  | none => simp [hscore] at h
  | some updateScore =>
    cases horig : st.aGradients[st.pGradient]? with
    | none => simp [hscore, horig] at h
    | some original =>
      have horig' : (eraseMetric z st).aGradients[(eraseMetric z st).pGradient]?
          = some original := horig
      have hres : applySample o bZero false false aUpdateTensorScores aWeights0 maskBits word
          (eraseMetric z st) = some (eraseMetric z
            { st with
              aGradients := st.aGradients.set st.pGradient
                (o.add (o.ComputeGradientRegressionMSEFromOriginalGradient original) updateScore)
              pGradient := st.pGradient + 1
              updateScore := updateScore
              gradientWrites := st.gradientWrites ++ [st.pGradient] }) := by
        unfold applySample
        simp only [hsame, hscore, horig', Bool.false_eq_true, if_false]
        rfl
      rw [hres]
      simp only [hscore, horig] at h
      split at h
      · split at h
        · split at h
          · simp at h
          · simp only [Option.some.injEq] at h
            subst h
            rfl
        · simp only [Option.some.injEq] at h
          subst h
          rfl
      · simp only [Option.some.injEq] at h
        subst h
        rfl

/-! ## The loops of `InjectedApplyUpdate` -/

theorem applyWord_erase {F D : Type} (o : External F D)
    (bZero bCalcMetric bWeight : Bool) (aUpdateTensorScores aWeights aWeights0 : List F)
    (cSamples cBitsPerItemMax maskBits word : Nat) (z : F) :
    ∀ (fuel : Nat) (st st1 : ApplyUpdateState F),
      applyWord o bZero bCalcMetric bWeight aUpdateTensorScores aWeights cSamples
        cBitsPerItemMax maskBits word fuel st = some st1 →
      applyWord o bZero false false aUpdateTensorScores aWeights0 cSamples cBitsPerItemMax
        maskBits word fuel (eraseMetric z st) = some (eraseMetric z st1) := by
  intro fuel
  induction fuel with
  | zero => intro st st1 h; simp [applyWord] at h
  | succ fuel ih =>
    intro st st1 h
    simp only [applyWord] at h ⊢
    cases hs : applySample o bZero bCalcMetric bWeight aUpdateTensorScores aWeights maskBits
        word st with
    | none => simp [hs] at h
    | some st0 =>
      rw [applySample_erase o bZero bCalcMetric bWeight aUpdateTensorScores aWeights aWeights0
        maskBits word z st st0 hs]
      simp only [hs] at h ⊢
      cases bZero with
      | true =>
        simp only [if_true] at h ⊢
        have hp : (eraseMetric z st0).pGradient = st0.pGradient := rfl
        rw [hp]
        split at h
        · rename_i heq
          simp only [Option.some.injEq] at h
          subst h
          rw [if_pos heq]
        · rename_i hne
          rw [if_neg hne]
          exact ih _ _ h
      | false =>
        simp only [Bool.false_eq_true, if_false] at h ⊢
        have hc : (eraseMetric z st0).cShift = st0.cShift := rfl
        rw [hc]
        split at h
        · rename_i hlt
          simp only [Option.some.injEq] at h
          subst h
          rw [if_pos hlt]
          rfl
        · rename_i hge
          rw [if_neg hge]
          exact ih _ _ h

theorem applyWords_erase {F D : Type} (o : External F D)
    (bZero bCalcMetric bWeight : Bool) (aUpdateTensorScores aWeights aWeights0 : List F)
    (aPacked : List Nat) (cSamples cBitsPerItemMax maskBits : Nat) (cShiftReset : Int) (z : F) :
    ∀ (fuel : Nat) (st st1 : ApplyUpdateState F),
      applyWords o bZero bCalcMetric bWeight aUpdateTensorScores aWeights aPacked cSamples
        cBitsPerItemMax maskBits cShiftReset fuel st = some st1 →
      applyWords o bZero false false aUpdateTensorScores aWeights0 aPacked cSamples
        cBitsPerItemMax maskBits cShiftReset fuel (eraseMetric z st)
        = some (eraseMetric z st1) := by
  intro fuel
  induction fuel with
  | zero => intro st st1 h; simp [applyWords] at h
  | succ fuel ih =>
    intro st st1 h
    simp only [applyWords] at h ⊢
    cases bZero with
    | true =>
      simp only [Bool.not_true, Bool.false_eq_true, if_false, if_true] at h ⊢
      cases hw : applyWord o true bCalcMetric bWeight aUpdateTensorScores aWeights cSamples
          cBitsPerItemMax maskBits 0 cSamples st with
      | none => simp [hw] at h
      | some st0 =>
        simp only [hw, Option.some.injEq] at h
        subst h
        rw [applyWord_erase o true bCalcMetric bWeight aUpdateTensorScores aWeights aWeights0
          cSamples cBitsPerItemMax maskBits 0 z cSamples st st0 hw]
    | false =>
      simp only [Bool.not_false, if_true, Bool.false_eq_true, if_false] at h ⊢
      have hp : (eraseMetric z st).pInputData = st.pInputData := rfl
      rw [hp]
      cases hword : aPacked[st.pInputData]? with
      | none => simp [hword] at h
      | some word =>
        simp only [hword] at h ⊢
        cases hw : applyWord o false bCalcMetric bWeight aUpdateTensorScores aWeights cSamples
            cBitsPerItemMax maskBits word cSamples
            { st with pInputData := st.pInputData + 1,
                      packedReads := st.packedReads ++ [st.pInputData] } with
        | none => simp [hw] at h
        | some st0 =>
          have hw' : applyWord o false false false aUpdateTensorScores aWeights0 cSamples
              cBitsPerItemMax maskBits word cSamples
              ({ (eraseMetric z st) with
                  pInputData := st.pInputData + 1
                  packedReads := (eraseMetric z st).packedReads ++ [st.pInputData] } :
                ApplyUpdateState F) = some (eraseMetric z st0) :=
            applyWord_erase o false bCalcMetric bWeight aUpdateTensorScores aWeights
              aWeights0 cSamples cBitsPerItemMax maskBits word z cSamples _ st0 hw
          simp only [hw] at h
          simp only [hw']
          have hpg : (eraseMetric z st0).pGradient = st0.pGradient := rfl
          split at h
          · rename_i hne
            rw [if_pos (by simpa using hne)]
            exact ih _ _ h
          · rename_i heq
            simp only [Option.some.injEq] at h
            subst h
            rw [if_neg (by simpa using heq)]
            rfl

theorem subSizeT_of_le {a b : Nat} (ha : a < 2 ^ 64) (hb : b ≤ a) : subSizeT a b = a - b := by
  unfold subSizeT
  have h1 : b % 2 ^ 64 = b := Nat.mod_eq_of_lt (by omega)
  rw [h1]
  omega

/-- The step `cShift -= cBitsPerItemMax` on a shift and a bit width below `2^63`. -/
theorem cShift_sub {s b : Nat} (hs : s < 2 ^ 63) (hb : b < 2 ^ 63) :
    toPtrdiffT (subSizeT (toSizeT (s : Int)) b) = (s : Int) - (b : Int) := by
  rw [toSizeT_natCast (by omega)]
  unfold subSizeT toPtrdiffT
  have h1 : b % 2 ^ 64 = b := Nat.mod_eq_of_lt (by omega)
  rw [h1]
  by_cases hle : b ≤ s
  · have h2 : (s + (2 ^ 64 - b)) % 2 ^ 64 = s - b := by omega
    rw [h2, Nat.mod_eq_of_lt (by omega), if_pos (by omega)]
    omega
  · have h2 : (s + (2 ^ 64 - b)) % 2 ^ 64 = s + 2 ^ 64 - b := by omega
    rw [h2, Nat.mod_eq_of_lt (by omega), if_neg (by omega)]
    omega

theorem SamplesDone.of_eq {F D : Type} {o : External F D} {bCalcMetric bWeight : Bool}
    {aGradients aWeights : List F} {upd : Nat → F} {j : Nat} {st st1 : ApplyUpdateState F}
    (h : SamplesDone o bCalcMetric bWeight aGradients aWeights upd j st)
    (h1 : st1.aGradients = st.aGradients) (h2 : st1.pGradient = st.pGradient)
    (h3 : st1.pWeight = st.pWeight) (h4 : st1.sumSquareError = st.sumSquareError)
    (h5 : st1.gradientWrites = st.gradientWrites) :
    SamplesDone o bCalcMetric bWeight aGradients aWeights upd j st1 := by
  unfold SamplesDone at h ⊢
  rw [h1, h2, h3, h4, h5]
  exact h

/-- The loop over the samples of a zero-dimensional tensor deals with all the samples that are
left. -/
theorem applyWord_zero_done {F D : Type} (o : External F D) (bCalcMetric bWeight : Bool)
    (aUpdateTensorScores aWeights aGradients : List F)
    (cSamples cBitsPerItemMax maskBits word : Nat) (u : F)
    (hlen : cSamples ≤ aGradients.length)
    (hw : bCalcMetric = true → bWeight = true → cSamples ≤ aWeights.length) :
    ∀ (fuel j : Nat) (st : ApplyUpdateState F),
      SamplesDone o bCalcMetric bWeight aGradients aWeights (fun _ => u) j st →
      j < cSamples → cSamples - j ≤ fuel → st.updateScore = u →
      ∃ st1, applyWord o true bCalcMetric bWeight aUpdateTensorScores aWeights cSamples
          cBitsPerItemMax maskBits word fuel st = some st1 ∧
        SamplesDone o bCalcMetric bWeight aGradients aWeights (fun _ => u) cSamples st1 ∧
        st1.pInputData = st.pInputData ∧ st1.packedReads = st.packedReads := by
  intro fuel
  induction fuel with
  | zero => intro j st _ hj hf _; omega
  | succ fuel ih =>
    intro j st hdone hj hf hu
    obtain ⟨st0, hs, hdone0, _, hin0, hreads0, hu0⟩ :=
      applySample_done o true bCalcMetric bWeight aUpdateTensorScores aWeights aGradients
        maskBits word (fun _ => u) j st hdone (by omega) (by simpa using hu)
        (fun h1 h2 => by have := hw h1 h2; omega)
    simp only [applyWord, hs, if_true]
    have hp0 : st0.pGradient = j + 1 := hdone0.1
    by_cases hend : cSamples = st0.pGradient
    · rw [if_pos hend]
      have hn : cSamples = j + 1 := by omega
      exact ⟨st0, rfl, by rw [hn]; exact hdone0, hin0, hreads0⟩
    · rw [if_neg hend]
      obtain ⟨st1, hrun, hdone1, hin1, hreads1⟩ :=
        ih (j + 1) st0 hdone0 (by omega) (by omega) hu0
      exact ⟨st1, hrun, hdone1, by rw [hin1, hin0], by rw [hreads1, hreads0]⟩

/-- The loop over the samples of one packed word, entered with the shift `m * b`, deals with
`m + 1` samples, the sample `t` of them with the shift `(m - t) * b`, and ends with the shift
`-b`. -/
theorem applyWord_packed_done {F D : Type} (o : External F D) (bCalcMetric bWeight : Bool)
    (aUpdateTensorScores aWeights aGradients : List F)
    (cSamples cBitsPerItemMax maskBits word : Nat) (upd : Nat → F)
    (hb1 : 1 ≤ cBitsPerItemMax) (hb64 : cBitsPerItemMax ≤ k_cBitsForStorageType) :
    ∀ (m fuel j : Nat) (st : ApplyUpdateState F),
      SamplesDone o bCalcMetric bWeight aGradients aWeights upd j st →
      st.cShift = ((m * cBitsPerItemMax : Nat) : Int) →
      m * cBitsPerItemMax < k_cBitsForStorageType →
      j + m < aGradients.length → m < fuel →
      (∀ t, t ≤ m → aUpdateTensorScores[(word >>> ((m - t) * cBitsPerItemMax)) &&& maskBits]?
        = some (upd (j + t))) →
      (bCalcMetric = true → bWeight = true → j + m < aWeights.length) →
      ∃ st1, applyWord o false bCalcMetric bWeight aUpdateTensorScores aWeights cSamples
          cBitsPerItemMax maskBits word fuel st = some st1 ∧
        SamplesDone o bCalcMetric bWeight aGradients aWeights upd (j + m + 1) st1 ∧
        st1.pInputData = st.pInputData ∧ st1.packedReads = st.packedReads := by
  unfold k_cBitsForStorageType at hb64
  intro m
  induction m with
  | zero =>
    intro fuel j st hdone hshift hfit hlen hfuel hlook hw
    obtain ⟨fuel, rfl⟩ : ∃ f, fuel = f + 1 := ⟨fuel - 1, by omega⟩
    have hscore := hlook 0 (le_refl _)
    simp only [Nat.sub_zero, Nat.zero_mul, Nat.add_zero] at hscore
    obtain ⟨st0, hs, hdone0, hc0, hin0, hreads0, _⟩ :=
      applySample_done o false bCalcMetric bWeight aUpdateTensorScores aWeights aGradients
        maskBits word upd j st hdone (by omega)
        (by
          simp only [Bool.false_eq_true, if_false, hshift, Nat.zero_mul]
          refine ⟨by norm_num, by norm_num [k_cBitsForStorageType], ?_⟩
          simpa using hscore)
        (fun h1 h2 => by have := hw h1 h2; omega)
    simp only [applyWord, hs, Bool.false_eq_true, if_false]
    have hc : st0.cShift = ((0 : Nat) : Int) := by rw [hc0, hshift]; simp
    rw [hc, cShift_sub (by norm_num) (by omega)]
    rw [if_pos (by omega)]
    exact ⟨_, rfl, hdone0.of_eq rfl rfl rfl rfl rfl, hin0, hreads0⟩
  | succ m ih =>
    intro fuel j st hdone hshift hfit hlen hfuel hlook hw
    unfold k_cBitsForStorageType at hfit
    obtain ⟨fuel, rfl⟩ : ∃ f, fuel = f + 1 := ⟨fuel - 1, by omega⟩
    have hscore := hlook 0 (Nat.zero_le _)
    simp only [Nat.sub_zero, Nat.add_zero] at hscore
    obtain ⟨st0, hs, hdone0, hc0, hin0, hreads0, _⟩ :=
      applySample_done o false bCalcMetric bWeight aUpdateTensorScores aWeights aGradients
        maskBits word upd j st hdone (by omega)
        (by
          simp only [Bool.false_eq_true, if_false, hshift, Int.toNat_ofNat]
          refine ⟨by positivity, ?_, hscore⟩
          unfold k_cBitsForStorageType
          exact_mod_cast hfit)
        (fun h1 h2 => by have := hw h1 h2; omega)
    simp only [applyWord, hs, Bool.false_eq_true, if_false]
    have hmul : (m + 1) * cBitsPerItemMax = m * cBitsPerItemMax + cBitsPerItemMax := by ring
    rw [hc0, hshift, cShift_sub (by omega) (by omega)]
    have hnew : (((m + 1) * cBitsPerItemMax : Nat) : Int) - (cBitsPerItemMax : Int)
        = ((m * cBitsPerItemMax : Nat) : Int) := by
      rw [hmul]
      push_cast
      ring
    rw [hnew, if_neg (by
      have : (0 : Int) ≤ ((m * cBitsPerItemMax : Nat) : Int) := by positivity
      omega)]
    obtain ⟨st1, hrun, hdone1, hin1, hreads1⟩ := ih fuel (j + 1)
      { st0 with cShift := ((m * cBitsPerItemMax : Nat) : Int) }
      (hdone0.of_eq rfl rfl rfl rfl rfl) rfl
      (by unfold k_cBitsForStorageType; omega) (by omega) (by omega)
      (fun t ht => by
        have := hlook (t + 1) (by omega)
        have e1 : m + 1 - (t + 1) = m - t := by omega
        have e2 : j + (t + 1) = j + 1 + t := by omega
        rw [e1, e2] at this
        exact this)
      (fun h1 h2 => by have := hw h1 h2; omega)
    refine ⟨st1, hrun, ?_, by rw [hin1]; exact hin0, by rw [hreads1]; exact hreads0⟩
    have e : j + (m + 1) + 1 = j + 1 + m + 1 := by omega
    rw [e]
    exact hdone1

/-- The loop over the packed words, entered at word `w` with the shift `m * b` and
`m + 1 + q * I` samples left, deals with all of them: `m + 1` from the word `w` and `I` from
each of the `q` words that follow. -/
theorem applyWords_packed_done {F D : Type} (o : External F D) (bCalcMetric bWeight : Bool)
    (aUpdateTensorScores aWeights aGradients : List F) (aPacked : List Nat)
    (cSamples cItemsPerBitPack cBitsPerItemMax maskBits : Nat) (upd : Nat → F)
    (hI : 1 ≤ cItemsPerBitPack) (hb1 : 1 ≤ cBitsPerItemMax)
    (hfit : cItemsPerBitPack * cBitsPerItemMax ≤ k_cBitsForStorageType)
    (hlen : cSamples ≤ aGradients.length)
    (hw : bCalcMetric = true → bWeight = true → cSamples ≤ aWeights.length) :
    ∀ (q fuel j w m : Nat) (st : ApplyUpdateState F),
      SamplesDone o bCalcMetric bWeight aGradients aWeights upd j st →
      st.pInputData = w → st.packedReads = List.range w →
      st.cShift = ((m * cBitsPerItemMax : Nat) : Int) → m < cItemsPerBitPack →
      j + m + 1 + q * cItemsPerBitPack = cSamples → q < fuel →
      w + q < aPacked.length →
      (∀ t, t ≤ m →
        aUpdateTensorScores[(aPacked.getD w 0 >>> ((m - t) * cBitsPerItemMax)) &&& maskBits]?
          = some (upd (j + t))) →
      (∀ q' t, q' < q → t < cItemsPerBitPack →
        aUpdateTensorScores[(aPacked.getD (w + 1 + q') 0
            >>> ((cItemsPerBitPack - 1 - t) * cBitsPerItemMax)) &&& maskBits]?
          = some (upd (j + m + 1 + q' * cItemsPerBitPack + t))) →
      ∃ st1, applyWords o false bCalcMetric bWeight aUpdateTensorScores aWeights aPacked
          cSamples cBitsPerItemMax maskBits
          (((cItemsPerBitPack - 1) * cBitsPerItemMax : Nat) : Int) fuel st = some st1 ∧
        SamplesDone o bCalcMetric bWeight aGradients aWeights upd cSamples st1 ∧
        st1.pInputData = w + q + 1 ∧ st1.packedReads = List.range (w + q + 1) := by
  have hb64 : cBitsPerItemMax ≤ k_cBitsForStorageType := by
    calc cBitsPerItemMax = 1 * cBitsPerItemMax := by ring
      _ ≤ cItemsPerBitPack * cBitsPerItemMax := Nat.mul_le_mul_right _ hI
      _ ≤ k_cBitsForStorageType := hfit
  have hmb : ∀ m, m < cItemsPerBitPack → m * cBitsPerItemMax < k_cBitsForStorageType := by
    intro m hm
    have h1 : (m + 1) * cBitsPerItemMax ≤ cItemsPerBitPack * cBitsPerItemMax :=
      Nat.mul_le_mul_right _ hm
    have h2 : (m + 1) * cBitsPerItemMax = m * cBitsPerItemMax + cBitsPerItemMax := by ring
    omega
  intro q
  induction q with
  | zero =>
    intro fuel j w m st hdone hin hreads hshift hm hn hfuel hwords hfirst _
    obtain ⟨fuel, rfl⟩ : ∃ f, fuel = f + 1 := ⟨fuel - 1, by omega⟩
    have hword : aPacked[st.pInputData]? = some (aPacked.getD w 0) := by
      rw [hin, List.getD_eq_getElem?_getD, List.getElem?_eq_getElem (by omega)]
      rfl
    obtain ⟨st1, hrun, hdone1, hin1, hreads1⟩ :=
      applyWord_packed_done o bCalcMetric bWeight aUpdateTensorScores aWeights aGradients
        cSamples cBitsPerItemMax maskBits (aPacked.getD w 0) upd hb1 hb64 m cSamples j
        { st with pInputData := st.pInputData + 1,
                  packedReads := st.packedReads ++ [st.pInputData] }
        (hdone.of_eq rfl rfl rfl rfl rfl) hshift (hmb m hm) (by omega) (by omega) hfirst
        (fun h1 h2 => by have := hw h1 h2; omega)
    simp only [applyWords, Bool.not_false, if_true, hword, hrun, Bool.false_eq_true, if_false]
    have hp : st1.pGradient = cSamples := by rw [hdone1.1]; omega
    rw [if_neg (by simp [hp])]
    refine ⟨_, rfl, ?_, ?_, ?_⟩
    · have e : cSamples = j + m + 1 := by omega
      rw [e]
      exact hdone1.of_eq rfl rfl rfl rfl rfl
    · simp [hin1, hin]
    · simp [hreads1, hreads, hin, List.range_succ]
  | succ q ih =>
    intro fuel j w m st hdone hin hreads hshift hm hn hfuel hwords hfirst hrest
    obtain ⟨fuel, rfl⟩ : ∃ f, fuel = f + 1 := ⟨fuel - 1, by omega⟩
    have hword : aPacked[st.pInputData]? = some (aPacked.getD w 0) := by
      rw [hin, List.getD_eq_getElem?_getD, List.getElem?_eq_getElem (by omega)]
      rfl
    have hqI : (q + 1) * cItemsPerBitPack = q * cItemsPerBitPack + cItemsPerBitPack := by ring
    obtain ⟨st1, hrun, hdone1, hin1, hreads1⟩ :=
      applyWord_packed_done o bCalcMetric bWeight aUpdateTensorScores aWeights aGradients
        cSamples cBitsPerItemMax maskBits (aPacked.getD w 0) upd hb1 hb64 m cSamples j
        { st with pInputData := st.pInputData + 1,
                  packedReads := st.packedReads ++ [st.pInputData] }
        (hdone.of_eq rfl rfl rfl rfl rfl) hshift (hmb m hm) (by omega) (by omega) hfirst
        (fun h1 h2 => by have := hw h1 h2; omega)
    simp only [applyWords, Bool.not_false, if_true, hword, hrun, Bool.false_eq_true, if_false]
    have hp : st1.pGradient = j + m + 1 := hdone1.1
    rw [if_pos (by simp only [hp]; omega)]
    obtain ⟨st2, hrun2, hdone2, hin2, hreads2⟩ := ih fuel (j + m + 1) (w + 1)
      (cItemsPerBitPack - 1)
      { st1 with cShift := (((cItemsPerBitPack - 1) * cBitsPerItemMax : Nat) : Int) }
      (hdone1.of_eq rfl rfl rfl rfl rfl) (by simp [hin1, hin])
      (by simp [hreads1, hreads, hin, List.range_succ]) rfl (by omega) (by omega) (by omega)
      (by omega)
      (fun t ht => by
        have := hrest 0 t (Nat.succ_pos q) (by omega)
        simp only [Nat.add_zero, Nat.zero_mul] at this
        exact this)
      (fun q' t hq' ht => by
        have := hrest (q' + 1) t (by omega) ht
        have e1 : w + 1 + (q' + 1) = w + 1 + 1 + q' := by omega
        have e2 : j + m + 1 + (q' + 1) * cItemsPerBitPack + t
            = j + m + 1 + (cItemsPerBitPack - 1) + 1 + q' * cItemsPerBitPack + t := by
          have : (q' + 1) * cItemsPerBitPack = q' * cItemsPerBitPack + cItemsPerBitPack := by
            ring
          omega
        rw [e1, e2] at this
        exact this)
    refine ⟨st2, hrun2, hdone2, ?_, ?_⟩
    · rw [hin2]; omega
    · rw [hreads2]
      congr 1
      omega

theorem getElem?_eq_some_getD {α : Type} (l : List α) (i : Nat) (d : α) (h : i < l.length) :
    l[i]? = some (l.getD i d) := by
  rw [List.getD_eq_getElem?_getD, List.getElem?_eq_getElem h]
  rfl

theorem samplesDone_init {F D : Type} (o : External F D) (bCalcMetric bWeight : Bool)
    (aGradients aWeights : List F) (upd : Nat → F) (cShift : Int) (u : F) :
    SamplesDone o bCalcMetric bWeight aGradients aWeights upd 0
      ⟨aGradients, 0, 0, 0, cShift, u, o.zero, [], []⟩ := by
  refine ⟨rfl, rfl, fun i hi => absurd hi (Nat.not_lt_zero i), fun i _ => rfl, rfl, ?_, ?_⟩
  · simp
  · simp [metricSum]

/-- The samples of the first word: sample `t` is in word `0` at the shift `(m - t) * b`, with
`m = (n - 1) mod I`. -/
theorem packed_first_word (n cItems cBits t : Nat) (ht : t ≤ (n - 1) % cItems) :
    packedWordIndex n cItems t = 0 ∧
      packedShift n cItems cBits t = ((n - 1) % cItems - t) * cBits := by
  unfold packedWordIndex packedShift firstWordSamples
  have h : t < (n - 1) % cItems + 1 := by omega
  rw [if_pos h, if_pos h]
  exact ⟨rfl, by congr 1⟩

/-- The samples of a later word: sample `t` of the word `1 + q` is at the shift
`(I - 1 - t) * b`. -/
theorem packed_later_word (n cItems cBits q t : Nat) (ht : t < cItems) :
    packedWordIndex n cItems ((n - 1) % cItems + 1 + q * cItems + t) = 1 + q ∧
      packedShift n cItems cBits ((n - 1) % cItems + 1 + q * cItems + t)
        = (cItems - 1 - t) * cBits := by
  unfold packedWordIndex packedShift firstWordSamples
  have h : ¬ (n - 1) % cItems + 1 + q * cItems + t < (n - 1) % cItems + 1 := by omega
  have e : (n - 1) % cItems + 1 + q * cItems + t - ((n - 1) % cItems + 1)
      = t + q * cItems := by omega
  rw [if_neg h, if_neg h, e, Nat.add_mul_div_right _ _ (by omega), Nat.add_mul_mod_self_right,
    Nat.div_eq_of_lt ht, Nat.mod_eq_of_lt ht]
  exact ⟨by omega, rfl⟩

theorem samples_split (n cItems : Nat) (hn : 1 ≤ n) :
    0 + (n - 1) % cItems + 1 + (n - 1) / cItems * cItems = n := by
  have := Nat.mod_add_div (n - 1) cItems
  have e : cItems * ((n - 1) / cItems) = (n - 1) / cItems * cItems := Nat.mul_comm _ _
  omega

/-! ## Calls of `InjectedApplyUpdate` within the contract -/

/-- What a call within the contract does: it returns, with the gradient cursor at the end of
the `m_cSamples` gradients, having written each of them once, in index order, with its raw
value plus the update score of its sample; the other gradients are as before; the metric is
the sum of the metric terms in index order when it is requested and is untouched otherwise;
and the packed words `0` to `(n - 1) div I` have been read, in this order, or none for a
zero-dimensional tensor. -/
theorem InjectedApplyUpdate_done {F D : Type} (o : External F D) (cCompilerPack : Int)
    (bCalcMetric bWeight : Bool) (pData : ApplyUpdateBridge F D)
    (hready : ApplyUpdateReady o cCompilerPack bCalcMetric bWeight pData) :
    ∃ r, InjectedApplyUpdate o cCompilerPack bCalcMetric bWeight pData = some r ∧
      r.pGradient = pData.m_cSamples ∧ r.gradientWrites = List.range pData.m_cSamples ∧
      r.pData.m_aGradientsAndHessians.length = pData.m_aGradientsAndHessians.length ∧
      (∀ j, j < pData.m_cSamples → r.pData.m_aGradientsAndHessians[j]?
        = some (updatedGradient o pData.m_aGradientsAndHessians
            (updateScoreOf o cCompilerPack pData) j)) ∧
      (∀ j, pData.m_cSamples ≤ j →
        r.pData.m_aGradientsAndHessians[j]? = pData.m_aGradientsAndHessians[j]?) ∧
      r.pData.m_metricOut =
        (if bCalcMetric then
          o.toDouble (metricSum o bWeight pData.m_aWeights
            (updatedGradient o pData.m_aGradientsAndHessians
              (updateScoreOf o cCompilerPack pData)) pData.m_cSamples)
        else pData.m_metricOut) ∧
      r.packedReads =
        (if o.k_cItemsPerBitPackNone = cCompilerPack then []
        else List.range ((pData.m_cSamples - 1)
          / toSizeT (o.GET_ITEMS_PER_BIT_PACK cCompilerPack pData.m_cPack) + 1)) := by
  obtain ⟨hn, hn64, hlen, hw, hcase⟩ := hready
  have hfinish : ∀ (locals : ApplyUpdateLocals F) (bZero : Bool) (reads : List Nat)
      (st : ApplyUpdateState F),
      applySetup o cCompilerPack pData = some locals →
      decide (o.k_cItemsPerBitPackNone = cCompilerPack) = bZero →
      applyWords o bZero bCalcMetric bWeight pData.m_aUpdateTensorScores pData.m_aWeights
        pData.m_aPacked pData.m_cSamples locals.cBitsPerItemMax locals.maskBits
        locals.cShiftReset pData.m_cSamples
        ⟨pData.m_aGradientsAndHessians, 0, 0, 0, locals.cShift, locals.updateScore, o.zero,
          [], []⟩ = some st →
      SamplesDone o bCalcMetric bWeight pData.m_aGradientsAndHessians pData.m_aWeights
        (updateScoreOf o cCompilerPack pData) pData.m_cSamples st →
      st.packedReads = reads →
      ∃ r, InjectedApplyUpdate o cCompilerPack bCalcMetric bWeight pData = some r ∧
        r.pGradient = pData.m_cSamples ∧ r.gradientWrites = List.range pData.m_cSamples ∧
        r.pData.m_aGradientsAndHessians.length = pData.m_aGradientsAndHessians.length ∧
        (∀ j, j < pData.m_cSamples → r.pData.m_aGradientsAndHessians[j]?
          = some (updatedGradient o pData.m_aGradientsAndHessians
              (updateScoreOf o cCompilerPack pData) j)) ∧
        (∀ j, pData.m_cSamples ≤ j →
          r.pData.m_aGradientsAndHessians[j]? = pData.m_aGradientsAndHessians[j]?) ∧
        r.pData.m_metricOut =
          (if bCalcMetric then
            o.toDouble (metricSum o bWeight pData.m_aWeights
              (updatedGradient o pData.m_aGradientsAndHessians
                (updateScoreOf o cCompilerPack pData)) pData.m_cSamples)
          else pData.m_metricOut) ∧
        r.packedReads = reads := by
    intro locals bZero reads st hsetup hz hrun hdone hreads
    obtain ⟨hp, hl, hlow, hhigh, hwrites, _, hsum⟩ := hdone
    have hres : InjectedApplyUpdate o cCompilerPack bCalcMetric bWeight pData
        = some ⟨⟨pData.m_cPack, pData.m_aUpdateTensorScores, pData.m_cSamples, pData.m_aPacked,
            pData.m_aWeights, st.aGradients,
            if bCalcMetric then o.toDouble st.sumSquareError else pData.m_metricOut⟩,
          st.pGradient, st.packedReads, st.gradientWrites⟩ := by
      simp only [InjectedApplyUpdate, hsetup, hz, hrun]
    refine ⟨_, hres, hp, hwrites, hl, hlow, hhigh, ?_, hreads⟩
    cases bCalcMetric with
    | true => simp only [if_true] at hsum ⊢; rw [hsum]
    | false => simp
  by_cases hzero : o.k_cItemsPerBitPackNone = cCompilerPack
  · rw [if_pos hzero] at hcase ⊢
    have hu := getElem?_eq_some_getD pData.m_aUpdateTensorScores 0 o.zero hcase
    have hupd : updateScoreOf o cCompilerPack pData
        = fun _ => pData.m_aUpdateTensorScores.getD 0 o.zero := by
      funext j
      simp only [updateScoreOf, hzero, if_true]
    have hsetup : applySetup o cCompilerPack pData
        = some ⟨0, 0, 0, 0, pData.m_aUpdateTensorScores.getD 0 o.zero⟩ := by
      simp only [applySetup, hzero, if_true, hu]
    obtain ⟨st1, hrun, hdone, _, hreads⟩ :=
      applyWord_zero_done o bCalcMetric bWeight pData.m_aUpdateTensorScores pData.m_aWeights
        pData.m_aGradientsAndHessians pData.m_cSamples 0 0 0
        (pData.m_aUpdateTensorScores.getD 0 o.zero) hlen hw pData.m_cSamples 0
        ⟨pData.m_aGradientsAndHessians, 0, 0, 0, 0,
          pData.m_aUpdateTensorScores.getD 0 o.zero, o.zero, [], []⟩
        (samplesDone_init o bCalcMetric bWeight _ _ _ _ _) (by omega) (by omega) rfl
    obtain ⟨n', hn'⟩ : ∃ n', pData.m_cSamples = n' + 1 := ⟨pData.m_cSamples - 1, by omega⟩
    refine hfinish _ true [] st1 hsetup (by simp [hzero]) ?_ (by rw [hupd]; exact hdone) hreads
    have hrun' := hrun
    rw [hn'] at hrun' ⊢
    simp only [applyWords, Bool.not_true, Bool.false_eq_true, if_false, if_true]
    rw [← hn']
    simp only [hrun]
  · rw [if_neg hzero] at hcase ⊢
    generalize hIdef : toSizeT (o.GET_ITEMS_PER_BIT_PACK cCompilerPack pData.m_cPack) = cItems
      at hcase ⊢
    generalize hbdef : o.GetCountBits cItems = cBits at hcase
    obtain ⟨hI, hb1, hfit, hsamples⟩ := hcase
    have hfit' : cItems * cBits ≤ 64 := hfit
    have hI64 : cItems ≤ 64 := by
      calc cItems = cItems * 1 := by ring
        _ ≤ cItems * cBits := Nat.mul_le_mul_left _ hb1
        _ ≤ 64 := hfit'
    have hm : (pData.m_cSamples - 1) % cItems < cItems := Nat.mod_lt _ (by omega)
    have hmb : (pData.m_cSamples - 1) % cItems * cBits < 64 := by
      have h1 : ((pData.m_cSamples - 1) % cItems + 1) * cBits ≤ cItems * cBits :=
        Nat.mul_le_mul_right _ hm
      have h2 : ((pData.m_cSamples - 1) % cItems + 1) * cBits
          = (pData.m_cSamples - 1) % cItems * cBits + cBits := by ring
      omega
    have hrb : (cItems - 1) * cBits < 64 := by
      have h1 : (cItems - 1 + 1) * cBits = (cItems - 1) * cBits + cBits := by ring
      have h2 : cItems - 1 + 1 = cItems := by omega
      rw [h2] at h1
      omega
    have hsetup : applySetup o cCompilerPack pData
        = some ⟨cBits, (((pData.m_cSamples - 1) % cItems * cBits : Nat) : Int),
            (((cItems - 1) * cBits : Nat) : Int), o.MakeLowMask cBits, o.zero⟩ := by
      have e1 : subSizeT pData.m_cSamples 1 = pData.m_cSamples - 1 := subSizeT_of_le hn64 hn
      have e2 : subSizeT cItems 1 = cItems - 1 := subSizeT_of_le (by omega) hI
      have e3 : (pData.m_cSamples - 1) % cItems * cBits % 2 ^ 64
          = (pData.m_cSamples - 1) % cItems * cBits := Nat.mod_eq_of_lt (by omega)
      have e4 : (cItems - 1) * cBits % 2 ^ 64 = (cItems - 1) * cBits :=
        Nat.mod_eq_of_lt (by omega)
      have e5 : toPtrdiffT ((pData.m_cSamples - 1) % cItems * cBits)
          = (((pData.m_cSamples - 1) % cItems * cBits : Nat) : Int) :=
        toPtrdiffT_of_lt (by omega)
      have e6 : toPtrdiffT ((cItems - 1) * cBits) = (((cItems - 1) * cBits : Nat) : Int) :=
        toPtrdiffT_of_lt (by omega)
      have e7 : ¬ cItems = 0 := by omega
      simp only [applySetup, hzero, if_false, hIdef, hbdef, e1, e2, e3, e4, e5, e6, e7]
    have hupd : ∀ j, j < pData.m_cSamples →
        pData.m_aUpdateTensorScores[packedTensorBin pData.m_aPacked pData.m_cSamples cItems
          cBits (o.MakeLowMask cBits) j]? = some (updateScoreOf o cCompilerPack pData j) := by
      intro j hj
      have := (hsamples j hj).2
      simp only [updateScoreOf, hzero, if_false, hIdef, hbdef]
      exact getElem?_eq_some_getD _ _ _ this
    have hq : (pData.m_cSamples - 1) / cItems < pData.m_cSamples := by
      have := Nat.div_le_self (pData.m_cSamples - 1) cItems
      omega
    have hsplit := samples_split pData.m_cSamples cItems hn
    have hwords : 0 + (pData.m_cSamples - 1) / cItems < pData.m_aPacked.length := by
      by_cases hq0 : (pData.m_cSamples - 1) / cItems = 0
      · have := (hsamples 0 (by omega)).1
        rw [(packed_first_word pData.m_cSamples cItems cBits 0 (Nat.zero_le _)).1] at this
        omega
      · obtain ⟨q', hq'⟩ := Nat.exists_eq_succ_of_ne_zero hq0
        rw [Nat.succ_eq_add_one] at hq'
        have hj : (pData.m_cSamples - 1) % cItems + 1 + q' * cItems + 0 < pData.m_cSamples := by
          rw [hq'] at hsplit
          have : (q' + 1) * cItems = q' * cItems + cItems := by ring
          omega
        have := (hsamples _ hj).1
        rw [(packed_later_word pData.m_cSamples cItems cBits q' 0 (by omega : 0 < cItems)).1] at this
        omega
    obtain ⟨st1, hrun, hdone, _, hreads⟩ :=
      applyWords_packed_done o bCalcMetric bWeight pData.m_aUpdateTensorScores pData.m_aWeights
        pData.m_aGradientsAndHessians pData.m_aPacked pData.m_cSamples cItems cBits
        (o.MakeLowMask cBits) (updateScoreOf o cCompilerPack pData) hI hb1 hfit hlen hw
        ((pData.m_cSamples - 1) / cItems) pData.m_cSamples 0 0
        ((pData.m_cSamples - 1) % cItems)
        ⟨pData.m_aGradientsAndHessians, 0, 0, 0,
          (((pData.m_cSamples - 1) % cItems * cBits : Nat) : Int), o.zero, o.zero, [], []⟩
        (samplesDone_init o bCalcMetric bWeight _ _ _ _ _) rfl rfl rfl hm hsplit hq hwords
        (fun t ht => by
          have h := hupd t (by omega)
          obtain ⟨e1, e2⟩ := packed_first_word pData.m_cSamples cItems cBits t ht
          simp only [packedTensorBin, e1, e2] at h
          simpa using h)
        (fun q' t hq' ht => by
          have hj : (pData.m_cSamples - 1) % cItems + 1 + q' * cItems + t
              < pData.m_cSamples := by
            have h1 : (q' + 1) * cItems ≤ (pData.m_cSamples - 1) / cItems * cItems :=
              Nat.mul_le_mul_right _ hq'
            have h2 : (q' + 1) * cItems = q' * cItems + cItems := by ring
            omega
          have h := hupd _ hj
          obtain ⟨e1, e2⟩ := packed_later_word pData.m_cSamples cItems cBits q' t ht
          simp only [packedTensorBin, e1, e2] at h
          have e3 : 0 + 1 + q' = 1 + q' := by omega
          have e4 : 0 + (pData.m_cSamples - 1) % cItems + 1 + q' * cItems + t
              = (pData.m_cSamples - 1) % cItems + 1 + q' * cItems + t := by omega
          rw [e3, e4]
          exact h)
    refine hfinish _ false _ st1 hsetup (by simp [hzero]) hrun hdone ?_
    rw [hreads]
    congr 1
    omega

/-- The metric sum uses the gradients of the samples it adds up and no other. -/
theorem metricSum_congr {F D : Type} (o : External F D) (bWeight : Bool) (aWeights : List F)
    (g g' : Nat → F) : ∀ j, (∀ i, i < j → g i = g' i) →
      metricSum o bWeight aWeights g j = metricSum o bWeight aWeights g' j := by
  intro j
  induction j with
  | zero => intro _; rfl
  | succ j ih =>
    intro h
    rw [metricSum_succ, metricSum_succ, ih (fun i hi => h i (by omega))]
    simp only [metricTerm, h j (by omega)]

/-- A call that returns with the metric or the weights enabled also returns with both
disabled, and the two calls leave the same gradients, cursor and logs. -/
theorem InjectedApplyUpdate_erase {F D : Type} (o : External F D) (cCompilerPack : Int)
    (bCalcMetric bWeight : Bool) (pData : ApplyUpdateBridge F D) (r : ApplyUpdateResult F D)
    (h : InjectedApplyUpdate o cCompilerPack bCalcMetric bWeight pData = some r) :
    ∃ r0, InjectedApplyUpdate o cCompilerPack false false pData = some r0 ∧
      r0.pData.m_aGradientsAndHessians = r.pData.m_aGradientsAndHessians ∧
      r0.pGradient = r.pGradient ∧ r0.packedReads = r.packedReads ∧
      r0.gradientWrites = r.gradientWrites := by
  unfold InjectedApplyUpdate at h ⊢
  cases hsetup : applySetup o cCompilerPack pData with
  | none => simp [hsetup] at h
  | some locals =>
    simp only [hsetup] at h ⊢
    cases hrun : applyWords o (decide (o.k_cItemsPerBitPackNone = cCompilerPack)) bCalcMetric
        bWeight pData.m_aUpdateTensorScores pData.m_aWeights pData.m_aPacked pData.m_cSamples
        locals.cBitsPerItemMax locals.maskBits locals.cShiftReset pData.m_cSamples
        ⟨pData.m_aGradientsAndHessians, 0, 0, 0, locals.cShift, locals.updateScore, o.zero,
          [], []⟩ with
    | none => simp [hrun] at h
    | some st =>
      simp only [hrun, Option.some.injEq] at h
      have he := applyWords_erase o (decide (o.k_cItemsPerBitPackNone = cCompilerPack))
        bCalcMetric bWeight pData.m_aUpdateTensorScores pData.m_aWeights pData.m_aWeights
        pData.m_aPacked pData.m_cSamples locals.cBitsPerItemMax locals.maskBits
        locals.cShiftReset o.zero pData.m_cSamples _ _ hrun
      have hinit : eraseMetric o.zero
          (⟨pData.m_aGradientsAndHessians, 0, 0, 0, locals.cShift, locals.updateScore, o.zero,
            [], []⟩ : ApplyUpdateState F)
          = ⟨pData.m_aGradientsAndHessians, 0, 0, 0, locals.cShift, locals.updateScore, o.zero,
            [], []⟩ := rfl
      rw [hinit] at he
      simp only [he]
      subst h
      exact ⟨_, rfl, rfl, rfl, rfl, rfl⟩

/-- A call that returns leaves every field of the bridge but the gradients as it was, the
metric apart when it is requested. -/
theorem InjectedApplyUpdate_frame {F D : Type} (o : External F D) (cCompilerPack : Int)
    (bCalcMetric bWeight : Bool) (pData : ApplyUpdateBridge F D) (r : ApplyUpdateResult F D)
    (h : InjectedApplyUpdate o cCompilerPack bCalcMetric bWeight pData = some r) :
    r.pData.m_cPack = pData.m_cPack ∧
      r.pData.m_aUpdateTensorScores = pData.m_aUpdateTensorScores ∧
      r.pData.m_cSamples = pData.m_cSamples ∧ r.pData.m_aPacked = pData.m_aPacked ∧
      r.pData.m_aWeights = pData.m_aWeights ∧
      (bCalcMetric = false → r.pData.m_metricOut = pData.m_metricOut) := by
  unfold InjectedApplyUpdate at h
  cases hsetup : applySetup o cCompilerPack pData with
  | none => simp [hsetup] at h
  | some locals =>
    simp only [hsetup] at h
    cases hrun : applyWords o (decide (o.k_cItemsPerBitPackNone = cCompilerPack)) bCalcMetric
        bWeight pData.m_aUpdateTensorScores pData.m_aWeights pData.m_aPacked pData.m_cSamples
        locals.cBitsPerItemMax locals.maskBits locals.cShiftReset pData.m_cSamples
        ⟨pData.m_aGradientsAndHessians, 0, 0, 0, locals.cShift, locals.updateScore, o.zero,
          [], []⟩ with
    | none => simp [hrun] at h
    | some st =>
      simp only [hrun, Option.some.injEq] at h
      subst h
      refine ⟨rfl, rfl, rfl, rfl, rfl, ?_⟩
      intro hm
      simp [hm]

/-- Within one word the shift goes down by the bit width from a sample to the next. -/
theorem packedShift_step (n cItems cBits j : Nat) (hI : 1 ≤ cItems)
    (h : packedWordIndex n cItems (j + 1) = packedWordIndex n cItems j) :
    packedShift n cItems cBits (j + 1) + cBits = packedShift n cItems cBits j := by
  unfold packedWordIndex at h
  unfold packedShift
  generalize firstWordSamples n cItems = r at h ⊢
  by_cases h1 : j + 1 < r
  · have h0 : j < r := by omega
    rw [if_pos h1, if_pos h0]
    have e : r - 1 - j = r - 1 - (j + 1) + 1 := by omega
    rw [e, Nat.add_mul, Nat.one_mul]
  · by_cases h0 : j < r
    · rw [if_neg h1, if_pos h0] at h
      exact absurd h (by rw [Nat.add_comm]; exact Nat.succ_ne_zero _)
    · rw [if_neg h1, if_neg h0] at h
      rw [if_neg h1, if_neg h0]
      have e : j + 1 - r = (j - r) + 1 := by omega
      rw [e] at h ⊢
      generalize j - r = d at h ⊢
      have hdiv : (d + 1) / cItems = d / cItems := by omega
      have a1 := Nat.div_add_mod d cItems
      have a2 := Nat.div_add_mod (d + 1) cItems
      rw [hdiv] at a2
      have hmod : (d + 1) % cItems = d % cItems + 1 := by omega
      have hlt : d % cItems + 1 < cItems := by
        have := Nat.mod_lt (d + 1) (by omega : 0 < cItems)
        omega
      rw [hmod]
      have e2 : cItems - 1 - d % cItems = cItems - 1 - (d % cItems + 1) + 1 := by omega
      rw [e2, Nat.add_mul, Nat.one_mul]

/-- The first sample of a word after the first is at the shift `(I - 1) * b`. -/
theorem packedShift_reset (n cItems cBits j : Nat)
    (h : packedWordIndex n cItems (j + 1) ≠ packedWordIndex n cItems j) :
    packedShift n cItems cBits (j + 1) = (cItems - 1) * cBits := by
  unfold packedWordIndex at h
  unfold packedShift
  generalize firstWordSamples n cItems = r at h ⊢
  by_cases h1 : j + 1 < r
  · have h0 : j < r := by omega
    rw [if_pos h1, if_pos h0] at h
    exact absurd rfl h
  · rw [if_neg h1]
    by_cases h0 : j < r
    · have e : j + 1 - r = 0 := by omega
      rw [e, Nat.zero_mod, Nat.sub_zero]
    · rw [if_neg h1, if_neg h0] at h
      have e : j + 1 - r = (j - r) + 1 := by omega
      rw [e] at h ⊢
      generalize j - r = d at h ⊢
      have hdiv : (d + 1) / cItems ≠ d / cItems := by omega
      have hmod : (d + 1) % cItems = 0 := by
        by_contra hne
        apply hdiv
        rw [Nat.succ_div, if_neg (by rwa [Nat.dvd_iff_mod_eq_zero]), Nat.add_zero]
      rw [hmod, Nat.sub_zero]

/-! ## Properties of `InjectedApplyUpdate` -/

/-- Claim C17: with a zero-dimensional tensor (`cCompilerPack` is `k_cItemsPerBitPackNone`),
at least one sample, a gradient buffer that holds the `m_cSamples` gradients, the weights
when they are read and an update score at index `0`, the call returns; every gradient
`j < m_cSamples` is afterwards its raw value before the call plus `aUpdateTensorScores[0]`;
and no packed word has been read. -/
theorem InjectedApplyUpdate_zero_dimensional {F D : Type} (o : External F D)
    (bCalcMetric bWeight : Bool) (pData : ApplyUpdateBridge F D) (updateScore : F)
    (hn : 1 ≤ pData.m_cSamples) (hn64 : pData.m_cSamples < 2 ^ 64)
    (hlen : pData.m_cSamples ≤ pData.m_aGradientsAndHessians.length)
    (hw : bCalcMetric = true → bWeight = true → pData.m_cSamples ≤ pData.m_aWeights.length)
    (hu : pData.m_aUpdateTensorScores[0]? = some updateScore) :
    ∃ r, InjectedApplyUpdate o o.k_cItemsPerBitPackNone bCalcMetric bWeight pData = some r ∧
      (∀ j gradient, j < pData.m_cSamples →
        pData.m_aGradientsAndHessians[j]? = some gradient →
        r.pData.m_aGradientsAndHessians[j]?
          = some (o.add (o.ComputeGradientRegressionMSEFromOriginalGradient gradient)
              updateScore)) ∧
      r.packedReads = [] := by
  have hT : 0 < pData.m_aUpdateTensorScores.length := by
    rcases Nat.eq_zero_or_pos pData.m_aUpdateTensorScores.length with h0 | h0
    · rw [List.length_eq_zero] at h0
      rw [h0] at hu
      simp at hu
    · exact h0
  have hready : ApplyUpdateReady o o.k_cItemsPerBitPackNone bCalcMetric bWeight pData :=
    ⟨hn, hn64, hlen, hw, by rw [if_pos rfl]; exact hT⟩
  obtain ⟨r, hr, _, _, _, hlow, _, _, hreads⟩ :=
    InjectedApplyUpdate_done o o.k_cItemsPerBitPackNone bCalcMetric bWeight pData hready
  refine ⟨r, hr, ?_, by rw [hreads, if_pos rfl]⟩
  intro j gradient hj hg
  rw [hlow j hj]
  have e1 : pData.m_aGradientsAndHessians.getD j o.zero = gradient := by
    rw [List.getD_eq_getElem?_getD, hg]
    rfl
  have e2 : pData.m_aUpdateTensorScores.getD 0 o.zero = updateScore := by
    rw [List.getD_eq_getElem?_getD, hu]
    rfl
  simp only [updatedGradient, updateScoreOf, if_true, e1, e2]

theorem InjectedApplyUpdate_zero_dimensional_witness :
    ∃ r, InjectedApplyUpdate exactExternal exactExternal.k_cItemsPerBitPackNone true true
        ⟨0, [10], 3, [], [1, 2, 3], [1, 2, 3, 99], 0⟩ = some r ∧
      (∀ j gradient, j < 3 → [1, 2, 3, (99 : Int)][j]? = some gradient →
        r.pData.m_aGradientsAndHessians[j]?
          = some (exactExternal.add
              (exactExternal.ComputeGradientRegressionMSEFromOriginalGradient gradient) 10)) ∧
      r.packedReads = [] :=
  InjectedApplyUpdate_zero_dimensional exactExternal true true
    ⟨0, [10], 3, [], [1, 2, 3], [1, 2, 3, 99], 0⟩ 10 (by decide) (by decide) (by decide)
    (by decide) (by decide)

/-- Claim C18: with a packed tensor, `n >= 1` samples, `I >= 1` items per word of bit width
`b >= 1` that fit in one storage word, and every sample's word and tensor entry in bounds,
the call returns and every gradient `j < n` is afterwards its raw value before the call plus
the tensor entry at `(word >> shift) AND lowMask(b)`, where the word is `packed[0]` at the
shift `(r - 1 - j) * b` for `j < r = ((n - 1) mod I) + 1`, and `packed[1 + (j - r) div I]` at
the shift `(I - 1 - ((j - r) mod I)) * b` otherwise; from a sample to the next the shift
goes down by `b` within a word and is `(I - 1) * b` at the start of a new word. -/
theorem InjectedApplyUpdate_packed {F D : Type} (o : External F D) (cCompilerPack : Int)
    (bCalcMetric bWeight : Bool) (pData : ApplyUpdateBridge F D)
    (cItemsPerBitPack cBitsPerItemMax : Nat)
    (hpack : o.k_cItemsPerBitPackNone ≠ cCompilerPack)
    (hitems : toSizeT (o.GET_ITEMS_PER_BIT_PACK cCompilerPack pData.m_cPack) = cItemsPerBitPack)
    (hbits : o.GetCountBits cItemsPerBitPack = cBitsPerItemMax)
    (hI : 1 ≤ cItemsPerBitPack) (hb : 1 ≤ cBitsPerItemMax)
    (hfit : cItemsPerBitPack * cBitsPerItemMax ≤ k_cBitsForStorageType)
    (hn : 1 ≤ pData.m_cSamples) (hn64 : pData.m_cSamples < 2 ^ 64)
    (hlen : pData.m_cSamples ≤ pData.m_aGradientsAndHessians.length)
    (hw : bCalcMetric = true → bWeight = true → pData.m_cSamples ≤ pData.m_aWeights.length)
    (hbounds : ∀ j, j < pData.m_cSamples →
      packedWordIndex pData.m_cSamples cItemsPerBitPack j < pData.m_aPacked.length ∧
      packedTensorBin pData.m_aPacked pData.m_cSamples cItemsPerBitPack cBitsPerItemMax
        (o.MakeLowMask cBitsPerItemMax) j < pData.m_aUpdateTensorScores.length) :
    ∃ r, InjectedApplyUpdate o cCompilerPack bCalcMetric bWeight pData = some r ∧
      (∀ j gradient word updateScore, j < pData.m_cSamples →
        pData.m_aGradientsAndHessians[j]? = some gradient →
        pData.m_aPacked[if j < (pData.m_cSamples - 1) % cItemsPerBitPack + 1 then 0
          else 1 + (j - ((pData.m_cSamples - 1) % cItemsPerBitPack + 1)) / cItemsPerBitPack]?
          = some word →
        pData.m_aUpdateTensorScores[
          (word >>> (if j < (pData.m_cSamples - 1) % cItemsPerBitPack + 1 then
              ((pData.m_cSamples - 1) % cItemsPerBitPack + 1 - 1 - j) * cBitsPerItemMax
            else (cItemsPerBitPack - 1
              - (j - ((pData.m_cSamples - 1) % cItemsPerBitPack + 1)) % cItemsPerBitPack)
              * cBitsPerItemMax))
          &&& o.MakeLowMask cBitsPerItemMax]? = some updateScore →
        r.pData.m_aGradientsAndHessians[j]?
          = some (o.add (o.ComputeGradientRegressionMSEFromOriginalGradient gradient)
              updateScore)) ∧
      (∀ j, packedWordIndex pData.m_cSamples cItemsPerBitPack (j + 1)
          = packedWordIndex pData.m_cSamples cItemsPerBitPack j →
        packedShift pData.m_cSamples cItemsPerBitPack cBitsPerItemMax (j + 1) + cBitsPerItemMax
          = packedShift pData.m_cSamples cItemsPerBitPack cBitsPerItemMax j) ∧
      (∀ j, packedWordIndex pData.m_cSamples cItemsPerBitPack (j + 1)
          ≠ packedWordIndex pData.m_cSamples cItemsPerBitPack j →
        packedShift pData.m_cSamples cItemsPerBitPack cBitsPerItemMax (j + 1)
          = (cItemsPerBitPack - 1) * cBitsPerItemMax) := by
  subst hitems
  subst hbits
  have hready : ApplyUpdateReady o cCompilerPack bCalcMetric bWeight pData :=
    ⟨hn, hn64, hlen, hw, by rw [if_neg hpack]; exact ⟨hI, hb, hfit, hbounds⟩⟩
  obtain ⟨r, hr, _, _, _, hlow, _, _, _⟩ :=
    InjectedApplyUpdate_done o cCompilerPack bCalcMetric bWeight pData hready
  refine ⟨r, hr, ?_, fun j h => packedShift_step _ _ _ j hI h,
    fun j h => packedShift_reset _ _ _ j h⟩
  intro j gradient word updateScore hj hg hword hscore
  rw [hlow j hj]
  have e1 : pData.m_aGradientsAndHessians.getD j o.zero = gradient := by
    rw [List.getD_eq_getElem?_getD, hg]
    rfl
  have e2 : pData.m_aPacked.getD (packedWordIndex pData.m_cSamples
      (toSizeT (o.GET_ITEMS_PER_BIT_PACK cCompilerPack pData.m_cPack)) j) 0 = word := by
    rw [List.getD_eq_getElem?_getD]
    unfold packedWordIndex firstWordSamples
    rw [hword]
    rfl
  have e3 : updateScoreOf o cCompilerPack pData j = updateScore := by
    simp only [updateScoreOf, if_neg hpack, packedTensorBin, e2]
    rw [List.getD_eq_getElem?_getD]
    unfold packedShift firstWordSamples
    rw [hscore]
    rfl
  simp only [updatedGradient, e1, e3]

theorem InjectedApplyUpdate_packed_witness :
    ∃ r, InjectedApplyUpdate exactExternal 4 false false
        ⟨0, [100, 200, 300], 6, [1 <<< 16, (2 <<< 48) + (1 <<< 32) + 2], [],
          [1, 2, 3, 4, 5, 6, 99], 0⟩ = some r ∧
      r.pData.m_aGradientsAndHessians[0]? = some (exactExternal.add 1 200) ∧
      r.pData.m_aGradientsAndHessians[2]? = some (exactExternal.add 3 300) := by
  obtain ⟨r, hr, hgrad, _, _⟩ := InjectedApplyUpdate_packed exactExternal 4 false false
    ⟨0, [100, 200, 300], 6, [1 <<< 16, (2 <<< 48) + (1 <<< 32) + 2], [],
      [1, 2, 3, 4, 5, 6, 99], 0⟩ 4 16 (by decide) (by decide) (by decide) (by decide)
    (by decide) (by decide) (by decide) (by decide) (by decide) (by decide) (by decide)
  exact ⟨r, hr, hgrad 0 1 (1 <<< 16) 200 (by decide) (by decide) (by decide) (by decide),
    hgrad 2 3 ((2 <<< 48) + (1 <<< 32) + 2) 300 (by decide) (by decide) (by decide)
      (by decide)⟩

/-- Claim C19: a call within the contract that requests the metric returns, and
`m_metricOut` is then the conversion to `double` of the sum, added up from zero over the
samples `0` to `m_cSamples - 1` in this order, of the squared error derived from the
sample's gradient after the call, multiplied by the sample's weight when weights are enabled
and not multiplied otherwise. -/
theorem InjectedApplyUpdate_metric {F D : Type} (o : External F D) (cCompilerPack : Int)
    (bWeight : Bool) (pData : ApplyUpdateBridge F D)
    (hready : ApplyUpdateReady o cCompilerPack true bWeight pData) :
    ∃ r, InjectedApplyUpdate o cCompilerPack true bWeight pData = some r ∧
      r.pData.m_metricOut = o.toDouble
        ((List.range pData.m_cSamples).foldl
          (fun sumSquareError j => o.add sumSquareError
            (if bWeight then
              o.mul (o.ComputeSingleSampleSquaredErrorRegressionFromGradient
                (r.pData.m_aGradientsAndHessians.getD j o.zero)) (pData.m_aWeights.getD j o.zero)
            else o.ComputeSingleSampleSquaredErrorRegressionFromGradient
              (r.pData.m_aGradientsAndHessians.getD j o.zero)))
          o.zero) := by
  obtain ⟨r, hr, _, _, _, hlow, _, hmetric, _⟩ :=
    InjectedApplyUpdate_done o cCompilerPack true bWeight pData hready
  refine ⟨r, hr, ?_⟩
  rw [hmetric, if_pos rfl]
  have hcongr := metricSum_congr o bWeight pData.m_aWeights
    (updatedGradient o pData.m_aGradientsAndHessians (updateScoreOf o cCompilerPack pData))
    (fun j => r.pData.m_aGradientsAndHessians.getD j o.zero) pData.m_cSamples
    (fun i hi => by
      show _ = r.pData.m_aGradientsAndHessians.getD i o.zero
      rw [List.getD_eq_getElem?_getD, hlow i hi]
      rfl)
  rw [hcongr]
  simp only [metricSum, metricTerm]

theorem InjectedApplyUpdate_metric_witness :
    InjectedApplyUpdate exactExternal 4 true true
        ⟨0, [100, 200, 300], 6, [1 <<< 16, (2 <<< 48) + (1 <<< 32) + 2], [1, 1, 2, 2, 3, 3],
          [1, 2, 3, 4, 5, 6, 99], 0⟩
      = some ⟨⟨0, [100, 200, 300], 6, [1 <<< 16, (2 <<< 48) + (1 <<< 32) + 2],
          [1, 1, 2, 2, 3, 3], [201, 102, 303, 204, 105, 306, 99], 631638⟩, 6, [0, 1],
          [0, 1, 2, 3, 4, 5]⟩ ∧
    ∃ r, InjectedApplyUpdate exactExternal 4 true true
        ⟨0, [100, 200, 300], 6, [1 <<< 16, (2 <<< 48) + (1 <<< 32) + 2], [1, 1, 2, 2, 3, 3],
          [1, 2, 3, 4, 5, 6, 99], 0⟩ = some r ∧
      r.pData.m_metricOut = exactExternal.toDouble
        ((List.range 6).foldl
          (fun sumSquareError j => exactExternal.add sumSquareError
            (if true then
              exactExternal.mul (exactExternal.ComputeSingleSampleSquaredErrorRegressionFromGradient
                (r.pData.m_aGradientsAndHessians.getD j exactExternal.zero))
                ([1, 1, 2, 2, 3, (3 : Int)].getD j exactExternal.zero)
            else exactExternal.ComputeSingleSampleSquaredErrorRegressionFromGradient
              (r.pData.m_aGradientsAndHessians.getD j exactExternal.zero)))
          exactExternal.zero) :=
  ⟨by decide, InjectedApplyUpdate_metric exactExternal 4 true
    ⟨0, [100, 200, 300], 6, [1 <<< 16, (2 <<< 48) + (1 <<< 32) + 2], [1, 1, 2, 2, 3, 3],
      [1, 2, 3, 4, 5, 6, 99], 0⟩ (by unfold ApplyUpdateReady; decide)⟩

/-- Claim C20: two calls on the same input that differ at most in the metric and weight
flags, and both return, leave the same gradient buffer, which is also the one the call with
both flags off returns; a call that does not request the metric leaves `m_metricOut` as it
was; and the update tensor, the packed words and the weights are as before the call. -/
theorem InjectedApplyUpdate_flags {F D : Type} (o : External F D) (cCompilerPack : Int)
    (bCalcMetric1 bWeight1 bCalcMetric2 bWeight2 : Bool) (pData : ApplyUpdateBridge F D)
    (r1 r2 : ApplyUpdateResult F D)
    (h1 : InjectedApplyUpdate o cCompilerPack bCalcMetric1 bWeight1 pData = some r1)
    (h2 : InjectedApplyUpdate o cCompilerPack bCalcMetric2 bWeight2 pData = some r2) :
    r1.pData.m_aGradientsAndHessians = r2.pData.m_aGradientsAndHessians ∧
      (∃ r0, InjectedApplyUpdate o cCompilerPack false false pData = some r0 ∧
        r0.pData.m_aGradientsAndHessians = r1.pData.m_aGradientsAndHessians) ∧
      (bCalcMetric1 = false → r1.pData.m_metricOut = pData.m_metricOut) ∧
      r1.pData.m_aUpdateTensorScores = pData.m_aUpdateTensorScores ∧
      r1.pData.m_aPacked = pData.m_aPacked ∧ r1.pData.m_aWeights = pData.m_aWeights := by
  obtain ⟨ra, hra, hga, _⟩ := InjectedApplyUpdate_erase o cCompilerPack _ _ pData r1 h1
  obtain ⟨rb, hrb, hgb, _⟩ := InjectedApplyUpdate_erase o cCompilerPack _ _ pData r2 h2
  have hab : ra = rb := Option.some.inj (hra.symm.trans hrb)
  obtain ⟨_, hT, _, hP, hW, hM⟩ := InjectedApplyUpdate_frame o cCompilerPack _ _ pData r1 h1
  refine ⟨?_, ⟨ra, hra, hga⟩, hM, hT, hP, hW⟩
  rw [← hga, ← hgb, hab]

theorem InjectedApplyUpdate_flags_witness :
    InjectedApplyUpdate exactExternal (-1) false true
        ⟨0, [10], 3, [], [1, 2, 3], [1, 2, 3, 99], 7⟩
      = some ⟨⟨0, [10], 3, [], [1, 2, 3], [11, 12, 13, 99], 7⟩, 3, [], [0, 1, 2]⟩ ∧
    InjectedApplyUpdate exactExternal (-1) true true
        ⟨0, [10], 3, [], [1, 2, 3], [1, 2, 3, 99], 7⟩
      = some ⟨⟨0, [10], 3, [], [1, 2, 3], [11, 12, 13, 99], 916⟩, 3, [], [0, 1, 2]⟩ ∧
    (([11, 12, 13, 99] : List Int) = [11, 12, 13, 99] ∧
      (∃ r0, InjectedApplyUpdate exactExternal (-1) false false
          ⟨0, [10], 3, [], [1, 2, 3], [1, 2, 3, 99], 7⟩ = some r0 ∧
        r0.pData.m_aGradientsAndHessians = [11, 12, 13, 99]) ∧
      (false = false → (7 : Int) = 7) ∧
      ([10] : List Int) = [10] ∧ ([] : List Nat) = [] ∧ ([1, 2, 3] : List Int) = [1, 2, 3]) :=
  ⟨by decide, by decide,
    InjectedApplyUpdate_flags exactExternal (-1) false true true true
      ⟨0, [10], 3, [], [1, 2, 3], [1, 2, 3, 99], 7⟩
      ⟨⟨0, [10], 3, [], [1, 2, 3], [11, 12, 13, 99], 7⟩, 3, [], [0, 1, 2]⟩
      ⟨⟨0, [10], 3, [], [1, 2, 3], [11, 12, 13, 99], 916⟩, 3, [], [0, 1, 2]⟩
      (by decide) (by decide)⟩

/-! ## The edge cases of `Exp32` and `Log32` -/

theorem k_expOverflow_eq : k_expOverflow = 349 / 4 := by
  unfold k_expOverflow
  rw [Rat.mkRat_eq_div]
  norm_num

theorem k_expUnderflow_eq : k_expUnderflow = -(349 / 4) := by
  unfold k_expUnderflow
  rw [Rat.mkRat_eq_div]
  norm_num

theorem floatMin_pos : 0 < floatMin := by
  unfold floatMin
  rw [Rat.mkRat_eq_div]
  positivity

/-- Claim C21: with the default flags, `Exp32` of a value above `87.25`, plus infinity
included, is plus infinity, whatever the operations of the core computation give. -/
theorem Exp32_overflow (o : TFloatOps) (val : FloatEbm)
    (h : (finite k_expOverflow).lt val = true) :
    Exp32 o false true true true val = posInf := by
  cases val with
  | nan => simp [FloatEbm.lt] at h
  | negInf => simp [FloatEbm.lt] at h
  | posInf => simp [Exp32, IfLess, IfNaN, FloatEbm.lt, FloatEbm.isnan]
  | finite x =>
    simp only [FloatEbm.lt, decide_eq_true_eq] at h
    have h2 : ¬ x < k_expUnderflow := by
      rw [k_expOverflow_eq] at h
      rw [k_expUnderflow_eq]
      linarith
    simp [Exp32, IfLess, IfNaN, FloatEbm.lt, FloatEbm.isnan, h, h2]

theorem Exp32_overflow_witness :
    Exp32 exactTFloatOps false true true true (finite 88) = posInf :=
  Exp32_overflow exactTFloatOps (finite 88) (by decide)

/-- Claim C22: `Exp32` is zero for a value below `-87.25`, minus infinity included, with the
default flags, and for a value above `87.25`, plus infinity included, when the input is
negated (`bNegateInput`), the other flags being the default ones. -/
theorem Exp32_underflow (o : TFloatOps) (bNegateInput : Bool) (val : FloatEbm)
    (h : (if bNegateInput then (finite k_expOverflow).lt val
      else val.lt (finite k_expUnderflow)) = true) :
    Exp32 o bNegateInput true true true val = finite 0 := by
  have e1 : -k_expUnderflow = k_expOverflow := by
    rw [k_expOverflow_eq, k_expUnderflow_eq]
    norm_num
  cases bNegateInput with
  | false =>
    simp only [Bool.false_eq_true, if_false] at h
    cases val with
    | nan => simp [FloatEbm.lt] at h
    | posInf => simp [FloatEbm.lt] at h
    | negInf => simp [Exp32, IfLess, IfNaN, FloatEbm.lt, FloatEbm.isnan]
    | finite x =>
      simp only [FloatEbm.lt, decide_eq_true_eq] at h
      have h2 : ¬ k_expOverflow < x := by
        rw [k_expUnderflow_eq] at h
        rw [k_expOverflow_eq]
        linarith
      simp [Exp32, IfLess, IfNaN, FloatEbm.lt, FloatEbm.isnan, h, h2]
  | true =>
    simp only [if_true] at h
    cases val with
    | nan => simp [FloatEbm.lt] at h
    | negInf => simp [FloatEbm.lt] at h
    | posInf => simp [Exp32, IfLess, IfNaN, FloatEbm.lt, FloatEbm.isnan]
    | finite x =>
      simp only [FloatEbm.lt, decide_eq_true_eq] at h
      have h2 : ¬ x < -k_expOverflow := by
        rw [k_expOverflow_eq] at h ⊢
        linarith
      simp [Exp32, IfLess, IfNaN, FloatEbm.lt, FloatEbm.isnan, h, h2, e1]

theorem Exp32_underflow_witness :
    Exp32 exactTFloatOps false true true true (finite (-88)) = finite 0 ∧
      Exp32 exactTFloatOps true true true true posInf = finite 0 :=
  ⟨Exp32_underflow exactTFloatOps false (finite (-88)) (by decide),
    Exp32_underflow exactTFloatOps true posInf (by decide)⟩

/-- Claim C23: with the default flags `Exp32` and `Log32` of NaN are NaN.  None of the selects
for overflow, underflow, zero and negative values fires on NaN: with the NaN select switched
off the value of the core computation comes out. -/
theorem Exp32_Log32_nan (o : TFloatOps) :
    Exp32 o false true true true nan = nan ∧
      Log32 o false true true true true nan = nan ∧
      Exp32 o false false true true nan = Exp32Core o false nan ∧
      Log32 o false false true true false nan = Log32Core o false nan := by
  refine ⟨?_, ?_, ?_, ?_⟩ <;>
    simp [Exp32, Log32, IfLess, IfNaN, FloatEbm.lt, FloatEbm.isnan]

/-- Claim C24: with the default flags `Log32` of a value `0 <= val < FLT_MIN` (a zero or a
positive subnormal) is minus infinity, and plus infinity when the output is negated
(`bNegateOutput`). -/
theorem Log32_zero_subnormal (o : TFloatOps) (bNegateOutput : Bool) (val : FloatEbm)
    (h0 : (finite 0).le val = true) (h1 : val.lt (finite floatMin) = true) :
    Log32 o bNegateOutput true true true true val
      = if bNegateOutput then posInf else negInf := by
  cases val with
  | nan => simp [FloatEbm.lt] at h1
  | posInf => simp [FloatEbm.lt] at h1
  | negInf => simp [FloatEbm.le] at h0
  | finite x =>
    simp only [FloatEbm.lt, FloatEbm.le, decide_eq_true_eq] at h0 h1
    have h2 : ¬ x < 0 := not_lt.mpr h0
    simp [Log32, IfLess, FloatEbm.lt, h1, h2]

theorem Log32_zero_subnormal_witness :
    Log32 exactTFloatOps false true true true true (finite 0) = negInf ∧
      Log32 exactTFloatOps true true true true true (finite (mkRat 1 (2 ^ 127))) = posInf :=
  ⟨Log32_zero_subnormal exactTFloatOps false (finite 0) (by decide) (by decide),
    Log32_zero_subnormal exactTFloatOps true (finite (mkRat 1 (2 ^ 127))) (by decide)
      (by decide)⟩

/-- Claim C25: with the default flags `Log32` of a value below zero, minus infinity included,
is NaN, whether the output is negated or not.  The zero select fires on such a value too
(it is below `FLT_MIN`), and its infinity comes out when the negative select is switched
off. -/
theorem Log32_negative (o : TFloatOps) (bNegateOutput : Bool) (val : FloatEbm)
    (h : val.lt (finite 0) = true) :
    Log32 o bNegateOutput true true true true val = nan ∧
      val.lt (finite floatMin) = true ∧
      Log32 o bNegateOutput true false true true val
        = if bNegateOutput then posInf else negInf := by
  cases val with
  | nan => simp [FloatEbm.lt] at h
  | posInf => simp [FloatEbm.lt] at h
  | negInf => simp [Log32, IfLess, FloatEbm.lt]
  | finite x =>
    simp only [FloatEbm.lt, decide_eq_true_eq] at h
    have h1 : x < floatMin := lt_trans h floatMin_pos
    simp [Log32, IfLess, FloatEbm.lt, h, h1]

theorem Log32_negative_witness :
    Log32 exactTFloatOps false true true true true (finite (-3)) = nan ∧
      (finite (-3)).lt (finite floatMin) = true ∧
      Log32 exactTFloatOps false true false true true (finite (-3))
        = if false then posInf else negInf :=
  Log32_negative exactTFloatOps false (finite (-3)) (by decide)

/-- Claim C26: `Log32` of plus infinity is plus infinity, and minus infinity when the output is
negated (`bNegateOutput`), both with the default flags and when NaN is declared impossible
while plus infinity stays possible. -/
theorem Log32_posInf (o : TFloatOps) (bNegateOutput bNaNPossible : Bool) :
    Log32 o bNegateOutput bNaNPossible true true true posInf
      = if bNegateOutput then negInf else posInf := by
  cases bNegateOutput <;> cases bNaNPossible <;>
    simp [Log32, IfLess, IfEqual, FloatEbm.lt, FloatEbm.eq, FloatEbm.neg]

/-! ## Softmax -/

/-- The loop of `Softmax` from sample `i` on, within the bounds of both buffers: it ends, has
then written the samples `i` to `cSamples - 1` once each in this order, each with
`odds / (1 + odds)` for `odds = exp(logits[j])`, and has left the other entries alone. -/
theorem softmaxLoop_eq_some (o : FloatEbmOps) (cSamples : Nat) (aLogits : List FloatEbm)
    (hl : cSamples ≤ aLogits.length) :
    ∀ (fuel i : Nat) (out : List FloatEbm) (writes : List Nat),
      i ≤ cSamples → cSamples - i < fuel → cSamples ≤ out.length →
      ∃ out1, softmaxLoop o cSamples (some aLogits) fuel i ⟨some out, writes⟩
          = some ⟨some out1, writes ++ List.range' i (cSamples - i)⟩ ∧
        out1.length = out.length ∧
        (∀ j logit, i ≤ j → j < cSamples → aLogits[j]? = some logit →
          out1[j]? = some (o.div (o.exp logit) (o.add (finite 1) (o.exp logit)))) ∧
        (∀ j, j < i ∨ cSamples ≤ j → out1[j]? = out[j]?) := by
  intro fuel
  induction fuel with
  | zero => intro i out writes _ h; omega
  | succ fuel ih =>
    intro i out writes hi hfuel hout
    by_cases hlt : i < cSamples
    · have hil : i < aLogits.length := by omega
      have hio : i < out.length := by omega
      obtain ⟨out1, hrun, hlen, hnew, hold⟩ := ih (i + 1)
        (out.set i (o.div (o.exp aLogits[i]) (o.add (finite 1) (o.exp aLogits[i]))))
        (writes ++ [i]) (by omega) (by omega) (by simpa using hout)
      refine ⟨out1, ?_, by simpa using hlen, ?_, ?_⟩
      · simp only [softmaxLoop, if_pos hlt, softmaxStep, List.getElem?_eq_getElem hil,
          if_pos hio, hrun]
        have e : cSamples - i = (cSamples - (i + 1)) + 1 := by omega
        rw [e, List.range'_succ, List.append_assoc]
        rfl
      · intro j logit hij hj hlogit
        by_cases hji : j = i
        · subst hji
          rw [hold j (Or.inl (by omega)), List.getElem?_set_self hio]
          rw [List.getElem?_eq_getElem hil] at hlogit
          simp only [Option.some.injEq] at hlogit
          rw [hlogit]
        · exact hnew j logit (by omega) hj hlogit
      · intro j hj
        rw [hold j (by omega), List.getElem?_set_ne (by omega)]
    · have e : cSamples - i = 0 := by omega
      refine ⟨out, ?_, rfl, ?_, fun _ _ => rfl⟩
      · simp [softmaxLoop, hlt, e]
      · intro j _ hij hj
        omega

/-- Claim C28: a call of `Softmax` with `countTargetClasses` other than 2 ends in `exit(1)`
with nothing written and nothing returned, whatever the other arguments are; a call with
`countTargetClasses = 2` on `countSamples >= 0` samples and buffers that hold them returns 0
and has then written each `probabilitiesOut[i]`, `i < countSamples`, once, in index order,
with `odds / (1 + odds)` for `odds = exp(logits[i])`, the rest of the buffer being as
before. -/
theorem Softmax_outcome (o : FloatEbmOps) (countTargetClasses countSamples : Int) :
    (∀ logits probabilitiesOut, countTargetClasses ≠ 2 →
      Softmax o countTargetClasses countSamples logits probabilitiesOut
        = some (SoftmaxOutcome.exited 1 probabilitiesOut [])) ∧
    (∀ aLogits out, countTargetClasses = 2 → 0 ≤ countSamples →
      countSamples ≤ IntEbmType_max → countSamples ≤ (aLogits.length : Int) → countSamples ≤ (out.length : Int) →
      ∃ out1, Softmax o countTargetClasses countSamples (some aLogits) (some out)
          = some (SoftmaxOutcome.returned 0 (some out1) (List.range countSamples.toNat)) ∧
        out1.length = out.length ∧
        (∀ (i : Nat) logit, (i : Int) < countSamples → aLogits[i]? = some logit →
          out1[i]? = some (o.div (o.exp logit) (o.add (finite 1) (o.exp logit)))) ∧
        (∀ (i : Nat), countSamples ≤ (i : Int) → out1[i]? = out[i]?)) := by
  constructor
  · intro logits probabilitiesOut h
    have h2 : (2 : Int) ≠ countTargetClasses := fun e => h e.symm
    simp only [Softmax, if_pos h2]
  · intro aLogits out h2 h0 hmax hl hout
    obtain ⟨n, rfl⟩ := Int.eq_ofNat_of_zero_le h0
    have hn : n ≤ out.length := by exact_mod_cast hout
    have hbig : n < 2 ^ 64 := by
      unfold IntEbmType_max at hmax
      omega
    · have hsz : toSizeT (n : Int) = n := toSizeT_natCast (by omega)
      obtain ⟨out1, hrun, hlen, hnew, hold⟩ := softmaxLoop_eq_some o n aLogits
        (by exact_mod_cast hl) (n + 1) 0 out [] (Nat.zero_le _) (by omega) hn
      refine ⟨out1, ?_, hlen, ?_, ?_⟩
      · subst h2
        simp only [Softmax, ne_eq, not_true_eq_false, if_false, hsz, hrun, Int.toNat_ofNat,
          List.nil_append, Nat.sub_zero, List.range_eq_range']
      · intro i logit hi hlogit
        exact hnew i logit (Nat.zero_le _) (by exact_mod_cast hi) hlogit
      · intro i hi
        exact hold i (Or.inr (by exact_mod_cast hi))

theorem Softmax_outcome_witness :
    Softmax exactFloatEbmOps 3 2 (some [finite 0, finite 1]) (some [nan, nan, nan])
        = some (SoftmaxOutcome.exited 1 (some [nan, nan, nan]) []) ∧
      Softmax exactFloatEbmOps 2 2 (some [finite 0, finite 1]) (some [nan, nan, nan])
        = some (SoftmaxOutcome.returned 0
            (some [finite (mkRat 1 2), finite (mkRat 2 3), nan]) [0, 1]) ∧
      ∃ out1, Softmax exactFloatEbmOps 2 2 (some [finite 0, finite 1]) (some [nan, nan, nan])
          = some (SoftmaxOutcome.returned 0 (some out1) (List.range (2 : Int).toNat)) ∧
        out1.length = [nan, nan, nan].length ∧
        (∀ (i : Nat) logit, (i : Int) < 2 → [finite 0, finite 1][i]? = some logit →
          out1[i]? = some (exactFloatEbmOps.div (exactFloatEbmOps.exp logit)
            (exactFloatEbmOps.add (finite 1) (exactFloatEbmOps.exp logit)))) ∧
        (∀ (i : Nat), (2 : Int) ≤ (i : Int) → out1[i]? = [nan, nan, nan][i]?) :=
  ⟨(Softmax_outcome exactFloatEbmOps 3 2).1 (some [finite 0, finite 1])
      (some [nan, nan, nan]) (by decide),
    by decide!,
    (Softmax_outcome exactFloatEbmOps 2 2).2 [finite 0, finite 1] [nan, nan, nan] rfl
      (by decide) (by decide) (by decide) (by decide)⟩

/-! ## The padded table before the search -/

/-- The `memcpy` of the cuts, within the bounds of both arrays: it stores the cuts `i` to
`i + remaining - 1` at the indices `1 + i` to `i + remaining`, in this order, and nothing
else. -/
theorem copyCuts_eq_some (cuts : List FloatEbm) :
    ∀ (remaining i : Nat) (st : CopyState),
      i + remaining ≤ cuts.length →
      1 + i + remaining ≤ st.cutsLowerBoundInclusiveCopy.length →
      ∃ st1, copyCuts cuts remaining i st = some st1 ∧
        st1.cutsLowerBoundInclusiveCopy.length = st.cutsLowerBoundInclusiveCopy.length ∧
        st1.writes = st.writes ++
          List.zip (List.range' (1 + i) remaining) ((cuts.drop i).take remaining) ∧
        (∀ j, 1 + i ≤ j → j < 1 + i + remaining →
          st1.cutsLowerBoundInclusiveCopy[j]? = some cuts[j - 1]?) ∧
        (∀ j, j < 1 + i ∨ 1 + i + remaining ≤ j →
          st1.cutsLowerBoundInclusiveCopy[j]? = st.cutsLowerBoundInclusiveCopy[j]?) := by
  intro remaining
  induction remaining with
  | zero =>
    intro i st _ _
    exact ⟨st, rfl, rfl, by simp, fun j _ hj => by omega, fun _ _ => rfl⟩
  | succ remaining ih =>
    intro i st hc hb
    have hi : i < cuts.length := by omega
    have hs : 1 + i < st.cutsLowerBoundInclusiveCopy.length := by omega
    obtain ⟨st1, hrun, hlen, hwrites, hnew, hold⟩ := ih (i + 1)
      ⟨st.cutsLowerBoundInclusiveCopy.set (1 + i) (some cuts[i]), st.writes ++ [(1 + i, cuts[i])]⟩
      (by omega) (by simp only [List.length_set]; omega)
    refine ⟨st1, ?_, by simpa using hlen, ?_, ?_, ?_⟩
    · simp only [copyCuts, List.getElem?_eq_getElem hi, copyStore, if_pos hs, hrun]
    · rw [hwrites, List.drop_eq_getElem_cons hi, List.take_succ_cons, List.range'_succ,
        List.zip_cons_cons, List.append_assoc]
      have e : 1 + (i + 1) = 1 + i + 1 := by omega
      rw [e]
      rfl
    · intro j hj1 hj2
      by_cases hji : j = 1 + i
      · subst hji
        rw [hold (1 + i) (Or.inl (by omega))]
        simp only [List.getElem?_set_self hs]
        have e : 1 + i - 1 = i := by omega
        rw [e, List.getElem?_eq_getElem hi]
      · exact hnew j (by omega) (by omega)
    · intro j hj
      rw [hold j (by omega)]
      exact List.getElem?_set_ne (by omega)

/-- The fill loop from `pFill` below `pEndFill`, within the array: it ends, having stored NaN
at the indices `pFill` to `pEndFill - 1`, in this order, and nothing else. -/
theorem fillLoop_eq_some (pEndFill : Nat) :
    ∀ (fuel pFill : Nat) (st : CopyState),
      pFill < pEndFill → pEndFill ≤ st.cutsLowerBoundInclusiveCopy.length →
      pEndFill - pFill ≤ fuel →
      ∃ st1, fillLoop pEndFill fuel pFill st = some st1 ∧
        st1.cutsLowerBoundInclusiveCopy.length = st.cutsLowerBoundInclusiveCopy.length ∧
        st1.writes = st.writes ++
          (List.range' pFill (pEndFill - pFill)).map (fun j => (j, nan)) ∧
        (∀ j, pFill ≤ j → j < pEndFill →
          st1.cutsLowerBoundInclusiveCopy[j]? = some (some nan)) ∧
        (∀ j, j < pFill ∨ pEndFill ≤ j →
          st1.cutsLowerBoundInclusiveCopy[j]? = st.cutsLowerBoundInclusiveCopy[j]?) := by
  intro fuel
  induction fuel with
  | zero => intro pFill st h1 _ h3; omega
  | succ fuel ih =>
    intro pFill st h1 h2 h3
    have hs : pFill < st.cutsLowerBoundInclusiveCopy.length := by omega
    have e : pEndFill - pFill = (pEndFill - (pFill + 1)) + 1 := by omega
    by_cases hend : pEndFill = pFill + 1
    · refine ⟨⟨st.cutsLowerBoundInclusiveCopy.set pFill (some nan),
        st.writes ++ [(pFill, nan)]⟩, ?_, by simp, ?_, ?_, ?_⟩
      · simp only [fillLoop, copyStore, if_pos hs, hend, ne_eq, not_true_eq_false, if_false]
      · have e0 : pEndFill - pFill = 1 := by omega
        rw [e0]
        rfl
      · intro j hj1 hj2
        have : j = pFill := by omega
        subst this
        simp only [List.getElem?_set_self hs]
      · intro j hj
        exact List.getElem?_set_ne (by omega)
    · obtain ⟨st1, hrun, hlen, hwrites, hnew, hold⟩ := ih (pFill + 1)
        ⟨st.cutsLowerBoundInclusiveCopy.set pFill (some nan), st.writes ++ [(pFill, nan)]⟩
        (by omega) (by simp only [List.length_set]; omega) (by omega)
      refine ⟨st1, ?_, by simpa using hlen, ?_, ?_, ?_⟩
      · simp only [fillLoop, copyStore, if_pos hs, ne_eq, hend, not_false_eq_true, if_true,
          hrun]
      · rw [hwrites, e, List.range'_succ, List.map_cons, List.append_assoc]
        rfl
      · intro j hj1 hj2
        by_cases hji : j = pFill
        · subst hji
          rw [hold j (Or.inl (by omega))]
          simp only [List.getElem?_set_self hs]
        · exact hnew j (by omega) hj2
      · intro j hj
        rw [hold j (by omega)]
        exact List.getElem?_set_ne (by omega)

/-- The preparation of the padded table for `cCuts <= cPower - 2` cuts and `cPower <= 1024`:
it ends with minus infinity at index 0, the cuts from index 1, NaN from there to index
`cPower - 2` and the rest of the array not initialised; the stores are these, in this
order. -/
theorem paddedFill_eq_some (cPower cCuts : Nat) (cuts : List FloatEbm)
    (hP2 : 2 ≤ cPower) (hP : cPower ≤ 1024) (hc : cCuts ≤ cPower - 2)
    (hlen : cCuts ≤ cuts.length) :
    ∃ st, paddedFill cPower cuts cCuts = some st ∧
      st.cutsLowerBoundInclusiveCopy.length = 1023 ∧
      st.cutsLowerBoundInclusiveCopy[0]? = some (some negInf) ∧
      (∀ i, 1 ≤ i → i ≤ cCuts → st.cutsLowerBoundInclusiveCopy[i]? = some cuts[i - 1]?) ∧
      (∀ i, cCuts < i → i ≤ cPower - 2 →
        st.cutsLowerBoundInclusiveCopy[i]? = some (some nan)) ∧
      (∀ i, cPower - 1 ≤ i → i < 1023 → st.cutsLowerBoundInclusiveCopy[i]? = some none) ∧
      st.writes = (0, negInf) :: List.zip (List.range' 1 cCuts) (cuts.take cCuts) ++
        (List.range' (cCuts + 1) (cPower - 2 - cCuts)).map (fun j => (j, nan)) := by
  have hl0 : (List.replicate 1023 (none : Option FloatEbm)).length = 1023 :=
    List.length_replicate _ _
  have hg0 : ∀ j, j < 1023 →
      (List.replicate 1023 (none : Option FloatEbm))[j]? = some none := by
    intro j hj
    rw [List.getElem?_replicate, if_pos hj]
  unfold paddedFill
  generalize List.replicate 1023 (none : Option FloatEbm) = buf0 at hl0 hg0 ⊢
  have h0 : copyStore ⟨buf0, []⟩ 0 negInf
      = some ⟨buf0.set 0 (some negInf), [(0, negInf)]⟩ := by
    simp only [copyStore, hl0, List.nil_append]
    rfl
  obtain ⟨st1, hrun1, hlen1, hw1, hnew1, hold1⟩ := copyCuts_eq_some cuts cCuts 0
    ⟨buf0.set 0 (some negInf), [(0, negInf)]⟩
    (by omega) (by simp only [List.length_set, hl0]; omega)
  simp only [List.length_set, hl0, Nat.add_zero, List.drop_zero] at hlen1 hw1 hnew1 hold1
  have hinit : ∀ j, 1 ≤ j → j < 1023 → (buf0.set 0 (some negInf))[j]? = some none := by
    intro j hj1 hj2
    rw [List.getElem?_set_ne (by omega), hg0 j hj2]
  have hzero : (buf0.set 0 (some negInf))[0]? = some (some negInf) := by
    rw [List.getElem?_set_self (by omega)]
  by_cases hfull : cCuts = cPower - 2
  · refine ⟨st1, ?_, hlen1, ?_, ?_, ?_, ?_, ?_⟩
    · simp only [h0, hrun1]
      rw [if_neg (by simpa using hfull)]
    · rw [hold1 0 (Or.inl (by omega)), hzero]
    · intro i hi1 hi2
      exact hnew1 i (by omega) (by omega)
    · intro i hi1 hi2
      omega
    · intro i hi1 hi2
      rw [hold1 i (Or.inr (by omega)), hinit i (by omega) hi2]
    · rw [hw1]
      have e : cPower - 2 - cCuts = 0 := by omega
      rw [e]
      simp
  · obtain ⟨st2, hrun2, hlen2, hw2, hnew2, hold2⟩ := fillLoop_eq_some (cPower - 1) 1023
      (cCuts + 1) st1 (by omega) (by omega) (by omega)
    refine ⟨st2, ?_, by rw [hlen2, hlen1], ?_, ?_, ?_, ?_, ?_⟩
    · simp only [h0, hrun1]
      rw [if_pos (by simpa using hfull), hrun2]
    · rw [hold2 0 (Or.inl (by omega)), hold1 0 (Or.inl (by omega)), hzero]
    · intro i hi1 hi2
      rw [hold2 i (Or.inl (by omega))]
      exact hnew1 i (by omega) (by omega)
    · intro i hi1 hi2
      exact hnew2 i (by omega) (by omega)
    · intro i hi1 hi2
      rw [hold2 i (Or.inr (by omega)), hold1 i (Or.inr (by omega)), hinit i (by omega) hi2]
    · rw [hw2, hw1]
      have e : cPower - 1 - (cCuts + 1) = cPower - 2 - cCuts := by omega
      rw [e]
      simp

/-- The padded block chosen for 7 to 1022 cuts: its table is the smallest of 16, 32, ..., 1024
entries that leaves two entries more than there are cuts. -/
theorem paddedLog_of_le (cCuts : Nat) (h1022 : cCuts ≤ 1022) :
    ∃ k, paddedLog (cCuts : Int) = some k ∧ 4 ≤ k ∧ k ≤ 10 ∧ cCuts ≤ 2 ^ k - 2 ∧
      (∀ k', 4 ≤ k' → cCuts ≤ 2 ^ k' - 2 → k ≤ k') := by
  have hmin : ∀ k, 4 ≤ k → k ≤ 10 → (k = 4 ∨ 2 ^ (k - 1) - 2 < cCuts) →
      ∀ k', 4 ≤ k' → cCuts ≤ 2 ^ k' - 2 → k ≤ k' := by
    intro k hk4 hk10 hprev k' hk' hc
    by_contra hcon
    have hlt : k' < k := by omega
    rcases hprev with h4 | hprev
    · omega
    · have hmono : 2 ^ k' ≤ 2 ^ (k - 1) := Nat.pow_le_pow_right (by norm_num) (by omega)
      omega
  unfold paddedLog
  by_cases h14 : cCuts ≤ 14
  · refine ⟨4, by rw [if_pos (by exact_mod_cast h14)], by norm_num, by norm_num,
      by norm_num; omega, hmin 4 (by norm_num) (by norm_num) (Or.inl rfl)⟩
  rw [if_neg (by exact_mod_cast h14)]
  by_cases h30 : cCuts ≤ 30
  · refine ⟨5, by rw [if_pos (by exact_mod_cast h30)], by norm_num, by norm_num,
      by norm_num; omega, hmin 5 (by norm_num) (by norm_num) (Or.inr (by norm_num; omega))⟩
  rw [if_neg (by exact_mod_cast h30)]
  by_cases h62 : cCuts ≤ 62
  · refine ⟨6, by rw [if_pos (by exact_mod_cast h62)], by norm_num, by norm_num,
      by norm_num; omega, hmin 6 (by norm_num) (by norm_num) (Or.inr (by norm_num; omega))⟩
  rw [if_neg (by exact_mod_cast h62)]
  by_cases h126 : cCuts ≤ 126
  · refine ⟨7, by rw [if_pos (by exact_mod_cast h126)], by norm_num, by norm_num,
      by norm_num; omega, hmin 7 (by norm_num) (by norm_num) (Or.inr (by norm_num; omega))⟩
  rw [if_neg (by exact_mod_cast h126)]
  by_cases h254 : cCuts ≤ 254
  · refine ⟨8, by rw [if_pos (by exact_mod_cast h254)], by norm_num, by norm_num,
      by norm_num; omega, hmin 8 (by norm_num) (by norm_num) (Or.inr (by norm_num; omega))⟩
  rw [if_neg (by exact_mod_cast h254)]
  by_cases h510 : cCuts ≤ 510
  · refine ⟨9, by rw [if_pos (by exact_mod_cast h510)], by norm_num, by norm_num,
      by norm_num; omega, hmin 9 (by norm_num) (by norm_num) (Or.inr (by norm_num; omega))⟩
  rw [if_neg (by exact_mod_cast h510)]
  refine ⟨10, by rw [if_pos (by exact_mod_cast h1022)], by norm_num, by norm_num,
    by norm_num; omega, hmin 10 (by norm_num) (by norm_num) (Or.inr (by norm_num; omega))⟩

/-- The table of `paddedCopy` entry by entry. -/
theorem paddedCopy_getElem? (cPower cCuts : Nat) (cuts : List FloatEbm)
    (hlen : cCuts ≤ cuts.length) (hc : cCuts ≤ cPower - 2) :
    ∃ copy, paddedCopy cPower cuts cCuts = some copy ∧ copy.length = cPower - 2 + 1 ∧
      copy[0]? = some negInf ∧
      (∀ i, 1 ≤ i → i ≤ cCuts → copy[i]? = cuts[i - 1]?) ∧
      (∀ i, cCuts < i → i ≤ cPower - 2 → copy[i]? = some nan) := by
  refine ⟨_, by rw [paddedCopy, if_pos hlen], ?_, List.getElem?_cons_zero, ?_, ?_⟩
  · simp only [List.length_cons, List.length_append, List.length_take, List.length_replicate]
    omega
  · intro i hi1 hi2
    obtain ⟨j, rfl⟩ : ∃ j, i = j + 1 := ⟨i - 1, by omega⟩
    rw [List.getElem?_cons_succ, List.getElem?_append_left (by simp; omega),
      List.getElem?_take_of_lt (by omega)]
    rfl
  · intro i hi1 hi2
    obtain ⟨j, rfl⟩ : ∃ j, i = j + 1 := ⟨i - 1, by omega⟩
    rw [List.getElem?_cons_succ, List.getElem?_append_right (by simp; omega),
      List.getElem?_replicate, if_pos (by simp; omega)]

/-- Claim C29: for up to 1022 cuts (the padded blocks are reached with 7 or more) the padded
block chosen has the smallest table size `P = 2^k` of 16, 32, ..., 1024 with
`cCuts <= P - 2`; its preparation of `cutsLowerBoundInclusiveCopy`
ends with minus infinity at index 0, `cuts[i - 1]` at the indices `1 <= i <= cCuts` and NaN at
the indices `cCuts < i <= P - 2`; the entries from `P - 1` on are not initialised and every
store is at an index of at most `P - 2`; the stores are that of minus infinity, those of the
copy of the cuts and then those of NaN, none when `cCuts = P - 2`; and the entries up to
`P - 2` are the table that the search of the block works on. -/
theorem paddedFill_table (cCuts : Nat) (cuts : List FloatEbm) (h1022 : cCuts ≤ 1022)
    (hlen : cCuts ≤ cuts.length) :
    ∃ k st copy, paddedLog (cCuts : Int) = some k ∧ 4 ≤ k ∧ k ≤ 10 ∧ cCuts ≤ 2 ^ k - 2 ∧
      (∀ k', 4 ≤ k' → cCuts ≤ 2 ^ k' - 2 → k ≤ k') ∧
      paddedFill (2 ^ k) cuts cCuts = some st ∧
      st.cutsLowerBoundInclusiveCopy[0]? = some (some negInf) ∧
      (∀ i, 1 ≤ i → i ≤ cCuts → st.cutsLowerBoundInclusiveCopy[i]? = some cuts[i - 1]?) ∧
      (∀ i, cCuts < i → i ≤ 2 ^ k - 2 →
        st.cutsLowerBoundInclusiveCopy[i]? = some (some nan)) ∧
      (∀ i, 2 ^ k - 1 ≤ i → i < 1023 → st.cutsLowerBoundInclusiveCopy[i]? = some none) ∧
      (∀ w ∈ st.writes, w.1 ≤ 2 ^ k - 2) ∧
      st.writes = (0, negInf) :: List.zip (List.range' 1 cCuts) (cuts.take cCuts) ++
        (List.range' (cCuts + 1) (2 ^ k - 2 - cCuts)).map (fun j => (j, nan)) ∧
      (cCuts = 2 ^ k - 2 →
        st.writes = (0, negInf) :: List.zip (List.range' 1 cCuts) (cuts.take cCuts)) ∧
      paddedCopy (2 ^ k) cuts cCuts = some copy ∧
      (∀ i, i ≤ 2 ^ k - 2 → st.cutsLowerBoundInclusiveCopy[i]? = some copy[i]?) := by
  obtain ⟨k, hk, hk4, hk10, hc, hmin⟩ := paddedLog_of_le cCuts h1022
  have hpow4 : 2 ^ 4 ≤ 2 ^ k := Nat.pow_le_pow_right (by norm_num) hk4
  have hpow10 : 2 ^ k ≤ 2 ^ 10 := Nat.pow_le_pow_right (by norm_num) hk10
  obtain ⟨st, hst, _, h0, hcuts, hnan, hrest, hw⟩ :=
    paddedFill_eq_some (2 ^ k) cCuts cuts (by omega) (by omega) hc hlen
  obtain ⟨copy, hcopy, _, hc0, hccuts, hcnan⟩ := paddedCopy_getElem? (2 ^ k) cCuts cuts hlen hc
  refine ⟨k, st, copy, hk, hk4, hk10, hc, hmin, hst, h0, hcuts, hnan, hrest, ?_, hw, ?_,
    hcopy, ?_⟩
  · intro w hwmem
    rw [hw] at hwmem
    simp only [List.cons_append, List.mem_cons, List.mem_append, List.mem_map,
      List.mem_range'_1] at hwmem
    rcases hwmem with rfl | hz | ⟨j, ⟨hj1, hj2⟩, rfl⟩
    · exact Nat.zero_le _
    · have := (List.of_mem_zip hz).1
      rw [List.mem_range'_1] at this
      show w.1 ≤ _
      omega
    · show j ≤ _
      omega
  · intro hfull
    rw [hw]
    have e : 2 ^ k - 2 - cCuts = 0 := by omega
    rw [e]
    simp
  · intro i hi
    by_cases hi0 : i = 0
    · subst hi0
      rw [h0, hc0]
    · by_cases hic : i ≤ cCuts
      · rw [hcuts i (by omega) hic, hccuts i (by omega) hic]
      · rw [hnan i (by omega) hi, hcnan i (by omega) hi]

theorem paddedFill_table_witness :
    ∃ k st copy, paddedLog ((7 : Nat) : Int) = some k ∧ 4 ≤ k ∧ k ≤ 10 ∧ 7 ≤ 2 ^ k - 2 ∧
      (∀ k', 4 ≤ k' → 7 ≤ 2 ^ k' - 2 → k ≤ k') ∧
      paddedFill (2 ^ k)
        [finite 1, finite 2, finite 3, finite 4, finite 5, finite 6, finite 7] 7 = some st ∧
      st.cutsLowerBoundInclusiveCopy[0]? = some (some negInf) ∧
      (∀ i, 1 ≤ i → i ≤ 7 → st.cutsLowerBoundInclusiveCopy[i]?
        = some [finite 1, finite 2, finite 3, finite 4, finite 5, finite 6, finite 7][i - 1]?) ∧
      (∀ i, 7 < i → i ≤ 2 ^ k - 2 →
        st.cutsLowerBoundInclusiveCopy[i]? = some (some nan)) ∧
      (∀ i, 2 ^ k - 1 ≤ i → i < 1023 → st.cutsLowerBoundInclusiveCopy[i]? = some none) ∧
      (∀ w ∈ st.writes, w.1 ≤ 2 ^ k - 2) ∧
      st.writes = (0, negInf) :: List.zip (List.range' 1 7)
          ([finite 1, finite 2, finite 3, finite 4, finite 5, finite 6, finite 7].take 7) ++
        (List.range' (7 + 1) (2 ^ k - 2 - 7)).map (fun j => (j, nan)) ∧
      (7 = 2 ^ k - 2 →
        st.writes = (0, negInf) :: List.zip (List.range' 1 7)
          ([finite 1, finite 2, finite 3, finite 4, finite 5, finite 6, finite 7].take 7)) ∧
      paddedCopy (2 ^ k)
        [finite 1, finite 2, finite 3, finite 4, finite 5, finite 6, finite 7] 7 = some copy ∧
      (∀ i, i ≤ 2 ^ k - 2 → st.cutsLowerBoundInclusiveCopy[i]? = some copy[i]?) :=
  paddedFill_table 7 [finite 1, finite 2, finite 3, finite 4, finite 5, finite 6, finite 7]
    (by decide) (by decide)

/-! ## The search of the padded table -/

theorem FloatEbm.le_nan_left (v : FloatEbm) : nan.le v = false := by
  cases v <;> rfl

theorem NonDecreasingNanLast.head {a : FloatEbm} :
    ∀ {copy : List FloatEbm}, NonDecreasingNanLast (a :: copy) →
      ∀ b ∈ copy, b.isnan = true ∨ a.le b = true := by
  intro copy
  induction copy generalizing a with
  | nil => intro _ b hb; simp at hb
  | cons c rest ih =>
    intro h b hb
    obtain ⟨hac, hrest⟩ := h
    rcases List.mem_cons.mp hb with rfl | hmem
    · exact hac
    · rcases ih hrest b hmem with hnan | hcb
      · exact Or.inl hnan
      · rcases hac with hcnan | hac
        · cases c <;> simp_all [FloatEbm.isnan, FloatEbm.le_nan_left]
        · exact Or.inr (FloatEbm.le_chain hac hcb)

theorem NonDecreasingNanLast.tail {a : FloatEbm} {copy : List FloatEbm}
    (h : NonDecreasingNanLast (a :: copy)) : NonDecreasingNanLast copy := by
  cases copy with
  | nil => trivial
  | cons b rest => exact h.2

/-- In a table that is non-decreasing with NaN last, the entries at or below a value are the
first ones, as many as there are. -/
theorem NonDecreasingNanLast.threshold :
    ∀ {copy : List FloatEbm}, NonDecreasingNanLast copy → ∀ (val : FloatEbm),
      IsThreshold copy val (cutsAtOrBelow copy val) := by
  intro copy
  induction copy with
  | nil => intro _ val i c hc; simp at hc
  | cons a cs ih =>
    intro h val i c hc
    by_cases ha : a.le val = true
    · have hcount : cutsAtOrBelow (a :: cs) val = cutsAtOrBelow cs val + 1 := by
        simp [cutsAtOrBelow, List.countP_cons, ha]
      cases i with
      | zero =>
        simp at hc
        subst hc
        simp [ha, hcount]
      | succ j =>
        simp at hc
        rw [hcount, ih h.tail val j c hc]
        omega
    · have hall : ∀ c' ∈ cs, c'.le val = false := by
        intro c' hc'
        by_contra hcon
        have hcv : c'.le val = true := by simpa using hcon
        rcases h.head c' hc' with hnan | hac
        · cases c' <;> simp_all [FloatEbm.isnan, FloatEbm.le_nan_left]
        · exact ha (FloatEbm.le_chain hac hcv)
      have hcount : cutsAtOrBelow (a :: cs) val = 0 := by
        simp only [cutsAtOrBelow, List.countP_eq_zero]
        intro c' hc'
        rcases List.mem_cons.mp hc' with rfl | hmem
        · simpa using ha
        · simp [hall c' hmem]
      rw [hcount]
      have hmem : c ∈ a :: cs := List.getElem?_mem hc
      rcases List.mem_cons.mp hmem with rfl | hmem
      · simp [ha]
      · simp [hall c hmem]

/-- The comparisons of the padded search from `pResult` with `2^k - 1` entries ahead: there are
`k` of them and they read entries from `pResult` on, within those. -/
theorem paddedSearchReads_bounds (copy : List FloatEbm) (val : FloatEbm) :
    ∀ (k pResult : Nat), pResult + (2 ^ k - 1) ≤ copy.length →
      (paddedSearchReads copy val k pResult).length = k ∧
      ∀ i ∈ paddedSearchReads copy val k pResult, pResult ≤ i ∧ i < pResult + (2 ^ k - 1) := by
  intro k
  induction k with
  | zero => intro p _; exact ⟨rfl, fun i hi => by simp [paddedSearchReads] at hi⟩
  | succ k ih =>
    intro p h1
    have hpow : 2 ^ (k + 1) = 2 * 2 ^ k := by ring
    have hpos : 0 < 2 ^ k := pow_pos (by norm_num) k
    have hidx : p + (2 ^ k - 1) < copy.length := by omega
    simp only [paddedSearchReads, List.getElem?_eq_getElem hidx]
    by_cases hle : (copy[p + (2 ^ k - 1)]).le val = true
    · rw [if_pos hle]
      obtain ⟨hl, hb⟩ := ih (p + 2 ^ k) (by omega)
      refine ⟨by simp [hl], ?_⟩
      intro i hi
      rcases List.mem_cons.mp hi with rfl | hmem
      · omega
      · have := hb i hmem
        omega
    · rw [if_neg hle]
      obtain ⟨hl, hb⟩ := ih p (by omega)
      refine ⟨by simp [hl], ?_⟩
      intro i hi
      rcases List.mem_cons.mp hi with rfl | hmem
      · omega
      · have := hb i hmem
        omega

/-- Claim C30: on a table of `P - 1 = 2^k - 1` entries, whatever they are, and for every value,
NaN and the infinities included, the padded search returns, makes `k = log2(P)` comparisons,
reads entries at the indices `0` to `P - 2` only, and returns the number of entries at or
below the value when the table is non-decreasing with NaN counting as greater than
everything. -/
theorem paddedSearch_comparisons (copy : List FloatEbm) (val : FloatEbm) (k : Nat)
    (hlen : copy.length = 2 ^ k - 1) :
    ∃ result, paddedSearch copy val k 0 = some result ∧
      binPadded copy k val = some (toIntEbmType result) ∧
      (paddedSearchReads copy val k 0).length = k ∧
      (∀ i ∈ paddedSearchReads copy val k 0, i ≤ 2 ^ k - 2 ∧ i < copy.length) ∧
      (NonDecreasingNanLast copy → result = cutsAtOrBelow copy val) := by
  obtain ⟨result, hres⟩ := paddedSearch_isSome copy val k 0 (by omega)
  obtain ⟨hl, hb⟩ := paddedSearchReads_bounds copy val k 0 (by omega)
  refine ⟨result, hres, by simp only [binPadded, hres], hl, ?_, ?_⟩
  · intro i hi
    have := hb i hi
    omega
  · intro hnd
    have hm := cutsAtOrBelow_le_length copy val
    have hthr := paddedSearch_threshold (hnd.threshold val) k 0 (by omega) (Nat.zero_le _)
      (by omega)
    rw [hthr] at hres
    exact (Option.some.inj hres).symm

theorem paddedSearch_comparisons_witness :
    paddedSearchReads
        [negInf, finite 1, finite 2, finite 3, finite 4, finite 5, finite 6, finite 7, nan, nan,
          nan, nan, nan, nan, nan] (finite 4) 4 0 = [7, 3, 5, 4] ∧
      NonDecreasingNanLast
        [negInf, finite 1, finite 2, finite 3, finite 4, finite 5, finite 6, finite 7, nan, nan,
          nan, nan, nan, nan, nan] ∧
      paddedSearch
        [negInf, finite 1, finite 2, finite 3, finite 4, finite 5, finite 6, finite 7, nan, nan,
          nan, nan, nan, nan, nan] (finite 4) 4 0 = some 5 ∧
      ∃ result, paddedSearch
          [negInf, finite 1, finite 2, finite 3, finite 4, finite 5, finite 6, finite 7, nan, nan,
          nan, nan, nan, nan, nan] (finite 4) 4 0 = some result ∧
        binPadded
          [negInf, finite 1, finite 2, finite 3, finite 4, finite 5, finite 6, finite 7, nan, nan,
          nan, nan, nan, nan, nan] 4 (finite 4) = some (toIntEbmType result) ∧
        (paddedSearchReads
          [negInf, finite 1, finite 2, finite 3, finite 4, finite 5, finite 6, finite 7, nan, nan,
          nan, nan, nan, nan, nan] (finite 4) 4 0).length = 4 ∧
        (∀ i ∈ paddedSearchReads
          [negInf, finite 1, finite 2, finite 3, finite 4, finite 5, finite 6, finite 7, nan, nan,
          nan, nan, nan, nan, nan] (finite 4) 4 0,
          i ≤ 2 ^ 4 - 2 ∧ i < ([negInf, finite 1, finite 2, finite 3, finite 4, finite 5, finite 6, finite 7, nan, nan,
          nan, nan, nan, nan, nan] : List FloatEbm).length) ∧
        (NonDecreasingNanLast
          [negInf, finite 1, finite 2, finite 3, finite 4, finite 5, finite 6, finite 7, nan, nan,
          nan, nan, nan, nan, nan] →
          result = cutsAtOrBelow
            [negInf, finite 1, finite 2, finite 3, finite 4, finite 5, finite 6, finite 7, nan, nan,
          nan, nan, nan, nan, nan] (finite 4)) :=
  ⟨by decide, by decide, by decide,
    paddedSearch_comparisons
      [negInf, finite 1, finite 2, finite 3, finite 4, finite 5, finite 6, finite 7, nan, nan,
          nan, nan, nan, nan, nan] (finite 4) 4 (by decide)⟩

/-! ## More properties of the math primitives -/

theorem FloatEbm.lt_neg_finite (v : FloatEbm) (k : ℚ) :
    v.lt (finite (-k)) = (finite k).lt v.neg := by
  cases v with
  | nan => rfl
  | negInf => rfl
  | posInf => rfl
  | finite x =>
    simp only [FloatEbm.lt, FloatEbm.neg]
    congr 1
    exact propext ⟨fun h => by linarith, fun h => by linarith⟩

theorem FloatEbm.neg_finite_lt (v : FloatEbm) (k : ℚ) :
    (finite (-k)).lt v = v.neg.lt (finite k) := by
  cases v with
  | nan => rfl
  | negInf => rfl
  | posInf => rfl
  | finite x =>
    simp only [FloatEbm.lt, FloatEbm.neg]
    congr 1
    exact propext ⟨fun h => by linarith, fun h => by linarith⟩

theorem FloatEbm.isnan_neg (v : FloatEbm) : v.neg.isnan = v.isnan := by
  cases v <;> rfl

/-- Claim C34: for every value `v` and every setting of the other flags, `Exp32` with
`bNegateInput` at `v` is `Exp32` without it at `-v` (NaN for a NaN `v`): the overflow select
fires for `v < -87.25` exactly when it fires for `87.25 < -v`, the underflow select for
`87.25 < v` exactly when it fires for `-v < -87.25`, and the core computation is that of
`-v`. -/
theorem Exp32_negate_input (o : TFloatOps)
    (bNaNPossible bUnderflowPossible bOverflowPossible : Bool) (v : FloatEbm) :
    Exp32 o true bNaNPossible bUnderflowPossible bOverflowPossible v
        = Exp32 o false bNaNPossible bUnderflowPossible bOverflowPossible v.neg ∧
      (v.isnan = true → Exp32 o true true bUnderflowPossible bOverflowPossible v = nan ∧
        Exp32 o false true bUnderflowPossible bOverflowPossible v.neg = nan) ∧
      v.lt (finite (-k_expOverflow)) = (finite k_expOverflow).lt v.neg ∧
      (finite (-k_expUnderflow)).lt v = v.neg.lt (finite k_expUnderflow) ∧
      Exp32Core o true v = Exp32Core o false v.neg := by
  have hcore : Exp32Core o true v = Exp32Core o false v.neg := rfl
  have hover := FloatEbm.lt_neg_finite v k_expOverflow
  have hunder := FloatEbm.neg_finite_lt v k_expUnderflow
  have hnan := FloatEbm.isnan_neg v
  have hmain : ∀ bN, Exp32 o true bN bUnderflowPossible bOverflowPossible v
      = Exp32 o false bN bUnderflowPossible bOverflowPossible v.neg := by
    intro bN
    simp only [Exp32, IfLess, IfNaN, hcore, hover, hunder, hnan, Bool.false_eq_true, if_true,
      if_false]
    cases hv : v.isnan with
    | false => simp
    | true =>
      have : v = nan := by cases v <;> simp_all [FloatEbm.isnan]
      subst this
      simp [FloatEbm.neg]
  refine ⟨hmain _, ?_, hover, hunder, hcore⟩
  intro hv
  have : v = nan := by cases v <;> simp_all [FloatEbm.isnan]
  subst this
  constructor <;> simp [Exp32, IfNaN, FloatEbm.isnan, FloatEbm.neg]

/-- Claim C35: over a commutative ring, with the fused multiply-add read as `a * b + c`, the
`Polynomial` of six coefficients is `c0 + c1 x + ... + c5 x^5` and the `Polynomial` of nine
coefficients is the sum of the `ci x^i` for `i` from 0 to 8. -/
theorem Polynomial_eq_naive {R : Type} [CommRing R] (x c0 c1 c2 c3 c4 c5 c6 c7 c8 : R) :
    Polynomial6 (fun a b => a * b) (fun a b c => a * b + c) x c0 c1 c2 c3 c4 c5
        = c0 + c1 * x + c2 * x ^ 2 + c3 * x ^ 3 + c4 * x ^ 4 + c5 * x ^ 5 ∧
      Polynomial9 (fun a b => a + b) (fun a b => a * b) (fun a b c => a * b + c)
          x c0 c1 c2 c3 c4 c5 c6 c7 c8
        = c0 + c1 * x + c2 * x ^ 2 + c3 * x ^ 3 + c4 * x ^ 4 + c5 * x ^ 5 + c6 * x ^ 6
          + c7 * x ^ 7 + c8 * x ^ 8 := by
  constructor
  · simp only [Polynomial6]
    ring
  · simp only [Polynomial9]
    ring

/-! ## Mantissa and exponent of a 32-bit pattern -/

/-- The fields of a 32-bit pattern under the masks and shifts of `Mantissa32` and
`Exponent32`. -/
theorem pattern_fields (s e f : Nat) (he : e < 2 ^ 8) (hf : f < 2 ^ 23) :
    (((s * 2 ^ 31 + e * 2 ^ 23 + f) <<< 1) % 2 ^ 32) >>> 24 = e ∧
      ((s * 2 ^ 31 + e * 2 ^ 23 + f) &&& 0x007FFFFF) ||| 0x3F000000 = 126 * 2 ^ 23 + f := by
  constructor
  · rw [Nat.shiftLeft_eq, Nat.shiftRight_eq_div_pow]
    omega
  · have h1 : (s * 2 ^ 31 + e * 2 ^ 23 + f) &&& 0x007FFFFF = f := by
      have e1 : (0x007FFFFF : Nat) = 2 ^ 23 - 1 := by norm_num
      rw [e1, Nat.and_pow_two_sub_one_eq_mod]
      omega
    rw [h1]
    have e2 := Nat.mul_add_lt_is_or hf 126
    rw [Nat.lor_comm]
    norm_num at e2 ⊢
    omega

theorem toInt32_sub_bias (e : Nat) (he : e < 2 ^ 8) :
    toInt32 ((e + (2 ^ 32 - 0x7F)) % 2 ^ 32) = (e : Int) - 127 := by
  unfold toInt32
  by_cases h : 127 ≤ e
  · have e1 : (e + (2 ^ 32 - 0x7F)) % 2 ^ 32 = e - 127 := by omega
    rw [e1, Nat.mod_eq_of_lt (by omega), if_pos (by omega)]
    omega
  · have e1 : (e + (2 ^ 32 - 0x7F)) % 2 ^ 32 = e + (2 ^ 32 - 127) := by omega
    rw [e1, Nat.mod_eq_of_lt (by omega), if_neg (by omega)]
    omega

theorem decode32_mantissa (f : Nat) (hf : f < 2 ^ 23) :
    decode32 (126 * 2 ^ 23 + f) = finite ((1 + (f : ℚ) / 2 ^ 23) / 2) := by
  have h1 : (126 * 2 ^ 23 + f) / 2 ^ 31 % 2 = 0 := by omega
  have h2 : (126 * 2 ^ 23 + f) / 2 ^ 23 % 2 ^ 8 = 126 := by omega
  have h3 : (126 * 2 ^ 23 + f) % 2 ^ 23 = f := by omega
  simp only [decode32, h1, h2, h3]
  norm_num
  ring

/-- The fields of `Exponent32(val)` and `Mantissa32(val)` in terms of those of the pattern
of `val`. -/
theorem Mantissa32_Exponent32_fields_aux (o : TFloatOps) (val : FloatEbm) (s e f : Nat)
    (he : e < 2 ^ 8) (hf : f < 2 ^ 23)
    (hval : o.ReinterpretInt val = s * 2 ^ 31 + e * 2 ^ 23 + f) :
    toInt32 (Exponent32 o val) = (e : Int) - 127 ∧
      Exponent32 o val = (e + (2 ^ 32 - 127)) % 2 ^ 32 ∧
      Mantissa32 o val = o.ReinterpretFloat (0 * 2 ^ 31 + 126 * 2 ^ 23 + f) ∧
      decode32 (0 * 2 ^ 31 + 126 * 2 ^ 23 + f) = finite ((1 + (f : ℚ) / 2 ^ 23) / 2) ∧
      (1 : ℚ) / 2 ≤ (1 + (f : ℚ) / 2 ^ 23) / 2 ∧ (1 + (f : ℚ) / 2 ^ 23) / 2 < 1 := by
  obtain ⟨h1, h2⟩ := pattern_fields s e f he hf
  have hExp : Exponent32 o val = (e + (2 ^ 32 - 127)) % 2 ^ 32 := by
    simp only [Exponent32, hval, h1]
  have hfq : (f : ℚ) < 2 ^ 23 := by exact_mod_cast hf
  have hf0 : (0 : ℚ) ≤ (f : ℚ) := Nat.cast_nonneg f
  refine ⟨?_, hExp, ?_, ?_, ?_, ?_⟩
  · rw [hExp]
    exact toInt32_sub_bias e he
  · simp only [Mantissa32, hval, h2, Nat.zero_mul, Nat.zero_add]
  · rw [Nat.zero_mul, Nat.zero_add]
    exact decode32_mantissa f hf
  · have : (0 : ℚ) ≤ (f : ℚ) / 2 ^ 23 := div_nonneg hf0 (by norm_num)
    linarith
  · have : (f : ℚ) / 2 ^ 23 < 1 := by
      rw [div_lt_one (by positivity)]
      exact hfq
    linarith

/-- Claim C40: with the shifts read as logical shifts on 32-bit words, for a value whose
pattern has the sign bit `s`, the exponent field `e` and the fraction field `f`, `Exponent32`
is the word of `e - 127` whatever `s` and `f` are, and `Mantissa32` is the float of the
pattern with sign 0, exponent field 126 and fraction field `f`, which stands for
`(1 + f / 2^23) / 2`, a value in `[0.5, 1)`. -/
theorem Mantissa32_Exponent32_fields (o : TFloatOps) (val : FloatEbm) (s e f : Nat)
    (_hs : s < 2) (he : e < 2 ^ 8) (hf : f < 2 ^ 23)
    (hval : o.ReinterpretInt val = s * 2 ^ 31 + e * 2 ^ 23 + f) :
    toInt32 (Exponent32 o val) = (e : Int) - 127 ∧
      Exponent32 o val = (e + (2 ^ 32 - 127)) % 2 ^ 32 ∧
      Mantissa32 o val = o.ReinterpretFloat (0 * 2 ^ 31 + 126 * 2 ^ 23 + f) ∧
      decode32 (0 * 2 ^ 31 + 126 * 2 ^ 23 + f) = finite ((1 + (f : ℚ) / 2 ^ 23) / 2) ∧
      (1 : ℚ) / 2 ≤ (1 + (f : ℚ) / 2 ^ 23) / 2 ∧ (1 + (f : ℚ) / 2 ^ 23) / 2 < 1 :=
  Mantissa32_Exponent32_fields_aux o val s e f he hf hval

theorem Mantissa32_Exponent32_fields_witness :
    toInt32 (Exponent32 bitsTFloatOps (finite (-6))) = ((129 : Nat) : Int) - 127 ∧
      Exponent32 bitsTFloatOps (finite (-6)) = (129 + (2 ^ 32 - 127)) % 2 ^ 32 ∧
      Mantissa32 bitsTFloatOps (finite (-6))
        = bitsTFloatOps.ReinterpretFloat (0 * 2 ^ 31 + 126 * 2 ^ 23 + 4194304) ∧
      decode32 (0 * 2 ^ 31 + 126 * 2 ^ 23 + 4194304)
        = finite ((1 + ((4194304 : Nat) : ℚ) / 2 ^ 23) / 2) ∧
      (1 : ℚ) / 2 ≤ (1 + ((4194304 : Nat) : ℚ) / 2 ^ 23) / 2 ∧
      (1 + ((4194304 : Nat) : ℚ) / 2 ^ 23) / 2 < 1 :=
  Mantissa32_Exponent32_fields bitsTFloatOps (finite (-6)) 1 129 4194304 (by norm_num)
    (by norm_num) (by norm_num)
    (by
      have h : bitsTFloatOps.ReinterpretInt (finite (-6)) = 3233808384 := by decide!
      rw [h]
      norm_num)

/-! ## PseudoHuberRegressionLoss -/

/-- Claim C37: for every loss instance, whatever the arithmetic, and every prediction and
target, `CalcGrad`, `CalcGradMetric`, `CalcGradHess` and `CalcGradHessMetric` give the same
gradient, `CalcGradHess` and `CalcGradHessMetric` the same hessian, and `CalcGradMetric` and
`CalcGradHessMetric` the same metric. -/
theorem PseudoHuberRegressionLoss_agree {F : Type} (o : LossOps F)
    (loss : PseudoHuberRegressionLoss F) (prediction target : F) :
    (loss.CalcGradMetric o prediction target).1 = loss.CalcGrad o prediction target ∧
      (loss.CalcGradHess o prediction target).1 = loss.CalcGrad o prediction target ∧
      (loss.CalcGradHessMetric o prediction target).1 = loss.CalcGrad o prediction target ∧
      (loss.CalcGradHessMetric o prediction target).2.1
        = (loss.CalcGradHess o prediction target).2 ∧
      (loss.CalcGradHessMetric o prediction target).2.2
        = (loss.CalcGradMetric o prediction target).2 :=
  ⟨rfl, rfl, rfl, rfl, rfl⟩

/-- Over the real numbers the constructor accepts every `delta` other than zero and sets the
fields to `1 / delta` and `delta * delta`. -/
theorem PseudoHuberRegressionLoss_create_real (delta : ℝ) (hdelta : delta ≠ 0) :
    PseudoHuberRegressionLoss.create
        (⟨1, fun a b => a - b, fun a b => a + b, fun a b => a * b, fun a b => a / b, Real.sqrt,
          fun a => decide (a = 0), fun _ => false, fun _ => false⟩ : LossOps ℝ) 1 delta
      = Except.ok ⟨1 / delta, delta * delta⟩ := by
  simp [PseudoHuberRegressionLoss.create, hdelta]

theorem hasDerivAt_calc (delta target prediction : ℝ) :
    HasDerivAt (fun p : ℝ => (p - target) * (1 / delta) * ((p - target) * (1 / delta)) + 1)
      (2 * ((prediction - target) * (1 / delta)) * (1 / delta)) prediction := by
  have h1 : HasDerivAt (fun p : ℝ => (p - target) * (1 / delta)) (1 / delta) prediction := by
    have := ((hasDerivAt_id prediction).sub_const target).mul_const (1 / delta)
    simpa using this
  have h2 := (h1.mul h1).add_const (1 : ℝ)
  convert h2 using 1
  ring

theorem calc_pos (delta target prediction : ℝ) :
    0 < (prediction - target) * (1 / delta) * ((prediction - target) * (1 / delta)) + 1 := by
  have := mul_self_nonneg ((prediction - target) * (1 / delta))
  linarith

theorem huber_hessian_algebra (e delta s c : ℝ) (hdelta : delta ≠ 0)
    (hc : c = e * (1 / delta) * (e * (1 / delta)) + 1) (hs : s * s = c) (hs0 : s ≠ 0) :
    1 / (c * s) = (1 * s - e * (2 * (e * (1 / delta)) * (1 / delta) / (2 * s))) / s ^ 2 := by
  have h1 : e * (2 * (e * (1 / delta)) * (1 / delta) / (2 * s)) = (c - 1) / s := by
    rw [hc]
    field_simp
    ring
  have h2 : 1 * s - (c - 1) / s = 1 / s := by
    field_simp
    linear_combination hs
  rw [h1, h2, sq, hs, div_div, mul_comm]

/-- Claim C38: over the real numbers, for every `delta` other than zero (the loss is then the
one its constructor makes) and every target, the hessian that `CalcGradHess` gives,
`1 / (calc * sqrt(calc))` with `calc = 1 + ((prediction - target) / delta)^2`, is the
derivative in `prediction` of the gradient it gives, `(prediction - target) / sqrt(calc)`. -/
theorem PseudoHuberRegressionLoss_hessian (delta target prediction : ℝ) (hdelta : delta ≠ 0) :
    ∃ loss, PseudoHuberRegressionLoss.create
        (⟨1, fun a b => a - b, fun a b => a + b, fun a b => a * b, fun a b => a / b, Real.sqrt,
          fun a => decide (a = 0), fun _ => false, fun _ => false⟩ : LossOps ℝ) 1 delta
        = Except.ok loss ∧
      HasDerivAt
        (fun p => (loss.CalcGradHess
          (⟨1, fun a b => a - b, fun a b => a + b, fun a b => a * b, fun a b => a / b,
            Real.sqrt, fun a => decide (a = 0), fun _ => false, fun _ => false⟩ : LossOps ℝ)
          p target).1)
        (loss.CalcGradHess
          (⟨1, fun a b => a - b, fun a b => a + b, fun a b => a * b, fun a b => a / b,
            Real.sqrt, fun a => decide (a = 0), fun _ => false, fun _ => false⟩ : LossOps ℝ)
          prediction target).2 prediction ∧
      (∀ p, loss.CalcGradHess
          (⟨1, fun a b => a - b, fun a b => a + b, fun a b => a * b, fun a b => a / b,
            Real.sqrt, fun a => decide (a = 0), fun _ => false, fun _ => false⟩ : LossOps ℝ)
          p target
        = ((p - target) / Real.sqrt (1 + ((p - target) / delta) ^ 2),
          1 / ((1 + ((p - target) / delta) ^ 2)
            * Real.sqrt (1 + ((p - target) / delta) ^ 2)))) := by
  refine ⟨_, PseudoHuberRegressionLoss_create_real delta hdelta, ?_, ?_⟩
  · simp only [PseudoHuberRegressionLoss.CalcGradHess]
    have hc := hasDerivAt_calc delta target prediction
    have hpos := calc_pos delta target prediction
    have hs := hc.sqrt (ne_of_gt hpos)
    have he : HasDerivAt (fun p : ℝ => p - target) 1 prediction := by
      simpa using (hasDerivAt_id prediction).sub_const target
    have hsq : Real.sqrt ((prediction - target) * (1 / delta)
        * ((prediction - target) * (1 / delta)) + 1) ≠ 0 :=
      ne_of_gt (Real.sqrt_pos.mpr hpos)
    have hd := he.div hs hsq
    convert hd using 1
    exact huber_hessian_algebra (prediction - target) delta _ _ hdelta rfl
      (Real.mul_self_sqrt (le_of_lt hpos)) hsq
  · intro p
    simp only [PseudoHuberRegressionLoss.CalcGradHess]
    have e : (p - target) * (1 / delta) * ((p - target) * (1 / delta)) + 1
        = 1 + ((p - target) / delta) ^ 2 := by
      field_simp
      ring
    rw [e]

theorem PseudoHuberRegressionLoss_hessian_witness :
    ∃ loss, PseudoHuberRegressionLoss.create
        (⟨1, fun a b => a - b, fun a b => a + b, fun a b => a * b, fun a b => a / b, Real.sqrt,
          fun a => decide (a = 0), fun _ => false, fun _ => false⟩ : LossOps ℝ) 1 2
        = Except.ok loss ∧
      HasDerivAt
        (fun p => (loss.CalcGradHess
          (⟨1, fun a b => a - b, fun a b => a + b, fun a b => a * b, fun a b => a / b,
            Real.sqrt, fun a => decide (a = 0), fun _ => false, fun _ => false⟩ : LossOps ℝ)
          p 1).1)
        (loss.CalcGradHess
          (⟨1, fun a b => a - b, fun a b => a + b, fun a b => a * b, fun a b => a / b,
            Real.sqrt, fun a => decide (a = 0), fun _ => false, fun _ => false⟩ : LossOps ℝ)
          3 1).2 3 ∧
      (∀ p, loss.CalcGradHess
          (⟨1, fun a b => a - b, fun a b => a + b, fun a b => a * b, fun a b => a / b,
            Real.sqrt, fun a => decide (a = 0), fun _ => false, fun _ => false⟩ : LossOps ℝ)
          p 1
        = ((p - 1) / Real.sqrt (1 + ((p - 1) / 2) ^ 2),
          1 / ((1 + ((p - 1) / 2) ^ 2) * Real.sqrt (1 + ((p - 1) / 2) ^ 2)))) :=
  PseudoHuberRegressionLoss_hessian 2 1 3 (by norm_num)

theorem huber_gradient_algebra (e delta s : ℝ) (hdelta : delta ≠ 0) (hs0 : s ≠ 0) :
    e / s = delta * delta * (2 * (e * (1 / delta)) * (1 / delta) / (2 * s)) := by
  field_simp
  ring

/-- Claim C39: over the real numbers, for every `delta` other than zero (the loss is then the
one its constructor makes) and every target, the gradient that `CalcGradMetric` gives,
`(prediction - target) / sqrt(calc)`, is the derivative in `prediction` of the metric it gives,
`delta^2 * (sqrt(calc) - 1)` with `calc = 1 + ((prediction - target) / delta)^2`. -/
theorem PseudoHuberRegressionLoss_gradient (delta target prediction : ℝ) (hdelta : delta ≠ 0) :
    ∃ loss, PseudoHuberRegressionLoss.create
        (⟨1, fun a b => a - b, fun a b => a + b, fun a b => a * b, fun a b => a / b, Real.sqrt,
          fun a => decide (a = 0), fun _ => false, fun _ => false⟩ : LossOps ℝ) 1 delta
        = Except.ok loss ∧
      HasDerivAt
        (fun p => (loss.CalcGradMetric
          (⟨1, fun a b => a - b, fun a b => a + b, fun a b => a * b, fun a b => a / b,
            Real.sqrt, fun a => decide (a = 0), fun _ => false, fun _ => false⟩ : LossOps ℝ)
          p target).2)
        (loss.CalcGradMetric
          (⟨1, fun a b => a - b, fun a b => a + b, fun a b => a * b, fun a b => a / b,
            Real.sqrt, fun a => decide (a = 0), fun _ => false, fun _ => false⟩ : LossOps ℝ)
          prediction target).1 prediction ∧
      (∀ p, loss.CalcGradMetric
          (⟨1, fun a b => a - b, fun a b => a + b, fun a b => a * b, fun a b => a / b,
            Real.sqrt, fun a => decide (a = 0), fun _ => false, fun _ => false⟩ : LossOps ℝ)
          p target
        = ((p - target) / Real.sqrt (1 + ((p - target) / delta) ^ 2),
          delta ^ 2 * (Real.sqrt (1 + ((p - target) / delta) ^ 2) - 1))) := by
  refine ⟨_, PseudoHuberRegressionLoss_create_real delta hdelta, ?_, ?_⟩
  · simp only [PseudoHuberRegressionLoss.CalcGradMetric]
    have hc := hasDerivAt_calc delta target prediction
    have hpos := calc_pos delta target prediction
    have hs := hc.sqrt (ne_of_gt hpos)
    have hsq : Real.sqrt ((prediction - target) * (1 / delta)
        * ((prediction - target) * (1 / delta)) + 1) ≠ 0 :=
      ne_of_gt (Real.sqrt_pos.mpr hpos)
    have hm := (hs.sub_const (1 : ℝ)).const_mul (delta * delta)
    convert hm using 1
    exact huber_gradient_algebra (prediction - target) delta _ hdelta hsq
  · intro p
    simp only [PseudoHuberRegressionLoss.CalcGradMetric]
    have e : (p - target) * (1 / delta) * ((p - target) * (1 / delta)) + 1
        = 1 + ((p - target) / delta) ^ 2 := by
      field_simp
      ring
    rw [e, sq delta]

theorem PseudoHuberRegressionLoss_gradient_witness :
    ∃ loss, PseudoHuberRegressionLoss.create
        (⟨1, fun a b => a - b, fun a b => a + b, fun a b => a * b, fun a b => a / b, Real.sqrt,
          fun a => decide (a = 0), fun _ => false, fun _ => false⟩ : LossOps ℝ) 1 2
        = Except.ok loss ∧
      HasDerivAt
        (fun p => (loss.CalcGradMetric
          (⟨1, fun a b => a - b, fun a b => a + b, fun a b => a * b, fun a b => a / b,
            Real.sqrt, fun a => decide (a = 0), fun _ => false, fun _ => false⟩ : LossOps ℝ)
          p 1).2)
        (loss.CalcGradMetric
          (⟨1, fun a b => a - b, fun a b => a + b, fun a b => a * b, fun a b => a / b,
            Real.sqrt, fun a => decide (a = 0), fun _ => false, fun _ => false⟩ : LossOps ℝ)
          3 1).1 3 ∧
      (∀ p, loss.CalcGradMetric
          (⟨1, fun a b => a - b, fun a b => a + b, fun a b => a * b, fun a b => a / b,
            Real.sqrt, fun a => decide (a = 0), fun _ => false, fun _ => false⟩ : LossOps ℝ)
          p 1
        = ((p - 1) / Real.sqrt (1 + ((p - 1) / 2) ^ 2),
          2 ^ 2 * (Real.sqrt (1 + ((p - 1) / 2) ^ 2) - 1))) :=
  PseudoHuberRegressionLoss_gradient 2 1 3 (by norm_num)

/-! ## The decomposition of `Log32` -/

theorem decode32_normal (e f : Nat) (he1 : 1 ≤ e) (he : e ≤ 254) (hf : f < 2 ^ 23) :
    decode32 (e * 2 ^ 23 + f)
      = finite ((1 + (f : ℚ) / 2 ^ 23) * 2 ^ ((e : Int) - 127)) := by
  have h1 : (e * 2 ^ 23 + f) / 2 ^ 31 % 2 = 0 := by omega
  have h2 : (e * 2 ^ 23 + f) / 2 ^ 23 % 2 ^ 8 = e := by omega
  have h3 : (e * 2 ^ 23 + f) % 2 ^ 23 = f := by omega
  have h4 : ¬ e = 255 := by omega
  have h5 : ¬ e = 0 := by omega
  simp only [decode32, h1, h2, h3, h4, h5, if_false, pow_zero, one_mul]

theorem toInt32_succ_sub_bias (e : Nat) (he : e < 2 ^ 8) :
    toInt32 (((e + (2 ^ 32 - 127)) % 2 ^ 32 + 1) % 2 ^ 32) = (e : Int) - 126 := by
  unfold toInt32
  by_cases h : 126 ≤ e
  · have e1 : ((e + (2 ^ 32 - 127)) % 2 ^ 32 + 1) % 2 ^ 32 = e - 126 := by omega
    rw [e1, Nat.mod_eq_of_lt (by omega), if_pos (by omega)]
    omega
  · have e1 : ((e + (2 ^ 32 - 127)) % 2 ^ 32 + 1) % 2 ^ 32 = e + (2 ^ 32 - 126) := by omega
    rw [e1, Nat.mod_eq_of_lt (by omega), if_neg (by omega)]
    omega

theorem sqrt_half_constant : (mkRat 11863283 16777216 : ℚ) = 11863283 / 16777216 := by
  rw [Rat.mkRat_eq_div]
  norm_num

theorem sqrt_bounds_doubled (x : ℝ) (h1 : 1 ≤ x) (h2 : x ≤ 11863283 / 8388608) :
    Real.sqrt (1 / 2) ≤ x ∧ x < Real.sqrt 2 := by
  constructor
  · rw [Real.sqrt_le_iff]
    exact ⟨by linarith, by nlinarith⟩
  · rw [Real.lt_sqrt (by linarith)]
    nlinarith

theorem sqrt_bounds_kept (x : ℝ) (h1 : 11863284 / 16777216 ≤ x) (h2 : x < 1) :
    Real.sqrt (1 / 2) ≤ x ∧ x < Real.sqrt 2 := by
  constructor
  · rw [Real.sqrt_le_iff]
    exact ⟨by linarith, by nlinarith⟩
  · rw [Real.lt_sqrt (by linarith)]
    nlinarith

/-- The normalisation of `Log32` given the mantissa: doubled with the exponent kept when it is
at most the constant, kept with the exponent plus one otherwise. -/
theorem Log32Normalized_eq (o : TFloatOps) (val : FloatEbm) (m : ℚ)
    (hM : Mantissa32 o val = finite m)
    (hadd : o.add (finite m) (finite m) = finite (2 * m)) :
    Log32Normalized o val
      = if m ≤ 11863283 / 16777216 then (finite (2 * m), Exponent32 o val)
        else (finite m, (Exponent32 o val + 1) % 2 ^ 32) := by
  by_cases hcmp : m ≤ 11863283 / 16777216
  · have hle : (finite m).le (finite (mkRat 11863283 16777216)) = true := by
      simp only [FloatEbm.le, decide_eq_true_eq, sqrt_half_constant]
      exact hcmp
    rw [if_pos hcmp]
    simp only [Log32Normalized, hM, hle, IfThenElse, if_true, hadd, Bool.not_true,
      Bool.false_eq_true, if_false]
  · have hle : (finite m).le (finite (mkRat 11863283 16777216)) = false := by
      simp only [FloatEbm.le, decide_eq_false_iff_not, sqrt_half_constant]
      exact hcmp
    rw [if_neg hcmp]
    simp only [Log32Normalized, hM, hle, IfThenElse, Bool.false_eq_true, if_false,
      Bool.not_false, if_true]

/-- A mantissa `(2^23 + f) / 2^24` above `11863283 / 2^24` is at least `11863284 / 2^24`. -/
theorem mantissa_granular (f : Nat) (m : ℚ) (hm : m = ((2 ^ 23 + f : Nat) : ℚ) / 16777216)
    (hcmp : ¬ m ≤ 11863283 / 16777216) : 11863284 / 16777216 ≤ m := by
  have hnat : 11863284 ≤ 2 ^ 23 + f := by
    by_contra hcon
    apply hcmp
    have h1 : 2 ^ 23 + f ≤ 11863283 := by omega
    have h2 : ((2 ^ 23 + f : Nat) : ℚ) ≤ ((11863283 : Nat) : ℚ) := Nat.cast_le.mpr h1
    rw [hm]
    exact div_le_div_of_nonneg_right (by simpa using h2) (by norm_num)
  have h2 : ((11863284 : Nat) : ℚ) ≤ ((2 ^ 23 + f : Nat) : ℚ) := Nat.cast_le.mpr hnat
  rw [hm]
  exact div_le_div_of_nonneg_right (by simpa using h2) (by norm_num)

/-- The core computation of `Log32` is the polynomial part applied to the normalised mantissa
and exponent. -/
theorem Log32Core_eq_Log32Polynomial (o : TFloatOps) (bNegateOutput : Bool) (val : FloatEbm) :
    Log32Core o bNegateOutput val
      = Log32Polynomial o bNegateOutput (Log32Normalized o val).1 (Log32Normalized o val).2 :=
  rfl

/-- On a finite value that is at least the smallest positive normal float no edge case of
`Log32` is selected, whatever the flags. -/
theorem Log32_eq_Log32Core (o : TFloatOps)
    (bNegateOutput bNaNPossible bNegativePossible bZeroPossible bPositiveInfinityPossible : Bool)
    (v : ℚ) (hv : floatMin ≤ v) :
    Log32 o bNegateOutput bNaNPossible bNegativePossible bZeroPossible
        bPositiveInfinityPossible (finite v)
      = Log32Core o bNegateOutput (finite v) := by
  have h0 : ¬ v < 0 := not_lt.mpr (le_trans (le_of_lt floatMin_pos) hv)
  have h1 : ¬ v < floatMin := not_lt.mpr hv
  cases bNaNPossible <;> cases bNegativePossible <;> cases bZeroPossible <;>
    cases bPositiveInfinityPossible <;>
    simp [Log32, IfLess, IfEqual, IfNaN, FloatEbm.lt, FloatEbm.eq, FloatEbm.isnan, h0, h1]

theorem floatMin_le_normal (e f : Nat) (he1 : 1 ≤ e) :
    floatMin ≤ (1 + (f : ℚ) / 2 ^ 23) * 2 ^ ((e : Int) - 127) := by
  have hmin : floatMin = (2 : ℚ) ^ ((1 : Int) - 127) := by
    unfold floatMin
    rw [Rat.mkRat_eq_div]
    norm_num [zpow_neg]
  have h1 : (2 : ℚ) ^ ((1 : Int) - 127) ≤ 2 ^ ((e : Int) - 127) :=
    zpow_le_zpow_right₀ (by norm_num) (by omega)
  have h2 : (1 : ℚ) ≤ 1 + (f : ℚ) / 2 ^ 23 := by
    have : (0 : ℚ) ≤ (f : ℚ) / 2 ^ 23 := div_nonneg (Nat.cast_nonneg f) (by norm_num)
    linarith
  have h3 : (0 : ℚ) < 2 ^ ((e : Int) - 127) := zpow_pos (by norm_num) _
  rw [hmin]
  calc (2 : ℚ) ^ ((1 : Int) - 127) ≤ 2 ^ ((e : Int) - 127) := h1
    _ = 1 * 2 ^ ((e : Int) - 127) := (one_mul _).symm
    _ ≤ (1 + (f : ℚ) / 2 ^ 23) * 2 ^ ((e : Int) - 127) :=
      mul_le_mul_of_nonneg_right h2 (le_of_lt h3)

/-- Claim C36: for a positive normal 32-bit float `val` (sign 0, exponent field `e` from 1 to
254, fraction field `f`), with the reinterpreting casts and the doubling of the mantissa
exact as IEEE-754 has them, `Mantissa32(val)` is a value `m` in `[0.5, 1)`; after the
normalisation of `Log32`, `x` is `2 m` when `m` is at most the float constant for `sqrt(2)/2`
and `m` otherwise, in which case the exponent is one more; `x` lies in
`[sqrt(1/2), sqrt(2))` and `val = x * 2^exponent` exactly; and `Log32` itself, whatever its
flags, is the rest of its computation (from `x -= 1.0f` on) applied to this `x` and this
exponent. -/
theorem Log32_normalized (o : TFloatOps) (val : FloatEbm) (e f : Nat)
    (he1 : 1 ≤ e) (he : e ≤ 254) (hf : f < 2 ^ 23)
    (hint : o.ReinterpretInt val = 0 * 2 ^ 31 + e * 2 ^ 23 + f)
    (hval : val = decode32 (0 * 2 ^ 31 + e * 2 ^ 23 + f))
    (hfloat : o.ReinterpretFloat (0 * 2 ^ 31 + 126 * 2 ^ 23 + f)
      = decode32 (0 * 2 ^ 31 + 126 * 2 ^ 23 + f))
    (hadd : o.add (finite ((1 + (f : ℚ) / 2 ^ 23) / 2)) (finite ((1 + (f : ℚ) / 2 ^ 23) / 2))
      = finite (2 * ((1 + (f : ℚ) / 2 ^ 23) / 2))) :
    ∃ m x : ℚ, Mantissa32 o val = finite m ∧ 1 / 2 ≤ m ∧ m < 1 ∧
      (Log32Normalized o val).1 = finite x ∧
      x = (if m ≤ 11863283 / 16777216 then 2 * m else m) ∧
      toInt32 (Log32Normalized o val).2
        = (if m ≤ 11863283 / 16777216 then toInt32 (Exponent32 o val)
          else toInt32 (Exponent32 o val) + 1) ∧
      Real.sqrt (1 / 2) ≤ (x : ℝ) ∧ (x : ℝ) < Real.sqrt 2 ∧
      val = finite (x * 2 ^ toInt32 (Log32Normalized o val).2) ∧
      (∀ bNegateOutput : Bool, Log32Core o bNegateOutput val
        = Log32Polynomial o bNegateOutput (finite x) (Log32Normalized o val).2) ∧
      (∀ bNegateOutput bNaNPossible bNegativePossible bZeroPossible
          bPositiveInfinityPossible : Bool,
        Log32 o bNegateOutput bNaNPossible bNegativePossible bZeroPossible
            bPositiveInfinityPossible val
          = Log32Polynomial o bNegateOutput (finite x) (Log32Normalized o val).2) := by
  simp only [Nat.zero_mul, Nat.zero_add] at hint hval hfloat hadd ⊢
  have hint1 : o.ReinterpretInt val = 0 * 2 ^ 31 + e * 2 ^ 23 + f := by
    rw [hint, Nat.zero_mul, Nat.zero_add]
  obtain ⟨hE, hExp, hM, _, hm1, hm2⟩ :=
    Mantissa32_Exponent32_fields_aux o val 0 e f (by omega) hf hint1
  rw [Nat.zero_mul, Nat.zero_add, hfloat, decode32_mantissa f hf] at hM
  have hv0 : val = finite ((1 + (f : ℚ) / 2 ^ 23) * 2 ^ ((e : Int) - 127)) := by
    rw [hval, decode32_normal e f he1 he hf]
  have hlink : ∀ (x : ℚ), (Log32Normalized o val).1 = finite x →
      (∀ bNegateOutput : Bool, Log32Core o bNegateOutput val
        = Log32Polynomial o bNegateOutput (finite x) (Log32Normalized o val).2) ∧
      (∀ bNegateOutput bNaNPossible bNegativePossible bZeroPossible
          bPositiveInfinityPossible : Bool,
        Log32 o bNegateOutput bNaNPossible bNegativePossible bZeroPossible
            bPositiveInfinityPossible val
          = Log32Polynomial o bNegateOutput (finite x) (Log32Normalized o val).2) := by
    intro x hx
    have hcore : ∀ bNegateOutput : Bool, Log32Core o bNegateOutput val
        = Log32Polynomial o bNegateOutput (finite x) (Log32Normalized o val).2 := by
      intro b
      rw [Log32Core_eq_Log32Polynomial, hx]
    refine ⟨hcore, ?_⟩
    intro b b1 b2 b3 b4
    rw [← hcore b]
    have hfl := Log32_eq_Log32Core o b b1 b2 b3 b4 _ (floatMin_le_normal e f he1)
    rw [← hv0] at hfl
    exact hfl
  have hv := hv0
  have hE1 : toInt32 ((Exponent32 o val + 1) % 2 ^ 32) = toInt32 (Exponent32 o val) + 1 := by
    rw [hE, hExp, toInt32_succ_sub_bias e (by omega)]
    ring
  have hmN : (1 + (f : ℚ) / 2 ^ 23) / 2 = ((2 ^ 23 + f : Nat) : ℚ) / 16777216 := by
    push_cast
    field_simp
    ring
  have hvm : (1 + (f : ℚ) / 2 ^ 23) * 2 ^ ((e : Int) - 127)
      = 2 * ((1 + (f : ℚ) / 2 ^ 23) / 2) * 2 ^ ((e : Int) - 127) := by ring
  rw [hvm] at hv
  generalize (1 + (f : ℚ) / 2 ^ 23) / 2 = m at hM hm1 hm2 hmN hv hadd
  have hN := Log32Normalized_eq o val m hM hadd
  by_cases hcmp : m ≤ 11863283 / 16777216
  · rw [if_pos hcmp] at hN
    have h1q : (1 : ℚ) ≤ 2 * m := by linarith
    have h2q : 2 * m ≤ 11863283 / 8388608 := by linarith
    have h1r : ((1 : ℚ) : ℝ) ≤ ((2 * m : ℚ) : ℝ) := Rat.cast_le.mpr h1q
    have h2r : ((2 * m : ℚ) : ℝ) ≤ ((11863283 / 8388608 : ℚ) : ℝ) := Rat.cast_le.mpr h2q
    obtain ⟨hs1, hs2⟩ := sqrt_bounds_doubled ((2 * m : ℚ) : ℝ) (by simpa using h1r)
      (by simpa using h2r)
    have hx : (Log32Normalized o val).1 = finite (2 * m) := by rw [hN]
    refine ⟨m, 2 * m, hM, hm1, hm2, hx, by rw [if_pos hcmp], ?_, hs1, hs2, ?_,
      (hlink _ hx).1, (hlink _ hx).2⟩
    · rw [hN, if_pos hcmp]
    · rw [hN, hE]
      exact hv
  · rw [if_neg hcmp] at hN
    have hgran := mantissa_granular f m hmN hcmp
    have h1r : ((11863284 / 16777216 : ℚ) : ℝ) ≤ (m : ℝ) := Rat.cast_le.mpr hgran
    have h2r : (m : ℝ) < ((1 : ℚ) : ℝ) := Rat.cast_lt.mpr hm2
    obtain ⟨hs1, hs2⟩ := sqrt_bounds_kept (m : ℝ) (by simpa using h1r) (by simpa using h2r)
    have hx : (Log32Normalized o val).1 = finite m := by rw [hN]
    refine ⟨m, m, hM, hm1, hm2, hx, by rw [if_neg hcmp], ?_, hs1, hs2, ?_,
      (hlink _ hx).1, (hlink _ hx).2⟩
    · rw [hN, if_neg hcmp]
      exact hE1
    · rw [hN]
      simp only
      rw [hE1, hE, hv, zpow_add_one₀ (by norm_num)]
      have hfin : ∀ a b : ℚ, a = b → finite a = finite b := fun a b h => by rw [h]
      apply hfin
      ring

theorem Log32_normalized_witness :
    Log32Normalized bitsTFloatOps (finite 6) = (finite (mkRat 3 4), 3) ∧
    ∃ m x : ℚ, Mantissa32 bitsTFloatOps (finite 6) = finite m ∧ 1 / 2 ≤ m ∧ m < 1 ∧
      (Log32Normalized bitsTFloatOps (finite 6)).1 = finite x ∧
      x = (if m ≤ 11863283 / 16777216 then 2 * m else m) ∧
      toInt32 (Log32Normalized bitsTFloatOps (finite 6)).2
        = (if m ≤ 11863283 / 16777216 then toInt32 (Exponent32 bitsTFloatOps (finite 6))
          else toInt32 (Exponent32 bitsTFloatOps (finite 6)) + 1) ∧
      Real.sqrt (1 / 2) ≤ (x : ℝ) ∧ (x : ℝ) < Real.sqrt 2 ∧
      finite 6 = finite (x * 2 ^ toInt32 (Log32Normalized bitsTFloatOps (finite 6)).2) ∧
      (∀ bNegateOutput : Bool, Log32Core bitsTFloatOps bNegateOutput (finite 6)
        = Log32Polynomial bitsTFloatOps bNegateOutput (finite x)
            (Log32Normalized bitsTFloatOps (finite 6)).2) ∧
      (∀ bNegateOutput bNaNPossible bNegativePossible bZeroPossible
          bPositiveInfinityPossible : Bool,
        Log32 bitsTFloatOps bNegateOutput bNaNPossible bNegativePossible bZeroPossible
            bPositiveInfinityPossible (finite 6)
          = Log32Polynomial bitsTFloatOps bNegateOutput (finite x)
              (Log32Normalized bitsTFloatOps (finite 6)).2) :=
  ⟨by decide!,
    Log32_normalized bitsTFloatOps (finite 6) 129 4194304 (by norm_num) (by norm_num)
      (by norm_num)
      (by
        have h : bitsTFloatOps.ReinterpretInt (finite 6) = 1086324736 := by decide!
        rw [h]
        norm_num)
      (by
        have h : decode32 1086324736 = finite 6 := by decide!
        rw [← h]
        norm_num)
      rfl
      (by
        show finite (_ + _) = finite (2 * _)
        rw [two_mul])⟩

/-! ## The assertions of the general binary search -/

theorem searchLoopTrace_succ (cuts : List FloatEbm) (val : FloatEbm) (fuel l h : Nat)
    (hl : l ≤ h) (hh : h < 2 ^ 62) :
    searchLoopTrace cuts val (fuel + 1) (l : Int) (h : Int) =
      match cuts[(l + h) / 2]? with
      | none => [⟨(l : Int), (h : Int), (l + h) / 2, (l : Int), (h : Int)⟩]
      | some midVal =>
        if midVal.le val = true then
          ⟨(l : Int), (h : Int), (l + h) / 2, (((l + h) / 2 + 1 : Nat) : Int), (h : Int)⟩ ::
            (if (l + h) / 2 + 1 ≤ h then
              searchLoopTrace cuts val fuel (((l + h) / 2 + 1 : Nat) : Int) (h : Int)
            else [])
        else
          ⟨(l : Int), (h : Int), (l + h) / 2, (l : Int), (((l + h) / 2 : Nat) : Int) - 1⟩ ::
            (if l + 1 ≤ (l + h) / 2 then
              searchLoopTrace cuts val fuel (l : Int) (((l + h) / 2 - 1 : Nat) : Int)
            else []) := by
  have hmid : ((toSizeT (l : Int) + toSizeT (h : Int)) % 2 ^ 64) >>> 1 = (l + h) / 2 := by
    rw [toSizeT_natCast (by omega), toSizeT_natCast (by omega), Nat.mod_eq_of_lt (by omega),
      Nat.shiftRight_eq_div_pow]
  have hmlt : (l + h) / 2 < 2 ^ 63 := by omega
  simp only [searchLoopTrace, hmid, toPtrdiffT_of_lt hmlt]
  cases hc : cuts[(l + h) / 2]? with
  | none => rfl
  | some midVal =>
    simp only
    by_cases hle : midVal.le val = true
    · simp only [hle, if_true]
      by_cases h1 : (l + h) / 2 + 1 ≤ h
      · have h1' : (((l + h) / 2 : Nat) : Int) + 1 ≤ (h : Int) := by exact_mod_cast h1
        simp only [h1, h1', if_true]
        push_cast
        rfl
      · have h1' : ¬ (((l + h) / 2 : Nat) : Int) + 1 ≤ (h : Int) := by
          intro hcon
          exact h1 (by exact_mod_cast hcon)
        simp only [h1, h1', if_false]
        push_cast
        rfl
    · simp only [hle, if_false, Bool.false_eq_true]
      by_cases h1 : l + 1 ≤ (l + h) / 2
      · have h1' : (l : Int) ≤ (((l + h) / 2 : Nat) : Int) - 1 := by
          have : ((l + 1 : Nat) : Int) ≤ (((l + h) / 2 : Nat) : Int) := by exact_mod_cast h1
          push_cast at this
          omega
        have hcast : (((l + h) / 2 - 1 : Nat) : Int) = (((l + h) / 2 : Nat) : Int) - 1 := by
          rw [Nat.cast_sub (by omega)]
          simp
        simp only [h1, h1', if_true, hcast]
      · have h1' : ¬ (l : Int) ≤ (((l + h) / 2 : Nat) : Int) - 1 := by
          intro hcon
          apply h1
          have : ((l : Nat) : Int) + 1 ≤ (((l + h) / 2 : Nat) : Int) := by omega
          exact_mod_cast this
        simp only [h1, h1', if_false]

/-- The loop makes at most as many passes as it has fuel. -/
theorem searchLoopTrace_length (cuts : List FloatEbm) (val : FloatEbm) :
    ∀ (fuel : Nat) (low high : Int), (searchLoopTrace cuts val fuel low high).length ≤ fuel := by
  intro fuel
  induction fuel with
  | zero => intro low high; simp [searchLoopTrace]
  | succ fuel ih =>
    intro low high
    simp only [searchLoopTrace]
    split
    · simp
    · simp only [List.length_cons]
      split_ifs <;> first | exact Nat.succ_le_succ (ih _ _) | exact ih _ _ | simp

/-- Every pass of the inner loop entered with `0 <= low <= high <= cCuts - 1` keeps within the
bounds that the source asserts. -/
theorem searchLoopTrace_bounds (cuts : List FloatEbm) (val : FloatEbm) (cCuts : Nat)
    (hc : cCuts < 2 ^ 61) (hlen : cCuts ≤ cuts.length) :
    ∀ (fuel l h : Nat), l ≤ h → h < cCuts →
      ∀ pass ∈ searchLoopTrace cuts val fuel (l : Int) (h : Int),
        SearchAsserts cCuts ((cCuts - 1 : Nat) : Int) pass ∧
        0 ≤ pass.low ∧ pass.low ≤ pass.high ∧ pass.high ≤ (cCuts : Int) - 1 ∧
        toSizeT pass.low + toSizeT pass.high ≤ SIZE_MAX ∧ pass.middle < cCuts ∧
        0 ≤ pass.lowNext ∧ pass.lowNext ≤ (cCuts : Int) ∧
        -1 ≤ pass.highNext ∧ pass.highNext ≤ (cCuts : Int) - 1 := by
  have hpass : ∀ (l h : Nat) (lowNext highNext : Int), l ≤ h → h < cCuts →
      0 ≤ lowNext → lowNext ≤ (cCuts : Int) → -1 ≤ highNext → highNext ≤ (cCuts : Int) - 1 →
      SearchAsserts cCuts ((cCuts - 1 : Nat) : Int)
          ⟨(l : Int), (h : Int), (l + h) / 2, lowNext, highNext⟩ ∧
        (0 : Int) ≤ (l : Int) ∧ (l : Int) ≤ (h : Int) ∧ (h : Int) ≤ (cCuts : Int) - 1 ∧
        toSizeT (l : Int) + toSizeT (h : Int) ≤ SIZE_MAX ∧ (l + h) / 2 < cCuts ∧
        0 ≤ lowNext ∧ lowNext ≤ (cCuts : Int) ∧
        -1 ≤ highNext ∧ highNext ≤ (cCuts : Int) - 1 := by
    intro l h lowNext highNext hl hh h1 h2 h3 h4
    have hsl : toSizeT (l : Int) = l := toSizeT_natCast (by omega)
    have hsh : toSizeT (h : Int) = h := toSizeT_natCast (by omega)
    obtain ⟨n, rfl⟩ := Int.eq_ofNat_of_zero_le h1
    have hn : n ≤ cCuts := by exact_mod_cast h2
    have hsn : toSizeT (n : Int) = n := toSizeT_natCast (by omega)
    unfold SearchAsserts
    dsimp only
    refine ⟨⟨⟨by omega, by rw [hsl]; omega⟩, ⟨by omega, by rw [hsh]; exact hh⟩,
      by exact_mod_cast hl, ?_, by rw [hsh]; omega, by omega, ?_, ⟨h1, by rw [hsn]; exact hn⟩,
      ⟨h3, ?_⟩⟩, by omega, by exact_mod_cast hl, by omega, ?_, by omega, h1, h2, h3, h4⟩
    · simp only [IsAddError, SIZE_MAX, hsl, hsh, decide_eq_false_iff_not]
      omega
    · simp only [PTRDIFF_MAX]
      omega
    · show highNext ≤ ((cCuts - 1 : Nat) : Int)
      omega
    · simp only [SIZE_MAX, hsl, hsh]
      omega
  intro fuel
  induction fuel with
  | zero => intro l h _ _ pass hp; simp [searchLoopTrace] at hp
  | succ fuel ih =>
    intro l h hl hh pass hp
    rw [searchLoopTrace_succ cuts val fuel l h hl (by omega)] at hp
    have hidx : (l + h) / 2 < cuts.length := by omega
    simp only [List.getElem?_eq_getElem hidx] at hp
    split at hp
    · rcases List.mem_cons.mp hp with rfl | hmem
      · exact hpass l h _ _ hl hh (by omega) (by omega) (by omega) (by omega)
      · split at hmem
        · exact ih _ _ (by omega) hh pass hmem
        · simp at hmem
    · rcases List.mem_cons.mp hp with rfl | hmem
      · exact hpass l h _ _ hl hh (by omega) (by omega) (by omega) (by omega)
      · split at hmem
        · exact ih _ _ (by omega) (by omega) pass hmem
        · simp at hmem

/-- Claim C31: in the general binary search over `cCuts >= 3` cuts (7 or more reach it) that
passed the checks on the cut count, for every value and whatever the cuts are, the inner loop
ends within `cCuts` passes; every pass is entered with `0 <= low <= high <= cCuts - 1`, adds
`low` and `high` without overflow, reads at `middle < cCuts` and leaves `0 <= low <= cCuts`
and `-1 <= high <= cCuts - 1`, so that every `EBM_ASSERT` of the loop holds; and the result
lies between 1 and `cCuts + 1`.  For a value that is not NaN this is the bin of
`binGeneral`. -/
theorem searchLoop_asserts (cuts : List FloatEbm) (cCuts : Nat) (firstMidVal val : FloatEbm)
    (h3 : 3 ≤ cCuts) (hfit : CutsFit (cCuts : Int)) (hlen : cCuts ≤ cuts.length) :
    ∃ result,
      searchLoop cuts val cCuts
          (if firstMidVal.le val then (((cCuts - 1) / 2 + 1 : Nat) : Int) else 0)
          (if firstMidVal.le val then ((cCuts - 1 : Nat) : Int)
            else (((cCuts - 1) / 2 - 1 : Nat) : Int)) = some result ∧
      1 ≤ result ∧ result ≤ cCuts + 1 ∧
      (val.isnan = false →
        binGeneral cuts cCuts ((cCuts - 1 : Nat) : Int) firstMidVal
          (((cCuts - 1) / 2 + 1 : Nat) : Int) (((cCuts - 1) / 2 - 1 : Nat) : Int) val
          = some (result : Int)) ∧
      (searchLoopTrace cuts val cCuts
          (if firstMidVal.le val then (((cCuts - 1) / 2 + 1 : Nat) : Int) else 0)
          (if firstMidVal.le val then ((cCuts - 1 : Nat) : Int)
            else (((cCuts - 1) / 2 - 1 : Nat) : Int))).length ≤ cCuts ∧
      ∀ pass ∈ searchLoopTrace cuts val cCuts
          (if firstMidVal.le val then (((cCuts - 1) / 2 + 1 : Nat) : Int) else 0)
          (if firstMidVal.le val then ((cCuts - 1 : Nat) : Int)
            else (((cCuts - 1) / 2 - 1 : Nat) : Int)),
        SearchAsserts cCuts ((cCuts - 1 : Nat) : Int) pass ∧
        0 ≤ pass.low ∧ pass.low ≤ pass.high ∧ pass.high ≤ (cCuts : Int) - 1 ∧
        toSizeT pass.low + toSizeT pass.high ≤ SIZE_MAX ∧ pass.middle < cCuts ∧
        0 ≤ pass.lowNext ∧ pass.lowNext ≤ (cCuts : Int) ∧
        -1 ≤ pass.highNext ∧ pass.highNext ≤ (cCuts : Int) - 1 := by
  have hc : cCuts < 2 ^ 61 := by
    have := (cutsFit_iff (Int.natCast_nonneg cCuts)).mp hfit
    exact_mod_cast this
  have hmain : ∀ l h : Nat, l ≤ h → h < cCuts →
      ∃ result, searchLoop cuts val cCuts (l : Int) (h : Int) = some result ∧
        1 ≤ result ∧ result ≤ cCuts + 1 ∧
        (searchLoopTrace cuts val cCuts (l : Int) (h : Int)).length ≤ cCuts ∧
        ∀ pass ∈ searchLoopTrace cuts val cCuts (l : Int) (h : Int),
          SearchAsserts cCuts ((cCuts - 1 : Nat) : Int) pass ∧
          0 ≤ pass.low ∧ pass.low ≤ pass.high ∧ pass.high ≤ (cCuts : Int) - 1 ∧
          toSizeT pass.low + toSizeT pass.high ≤ SIZE_MAX ∧ pass.middle < cCuts ∧
          0 ≤ pass.lowNext ∧ pass.lowNext ≤ (cCuts : Int) ∧
          -1 ≤ pass.highNext ∧ pass.highNext ≤ (cCuts : Int) - 1 := by
    intro l h hl hh
    obtain ⟨result, hres⟩ := searchLoop_isSome cuts val cCuts l h hl (by omega) (by omega)
      (by omega)
    have hrange := searchLoop_range cuts val cCuts l h result hl (by omega) hres
    exact ⟨result, hres, by omega, by omega, searchLoopTrace_length cuts val cCuts _ _,
      searchLoopTrace_bounds cuts val cCuts hc hlen cCuts l h hl hh⟩
  by_cases hle : firstMidVal.le val = true
  · obtain ⟨result, hres, h1, h2, h4, h5⟩ := hmain ((cCuts - 1) / 2 + 1) (cCuts - 1)
      (by omega) (by omega)
    simp only [hle, if_true]
    refine ⟨result, hres, h1, h2, ?_, h4, h5⟩
    intro hnan
    simp only [binGeneral, hnan, Bool.not_false, if_true, hle, hres]
    rw [toIntEbmType_of_lt (by omega)]
  · obtain ⟨result, hres, h1, h2, h4, h5⟩ := hmain 0 ((cCuts - 1) / 2 - 1)
      (by omega) (by omega)
    simp only [Nat.cast_zero] at hres h4 h5
    simp only [hle, if_false, Bool.false_eq_true]
    refine ⟨result, hres, h1, h2, ?_, h4, h5⟩
    intro hnan
    simp only [binGeneral, hnan, Bool.not_false, if_true, hle, if_false, Bool.false_eq_true,
      hres]
    rw [toIntEbmType_of_lt (by omega)]

theorem searchLoop_asserts_witness :
    searchLoopTrace [finite 7, finite 3, finite 9, finite 5, finite 8, finite 0, finite 2]
        (finite 4) 7 0 2 = [⟨0, 2, 1, 2, 2⟩, ⟨2, 2, 2, 2, 1⟩] ∧
    ∃ result,
      searchLoop [finite 7, finite 3, finite 9, finite 5, finite 8, finite 0, finite 2]
          (finite 4) 7
          (if (finite 5).le (finite 4) then (((7 - 1) / 2 + 1 : Nat) : Int) else 0)
          (if (finite 5).le (finite 4) then ((7 - 1 : Nat) : Int)
            else (((7 - 1) / 2 - 1 : Nat) : Int)) = some result ∧
      1 ≤ result ∧ result ≤ 7 + 1 ∧
      ((finite 4).isnan = false →
        binGeneral [finite 7, finite 3, finite 9, finite 5, finite 8, finite 0, finite 2]
          7 ((7 - 1 : Nat) : Int) (finite 5)
          (((7 - 1) / 2 + 1 : Nat) : Int) (((7 - 1) / 2 - 1 : Nat) : Int) (finite 4)
          = some (result : Int)) ∧
      (searchLoopTrace [finite 7, finite 3, finite 9, finite 5, finite 8, finite 0, finite 2]
          (finite 4) 7
          (if (finite 5).le (finite 4) then (((7 - 1) / 2 + 1 : Nat) : Int) else 0)
          (if (finite 5).le (finite 4) then ((7 - 1 : Nat) : Int)
            else (((7 - 1) / 2 - 1 : Nat) : Int))).length ≤ 7 ∧
      ∀ pass ∈ searchLoopTrace [finite 7, finite 3, finite 9, finite 5, finite 8, finite 0, finite 2]
          (finite 4) 7
          (if (finite 5).le (finite 4) then (((7 - 1) / 2 + 1 : Nat) : Int) else 0)
          (if (finite 5).le (finite 4) then ((7 - 1 : Nat) : Int)
            else (((7 - 1) / 2 - 1 : Nat) : Int)),
        SearchAsserts 7 ((7 - 1 : Nat) : Int) pass ∧
        0 ≤ pass.low ∧ pass.low ≤ pass.high ∧ pass.high ≤ ((7 : Nat) : Int) - 1 ∧
        toSizeT pass.low + toSizeT pass.high ≤ SIZE_MAX ∧ pass.middle < 7 ∧
        0 ≤ pass.lowNext ∧ pass.lowNext ≤ ((7 : Nat) : Int) ∧
        -1 ≤ pass.highNext ∧ pass.highNext ≤ ((7 : Nat) : Int) - 1 :=
  ⟨by decide,
    searchLoop_asserts [finite 7, finite 3, finite 9, finite 5, finite 8, finite 0, finite 2]
      7 (finite 5) (finite 4) (by decide) (by decide) (by decide)⟩

/-! ## The samples that each packed word supplies -/

/-- The loop over the packed words, entered at word `w` with the shift `m * b` and
`m + 1 + q * I` samples left, takes `m + 1` samples from the word `w` and `I` from each of the
`q` words that follow. -/
theorem applyWordsSamples_packed {F D : Type} (o : External F D) (bCalcMetric bWeight : Bool)
    (aUpdateTensorScores aWeights aGradients : List F) (aPacked : List Nat)
    (cSamples cItemsPerBitPack cBitsPerItemMax maskBits : Nat) (upd : Nat → F)
    (hI : 1 ≤ cItemsPerBitPack) (hb1 : 1 ≤ cBitsPerItemMax)
    (hfit : cItemsPerBitPack * cBitsPerItemMax ≤ k_cBitsForStorageType)
    (hlen : cSamples ≤ aGradients.length)
    (hw : bCalcMetric = true → bWeight = true → cSamples ≤ aWeights.length) :
    ∀ (q fuel j w m : Nat) (st : ApplyUpdateState F),
      SamplesDone o bCalcMetric bWeight aGradients aWeights upd j st →
      st.pInputData = w → st.packedReads = List.range w →
      st.cShift = ((m * cBitsPerItemMax : Nat) : Int) → m < cItemsPerBitPack →
      j + m + 1 + q * cItemsPerBitPack = cSamples → q < fuel →
      w + q < aPacked.length →
      (∀ t, t ≤ m →
        aUpdateTensorScores[(aPacked.getD w 0 >>> ((m - t) * cBitsPerItemMax)) &&& maskBits]?
          = some (upd (j + t))) →
      (∀ q' t, q' < q → t < cItemsPerBitPack →
        aUpdateTensorScores[(aPacked.getD (w + 1 + q') 0
            >>> ((cItemsPerBitPack - 1 - t) * cBitsPerItemMax)) &&& maskBits]?
          = some (upd (j + m + 1 + q' * cItemsPerBitPack + t))) →
      applyWordsSamples o false bCalcMetric bWeight aUpdateTensorScores aWeights aPacked
          cSamples cBitsPerItemMax maskBits
          (((cItemsPerBitPack - 1) * cBitsPerItemMax : Nat) : Int) fuel st
        = (m + 1) :: List.replicate q cItemsPerBitPack := by
  have hb64 : cBitsPerItemMax ≤ k_cBitsForStorageType := by
    calc cBitsPerItemMax = 1 * cBitsPerItemMax := by ring
      _ ≤ cItemsPerBitPack * cBitsPerItemMax := Nat.mul_le_mul_right _ hI
      _ ≤ k_cBitsForStorageType := hfit
  have hmb : ∀ m, m < cItemsPerBitPack → m * cBitsPerItemMax < k_cBitsForStorageType := by
    intro m hm
    have h1 : (m + 1) * cBitsPerItemMax ≤ cItemsPerBitPack * cBitsPerItemMax :=
      Nat.mul_le_mul_right _ hm
    have h2 : (m + 1) * cBitsPerItemMax = m * cBitsPerItemMax + cBitsPerItemMax := by ring
    omega
  intro q
  induction q with
  | zero =>
    intro fuel j w m st hdone hin hreads hshift hm hn hfuel hwords hfirst _
    obtain ⟨fuel, rfl⟩ : ∃ f, fuel = f + 1 := ⟨fuel - 1, by omega⟩
    have hword : aPacked[st.pInputData]? = some (aPacked.getD w 0) := by
      rw [hin, List.getD_eq_getElem?_getD, List.getElem?_eq_getElem (by omega)]
      rfl
    obtain ⟨st1, hrun, hdone1, hin1, hreads1⟩ :=
      applyWord_packed_done o bCalcMetric bWeight aUpdateTensorScores aWeights aGradients
        cSamples cBitsPerItemMax maskBits (aPacked.getD w 0) upd hb1 hb64 m cSamples j
        { st with pInputData := st.pInputData + 1,
                  packedReads := st.packedReads ++ [st.pInputData] }
        (hdone.of_eq rfl rfl rfl rfl rfl) hshift (hmb m hm) (by omega) (by omega) hfirst
        (fun h1 h2 => by have := hw h1 h2; omega)
    simp only [applyWordsSamples, Bool.not_false, if_true, hword, hrun, Bool.false_eq_true,
      if_false]
    have hp : st1.pGradient = cSamples := by rw [hdone1.1]; omega
    have hp0 : st.pGradient = j := hdone.1
    rw [if_neg (by simp [hp])]
    simp only [List.replicate_zero, List.cons.injEq, and_true]
    omega
  | succ q ih =>
    intro fuel j w m st hdone hin hreads hshift hm hn hfuel hwords hfirst hrest
    obtain ⟨fuel, rfl⟩ : ∃ f, fuel = f + 1 := ⟨fuel - 1, by omega⟩
    have hword : aPacked[st.pInputData]? = some (aPacked.getD w 0) := by
      rw [hin, List.getD_eq_getElem?_getD, List.getElem?_eq_getElem (by omega)]
      rfl
    have hqI : (q + 1) * cItemsPerBitPack = q * cItemsPerBitPack + cItemsPerBitPack := by ring
    obtain ⟨st1, hrun, hdone1, hin1, hreads1⟩ :=
      applyWord_packed_done o bCalcMetric bWeight aUpdateTensorScores aWeights aGradients
        cSamples cBitsPerItemMax maskBits (aPacked.getD w 0) upd hb1 hb64 m cSamples j
        { st with pInputData := st.pInputData + 1,
                  packedReads := st.packedReads ++ [st.pInputData] }
        (hdone.of_eq rfl rfl rfl rfl rfl) hshift (hmb m hm) (by omega) (by omega) hfirst
        (fun h1 h2 => by have := hw h1 h2; omega)
    simp only [applyWordsSamples, Bool.not_false, if_true, hword, hrun, Bool.false_eq_true,
      if_false]
    have hp : st1.pGradient = j + m + 1 := hdone1.1
    have hp0 : st.pGradient = j := hdone.1
    rw [if_pos (by simp only [hp]; omega)]
    have hrec := ih fuel (j + m + 1) (w + 1)
      (cItemsPerBitPack - 1)
      { st1 with cShift := (((cItemsPerBitPack - 1) * cBitsPerItemMax : Nat) : Int) }
      (hdone1.of_eq rfl rfl rfl rfl rfl) (by simp [hin1, hin])
      (by simp [hreads1, hreads, hin, List.range_succ]) rfl (by omega) (by omega) (by omega)
      (by omega)
      (fun t ht => by
        have := hrest 0 t (Nat.succ_pos q) (by omega)
        simp only [Nat.add_zero, Nat.zero_mul] at this
        exact this)
      (fun q' t hq' ht => by
        have := hrest (q' + 1) t (by omega) ht
        have e1 : w + 1 + (q' + 1) = w + 1 + 1 + q' := by omega
        have e2 : j + m + 1 + (q' + 1) * cItemsPerBitPack + t
            = j + m + 1 + (cItemsPerBitPack - 1) + 1 + q' * cItemsPerBitPack + t := by
          have : (q' + 1) * cItemsPerBitPack = q' * cItemsPerBitPack + cItemsPerBitPack := by
            ring
          omega
        rw [e1, e2] at this
        exact this)
    rw [hrec, List.replicate_succ]
    have e3 : cItemsPerBitPack - 1 + 1 = cItemsPerBitPack := by omega
    rw [e3, hp, hp0]
    congr 1
    omega

/-- In a call with a packed tensor within the contract, the first pass of the outer loop deals
with `((n - 1) mod I) + 1` samples and each of the `(n - 1) div I` later passes with `I`. -/
theorem InjectedApplyUpdateSamples_packed {F D : Type} (o : External F D) (cCompilerPack : Int)
    (bCalcMetric bWeight : Bool) (pData : ApplyUpdateBridge F D)
    (hzero : ¬ o.k_cItemsPerBitPackNone = cCompilerPack)
    (hready : ApplyUpdateReady o cCompilerPack bCalcMetric bWeight pData) :
    InjectedApplyUpdateSamples o cCompilerPack bCalcMetric bWeight pData
      = ((pData.m_cSamples - 1)
            % toSizeT (o.GET_ITEMS_PER_BIT_PACK cCompilerPack pData.m_cPack) + 1) ::
          List.replicate ((pData.m_cSamples - 1)
              / toSizeT (o.GET_ITEMS_PER_BIT_PACK cCompilerPack pData.m_cPack))
            (toSizeT (o.GET_ITEMS_PER_BIT_PACK cCompilerPack pData.m_cPack)) := by
  obtain ⟨hn, hn64, hlen, hw, hcase⟩ := hready
  rw [if_neg hzero] at hcase
  generalize hIdef : toSizeT (o.GET_ITEMS_PER_BIT_PACK cCompilerPack pData.m_cPack) = cItems
    at hcase ⊢
  generalize hbdef : o.GetCountBits cItems = cBits at hcase
  obtain ⟨hI, hb1, hfit, hsamples⟩ := hcase
  have hfit' : cItems * cBits ≤ 64 := hfit
  have hI64 : cItems ≤ 64 := by
    calc cItems = cItems * 1 := by ring
      _ ≤ cItems * cBits := Nat.mul_le_mul_left _ hb1
      _ ≤ 64 := hfit'
  have hm : (pData.m_cSamples - 1) % cItems < cItems := Nat.mod_lt _ (by omega)
  have hmb : (pData.m_cSamples - 1) % cItems * cBits < 64 := by
    have h1 : ((pData.m_cSamples - 1) % cItems + 1) * cBits ≤ cItems * cBits :=
      Nat.mul_le_mul_right _ hm
    have h2 : ((pData.m_cSamples - 1) % cItems + 1) * cBits
        = (pData.m_cSamples - 1) % cItems * cBits + cBits := by ring
    omega
  have hrb : (cItems - 1) * cBits < 64 := by
    have h1 : (cItems - 1 + 1) * cBits = (cItems - 1) * cBits + cBits := by ring
    have h2 : cItems - 1 + 1 = cItems := by omega
    rw [h2] at h1
    omega
  have hsetup : applySetup o cCompilerPack pData
      = some ⟨cBits, (((pData.m_cSamples - 1) % cItems * cBits : Nat) : Int),
          (((cItems - 1) * cBits : Nat) : Int), o.MakeLowMask cBits, o.zero⟩ := by
    have e1 : subSizeT pData.m_cSamples 1 = pData.m_cSamples - 1 := subSizeT_of_le hn64 hn
    have e2 : subSizeT cItems 1 = cItems - 1 := subSizeT_of_le (by omega) hI
    have e3 : (pData.m_cSamples - 1) % cItems * cBits % 2 ^ 64
        = (pData.m_cSamples - 1) % cItems * cBits := Nat.mod_eq_of_lt (by omega)
    have e4 : (cItems - 1) * cBits % 2 ^ 64 = (cItems - 1) * cBits :=
      Nat.mod_eq_of_lt (by omega)
    have e5 : toPtrdiffT ((pData.m_cSamples - 1) % cItems * cBits)
        = (((pData.m_cSamples - 1) % cItems * cBits : Nat) : Int) :=
      toPtrdiffT_of_lt (by omega)
    have e6 : toPtrdiffT ((cItems - 1) * cBits) = (((cItems - 1) * cBits : Nat) : Int) :=
      toPtrdiffT_of_lt (by omega)
    have e7 : ¬ cItems = 0 := by omega
    simp only [applySetup, hzero, if_false, hIdef, hbdef, e1, e2, e3, e4, e5, e6, e7]
  have hupd : ∀ j, j < pData.m_cSamples →
      pData.m_aUpdateTensorScores[packedTensorBin pData.m_aPacked pData.m_cSamples cItems
        cBits (o.MakeLowMask cBits) j]? = some (updateScoreOf o cCompilerPack pData j) := by
    intro j hj
    have := (hsamples j hj).2
    simp only [updateScoreOf, hzero, if_false, hIdef, hbdef]
    exact getElem?_eq_some_getD _ _ _ this
  have hq : (pData.m_cSamples - 1) / cItems < pData.m_cSamples := by
    have := Nat.div_le_self (pData.m_cSamples - 1) cItems
    omega
  have hsplit := samples_split pData.m_cSamples cItems hn
  have hwords : 0 + (pData.m_cSamples - 1) / cItems < pData.m_aPacked.length := by
    by_cases hq0 : (pData.m_cSamples - 1) / cItems = 0
    · have := (hsamples 0 (by omega)).1
      rw [(packed_first_word pData.m_cSamples cItems cBits 0 (Nat.zero_le _)).1] at this
      omega
    · obtain ⟨q', hq'⟩ := Nat.exists_eq_succ_of_ne_zero hq0
      rw [Nat.succ_eq_add_one] at hq'
      have hj : (pData.m_cSamples - 1) % cItems + 1 + q' * cItems + 0 < pData.m_cSamples := by
        rw [hq'] at hsplit
        have : (q' + 1) * cItems = q' * cItems + cItems := by ring
        omega
      have := (hsamples _ hj).1
      rw [(packed_later_word pData.m_cSamples cItems cBits q' 0 (by omega : 0 < cItems)).1] at this
      omega
  have hsamplesEq :=
    applyWordsSamples_packed o bCalcMetric bWeight pData.m_aUpdateTensorScores pData.m_aWeights
      pData.m_aGradientsAndHessians pData.m_aPacked pData.m_cSamples cItems cBits
      (o.MakeLowMask cBits) (updateScoreOf o cCompilerPack pData) hI hb1 hfit hlen hw
      ((pData.m_cSamples - 1) / cItems) pData.m_cSamples 0 0
      ((pData.m_cSamples - 1) % cItems)
      ⟨pData.m_aGradientsAndHessians, 0, 0, 0,
        (((pData.m_cSamples - 1) % cItems * cBits : Nat) : Int), o.zero, o.zero, [], []⟩
      (samplesDone_init o bCalcMetric bWeight _ _ _ _ _) rfl rfl rfl hm hsplit hq hwords
      (fun t ht => by
        have h := hupd t (by omega)
        obtain ⟨e1, e2⟩ := packed_first_word pData.m_cSamples cItems cBits t ht
        simp only [packedTensorBin, e1, e2] at h
        simpa using h)
      (fun q' t hq' ht => by
        have hj : (pData.m_cSamples - 1) % cItems + 1 + q' * cItems + t
            < pData.m_cSamples := by
          have h1 : (q' + 1) * cItems ≤ (pData.m_cSamples - 1) / cItems * cItems :=
            Nat.mul_le_mul_right _ hq'
          have h2 : (q' + 1) * cItems = q' * cItems + cItems := by ring
          omega
        have h := hupd _ hj
        obtain ⟨e1, e2⟩ := packed_later_word pData.m_cSamples cItems cBits q' t ht
        simp only [packedTensorBin, e1, e2] at h
        have e3 : 0 + 1 + q' = 1 + q' := by omega
        have e4 : 0 + (pData.m_cSamples - 1) % cItems + 1 + q' * cItems + t
            = (pData.m_cSamples - 1) % cItems + 1 + q' * cItems + t := by omega
        rw [e3, e4]
        exact h)
  simp only [InjectedApplyUpdateSamples, hsetup, hzero, decide_False]
  exact hsamplesEq

/-- Claim C32: in a call with a packed tensor, `n >= 1` samples, `I >= 1` items per word of
bit width `b >= 1` that fit in one storage word, and every sample's word and tensor entry in
bounds, the loops end with the gradient cursor at `n`, the end of the `n` gradients; the
packed words read are those at the indices `0` to `ceil(n / I) - 1`, once each in this order;
the gradients written are those at the indices `0` to `n - 1`, once each in this order; and
the first pass of the outer loop deals with `((n - 1) mod I) + 1` samples, every later pass
with `I`. -/
theorem InjectedApplyUpdate_packed_loops {F D : Type} (o : External F D) (cCompilerPack : Int)
    (bCalcMetric bWeight : Bool) (pData : ApplyUpdateBridge F D)
    (cItemsPerBitPack cBitsPerItemMax : Nat)
    (hpack : o.k_cItemsPerBitPackNone ≠ cCompilerPack)
    (hitems : toSizeT (o.GET_ITEMS_PER_BIT_PACK cCompilerPack pData.m_cPack) = cItemsPerBitPack)
    (hbits : o.GetCountBits cItemsPerBitPack = cBitsPerItemMax)
    (hI : 1 ≤ cItemsPerBitPack) (hb : 1 ≤ cBitsPerItemMax)
    (hfit : cItemsPerBitPack * cBitsPerItemMax ≤ k_cBitsForStorageType)
    (hn : 1 ≤ pData.m_cSamples) (hn64 : pData.m_cSamples < 2 ^ 64)
    (hlen : pData.m_cSamples ≤ pData.m_aGradientsAndHessians.length)
    (hw : bCalcMetric = true → bWeight = true → pData.m_cSamples ≤ pData.m_aWeights.length)
    (hbounds : ∀ j, j < pData.m_cSamples →
      packedWordIndex pData.m_cSamples cItemsPerBitPack j < pData.m_aPacked.length ∧
      packedTensorBin pData.m_aPacked pData.m_cSamples cItemsPerBitPack cBitsPerItemMax
        (o.MakeLowMask cBitsPerItemMax) j < pData.m_aUpdateTensorScores.length) :
    ∃ r, InjectedApplyUpdate o cCompilerPack bCalcMetric bWeight pData = some r ∧
      r.pGradient = pData.m_cSamples ∧
      r.packedReads = List.range ((pData.m_cSamples + cItemsPerBitPack - 1) / cItemsPerBitPack) ∧
      r.gradientWrites = List.range pData.m_cSamples ∧
      InjectedApplyUpdateSamples o cCompilerPack bCalcMetric bWeight pData
        = ((pData.m_cSamples - 1) % cItemsPerBitPack + 1) ::
          List.replicate ((pData.m_cSamples + cItemsPerBitPack - 1) / cItemsPerBitPack - 1)
            cItemsPerBitPack := by
  subst hitems
  subst hbits
  have hready : ApplyUpdateReady o cCompilerPack bCalcMetric bWeight pData :=
    ⟨hn, hn64, hlen, hw, by rw [if_neg hpack]; exact ⟨hI, hb, hfit, hbounds⟩⟩
  obtain ⟨r, hr, hp, hwrites, _, _, _, _, hreads⟩ :=
    InjectedApplyUpdate_done o cCompilerPack bCalcMetric bWeight pData hready
  have hceil : (pData.m_cSamples
      + toSizeT (o.GET_ITEMS_PER_BIT_PACK cCompilerPack pData.m_cPack) - 1)
        / toSizeT (o.GET_ITEMS_PER_BIT_PACK cCompilerPack pData.m_cPack)
      = (pData.m_cSamples - 1)
        / toSizeT (o.GET_ITEMS_PER_BIT_PACK cCompilerPack pData.m_cPack) + 1 := by
    have e : pData.m_cSamples
        + toSizeT (o.GET_ITEMS_PER_BIT_PACK cCompilerPack pData.m_cPack) - 1
        = pData.m_cSamples - 1
          + toSizeT (o.GET_ITEMS_PER_BIT_PACK cCompilerPack pData.m_cPack) := by omega
    rw [e, Nat.add_div_right _ (by omega)]
  refine ⟨r, hr, hp, ?_, hwrites, ?_⟩
  · rw [hreads, if_neg hpack, hceil]
  · rw [InjectedApplyUpdateSamples_packed o cCompilerPack bCalcMetric bWeight pData hpack
      hready, hceil, Nat.add_sub_cancel]

theorem InjectedApplyUpdate_packed_loops_witness :
    InjectedApplyUpdateSamples exactExternal 4 false false
        ⟨0, [100, 200, 300], 6, [1 <<< 16, (2 <<< 48) + (1 <<< 32) + 2], [],
          [1, 2, 3, 4, 5, 6, 99], 0⟩ = [2, 4] ∧
    ∃ r, InjectedApplyUpdate exactExternal 4 false false
        ⟨0, [100, 200, 300], 6, [1 <<< 16, (2 <<< 48) + (1 <<< 32) + 2], [],
          [1, 2, 3, 4, 5, 6, 99], 0⟩ = some r ∧
      r.pGradient = 6 ∧
      r.packedReads = List.range ((6 + 4 - 1) / 4) ∧
      r.gradientWrites = List.range 6 ∧
      InjectedApplyUpdateSamples exactExternal 4 false false
          ⟨0, [100, 200, 300], 6, [1 <<< 16, (2 <<< 48) + (1 <<< 32) + 2], [],
            [1, 2, 3, 4, 5, 6, 99], 0⟩
        = ((6 - 1) % 4 + 1) :: List.replicate ((6 + 4 - 1) / 4 - 1) 4 :=
  ⟨by decide,
    InjectedApplyUpdate_packed_loops exactExternal 4 false false
      ⟨0, [100, 200, 300], 6, [1 <<< 16, (2 <<< 48) + (1 <<< 32) + 2], [],
        [1, 2, 3, 4, 5, 6, 99], 0⟩ 4 16 (by decide) (by decide) (by decide) (by decide)
      (by decide) (by decide) (by decide) (by decide) (by decide) (by decide) (by decide)⟩

/-! ## The unrolled searches on any cut array -/

/-- What `lastAtOrBelow` returns: nothing when no cut is at or below the value, and otherwise
an index whose cut is at or below the value while no cut after it is. -/
theorem lastAtOrBelow_spec (v : FloatEbm) :
    ∀ (cuts : List FloatEbm),
      (lastAtOrBelow cuts v = none → ∀ (j : Nat) (c : FloatEbm), cuts[j]? = some c → c.le v = false) ∧
      (∀ i, lastAtOrBelow cuts v = some i →
        ∃ c, cuts[i]? = some c ∧ c.le v = true ∧
          ∀ (j : Nat) (c' : FloatEbm), i < j → cuts[j]? = some c' → c'.le v = false) := by
  intro cuts
  induction cuts with
  | nil =>
    refine ⟨fun _ j c hc => by simp at hc, fun i hi => by simp [lastAtOrBelow] at hi⟩
  | cons a cs ih =>
    obtain ⟨ihn, ihs⟩ := ih
    cases hrec : lastAtOrBelow cs v with
    | some k =>
      simp only [lastAtOrBelow, hrec]
      refine ⟨fun h => by simp at h, ?_⟩
      intro i hi
      simp only [Option.some.injEq] at hi
      subst hi
      obtain ⟨c, hc, hle, hafter⟩ := ihs k hrec
      refine ⟨c, by simpa using hc, hle, ?_⟩
      intro j c' hj hc'
      obtain ⟨j', rfl⟩ : ∃ j', j = j' + 1 := ⟨j - 1, by omega⟩
      exact hafter j' c' (by omega) (by simpa using hc')
    | none =>
      simp only [lastAtOrBelow, hrec]
      by_cases ha : a.le v = true
      · simp only [ha, if_true]
        refine ⟨fun h => by simp at h, ?_⟩
        intro i hi
        simp only [Option.some.injEq] at hi
        subst hi
        refine ⟨a, by simp, ha, ?_⟩
        intro j c' hj hc'
        obtain ⟨j', rfl⟩ : ∃ j', j = j' + 1 := ⟨j - 1, by omega⟩
        exact ihn hrec j' c' (by simpa using hc')
      · simp only [ha, if_false, Bool.false_eq_true]
        refine ⟨?_, fun i hi => by simp at hi⟩
        intro _ j c hc
        cases j with
        | zero =>
          simp only [List.getElem?_cons_zero, Option.some.injEq] at hc
          subst hc
          simpa using ha
        | succ j' => exact ihn hrec j' c (by simpa using hc)

/-- The bin `binLast` in the words of the claim. -/
theorem binLast_spec (cuts : List FloatEbm) (v : FloatEbm) :
    (binLast cuts v = 1 ∧ ∀ (j : Nat) (c : FloatEbm), cuts[j]? = some c → c.le v = false) ∨
      (∃ (j : Nat) (c : FloatEbm), binLast cuts v = 2 + (j : Int) ∧ cuts[j]? = some c ∧
        c.le v = true ∧
        ∀ (j' : Nat) (c' : FloatEbm), j < j' → cuts[j']? = some c' → c'.le v = false) := by
  obtain ⟨hn, hs⟩ := lastAtOrBelow_spec v cuts
  cases h : lastAtOrBelow cuts v with
  | none => exact Or.inl ⟨by simp [binLast, h], hn h⟩
  | some i =>
    obtain ⟨c, hc, hle, hafter⟩ := hs i h
    exact Or.inr ⟨i, c, by simp [binLast, h], hc, hle, hafter⟩

theorem bin1_eq_binLast (cut0 val : FloatEbm) :
    bin1 cut0 val = if val.isnan then 0 else binLast [cut0] val := by
  unfold bin1 binLast
  cases e0 : cut0.le val <;> cases en : val.isnan <;> simp [lastAtOrBelow, e0]

theorem bin2_eq_binLast (cut0 cut1 val : FloatEbm) :
    bin2 cut0 cut1 val = if val.isnan then 0 else binLast [cut0, cut1] val := by
  unfold bin2 binLast
  cases e0 : cut0.le val <;> cases e1 : cut1.le val <;> cases en : val.isnan <;>
    simp [lastAtOrBelow, e0, e1]

theorem bin3_eq_binLast (cut0 cut1 cut2 val : FloatEbm) :
    bin3 cut0 cut1 cut2 val = if val.isnan then 0 else binLast [cut0, cut1, cut2] val := by
  unfold bin3 binLast
  cases e0 : cut0.le val <;> cases e1 : cut1.le val <;> cases e2 : cut2.le val <;>
    cases en : val.isnan <;> simp [lastAtOrBelow, e0, e1, e2]

theorem bin4_eq_binLast (cut0 cut1 cut2 cut3 val : FloatEbm) :
    bin4 cut0 cut1 cut2 cut3 val
      = if val.isnan then 0 else binLast [cut0, cut1, cut2, cut3] val := by
  unfold bin4 binLast
  cases e0 : cut0.le val <;> cases e1 : cut1.le val <;> cases e2 : cut2.le val <;>
    cases e3 : cut3.le val <;> cases en : val.isnan <;>
    simp [lastAtOrBelow, e0, e1, e2, e3]

theorem bin5_eq_binLast (cut0 cut1 cut2 cut3 cut4 val : FloatEbm) :
    bin5 cut0 cut1 cut2 cut3 cut4 val
      = if val.isnan then 0 else binLast [cut0, cut1, cut2, cut3, cut4] val := by
  unfold bin5 binLast
  cases e0 : cut0.le val <;> cases e1 : cut1.le val <;> cases e2 : cut2.le val <;>
    cases e3 : cut3.le val <;> cases e4 : cut4.le val <;> cases en : val.isnan <;>
    simp [lastAtOrBelow, e0, e1, e2, e3, e4]

theorem bin6_eq_binLast (cut0 cut1 cut2 cut3 cut4 cut5 val : FloatEbm) :
    bin6 cut0 cut1 cut2 cut3 cut4 cut5 val
      = if val.isnan then 0 else binLast [cut0, cut1, cut2, cut3, cut4, cut5] val := by
  unfold bin6 binLast
  cases e0 : cut0.le val <;> cases e1 : cut1.le val <;> cases e2 : cut2.le val <;>
    cases e3 : cut3.le val <;> cases e4 : cut4.le val <;> cases e5 : cut5.le val <;>
    cases en : val.isnan <;> simp [lastAtOrBelow, e0, e1, e2, e3, e4, e5]

/-- A table is non-decreasing with NaN last as soon as each entry is at or below the next one
or the next one is NaN. -/
theorem NonDecreasingNanLast.of_adjacent :
    ∀ (cuts : List FloatEbm),
      (∀ (i : Nat) (a b : FloatEbm), cuts[i]? = some a → cuts[i + 1]? = some b →
        b.isnan = true ∨ a.le b = true) → NonDecreasingNanLast cuts := by
  intro cuts
  induction cuts with
  | nil => intro _; trivial
  | cons a cs ih =>
    intro h
    cases cs with
    | nil => trivial
    | cons b rest =>
      refine ⟨h 0 a b (by simp) (by simp), ih ?_⟩
      intro i x y hx hy
      exact h (i + 1) x y (by simpa using hx) (by simpa using hy)

/-- When no cut after index `L` is at or below the value and one cut up to `L` is not, fewer
than `L + 1` cuts are at or below the value. -/
theorem cutsAtOrBelow_lt (cuts : List FloatEbm) (v : FloatEbm) (L i : Nat) (a : FloatEbm)
    (hL : L < cuts.length) (hi : i ≤ L) (ha : cuts[i]? = some a) (hav : a.le v = false)
    (hafter : ∀ (j : Nat) (c : FloatEbm), L < j → cuts[j]? = some c → c.le v = false) :
    cutsAtOrBelow cuts v < L + 1 := by
  have hsplit : cutsAtOrBelow cuts v
      = cutsAtOrBelow (cuts.take (L + 1)) v + cutsAtOrBelow (cuts.drop (L + 1)) v := by
    unfold cutsAtOrBelow
    rw [← List.countP_append, List.take_append_drop]
  have hdrop : cutsAtOrBelow (cuts.drop (L + 1)) v = 0 := by
    simp only [cutsAtOrBelow, List.countP_eq_zero]
    intro c hc
    obtain ⟨k, hk, rfl⟩ := List.getElem_of_mem hc
    have hk' : (cuts.drop (L + 1))[k]? = some (cuts.drop (L + 1))[k] :=
      List.getElem?_eq_getElem hk
    rw [List.getElem?_drop] at hk'
    have hfalse := hafter (L + 1 + k) _ (by omega) hk'
    rw [hfalse]
    simp
  have htake_len : (cuts.take (L + 1)).length = L + 1 := by
    rw [List.length_take]
    omega
  have htake : cutsAtOrBelow (cuts.take (L + 1)) v ≠ (cuts.take (L + 1)).length := by
    intro hcon
    simp only [cutsAtOrBelow] at hcon
    rw [List.countP_eq_length] at hcon
    have hmem : a ∈ cuts.take (L + 1) := by
      apply List.getElem?_mem (n := i)
      rw [List.getElem?_take_of_lt (by omega)]
      exact ha
    have := hcon a hmem
    rw [hav] at this
    simp at this
  have hle := cutsAtOrBelow_le_length (cuts.take (L + 1)) v
  omega

/-- On a cut array the bin `binLast` is `1 +` the number of cuts at or below the value, for
every value that is not NaN, exactly when the array is non-decreasing with NaN last. -/
theorem binLast_eq_count_iff (cuts : List FloatEbm) :
    (∀ v : FloatEbm, v.isnan = false → binLast cuts v = 1 + (cutsAtOrBelow cuts v : Int)) ↔
      NonDecreasingNanLast cuts := by
  constructor
  · intro hall
    apply NonDecreasingNanLast.of_adjacent
    intro i a b ha hb
    by_contra hcon
    rw [not_or] at hcon
    obtain ⟨hbn, hab⟩ := hcon
    have hbn' : b.isnan = false := by simpa using hbn
    have hab' : a.le b = false := by simpa using hab
    have hbb : b.le b = true := FloatEbm.le_refl hbn'
    have hcoincide := hall b hbn'
    rcases binLast_spec cuts b with ⟨_, hnone⟩ | ⟨L, c, hbin, hc, _, hafter⟩
    · have := hnone (i + 1) b hb
      rw [hbb] at this
      simp at this
    · have hiL : i + 1 ≤ L := by
        by_contra hlt
        have := hafter (i + 1) b (by omega) hb
        rw [hbb] at this
        simp at this
      have hLlen : L < cuts.length := by
        by_contra hge
        rw [List.getElem?_eq_none (by omega)] at hc
        simp at hc
      have hlt := cutsAtOrBelow_lt cuts b L i a hLlen (by omega) ha hab' hafter
      rw [hbin] at hcoincide
      omega
  · intro hnd v _
    have hthr := hnd.threshold v
    have hm := cutsAtOrBelow_le_length cuts v
    rcases binLast_spec cuts v with ⟨hbin, hnone⟩ | ⟨L, c, hbin, hc, hle, hafter⟩
    · rw [hbin]
      have h0 : cutsAtOrBelow cuts v = 0 := by
        by_contra hne
        have h0len : 0 < cuts.length := by omega
        have hget : cuts[0]? = some cuts[0] := List.getElem?_eq_getElem h0len
        have h1 := (hthr 0 _ hget).mpr (by omega)
        rw [hnone 0 _ hget] at h1
        simp at h1
      rw [h0]
      simp
    · rw [hbin]
      have h1 : L < cutsAtOrBelow cuts v := (hthr L c hc).mp hle
      have h2 : ¬ L + 1 < cutsAtOrBelow cuts v := by
        intro hlt
        have hlen : L + 1 < cuts.length := by omega
        have hget : cuts[L + 1]? = some cuts[L + 1] := List.getElem?_eq_getElem hlen
        have h3 := (hthr (L + 1) _ hget).mpr hlt
        rw [hafter (L + 1) _ (by omega) hget] at h3
        simp at h3
      have h3 : cutsAtOrBelow cuts v = L + 1 := by omega
      rw [h3]
      push_cast
      ring

/-- With one to six cuts the sample loop that runs is that of the unrolled block, whose body
gives 0 for NaN and `binLast` otherwise. -/
theorem DiscretizeCuts_unrolled {cSamples : Nat} {featureValues cuts : List FloatEbm}
    {out : List Int} {r : DiscretizeResult} (h1 : 1 ≤ cuts.length) (h6 : cuts.length ≤ 6)
    (h : DiscretizeCuts cSamples featureValues (cuts.length : Int) cuts out = some r) :
    finishLoop (fun val => some (if val.isnan then 0 else binLast cuts val)) featureValues
      cSamples out = some r := by
  rcases cuts with _ | ⟨c0, _ | ⟨c1, _ | ⟨c2, _ | ⟨c3, _ | ⟨c4, _ | ⟨c5, _ | ⟨c6, rest⟩⟩⟩⟩⟩⟩⟩
  · simp at h1
  · have e : (([c0].length : Nat) : Int) = 1 := by simp
    rw [e] at h
    unfold DiscretizeCuts at h
    norm_num at h
    simp only [bin1_eq_binLast] at h
    exact h
  · have e : (([c0, c1].length : Nat) : Int) = 2 := by simp
    rw [e] at h
    unfold DiscretizeCuts at h
    norm_num at h
    simp only [bin2_eq_binLast] at h
    exact h
  · have e : (([c0, c1, c2].length : Nat) : Int) = 3 := by simp
    rw [e] at h
    unfold DiscretizeCuts at h
    norm_num at h
    simp only [bin3_eq_binLast] at h
    exact h
  · have e : (([c0, c1, c2, c3].length : Nat) : Int) = 4 := by simp
    rw [e] at h
    unfold DiscretizeCuts at h
    norm_num at h
    simp only [bin4_eq_binLast] at h
    exact h
  · have e : (([c0, c1, c2, c3, c4].length : Nat) : Int) = 5 := by simp
    rw [e] at h
    unfold DiscretizeCuts at h
    norm_num at h
    simp only [bin5_eq_binLast] at h
    exact h
  · have e : (([c0, c1, c2, c3, c4, c5].length : Nat) : Int) = 6 := by simp
    rw [e] at h
    unfold DiscretizeCuts at h
    norm_num at h
    simp only [bin6_eq_binLast] at h
    exact h
  · simp at h6

/-- Claim C33: with one to six cuts, whatever their order and contents, the bin written for a
sample `v` that is not NaN is `2 + j` for the largest index `j` with `cuts[j] <= v`, and 1
when no cut is at or below `v`; this bin is `1 +` the number of cuts at or below the value
for every value exactly when the cuts are non-decreasing (NaN cuts last). -/
theorem Discretize_unrolled_bin (countSamples : Int) (values cuts : List FloatEbm)
    (out : List Int) (r : DiscretizeResult)
    (h1 : 1 ≤ cuts.length) (h6 : cuts.length ≤ 6)
    (hcall : Discretize countSamples (some values) (cuts.length : Int) (some cuts) (some out)
      = some r)
    (hret : r.ret = 0) (i : Nat) (hi : (i : Int) < countSamples) (v : FloatEbm)
    (hv : values[i]? = some v) (hnan : v.isnan = false) :
    ∃ buf b, r.discretizedOut = some buf ∧ buf[i]? = some b ∧ (i, b) ∈ r.writes ∧
      ((b = 1 ∧ ∀ (j : Nat) (c : FloatEbm), cuts[j]? = some c → c.le v = false) ∨
        (∃ (j : Nat) (c : FloatEbm), b = 2 + (j : Int) ∧ cuts[j]? = some c ∧ c.le v = true ∧
          ∀ (j' : Nat) (c' : FloatEbm), j < j' → cuts[j']? = some c' → c'.le v = false)) ∧
      b = binLast cuts v ∧
      ((∀ v' : FloatEbm, v'.isnan = false →
          binLast cuts v' = 1 + (cutsAtOrBelow cuts v' : Int)) ↔
        NonDecreasingNanLast cuts) := by
  have hpos : 0 < countSamples := by omega
  obtain ⟨_, _, _, _, hlt, _, _⟩ := Discretize_ranLoop hcall hret hpos
  have hfit : SamplesFit countSamples := (samplesFit_iff hpos).mpr hlt
  rw [Discretize_of_samplesFit hpos hfit] at hcall
  rw [if_neg (by omega)] at hcall
  simp only at hcall
  have hloop := DiscretizeCuts_unrolled h1 h6 hcall
  obtain ⟨_, buf, hbuf, _, _, hin, _, _, _⟩ := finishLoop_eq_some hloop
  obtain ⟨val, b, hval, hb, hbufi, hw⟩ := hin i (by omega)
  rw [hv] at hval
  simp only [Option.some.injEq] at hval
  subst hval
  simp only [hnan, Bool.false_eq_true, if_false, Option.some.injEq] at hb
  subst hb
  exact ⟨buf, _, hbuf, hbufi, hw, binLast_spec cuts v, rfl, binLast_eq_count_iff cuts⟩

theorem Discretize_unrolled_bin_witness :
    Discretize 2 (some [finite 4, finite 0]) 3 (some [finite 5, finite 1, finite 3])
        (some [7, 7])
      = some ⟨0, some [4, 1], [(0, 4), (1, 1)]⟩ ∧
    cutsAtOrBelow [finite 5, finite 1, finite 3] (finite 4) = 2 ∧
    ¬ NonDecreasingNanLast [finite 5, finite 1, finite 3] ∧
    ∃ buf b, (some [4, 1] : Option (List Int)) = some buf ∧ buf[0]? = some b ∧
      (0, b) ∈ [((0 : Nat), (4 : Int)), (1, 1)] ∧
      ((b = 1 ∧ ∀ (j : Nat) (c : FloatEbm),
          [finite 5, finite 1, finite 3][j]? = some c → c.le (finite 4) = false) ∨
        (∃ (j : Nat) (c : FloatEbm), b = 2 + (j : Int) ∧
          [finite 5, finite 1, finite 3][j]? = some c ∧ c.le (finite 4) = true ∧
          ∀ (j' : Nat) (c' : FloatEbm), j < j' →
            [finite 5, finite 1, finite 3][j']? = some c' → c'.le (finite 4) = false)) ∧
      b = binLast [finite 5, finite 1, finite 3] (finite 4) ∧
      ((∀ v' : FloatEbm, v'.isnan = false →
          binLast [finite 5, finite 1, finite 3] v'
            = 1 + (cutsAtOrBelow [finite 5, finite 1, finite 3] v' : Int)) ↔
        NonDecreasingNanLast [finite 5, finite 1, finite 3]) :=
  ⟨by decide, by decide, by decide,
    Discretize_unrolled_bin 2 [finite 4, finite 0] [finite 5, finite 1, finite 3] [7, 7]
      ⟨0, some [4, 1], [(0, 4), (1, 1)]⟩ (by decide) (by decide) (by decide) rfl 0 (by decide)
      (finite 4) rfl rfl⟩

/-! ## Exp32 and Log32 in binary32 arithmetic -/

end Ebm
